import Mathlib

/-! # ExFS2: a shallow embedding of the segment-file archive

The definitions below follow the C sources (`exfs2.h`, `init.c`, `helpers.c`,
`path.c`, `add.c`, `extract.c`, `remove.c`) function by function.

Modelling conventions.

* A byte is a natural number below 256; a C string is the list of its bytes
  without the terminating NUL (so it contains no 0).
* A data segment is the list of its 256 blocks, a block the list of its 4096
  bytes.  Every access of the program to a data segment is block aligned and
  at most one block long, so this is the byte file cut into blocks.
* An inode segment is the list of its 256 inode records.  A record keeps the
  five declared fields; the `padding` member is never inspected by the
  program and always written as zero, so it is left out of the record.
* `uint32_t` values are naturals (reduced modulo `2^32` where the program can
  overflow), `int` values are integers obtained through `toInt32`.
* The process can stop in two exceptional ways: `Fault.exit_failure` is a
  call of `exit(EXIT_FAILURE)`/`exit(1)`, `Fault.undefined_behaviour` is an
  access outside a C object (stack buffer, global array) or a seek to a
  negative file offset, whose effect the C semantics leaves open.
* The open segment files of the process are the state `FS`; the state is
  assumed to hold at most `MAX_SEGMENTS` files of each family, as every state
  produced by the program does.
-/

namespace Exfs2

/-! ## Constants and record sizes (`exfs2.h`) -/

abbrev BLOCK_SIZE : Nat := 4096
abbrev SEGMENT_SIZE : Nat := 1024 * 1024
abbrev MAX_NAME_LEN : Nat := 255
abbrev MAX_SEGMENTS : Nat := 1024
abbrev INODES_PER_SEGMENT : Nat := 256
abbrev BLOCKS_PER_SEGMENT : Nat := 256
abbrev DIRECT_BLOCKS : Nat := 12
abbrev MAX_PATH : Nat := 1024
abbrev MAX_PATH_DEPTH : Nat := 64
abbrev sizeof_uint32 : Nat := 4
abbrev sizeof_uint16 : Nat := 2
abbrev sizeof_uint8 : Nat := 1
abbrev PTRS_PER_BLOCK : Nat := BLOCK_SIZE / sizeof_uint32
abbrev TYPE_FILE : Nat := 1
abbrev TYPE_DIR : Nat := 2
abbrev UINT32_MAX : Nat := 4294967295

/-- Length of the member `char padding[...]` of `Inode` as declared in `exfs2.h`:
`BLOCK_SIZE - sizeof(uint32_t) * (DIRECT_BLOCKS + 2) - sizeof(uint16_t)`. -/
def Inode_padding_len : Nat :=
  BLOCK_SIZE - sizeof_uint32 * (DIRECT_BLOCKS + 2) - sizeof_uint16

/-- Packed size of `Inode`: the members `size`, `type`, `direct[DIRECT_BLOCKS]`,
`indirect_single`, `indirect_double`, `padding`, without alignment gaps. -/
def sizeof_Inode : Nat :=
  sizeof_uint32 + sizeof_uint16 + sizeof_uint32 * DIRECT_BLOCKS + sizeof_uint32
    + sizeof_uint32 + Inode_padding_len

/-- Packed size of `DirEntry`: `inode_num`, `name_len`, `name[MAX_NAME_LEN + 1]`. -/
def sizeof_DirEntry : Nat := sizeof_uint32 + sizeof_uint8 + (MAX_NAME_LEN + 1)

/-- Byte range `[lo, hi)` of the file that a read or write of inode slot `i`
touches: `fseek(f, i * sizeof(Inode), SEEK_SET)` followed by one record. -/
def inode_slot_range (i : Nat) : Nat × Nat := (i * sizeof_Inode, (i + 1) * sizeof_Inode)

/-- Size of a file of `len` bytes after a write of the byte range `[lo, hi)`. -/
def file_size_after_write (len : Nat) (r : Nat × Nat) : Nat := max len r.2

/-! ## State -/

/-- The two ways the process leaves the modelled behaviour. -/
inductive Fault where
  | exit_failure
  | undefined_behaviour
deriving DecidableEq, Repr

/-- The declared fields of an `Inode` record (`direct` has `DIRECT_BLOCKS` entries). -/
structure Inode where
  size : Nat
  type : Nat
  direct : List Nat
  indirect_single : Nat
  indirect_double : Nat
deriving DecidableEq, Repr

/-- The segment files: `inode_segments[0 .. num_inode_segments)` and
`data_segments[0 .. num_data_segments)`. -/
structure FS where
  inode_segments : List (List Inode)
  data_segments : List (List (List Nat))
deriving DecidableEq, Repr

/-- An `Inode` object after `memset(&inode, 0, sizeof(Inode))` or `= {0}`. -/
def zero_inode : Inode := ⟨0, 0, List.replicate DIRECT_BLOCKS 0, 0, 0⟩

/-- A buffer `char zero[BLOCK_SIZE] = {0}`. -/
def zero_block : List Nat := List.replicate BLOCK_SIZE 0

/-- A new inode segment file after `ftruncate(fd, SEGMENT_SIZE)`: every record reads as zero. -/
def zero_inode_segment : List Inode := List.replicate INODES_PER_SEGMENT zero_inode

/-- A new data segment file after `ftruncate(fd, SEGMENT_SIZE)`. -/
def zero_data_segment : List (List Nat) := List.replicate BLOCKS_PER_SEGMENT zero_block

def num_inode_segments (fs : FS) : Nat := fs.inode_segments.length

def num_data_segments (fs : FS) : Nat := fs.data_segments.length

/-- Conversion of a `uint32_t` value to `int` (two's complement, 32 bits). -/
def toInt32 (n : Nat) : Int :=
  if n % 4294967296 < 2147483648 then ((n % 4294967296 : Nat) : Int)
  else ((n % 4294967296 : Nat) : Int) - 4294967296

/-- Little-endian value of the four bytes at `off`. -/
def read_u32 (block : List Nat) (off : Nat) : Nat :=
  block.getD off 0 + 256 * block.getD (off + 1) 0 + 65536 * block.getD (off + 2) 0
    + 16777216 * block.getD (off + 3) 0

/-- Little-endian bytes of a `uint32_t`. -/
def u32_bytes (n : Nat) : List Nat :=
  [n % 256, n / 256 % 256, n / 65536 % 256, n / 16777216 % 256]

/-- The 1024 pointers of a block read with `fread(ptrs, sizeof(uint32_t), PTRS_PER_BLOCK, f)`. -/
def block_ptrs (block : List Nat) : List Nat :=
  (List.range PTRS_PER_BLOCK).map (fun i => read_u32 block (4 * i))

/-- The bytes written by `fwrite(ptrs, sizeof(uint32_t), PTRS_PER_BLOCK, f)`. -/
def ptrs_bytes : List Nat → List Nat
  | [] => []
  | p :: ps => u32_bytes p ++ ptrs_bytes ps

/-! ## Segment store and address arithmetic (`init.c`, `helpers.c`) -/

/-- `fseek(inode_segments[seg], off * sizeof(Inode), SEEK_SET); fread(&inode, ...)`. -/
def read_inode (fs : FS) (seg off : Int) : Except Fault Inode :=
  if seg < 0 ∨ off < 0 then .error .undefined_behaviour
  else match fs.inode_segments[seg.toNat]? with
    | none => .error .undefined_behaviour
    | some sg =>
      match sg[off.toNat]? with
      | none => .error .undefined_behaviour
      | some ino => .ok ino

/-- `fseek(inode_segments[seg], off * sizeof(Inode), SEEK_SET); fwrite(&inode, ...)`. -/
def write_inode (fs : FS) (seg off : Int) (ino : Inode) : Except Fault FS :=
  if seg < 0 ∨ off < 0 then .error .undefined_behaviour
  else match fs.inode_segments[seg.toNat]? with
    | none => .error .undefined_behaviour
    | some sg =>
      if off.toNat < sg.length then
        .ok { fs with inode_segments := fs.inode_segments.set seg.toNat (sg.set off.toNat ino) }
      else .error .undefined_behaviour

/-- `fseek(data_segments[seg], blk * BLOCK_SIZE, SEEK_SET); fread(buffer, BLOCK_SIZE, 1, ...)`. -/
def read_block (fs : FS) (seg blk : Int) : Except Fault (List Nat) :=
  if seg < 0 ∨ blk < 0 then .error .undefined_behaviour
  else match fs.data_segments[seg.toNat]? with
    | none => .error .undefined_behaviour
    | some sg =>
      match sg[blk.toNat]? with
      | none => .error .undefined_behaviour
      | some b => .ok b

/-- `fseek(data_segments[seg], blk * BLOCK_SIZE, SEEK_SET); fwrite(bytes, n, 1, ...)` with
`n = bytes.length ≤ BLOCK_SIZE`: the first `n` bytes of the block are replaced. -/
def write_block (fs : FS) (seg blk : Int) (bytes : List Nat) : Except Fault FS :=
  if seg < 0 ∨ blk < 0 then .error .undefined_behaviour
  else match fs.data_segments[seg.toNat]? with
    | none => .error .undefined_behaviour
    | some sg =>
      match sg[blk.toNat]? with
      | none => .error .undefined_behaviour
      | some old =>
        .ok { fs with data_segments :=
                fs.data_segments.set seg.toNat (sg.set blk.toNat (bytes ++ old.drop bytes.length)) }

/-- `get_segment_and_block_offset` of `helpers.c`.  For a negative segment index the
test `data_segments[*segment_idx] == NULL` reads outside the array. -/
def get_segment_and_block_offset (fs : FS) (global_block_num : Int) : Except Fault (Int × Int) :=
  if global_block_num = 0 then .ok (0, 0)
  else
    let segment_idx := Int.tdiv global_block_num BLOCKS_PER_SEGMENT
    let block_offset := Int.tmod global_block_num BLOCKS_PER_SEGMENT
    if segment_idx ≥ (num_data_segments fs : Int) then .error .exit_failure
    else if segment_idx < 0 then .error .undefined_behaviour
    else .ok (segment_idx, block_offset)

/-- `get_segment_and_inode_offset` of `init.c`. -/
def get_segment_and_inode_offset (fs : FS) (global_inode_num : Int) : Except Fault (Int × Int) :=
  let segment_idx := Int.tdiv global_inode_num INODES_PER_SEGMENT
  let inode_offset := Int.tmod global_inode_num INODES_PER_SEGMENT
  if segment_idx ≥ (num_inode_segments fs : Int) then .error .exit_failure
  else .ok (segment_idx, inode_offset)

/-- `create_new_inode_segment` of `init.c`. -/
def create_new_inode_segment (fs : FS) : Except Fault FS :=
  if num_inode_segments fs ≥ MAX_SEGMENTS then .error .exit_failure
  else .ok { fs with inode_segments := fs.inode_segments ++ [zero_inode_segment] }

/-- `create_new_data_segment` of `init.c`. -/
def create_new_data_segment (fs : FS) : Except Fault FS :=
  if num_data_segments fs ≥ MAX_SEGMENTS then .error .exit_failure
  else .ok { fs with data_segments := fs.data_segments ++ [zero_data_segment] }

/-- The root inode written by `init_filesystem`. -/
def root_inode : Inode := { zero_inode with type := TYPE_DIR, direct := zero_inode.direct.set 0 0 }

/-- `init_filesystem` of `init.c`, on the segment files found in the working directory. -/
def init_filesystem (fs : FS) : FS :=
  let iseg := if fs.inode_segments = [] then [zero_inode_segment] else fs.inode_segments
  let dseg :=
    if fs.data_segments = [] then [(zero_data_segment).set 0 zero_block] else fs.data_segments
  let root := (iseg.headD []).getD 0 zero_inode
  if root.type ≠ TYPE_DIR then
    { inode_segments := iseg.set 0 ((iseg.headD []).set 0 root_inode), data_segments := dseg }
  else { inode_segments := iseg, data_segments := dseg }

/-- The archive after `init_filesystem` in an empty working directory. -/
def fresh : FS := init_filesystem ⟨[], []⟩

/-! ## Allocator (`add.c`) -/

/-- First slot of one inode segment whose persisted `type` is 0, scanning from slot `i`. -/
def scan_inode_slots : List Inode → Nat → Option Nat
  | [], _ => none
  | ino :: rest, i => if ino.type = 0 then some i else scan_inode_slots rest (i + 1)

/-- The two nested `for` loops of `find_free_inode`, from segment `s` on. -/
def scan_inode_segments : List (List Inode) → Nat → Option Nat
  | [], _ => none
  | sg :: rest, s =>
    match scan_inode_slots sg 0 with
    | some i => some (s * INODES_PER_SEGMENT + i)
    | none => scan_inode_segments rest (s + 1)

/-- `find_free_inode` of `add.c`: the inode number found and the state (a segment may
have been created). -/
def find_free_inode (fs : FS) : Except Fault (Nat × FS) :=
  match scan_inode_segments fs.inode_segments 0 with
  | some n => .ok (n, fs)
  | none =>
    match create_new_inode_segment fs with
    | .error e => .error e
    | .ok fs1 =>
      match write_inode fs1 ((num_inode_segments fs1 : Int) - 1) 0 zero_inode with
      | .error e => .error e
      | .ok fs2 => .ok ((num_inode_segments fs2 - 1) * INODES_PER_SEGMENT, fs2)

/-- The loop over `k` in `find_free_block`: does one of the direct pointers resolve to
block `b` of segment `s`?  Every pointer goes through `get_segment_and_block_offset`. -/
def direct_uses (fs : FS) (s b : Nat) : List Nat → Except Fault Bool
  | [] => .ok false
  | d :: ds =>
    match get_segment_and_block_offset fs (toInt32 d) with
    | .error e => .error e
    | .ok (seg_idx, blk_idx) =>
      if seg_idx = (s : Int) ∧ blk_idx = (b : Int) then .ok true else direct_uses fs s b ds

/-- The loop over `j` in `find_free_block`. -/
def inodes_use (fs : FS) (s b : Nat) : List Inode → Except Fault Bool
  | [] => .ok false
  | ino :: rest =>
    match direct_uses fs s b (ino.direct.take DIRECT_BLOCKS) with
    | .error e => .error e
    | .ok true => .ok true
    | .ok false => inodes_use fs s b rest

/-- The loop over `i` in `find_free_block`. -/
def inode_segments_use (fs : FS) (s b : Nat) : List (List Inode) → Except Fault Bool
  | [] => .ok false
  | sg :: rest =>
    match inodes_use fs s b sg with
    | .error e => .error e
    | .ok true => .ok true
    | .ok false => inode_segments_use fs s b rest

/-- The test `buffer[j] != 0` over the whole block. -/
def all_zero (buffer : List Nat) : Bool := buffer.all (fun x => x == 0)

/-- Body of the loop over `b` in `find_free_block`: block `b` of segment `s` is handed out
when no persisted inode's `direct[]` resolves to it and it holds only zero bytes. -/
def block_is_free (fs : FS) (s b : Nat) : Except Fault Bool :=
  match inode_segments_use fs s b fs.inode_segments with
  | .error e => .error e
  | .ok true => .ok false
  | .ok false =>
    match read_block fs s b with
    | .error e => .error e
    | .ok buffer => .ok (all_zero buffer)

/-- The loop `for (b = ...; b < BLOCKS_PER_SEGMENT; ++b)` over the listed block indices. -/
def scan_blocks (fs : FS) (s : Nat) : List Nat → Except Fault (Option Nat)
  | [] => .ok none
  | b :: bs =>
    match block_is_free fs s b with
    | .error e => .error e
    | .ok true => .ok (some (s * BLOCKS_PER_SEGMENT + b))
    | .ok false => scan_blocks fs s bs

/-- The loop `for (s = ...; s < num_data_segments; ++s)` over the listed segment indices. -/
def scan_segments (fs : FS) : List Nat → Except Fault (Option Nat)
  | [] => .ok none
  | s :: ss =>
    match scan_blocks fs s (List.range' 1 (BLOCKS_PER_SEGMENT - 1)) with
    | .error e => .error e
    | .ok (some g) => .ok (some g)
    | .ok none => scan_segments fs ss

/-- `find_free_block` of `add.c`: the block number found and the state (a segment may
have been created). -/
def find_free_block (fs : FS) : Except Fault (Nat × FS) :=
  match scan_segments fs (List.range (num_data_segments fs)) with
  | .error e => .error e
  | .ok (some g) => .ok (g, fs)
  | .ok none =>
    match create_new_data_segment fs with
    | .error e => .error e
    | .ok fs1 => .ok ((num_data_segments fs1 - 1) * BLOCKS_PER_SEGMENT + 1, fs1)

/-! ## Directory blocks (`helpers.c`, `path.c`) -/

/-- What the loop test `entry->inode_num == 0 || entry->name_len == 0` sees at an offset. -/
inductive Slot where
  | terminator
  | entry (inode_num name_len : Nat)
deriving DecidableEq, Repr

/-- Reads `entry->inode_num` and, when it is not 0, `entry->name_len` of the record at
`offset` of a `char block[BLOCK_SIZE]`; a read past the buffer is undefined. -/
def read_slot (block : List Nat) (offset : Nat) : Except Fault Slot :=
  if offset + sizeof_uint32 > BLOCK_SIZE then .error .undefined_behaviour
  else if read_u32 block offset = 0 then .ok .terminator
  else if offset + sizeof_uint32 + sizeof_uint8 > BLOCK_SIZE then .error .undefined_behaviour
  else if block.getD (offset + 4) 0 = 0 then .ok .terminator
  else .ok (.entry (read_u32 block offset) (block.getD (offset + 4) 0))

/-- `strncmp(a, s, n) == 0` where `a` is the rest of the block buffer from `entry->name`
on and `s` a C string: compares at most `n` bytes and stops at a NUL; running off the
buffer is undefined. -/
def strncmp_eq : List Nat → List Nat → Nat → Except Fault Bool
  | _, _, 0 => .ok true
  | [], _, _ + 1 => .error .undefined_behaviour
  | a :: _, [], _ + 1 => .ok (a == 0)
  | a :: as, c :: cs, n + 1 => if a = c then strncmp_eq as cs n else .ok false

/-- The entry search of `find_inode_by_path` and `find_or_create_path`: the match is
`strncmp(entry->name, dirname, entry->name_len) == 0 && (uint8_t)strlen(dirname) == entry->name_len`. -/
def dir_find_cast (block dirname : List Nat) : Nat → Nat → Except Fault (Option Nat)
  | 0, _ => .ok none
  | fuel + 1, offset =>
    if offset < BLOCK_SIZE then
      match read_slot block offset with
      | .error e => .error e
      | .ok .terminator => .ok none
      | .ok (.entry inode_num name_len) =>
        match strncmp_eq (block.drop (offset + 5)) dirname name_len with
        | .error e => .error e
        | .ok true =>
          if dirname.length % 256 = name_len then .ok (some inode_num)
          else dir_find_cast block dirname fuel (offset + (4 + 1 + name_len + 1))
        | .ok false => dir_find_cast block dirname fuel (offset + (4 + 1 + name_len + 1))
    else .ok none

/-- The entry search of `run_extract` and `run_remove`: the match is
`entry->name_len == strlen(filename) && strncmp(entry->name, filename, entry->name_len) == 0`;
the result is the inode number and the offset of the record. -/
def dir_find_exact (block filename : List Nat) : Nat → Nat → Except Fault (Option (Nat × Nat))
  | 0, _ => .ok none
  | fuel + 1, offset =>
    if offset < BLOCK_SIZE then
      match read_slot block offset with
      | .error e => .error e
      | .ok .terminator => .ok none
      | .ok (.entry inode_num name_len) =>
        if name_len = filename.length then
          match strncmp_eq (block.drop (offset + 5)) filename name_len with
          | .error e => .error e
          | .ok true => .ok (some (inode_num, offset))
          | .ok false => dir_find_exact block filename fuel (offset + (4 + 1 + name_len + 1))
        else dir_find_exact block filename fuel (offset + (4 + 1 + name_len + 1))
    else .ok none

/-- The loop that looks for the end of the entry list: the offset of the first record
with `inode_num == 0` or `name_len == 0`, or the first offset `≥ BLOCK_SIZE` reached. -/
def dir_end_offset (block : List Nat) : Nat → Nat → Except Fault Nat
  | 0, offset => .ok offset
  | fuel + 1, offset =>
    if offset < BLOCK_SIZE then
      match read_slot block offset with
      | .error e => .error e
      | .ok .terminator => .ok offset
      | .ok (.entry _ name_len) => dir_end_offset block fuel (offset + (4 + 1 + name_len + 1))
    else .ok offset

/-- The bytes `memcpy`/`strncpy` put at the insertion offset for a `DirEntry` with
`name_len = (uint8_t)strlen(name)` and `strncpy(entry.name, name, MAX_NAME_LEN)` into a
zeroed `name[256]`: `inode_num` (4), `name_len` (1), `name_len + 1` bytes of `entry.name`. -/
def entry_bytes (inode_num : Nat) (name : List Nat) : List Nat :=
  u32_bytes inode_num ++ [name.length % 256]
    ++ ((name.take MAX_NAME_LEN ++ List.replicate (MAX_NAME_LEN + 1) 0).take (name.length % 256 + 1))

/-- Writes `bytes` into the buffer `block` at `offset`; writing past `block[BLOCK_SIZE]`
is undefined. -/
def poke (block : List Nat) (offset : Nat) (bytes : List Nat) : Except Fault (List Nat) :=
  if offset + bytes.length > BLOCK_SIZE then .error .undefined_behaviour
  else .ok (block.take offset ++ bytes ++ block.drop (offset + bytes.length))

/-- `update_directory_entry` of `helpers.c`. -/
def update_directory_entry (fs : FS) (parent_inode_num new_inode_num : Nat)
    (filename : List Nat) : Except Fault FS :=
  match get_segment_and_inode_offset fs (toInt32 parent_inode_num) with
  | .error e => .error e
  | .ok (seg, off) =>
    match read_inode fs seg off with
    | .error e => .error e
    | .ok parent =>
      match get_segment_and_block_offset fs (toInt32 (parent.direct.getD 0 0)) with
      | .error e => .error e
      | .ok (bseg, boff) =>
        match read_block fs bseg boff with
        | .error e => .error e
        | .ok block =>
          match dir_end_offset block BLOCK_SIZE 0 with
          | .error e => .error e
          | .ok dir_offset =>
            match poke block dir_offset (entry_bytes new_inode_num filename) with
            | .error e => .error e
            | .ok block1 => write_block fs bseg boff block1

/-! ## Path resolver (`path.c`) -/

/-- The tokens `strtok(path_copy, "/")`, `strtok(NULL, "/")`, ... return until `NULL`. -/
def strtok_tokens : Nat → List Nat → List (List Nat)
  | 0, _ => []
  | fuel + 1, s =>
    match s.dropWhile (fun c => c == 47) with
    | [] => []
    | c :: cs =>
      (c :: cs).takeWhile (fun x => x != 47)
        :: strtok_tokens fuel ((c :: cs).dropWhile (fun x => x != 47))

/-- The array `tokens[0 .. depth)` built by `find_inode_by_path` and `find_or_create_path`:
the path is cut to `MAX_PATH - 1` bytes and at most `MAX_PATH_DEPTH - 1` tokens are kept. -/
def path_tokens (exfs_path : List Nat) : List (List Nat) :=
  (strtok_tokens (MAX_PATH) (exfs_path.take (MAX_PATH - 1))).take (MAX_PATH_DEPTH - 1)

/-- The loop `for (i = 0; i < depth; ++i)` of `find_inode_by_path`; `-1` is "not found". -/
def find_inode_loop (fs : FS) : Nat → List (List Nat) → Except Fault Int
  | current_inode_num, [] => .ok (toInt32 current_inode_num)
  | current_inode_num, dirname :: rest =>
    match get_segment_and_inode_offset fs (toInt32 current_inode_num) with
    | .error e => .error e
    | .ok (seg, off) =>
      match read_inode fs seg off with
      | .error e => .error e
      | .ok dir_inode =>
        if dir_inode.type ≠ TYPE_DIR then .ok (-1)
        else
          match get_segment_and_block_offset fs (toInt32 (dir_inode.direct.getD 0 0)) with
          | .error e => .error e
          | .ok (bseg, boff) =>
            match read_block fs bseg boff with
            | .error e => .error e
            | .ok block =>
              match dir_find_cast block dirname BLOCK_SIZE 0 with
              | .error e => .error e
              | .ok none => .ok (-1)
              | .ok (some next) => find_inode_loop fs next rest

/-- `find_inode_by_path` of `path.c`. -/
def find_inode_by_path (fs : FS) (exfs_path : List Nat) : Except Fault Int :=
  find_inode_loop fs 0 (path_tokens exfs_path)

/-- The insertion loop of `find_or_create_path`: the entry is written at the first
terminator record; when the loop runs to `BLOCK_SIZE` nothing is written. -/
def insert_entry (block : List Nat) (new_inode : Nat) (dirname : List Nat) :
    Nat → Nat → Except Fault (List Nat)
  | 0, _ => .ok block
  | fuel + 1, insert_offset =>
    if insert_offset < BLOCK_SIZE then
      match read_slot block insert_offset with
      | .error e => .error e
      | .ok .terminator => poke block insert_offset (entry_bytes new_inode dirname)
      | .ok (.entry _ name_len) =>
        insert_entry block new_inode dirname fuel (insert_offset + (4 + 1 + name_len + 1))
    else .ok block

/-- The loop `for (i = 0; i < depth - 1; ++i)` of `find_or_create_path` over the
intermediate tokens. -/
def create_path_loop : FS → Nat → List (List Nat) → Except Fault (Nat × FS)
  | fs, current_inode_num, [] => .ok (current_inode_num, fs)
  | fs, current_inode_num, dirname :: rest =>
    match get_segment_and_inode_offset fs (toInt32 current_inode_num) with
    | .error e => .error e
    | .ok (iseg, ioff) =>
      match read_inode fs iseg ioff with
      | .error e => .error e
      | .ok dir_inode =>
        match get_segment_and_block_offset fs (toInt32 (dir_inode.direct.getD 0 0)) with
        | .error e => .error e
        | .ok (seg, off) =>
          match read_block fs seg off with
          | .error e => .error e
          | .ok block =>
            match dir_find_cast block dirname BLOCK_SIZE 0 with
            | .error e => .error e
            | .ok (some next_inode) => create_path_loop fs next_inode rest
            | .ok none =>
              match find_free_inode fs with
              | .error e => .error e
              | .ok (new_inode, fs1) =>
                match find_free_block fs1 with
                | .error e => .error e
                | .ok (new_block, fs2) =>
                  match write_inode fs2 (new_inode / INODES_PER_SEGMENT : Nat)
                      (new_inode % INODES_PER_SEGMENT : Nat)
                      { zero_inode with type := TYPE_DIR,
                                        direct := zero_inode.direct.set 0 new_block } with
                  | .error e => .error e
                  | .ok fs3 =>
                    match insert_entry block new_inode dirname BLOCK_SIZE 0 with
                    | .error e => .error e
                    | .ok block1 =>
                      match write_block fs3 seg off block1 with
                      | .error e => .error e
                      | .ok fs4 => create_path_loop fs4 new_inode rest

/-- `find_or_create_path` of `path.c`: the number of the directory that will hold the
final component (as `uint32_t`; the caller reads it as `int`) and the state. -/
def find_or_create_path (fs : FS) (exfs_path : List Nat) : Except Fault (Nat × FS) :=
  create_path_loop fs 0 (path_tokens exfs_path).dropLast

/-! ## `run_add` (`add.c`) -/

/-- The successive results of `fread(buffer, 1, BLOCK_SIZE, src)` until it returns 0. -/
def file_chunks : Nat → List Nat → List (List Nat)
  | 0, _ => []
  | fuel + 1, bytes =>
    match bytes with
    | [] => []
    | b :: bs => (b :: bs).take BLOCK_SIZE :: file_chunks fuel ((b :: bs).drop BLOCK_SIZE)

/-- The local variables of `run_add` that the block writing loop updates. -/
structure AddState where
  fs : FS
  new_file : Inode
  total_blocks : Nat
  indirect_single : List Nat
  indirect_double : List Nat
  double_level : List (List Nat)
deriving DecidableEq, Repr

/-- How `run_add` returned. -/
inductive AddStatus where
  | invalid_path
  | parent_failed
  | open_failed
  | too_large
  | added
deriving DecidableEq, Repr

/-- The block writing loop `while ((bytes_read = fread(...)) > 0)` of `run_add` over the
chunks still to be read; the flag of the result is true when the loop left through
"File too large". -/
def add_loop : AddState → List (List Nat) → Except Fault (AddState × Bool)
  | st, [] => .ok (st, false)
  | st, buffer :: rest =>
    match find_free_block st.fs with
    | .error e => .error e
    | .ok (block, fs1) =>
      match get_segment_and_block_offset fs1 (toInt32 block) with
      | .error e => .error e
      | .ok (seg, blk) =>
        match write_block fs1 seg blk buffer with
        | .error e => .error e
        | .ok fs2 =>
          let size1 := (st.new_file.size + buffer.length) % 4294967296
          if st.total_blocks < DIRECT_BLOCKS then
            add_loop
              { st with fs := fs2,
                        new_file := { st.new_file with
                          size := size1, direct := st.new_file.direct.set st.total_blocks block },
                        total_blocks := st.total_blocks + 1 } rest
          else if st.total_blocks < DIRECT_BLOCKS + PTRS_PER_BLOCK then
            add_loop
              { st with fs := fs2,
                        new_file := { st.new_file with size := size1 },
                        indirect_single :=
                          st.indirect_single.set (st.total_blocks - DIRECT_BLOCKS) block,
                        total_blocks := st.total_blocks + 1 } rest
          else if st.total_blocks < DIRECT_BLOCKS + PTRS_PER_BLOCK * (1 + PTRS_PER_BLOCK) then
            let i := (st.total_blocks - DIRECT_BLOCKS - PTRS_PER_BLOCK) / PTRS_PER_BLOCK
            let j := (st.total_blocks - DIRECT_BLOCKS - PTRS_PER_BLOCK) % PTRS_PER_BLOCK
            match (if st.indirect_double.getD i 0 ≠ 0 then .ok (st.indirect_double.getD i 0, fs2)
                   else find_free_block fs2) with
            | .error e => .error e
            | .ok (inner, fs3) =>
              add_loop
                { st with fs := fs3,
                          new_file := { st.new_file with size := size1 },
                          indirect_double := st.indirect_double.set i inner,
                          double_level :=
                            st.double_level.set i ((st.double_level.getD i []).set j block),
                          total_blocks := st.total_blocks + 1 } rest
          else
            .ok ({ st with fs := fs2, new_file := { st.new_file with size := size1 } }, true)

/-- The loop `for (i = 0; i < PTRS_PER_BLOCK && indirect_double[i]; i++)` of the
"Write double indirect" step, over the rows still to be visited. -/
def write_inner_blocks : FS → List Nat → List (List Nat) → Except Fault FS
  | fs, [], _ => .ok fs
  | fs, p :: ps, rows =>
    if p = 0 then .ok fs
    else
      match get_segment_and_block_offset fs (toInt32 p) with
      | .error e => .error e
      | .ok (seg2, blk2) =>
        match write_block fs seg2 blk2 (ptrs_bytes (rows.headD [])) with
        | .error e => .error e
        | .ok fs1 => write_inner_blocks fs1 ps rows.tail

/-- The array `double_ptrs`: the entries of `indirect_double` before its first 0, then 0. -/
def double_ptrs (indirect_double : List Nat) : List Nat :=
  let used := indirect_double.takeWhile (fun p => p != 0)
  used ++ List.replicate (indirect_double.length - used.length) 0

/-- The step "Write single indirect" of `run_add`: the inode under construction and the
state after it. -/
def write_single_indirect (st : AddState) : Except Fault (Inode × FS) :=
  if st.total_blocks > DIRECT_BLOCKS then
    match find_free_block st.fs with
    | .error e => .error e
    | .ok (single, fs1) =>
      match get_segment_and_block_offset fs1 (toInt32 single) with
      | .error e => .error e
      | .ok (seg, blk) =>
        match write_block fs1 seg blk (ptrs_bytes st.indirect_single) with
        | .error e => .error e
        | .ok fs2 => .ok ({ st.new_file with indirect_single := single }, fs2)
  else .ok (st.new_file, st.fs)

/-- The step "Write double indirect" of `run_add`. -/
def write_double_indirect (st : AddState) (file1 : Inode) (fsa : FS) : Except Fault (Inode × FS) :=
  if st.total_blocks > DIRECT_BLOCKS + PTRS_PER_BLOCK then
    match find_free_block fsa with
    | .error e => .error e
    | .ok (outer, fs1) =>
      match get_segment_and_block_offset fs1 (toInt32 outer) with
      | .error e => .error e
      | .ok (seg, blk) =>
        match write_inner_blocks fs1 (st.indirect_double.take PTRS_PER_BLOCK) st.double_level with
        | .error e => .error e
        | .ok fs2 =>
          match write_block fs2 seg blk (ptrs_bytes (double_ptrs st.indirect_double)) with
          | .error e => .error e
          | .ok fs3 => .ok ({ file1 with indirect_double := outer }, fs3)
  else .ok (file1, fsa)

/-- The steps "Write inode" and "Add directory entry" of `run_add`. -/
def write_file_inode (fs : FS) (new_file : Inode) (parent_inode : Nat) (filename : List Nat) :
    Except Fault FS :=
  match find_free_inode fs with
  | .error e => .error e
  | .ok (inode_num, fsc) =>
    match get_segment_and_inode_offset fsc (inode_num : Nat) with
    | .error e => .error e
    | .ok (seg, off) =>
      match write_inode fsc seg off new_file with
      | .error e => .error e
      | .ok fsd => update_directory_entry fsd parent_inode inode_num filename

/-- The steps of `run_add` after the block writing loop: single indirect block, double
indirect tree, inode, directory entry. -/
def add_finish (st : AddState) (parent_inode : Nat) (filename : List Nat) : Except Fault FS :=
  match write_single_indirect st with
  | .error e => .error e
  | .ok (file1, fsa) =>
    match write_double_indirect st file1 fsa with
    | .error e => .error e
    | .ok (file2, fsb) => write_file_inode fsb file2 parent_inode filename

/-- The part of a C string after its last `'/'` (`strrchr(path, '/') + 1`) together with
the part before it; `none` when the string has no `'/'`. -/
def split_last_slash (path : List Nat) : Option (List Nat × List Nat) :=
  match path.reverse.dropWhile (fun c => c != 47) with
  | [] => none
  | _ :: before => some (before.reverse, (path.reverse.takeWhile (fun c => c != 47)).reverse)

/-- The state of the local variables of `run_add` before the loop: `new_file = {0}` with
`type = TYPE_FILE`, the three `calloc`ed staging arrays. -/
def add_init (fs : FS) : AddState :=
  { fs := fs, new_file := { zero_inode with type := TYPE_FILE }, total_blocks := 0,
    indirect_single := List.replicate PTRS_PER_BLOCK 0,
    indirect_double := List.replicate PTRS_PER_BLOCK 0,
    double_level := List.replicate PTRS_PER_BLOCK (List.replicate PTRS_PER_BLOCK 0) }

/-- `run_add` of `add.c`.  `host` is the content of the host file, `none` when `fopen`
fails.  The result is how the function returned and the archive it left. -/
def run_add (fs : FS) (exfs_path : List Nat) (host : Option (List Nat)) :
    Except Fault (AddStatus × FS) :=
  match split_last_slash exfs_path with
  | none => .ok (.invalid_path, fs)
  | some (_, filename) =>
    if filename.length = 0 then .ok (.invalid_path, fs)
    else
      match find_or_create_path fs exfs_path with
      | .error e => .error e
      | .ok (parent, fs1) =>
        if toInt32 parent < 0 then .ok (.parent_failed, fs1)
        else
          match host with
          | none => .ok (.open_failed, fs1)
          | some bytes =>
            match add_loop (add_init fs1) (file_chunks bytes.length bytes) with
            | .error e => .error e
            | .ok (st, true) => .ok (.too_large, st.fs)
            | .ok (st, false) =>
              match add_finish st parent filename with
              | .error e => .error e
              | .ok fs2 => .ok (.added, fs2)

/-! ## `run_extract` (`extract.c`, `helpers.c`) -/

/-- `extract_block_list` of `helpers.c` with `max_blocks = PTRS_PER_BLOCK`. -/
def extract_block_list (fs : FS) (block_num : Nat) : Except Fault (List Nat) :=
  match get_segment_and_block_offset fs (toInt32 block_num) with
  | .error e => .error e
  | .ok (seg, blk) =>
    if seg < 0 ∨ seg ≥ (num_data_segments fs : Int) then .ok (List.replicate PTRS_PER_BLOCK 0)
    else
      match read_block fs seg blk with
      | .error e => .error e
      | .ok block => .ok (block_ptrs block)

/-- The loop `for (i = 0; i < n && remaining > 0; ++i)` over block pointers shared by the
direct-block part of `run_extract` and by `extract_indirect_block`: stops at a 0 pointer,
emits `min(remaining, BLOCK_SIZE)` bytes of each block.  The result is the new value of
`remaining` and the bytes written to standard output. -/
def emit_blocks (fs : FS) : List Nat → Nat → Except Fault (Nat × List Nat)
  | [], remaining => .ok (remaining, [])
  | p :: ps, remaining =>
    if remaining > 0 then
      if p = 0 then .ok (remaining, [])
      else
        match get_segment_and_block_offset fs (toInt32 p) with
        | .error e => .error e
        | .ok (seg, blk) =>
          match read_block fs seg blk with
          | .error e => .error e
          | .ok buffer =>
            let to_read := if remaining > BLOCK_SIZE then BLOCK_SIZE else remaining
            match emit_blocks fs ps (remaining - to_read) with
            | .error e => .error e
            | .ok (r, out) => .ok (r, buffer.take to_read ++ out)
    else .ok (remaining, [])

/-- `extract_indirect_block` of `helpers.c`. -/
def extract_indirect_block (fs : FS) (block_num : Nat) (remaining : Nat) :
    Except Fault (Nat × List Nat) :=
  match get_segment_and_block_offset fs (toInt32 block_num) with
  | .error e => .error e
  | .ok (seg, blk) =>
    if seg < 0 ∨ seg ≥ (num_data_segments fs : Int) then .ok (remaining, [])
    else
      match read_block fs seg blk with
      | .error e => .error e
      | .ok block => emit_blocks fs (block_ptrs block) remaining

/-- The loop over the outer pointers `dbl[i]` of the double-indirect part of `run_extract`. -/
def extract_double (fs : FS) : List Nat → Nat → Except Fault (Nat × List Nat)
  | [], remaining => .ok (remaining, [])
  | p :: ps, remaining =>
    if remaining > 0 then
      if p = 0 then .ok (remaining, [])
      else
        match extract_indirect_block fs p remaining with
        | .error e => .error e
        | .ok (r1, out1) =>
          match extract_double fs ps r1 with
          | .error e => .error e
          | .ok (r2, out2) => .ok (r2, out1 ++ out2)
    else .ok (remaining, [])

/-- The streaming part of `run_extract` for a loaded file inode: the bytes written to
standard output. -/
def extract_file (fs : FS) (file_inode : Inode) : Except Fault (List Nat) :=
  match emit_blocks fs (file_inode.direct.take DIRECT_BLOCKS) file_inode.size with
  | .error e => .error e
  | .ok (r1, out1) =>
    match (if r1 > 0 ∧ file_inode.indirect_single ≠ 0 then
             extract_indirect_block fs file_inode.indirect_single r1
           else .ok (r1, [])) with
    | .error e => .error e
    | .ok (r2, out2) =>
      if r2 > 0 ∧ file_inode.indirect_double ≠ 0 then
        match extract_block_list fs file_inode.indirect_double with
        | .error e => .error e
        | .ok dbl =>
          match extract_double fs dbl r2 with
          | .error e => .error e
          | .ok (_, out3) => .ok (out1 ++ out2 ++ out3)
      else .ok (out1 ++ out2)

/-- `extract_path_tail` of `path.c`: the parent path written to `parent_out` and the
file name, `none` for the result `NULL`. -/
def extract_path_tail (exfs_path : List Nat) : Option (List Nat × List Nat) :=
  match split_last_slash (exfs_path.take (MAX_PATH - 1)) with
  | none => none
  | some (parent, filename) =>
    if filename = [] then none
    else some (if parent = [] then [47] else parent, filename)

/-- `run_extract` of `extract.c`: the bytes written to standard output. -/
def run_extract (fs : FS) (exfs_path : List Nat) : Except Fault (List Nat) :=
  match extract_path_tail exfs_path with
  | none => .ok []
  | some (parent_path, filename) =>
    match find_inode_by_path fs parent_path with
    | .error e => .error e
    | .ok parent_inode =>
      if parent_inode < 0 then .ok []
      else
        match get_segment_and_inode_offset fs parent_inode with
        | .error e => .error e
        | .ok (parent_seg, parent_off) =>
          match read_inode fs parent_seg parent_off with
          | .error e => .error e
          | .ok parent =>
            match get_segment_and_block_offset fs (toInt32 (parent.direct.getD 0 0)) with
            | .error e => .error e
            | .ok (blk_seg, blk_off) =>
              match read_block fs blk_seg blk_off with
              | .error e => .error e
              | .ok block =>
                match dir_find_exact block filename BLOCK_SIZE 0 with
                | .error e => .error e
                | .ok none => .ok []
                | .ok (some (found_inode, _)) =>
                  if found_inode = UINT32_MAX then .ok []
                  else
                    match get_segment_and_inode_offset fs (toInt32 found_inode) with
                    | .error e => .error e
                    | .ok (inode_seg, inode_off) =>
                      match read_inode fs inode_seg inode_off with
                      | .error e => .error e
                      | .ok file_inode =>
                        if file_inode.type ≠ TYPE_FILE then .ok []
                        else extract_file fs file_inode

/-! ## `run_remove` (`remove.c`) -/

/-- Zeroes the blocks of a pointer list up to its first 0 entry (the loops over
`blocks[i]` and `inner[j]` of `run_remove`). -/
def zero_listed_blocks : FS → List Nat → Except Fault FS
  | fs, [] => .ok fs
  | fs, p :: ps =>
    if p = 0 then .ok fs
    else
      match get_segment_and_block_offset fs (toInt32 p) with
      | .error e => .error e
      | .ok (seg, blk) =>
        match write_block fs seg blk zero_block with
        | .error e => .error e
        | .ok fs1 => zero_listed_blocks fs1 ps

/-- The loop over `direct[i]` of `run_remove`: every non-zero pointer's block is zeroed. -/
def zero_direct_blocks : FS → List Nat → Except Fault FS
  | fs, [] => .ok fs
  | fs, p :: ps =>
    if p ≠ 0 then
      match get_segment_and_block_offset fs (toInt32 p) with
      | .error e => .error e
      | .ok (seg, blk) =>
        match write_block fs seg blk zero_block with
        | .error e => .error e
        | .ok fs1 => zero_direct_blocks fs1 ps
    else zero_direct_blocks fs ps

/-- Zeroes the blocks listed in the indirect block `block_num` and then the block itself. -/
def zero_indirect (fs : FS) (block_num : Nat) : Except Fault FS :=
  match extract_block_list fs block_num with
  | .error e => .error e
  | .ok blocks =>
    match zero_listed_blocks fs blocks with
    | .error e => .error e
    | .ok fs1 =>
      match get_segment_and_block_offset fs1 (toInt32 block_num) with
      | .error e => .error e
      | .ok (seg, blk) => write_block fs1 seg blk zero_block

/-- The loop over `dbl[i]` of the double-indirect part of `run_remove`. -/
def zero_double_rows : FS → List Nat → Except Fault FS
  | fs, [] => .ok fs
  | fs, p :: ps =>
    if p = 0 then .ok fs
    else
      match zero_indirect fs p with
      | .error e => .error e
      | .ok fs1 => zero_double_rows fs1 ps

/-- The double-indirect part of `run_remove`: the leaves and inner blocks of every row,
then the outer block `block_num`. -/
def zero_double_tree (fs : FS) (block_num : Nat) : Except Fault FS :=
  match extract_block_list fs block_num with
  | .error e => .error e
  | .ok dbl =>
    match zero_double_rows fs dbl with
    | .error e => .error e
    | .ok fs1 =>
      match get_segment_and_block_offset fs1 (toInt32 block_num) with
      | .error e => .error e
      | .ok (seg, blk) => write_block fs1 seg blk zero_block

/-- How `run_remove` returned. -/
inductive RemoveStatus where
  | invalid_path
  | parent_not_found
  | not_found
  | removed
deriving DecidableEq, Repr

/-- The part of `run_remove` after the directory entry was cleared: zero the blocks of
the file inode `target_inode_num` and the inode record. -/
def remove_file_blocks (fs : FS) (target_inode_num : Nat) : Except Fault FS :=
  match get_segment_and_inode_offset fs (toInt32 target_inode_num) with
  | .error e => .error e
  | .ok (inode_seg, inode_off) =>
    match read_inode fs inode_seg inode_off with
    | .error e => .error e
    | .ok file_inode =>
      match zero_direct_blocks fs (file_inode.direct.take DIRECT_BLOCKS) with
      | .error e => .error e
      | .ok fs1 =>
        match (if file_inode.indirect_single ≠ 0 then zero_indirect fs1 file_inode.indirect_single
               else .ok fs1) with
        | .error e => .error e
        | .ok fs2 =>
          match (if file_inode.indirect_double ≠ 0 then
                   zero_double_tree fs2 file_inode.indirect_double
                 else .ok fs2) with
          | .error e => .error e
          | .ok fs4 => write_inode fs4 inode_seg inode_off zero_inode

/-- `run_remove` of `remove.c`. -/
def run_remove (fs : FS) (exfs_path : List Nat) : Except Fault (RemoveStatus × FS) :=
  match split_last_slash (exfs_path.take (MAX_PATH - 1)) with
  | none => .ok (.invalid_path, fs)
  | some (parent_path, filename) =>
    if filename = [] then .ok (.invalid_path, fs)
    else
      match find_inode_by_path fs (if parent_path = [] then [47] else parent_path) with
      | .error e => .error e
      | .ok parent_inode_num =>
        if parent_inode_num < 0 then .ok (.parent_not_found, fs)
        else
          match get_segment_and_inode_offset fs parent_inode_num with
          | .error e => .error e
          | .ok (parent_seg, parent_off) =>
            match read_inode fs parent_seg parent_off with
            | .error e => .error e
            | .ok parent =>
              match get_segment_and_block_offset fs (toInt32 (parent.direct.getD 0 0)) with
              | .error e => .error e
              | .ok (blk_seg, blk_off) =>
                match read_block fs blk_seg blk_off with
                | .error e => .error e
                | .ok dir_block =>
                  match dir_find_exact dir_block filename BLOCK_SIZE 0 with
                  | .error e => .error e
                  | .ok none => .ok (.not_found, fs)
                  | .ok (some (target_inode_num, found_offset)) =>
                    if target_inode_num = UINT32_MAX then .ok (.not_found, fs)
                    else
                      match poke dir_block found_offset (List.replicate sizeof_DirEntry 0) with
                      | .error e => .error e
                      | .ok dir_block1 =>
                        match write_block fs blk_seg blk_off dir_block1 with
                        | .error e => .error e
                        | .ok fs1 =>
                          match remove_file_blocks fs1 target_inode_num with
                          | .error e => .error e
                          | .ok fs2 => .ok (.removed, fs2)

/-! ## `run_list` (`path.c`) -/

/-- The C string that `printf("%s", entry->name)` prints: the bytes from `offset` up to
the first NUL of the buffer; undefined when the buffer holds no NUL from there on. -/
def c_string_at (block : List Nat) (offset : Nat) : Except Fault (List Nat) :=
  if (block.drop offset).all (fun c => c != 0) then .error .undefined_behaviour
  else .ok ((block.drop offset).takeWhile (fun c => c != 0))

/-- The line `printf("  ")` (`depth` times) followed by `printf("|- %s\n", name)`. -/
def list_line (depth : Nat) (name : List Nat) : List Nat :=
  (List.replicate depth [32, 32]).flatten ++ [124, 45, 32] ++ name ++ [10]

/-- The `while (offset < BLOCK_SIZE)` loop of `print_directory_recursive`; `descend` is the
recursive call.  The result is the `visited` set and the bytes printed. -/
def list_entries (descend : Nat → Nat → List Nat → Except Fault (List Nat × List Nat))
    (block : List Nat) (depth : Nat) : Nat → Nat → List Nat →
    Except Fault (List Nat × List Nat)
  | 0, _, visited => .ok (visited, [])
  | fuel + 1, offset, visited =>
    if offset < BLOCK_SIZE then
      match read_slot block offset with
      | .error e => .error e
      | .ok .terminator => .ok (visited, [])
      | .ok (.entry inode_num name_len) =>
        match c_string_at block (offset + 5) with
        | .error e => .error e
        | .ok name =>
          match descend inode_num (depth + 1) visited with
          | .error e => .error e
          | .ok (visited1, out1) =>
            match list_entries descend block depth fuel (offset + (4 + 1 + name_len + 1))
                visited1 with
            | .error e => .error e
            | .ok (visited2, out2) => .ok (visited2, list_line depth name ++ out1 ++ out2)
    else .ok (visited, [])

/-- `print_directory_recursive` of `path.c`; `visited` lists the inode numbers whose flag
is set.  The first argument bounds the nesting of the recursion. -/
def print_directory_recursive (fs : FS) :
    Nat → Nat → Nat → List Nat → Except Fault (List Nat × List Nat)
  | 0, _, _, visited => .ok (visited, [])
  | fuel + 1, inode_num, depth, visited =>
    if inode_num ≥ MAX_SEGMENTS * INODES_PER_SEGMENT ∨ inode_num ∈ visited then .ok (visited, [])
    else
      match get_segment_and_inode_offset fs (toInt32 inode_num) with
      | .error e => .error e
      | .ok (inode_seg, inode_off) =>
        match read_inode fs inode_seg inode_off with
        | .error e => .error e
        | .ok inode =>
          if inode.type ≠ TYPE_DIR then .ok (inode_num :: visited, [])
          else
            match get_segment_and_block_offset fs (toInt32 (inode.direct.getD 0 0)) with
            | .error e => .error e
            | .ok (blk_seg, blk_off) =>
              match read_block fs blk_seg blk_off with
              | .error e => .error e
              | .ok block =>
                list_entries (print_directory_recursive fs fuel) block depth BLOCK_SIZE 0
                  (inode_num :: visited)

/-- `run_list` of `path.c`: the bytes written to standard output.  There are
`MAX_SEGMENTS * INODES_PER_SEGMENT` visited flags, so the recursion nests at most that
deep. -/
def run_list (fs : FS) : Except Fault (List Nat) :=
  match print_directory_recursive fs (MAX_SEGMENTS * INODES_PER_SEGMENT + 1) 0 0 [] with
  | .error e => .error e
  | .ok (_, out) => .ok out

/-! ## Command sequences and scenario inputs -/

deriving instance DecidableEq for Except

/-- The bytes of an ASCII string. -/
def str (s : String) : List Nat := s.data.map Char.toNat

/-- How a `run_add` returned, `none` when the process stopped with a fault. -/
def add_status (r : Except Fault (AddStatus × FS)) : Option AddStatus :=
  match r with
  | .ok (st, _) => some st
  | .error _ => none

/-- The archive a `run_add` left, `none` when the process stopped with a fault. -/
def add_fs (r : Except Fault (AddStatus × FS)) : Option FS :=
  match r with
  | .ok (_, fs) => some fs
  | .error _ => none

/-- One more invocation `-a exfs_path -f host` on the archive left by earlier commands. -/
def then_add (r : Except Fault FS) (exfs_path host : List Nat) : Except Fault FS :=
  match r with
  | .error e => .error e
  | .ok fs =>
    match run_add fs exfs_path (some host) with
    | .error e => .error e
    | .ok (_, fs1) => .ok fs1

/-- One more invocation `-r exfs_path` on the archive left by earlier commands. -/
def then_remove (r : Except Fault FS) (exfs_path : List Nat) : Except Fault FS :=
  match r with
  | .error e => .error e
  | .ok fs =>
    match run_remove fs exfs_path with
    | .error e => .error e
    | .ok (_, fs1) => .ok fs1

/-- How one more invocation `-a exfs_path -f host` returns. -/
def then_add_status (r : Except Fault FS) (exfs_path host : List Nat) : Option AddStatus :=
  match r with
  | .error _ => none
  | .ok fs => add_status (run_add fs exfs_path (some host))

/-- The result of `find_inode_by_path` on the archive left by earlier commands. -/
def then_find (r : Except Fault FS) (exfs_path : List Nat) : Except Fault Int :=
  match r with
  | .error e => .error e
  | .ok fs => find_inode_by_path fs exfs_path

/-- The invocation `-e exfs_path` on the archive left by earlier commands. -/
def then_extract (r : Except Fault FS) (exfs_path : List Nat) : Except Fault (List Nat) :=
  match r with
  | .error e => .error e
  | .ok fs => run_extract fs exfs_path

/-- The invocation `-l` on the archive left by earlier commands. -/
def then_list (r : Except Fault FS) : Except Fault (List Nat) :=
  match r with
  | .error e => .error e
  | .ok fs => run_list fs

/-- The inode record of slot `n`, `none` outside the inode segments. -/
def inode_at (fs : FS) (n : Nat) : Option Inode :=
  match fs.inode_segments[n / INODES_PER_SEGMENT]? with
  | none => none
  | some sg => sg[n % INODES_PER_SEGMENT]?

/-- The bytes of block `g`, `none` outside the data segments. -/
def block_at (fs : FS) (g : Nat) : Option (List Nat) :=
  match fs.data_segments[g / BLOCKS_PER_SEGMENT]? with
  | none => none
  | some sg => sg[g % BLOCKS_PER_SEGMENT]?

/-- A host file of 4097 bytes: one block of zero bytes followed by the byte 1. -/
def zero_chunk_file : List Nat := List.replicate 4096 0 ++ [1]

/-- The host file of scenario 3: 49153 bytes, the byte at offset `k` being `k mod 256`. -/
def mod256_file : List Nat := (List.range 49153).map (fun k => k % 256)

/-- The archive of scenario 5: `/a`, `/b`, `/c` added, `/b` removed, `/d` added. -/
def scenario_remove_middle : Except Fault FS :=
  then_add (then_remove (then_add (then_add (then_add (.ok fresh) (str "/a") (str "A"))
    (str "/b") (str "B")) (str "/c") (str "C")) (str "/b")) (str "/d") (str "D")

/-- The archive after `-a /x -f f1` with `f1` holding the bytes `hi\n`. -/
def scenario_one_file : Except Fault FS := then_add (.ok fresh) (str "/x") (str "hi\n")

/-! ## Auxiliary definitions used in the proofs -/

/-- The inode record of slot `o` of inode segment `s`. -/
def slot_at (fs : FS) (s o : Nat) : Option Inode :=
  match fs.inode_segments[s]? with
  | none => none
  | some sg => sg[o]?

/-- The bytes of block `b` of data segment `s`. -/
def blk_at (fs : FS) (s b : Nat) : Option (List Nat) :=
  match fs.data_segments[s]? with
  | none => none
  | some sg => sg[b]?

/-- The archive with block `b` of data segment `s` replaced by `bytes`. -/
def set_blk (fs : FS) (s b : Nat) (bytes : List Nat) : FS :=
  { fs with data_segments := fs.data_segments.set s ((fs.data_segments.getD s []).set b bytes) }

/-- The archive with slot `o` of inode segment `s` replaced by `ino`. -/
def set_slot (fs : FS) (s o : Nat) (ino : Inode) : FS :=
  { fs with inode_segments := fs.inode_segments.set s ((fs.inode_segments.getD s []).set o ino) }

/-- No inode of the table has a non-zero direct pointer. -/
def ptr_free (tbl : List (List Inode)) : Prop :=
  ∀ sg ∈ tbl, ∀ ino ∈ sg, ∀ d ∈ ino.direct.take DIRECT_BLOCKS, d = 0

/-- The position after cursor `c = (segment, block)` in the order in which
`find_free_block` visits blocks: blocks 1..255 of a segment, then the next segment. -/
def cur_next (c : Nat × Nat) : Nat × Nat :=
  if c.2 < 255 then (c.1, c.2 + 1) else (c.1 + 1, 1)

/-- Global block number of a cursor position. -/
def cur_block (c : Nat × Nat) : Nat := c.1 * 256 + c.2

/-- The archive is filled sequentially up to the cursor `c`: the inode table has no
direct pointers, `c.1` is the last data segment, every block numbered 1..255 before or
at the cursor holds a non-zero byte and every block of the last segment after the
cursor is zero. -/
structure SeqInv (fs : FS) (c : Nat × Nat) : Prop where
  ptrs : ptr_free fs.inode_segments
  nseg : num_data_segments fs = c.1 + 1
  m_le : c.2 ≤ 255
  full : ∀ s b, s < c.1 → 1 ≤ b → b ≤ 255 → ∃ blk, blk_at fs s b = some blk ∧ all_zero blk = false
  used : ∀ b, 1 ≤ b → b ≤ c.2 → ∃ blk, blk_at fs c.1 b = some blk ∧ all_zero blk = false
  rest : ∀ b, c.2 < b → b ≤ 255 → blk_at fs c.1 b = some zero_block

/-- The archive in which `find_free_block` can hand out the block after cursor `c`:
a data segment is appended when the cursor stands on the last block of the last one. -/
def with_room (fs : FS) (c : Nat × Nat) : FS :=
  if c.2 < 255 then fs else { fs with data_segments := fs.data_segments ++ [zero_data_segment] }

/-- The bookkeeping of one iteration of the block writing loop of `run_add` for a
logical block below the double-indirect range: `fs` is the archive after the write of
the chunk, `block` the block it went to, `len` its length. -/
def note_block (st : AddState) (fs : FS) (block len : Nat) : AddState :=
  if st.total_blocks < DIRECT_BLOCKS then
    { st with fs := fs,
              new_file := { st.new_file with
                size := (st.new_file.size + len) % 4294967296,
                direct := st.new_file.direct.set st.total_blocks block },
              total_blocks := st.total_blocks + 1 }
  else
    { st with fs := fs,
              new_file := { st.new_file with size := (st.new_file.size + len) % 4294967296 },
              indirect_single := st.indirect_single.set (st.total_blocks - DIRECT_BLOCKS) block,
              total_blocks := st.total_blocks + 1 }

/-- A chunk as it stands in a block that was zero before the write. -/
def padded (buffer : List Nat) : List Nat := buffer ++ zero_block.drop buffer.length

/-- The archive after the chunk `buffer` went to the block after cursor `c`. -/
def seq_write (fs : FS) (c : Nat × Nat) (buffer : List Nat) : FS :=
  set_blk (with_room fs c) (cur_next c).1 (cur_next c).2 (padded buffer)

/-- The local state of `run_add` after the block writing loop consumed `chunks`, when the
blocks are handed out in sequence from cursor `c` on. -/
def seq_loop : AddState → Nat × Nat → List (List Nat) → AddState
  | st, _, [] => st
  | st, c, buffer :: rest =>
    seq_loop (note_block st (seq_write st.fs c buffer) (cur_block (cur_next c)) buffer.length)
      (cur_next c) rest

/-- The cursor after `n` allocations. -/
def cur_iter : Nat → Nat × Nat → Nat × Nat
  | 0, c => c
  | n + 1, c => cur_iter n (cur_next c)

/-- Position `p` is not one that sequential allocation from cursor `c` will hand out:
it is a block 0 or lies at or before the cursor. -/
def not_after (p c : Nat × Nat) : Prop :=
  p.2 = 0 ∨ p.1 < c.1 ∨ (p.1 = c.1 ∧ p.2 ≤ c.2)

/-- The pointers recorded by `n` iterations of the block writing loop below the
double-indirect range: the pair `(direct, indirect_single)`, starting with logical block
`total` and the block after cursor `c`. -/
def seq_ptrs : Nat → Nat × Nat → Nat → List Nat × List Nat → List Nat × List Nat
  | _, _, 0, p => p
  | total, c, n + 1, p =>
    seq_ptrs (total + 1) (cur_next c) n
      (if total < DIRECT_BLOCKS then (p.1.set total (cur_block (cur_next c)), p.2)
       else (p.1, p.2.set (total - DIRECT_BLOCKS) (cur_block (cur_next c))))

/-- The path `/c1/c2/.../cn` of the components `cs`. -/
def join_path (cs : List (List Nat)) : List Nat := (cs.map (fun c => 47 :: c)).flatten

/-- The local state of `run_add` after the block writing loop on a fresh archive, for a
host file whose blocks are handed out in sequence. -/
def fresh_loop (host : List Nat) : AddState :=
  seq_loop (add_init fresh) (0, 0) (file_chunks host.length host)

/-- The archive after `run_add` stored a host file of at most twelve chunks under the
root-level name `name` in a fresh archive. -/
def small_add_fs (name host : List Nat) : FS :=
  set_blk (set_slot (fresh_loop host).fs 0 1 (fresh_loop host).new_file) 0 0
    (padded (entry_bytes 1 name))

/-- Pointer `p` is a valid non-zero block number whose block holds the chunk `c`
(followed by zero bytes). -/
def holds_chunk (fs : FS) (p : Nat) (c : List Nat) : Prop :=
  p ≠ 0 ∧ p < 256 * num_data_segments fs ∧ p < 2147483648
    ∧ blk_at fs (p / 256) (p % 256) = some (padded c)

/-- The archive after `run_add` stored a host file of more than twelve and at most
`12 + 1024` chunks under the root-level name `name` in a fresh archive, when the archive
after the block writing loop is filled sequentially up to the cursor `c`: the block after
`c` becomes the single-indirect block. -/
def single_add_fs (c : Nat × Nat) (name host : List Nat) : FS :=
  set_blk
    (set_slot (seq_write (fresh_loop host).fs c (ptrs_bytes (fresh_loop host).indirect_single))
      0 1 { (fresh_loop host).new_file with indirect_single := cur_block (cur_next c) })
    0 0 (padded (entry_bytes 1 name))


/-- The bookkeeping of one iteration of the block writing loop of `run_add` for a logical
block of the double-indirect range whose row has no inner block yet: `fs` is the archive
after the chunk was written and the inner block was picked, `block` the block of the
chunk, `inner` the block picked for the row, `len` the length of the chunk. -/
def note_double (st : AddState) (fs : FS) (block inner len : Nat) : AddState :=
  { st with fs := fs,
            new_file := { st.new_file with size := (st.new_file.size + len) % 4294967296 },
            indirect_double := st.indirect_double.set
              ((st.total_blocks - DIRECT_BLOCKS - PTRS_PER_BLOCK) / PTRS_PER_BLOCK) inner,
            double_level := st.double_level.set
              ((st.total_blocks - DIRECT_BLOCKS - PTRS_PER_BLOCK) / PTRS_PER_BLOCK)
              ((st.double_level.getD
                  ((st.total_blocks - DIRECT_BLOCKS - PTRS_PER_BLOCK) / PTRS_PER_BLOCK) []).set
                ((st.total_blocks - DIRECT_BLOCKS - PTRS_PER_BLOCK) % PTRS_PER_BLOCK) block),
            total_blocks := st.total_blocks + 1 }

/-- The local state of `run_add` after the block writing loop on a fresh archive, for a
host file of 1037 chunks that all hold a non-zero byte: the first 1036 chunks went to the
blocks handed out in sequence, the last chunk went to block 1041 and block 1042 was picked
as inner block of row 0 of the double-indirect tree. -/
def double_loop (host : List Nat) : AddState :=
  note_double (seq_loop (add_init fresh) (0, 0) ((file_chunks host.length host).take 1036))
    (set_blk (seq_loop (add_init fresh) (0, 0) ((file_chunks host.length host).take 1036)).fs
      4 17 (padded ((host.drop (4096 * 1036)).take 4096)))
    1041 1042 ((host.drop (4096 * 1036)).take 4096).length

/-- The archive after `run_add` stored a host file of 1037 chunks that all hold a non-zero
byte under the root-level name `name` in a fresh archive: block 1042 received the
single-indirect array and then row 0 of the double-indirect tree, block 1043 the outer
array. -/
def double_add_fs (name host : List Nat) : FS :=
  set_blk
    (set_slot
      (set_blk
        (set_blk
          (set_blk (double_loop host).fs 4 18 (ptrs_bytes (double_loop host).indirect_single))
          4 18 (ptrs_bytes (1041 :: List.replicate 1023 0)))
        4 19 (ptrs_bytes (1042 :: List.replicate 1023 0)))
      0 1 { size := (double_loop host).new_file.size, type := (double_loop host).new_file.type,
            direct := (double_loop host).new_file.direct, indirect_single := 1042,
            indirect_double := 1043 })
    0 0 (padded (entry_bytes 1 name))

/-- The condition of the inode invariant on one record: the type is 0, `TYPE_FILE` or
`TYPE_DIR`, and a record of type 0 is all zero. -/
def inode_ok (ino : Inode) : Prop :=
  (ino.type = 0 ∨ ino.type = TYPE_FILE ∨ ino.type = TYPE_DIR) ∧ (ino.type = 0 → ino = zero_inode)

/-- Every inode segment holds `INODES_PER_SEGMENT` records and every record satisfies
`inode_ok`. -/
def TableInv (tbl : List (List Inode)) : Prop :=
  ∀ sg ∈ tbl, sg.length = INODES_PER_SEGMENT ∧ ∀ ino ∈ sg, inode_ok ino

/-- The archive states that command invocations produce from an empty working directory:
every invocation runs `init_filesystem` and then one command; the commands that change
the archive are `run_add` and `run_remove`, counted when they return. -/
inductive Reachable : FS → Prop where
  | init : Reachable fresh
  | reinit (fs : FS) : Reachable fs → Reachable (init_filesystem fs)
  | add (fs fs1 : FS) (exfs_path : List Nat) (host : Option (List Nat)) (st : AddStatus) :
      Reachable fs → run_add fs exfs_path host = .ok (st, fs1) → Reachable fs1
  | remove (fs fs1 : FS) (exfs_path : List Nat) (st : RemoveStatus) :
      Reachable fs → run_remove fs exfs_path = .ok (st, fs1) → Reachable fs1

/-- The entries of a pointer array before its first 0: the blocks that the pointer loops of
`run_extract` and `run_remove` visit. -/
def listed (ptrs : List Nat) : List Nat := ptrs.takeWhile (fun p => p != 0)

/-- The leaves of the rows `rows` of a double-indirect tree, each row read with
`extract_block_list`. -/
def recorded_leaves (fs : FS) : List Nat → Except Fault (List Nat)
  | [] => .ok []
  | r :: rs =>
    match extract_block_list fs r with
    | .error e => .error e
    | .ok inner =>
      match recorded_leaves fs rs with
      | .error e => .error e
      | .ok rest => .ok (listed inner ++ rest)

/-- The data-block pointers that the archive records for a file inode: the non-zero
direct entries, the entries of the single-indirect block and the leaves of the
double-indirect tree, read the way `run_extract` and `run_remove` read them. -/
def recorded_blocks (fs : FS) (ino : Inode) : Except Fault (List Nat) :=
  match (if ino.indirect_single ≠ 0 then extract_block_list fs ino.indirect_single
         else .ok []) with
  | .error e => .error e
  | .ok single =>
    match (if ino.indirect_double ≠ 0 then extract_block_list fs ino.indirect_double
           else .ok []) with
    | .error e => .error e
    | .ok dbl =>
      match recorded_leaves fs (listed dbl) with
      | .error e => .error e
      | .ok leaves =>
        .ok ((ino.direct.take DIRECT_BLOCKS).filter (fun p => p != 0) ++ listed single ++ leaves)

/-- How one more invocation `-r exfs_path` returns, `none` when the process stopped with a
fault. -/
def then_remove_status (r : Except Fault FS) (exfs_path : List Nat) : Option RemoveStatus :=
  match r with
  | .error _ => none
  | .ok fs =>
    match run_remove fs exfs_path with
    | .error _ => none
    | .ok (st, _) => some st

/-- The inode record of slot `n` in the archive left by earlier commands. -/
def then_inode (r : Except Fault FS) (n : Nat) : Option Inode :=
  match r with
  | .error _ => none
  | .ok fs => inode_at fs n

/-- The bytes of block `g` in the archive left by earlier commands. -/
def then_block (r : Except Fault FS) (g : Nat) : Option (List Nat) :=
  match r with
  | .error _ => none
  | .ok fs => block_at fs g

/-- The root-level path whose name is 200 times the byte `c`. -/
def long_name (c : Nat) : List Nat := 47 :: List.replicate 200 c

/-- The archive after two one-byte files with names of 200 bytes were added. -/
def scenario_long_names : Except Fault FS :=
  then_add (then_add (.ok fresh) (long_name 97) [1]) (long_name 98) [2]


/-- The archive left by a sequence of commands; the empty state when the process stopped
with a fault. -/
def result_fs (r : Except Fault FS) : FS :=
  match r with
  | .ok fs => fs
  | .error _ => ⟨[], []⟩

/-- Block number `g` stands among the first `DIRECT_BLOCKS` direct entries of a persisted
inode record: the blocks that `find_free_block` treats as used whatever they hold. -/
def referenced (fs : FS) (g : Nat) : Prop :=
  ∃ sg ∈ fs.inode_segments, ∃ ino ∈ sg, g ∈ ino.direct.take DIRECT_BLOCKS

/-- The shape of the data segments that the allocator relies on: every data segment has
`BLOCKS_PER_SEGMENT` blocks, there are at most `MAX_SEGMENTS` of them, and every direct
entry of a persisted inode lies inside them. -/
structure Shaped (fs : FS) : Prop where
  dseg : ∀ sg ∈ fs.data_segments, sg.length = BLOCKS_PER_SEGMENT
  nds : num_data_segments fs ≤ MAX_SEGMENTS
  ptrs : ∀ g, referenced fs g → g < 256 * num_data_segments fs

/-- Block `b` of segment `s` is one that `find_free_block` may hand out: no persisted
inode lists it among its direct entries and it holds only zero bytes. -/
def free_block (fs : FS) (s b : Nat) : Prop :=
  ¬ referenced fs (s * 256 + b) ∧ ∃ blk, blk_at fs s b = some blk ∧ all_zero blk = true

/-- The archive `fs1` keeps the inode table of `fs` and every block of `fs` that is a
block 0 of its segment or is listed among the direct entries of a persisted inode. -/
def Frame (fs fs1 : FS) : Prop :=
  fs1.inode_segments = fs.inode_segments
    ∧ num_data_segments fs ≤ num_data_segments fs1
    ∧ ∀ s b x, blk_at fs s b = some x → (b = 0 ∨ referenced fs (s * 256 + b)) →
        blk_at fs1 s b = some x

/-- A host file of `1037 * 4096` zero bytes followed by 4097 bytes 1: 1037 chunks of
zeros, one full chunk of non-zero bytes and a last chunk of one byte. -/
def zeros_then_ones_file : List Nat :=
  List.replicate (1037 * 4096) 0 ++ List.replicate 4097 1

/-- The local variables of `run_add` on a fresh archive after `k ≤ 1036` chunks of zeros
were read: every one of them went to block 1, which still holds only zeros. -/
def zero_chunks_state (k : Nat) : AddState :=
  { fs := fresh,
    new_file := { size := 4096 * k, type := TYPE_FILE,
                  direct := List.replicate (min k 12) 1 ++ List.replicate (12 - k) 0,
                  indirect_single := 0, indirect_double := 0 },
    total_blocks := k,
    indirect_single := List.replicate (k - 12) 1 ++ List.replicate (1024 - (k - 12)) 0,
    indirect_double := List.replicate PTRS_PER_BLOCK 0,
    double_level := List.replicate PTRS_PER_BLOCK (List.replicate PTRS_PER_BLOCK 0) }

/-- The part of `run_add` after the host file was opened, from the local state `st` on
with `chunks` still to be read. -/
def add_from (st : AddState) (chunks : List (List Nat)) (parent : Nat) (filename : List Nat) :
    Except Fault (AddStatus × FS) :=
  match add_loop st chunks with
  | .error e => .error e
  | .ok (st, true) => .ok (.too_large, st.fs)
  | .ok (st, false) =>
    match add_finish st parent filename with
    | .error e => .error e
    | .ok fs2 => .ok (.added, fs2)

/-- The archive after `-a /f` of `zeros_then_ones_file` on a fresh archive: block 1 is the
inner block of row 0 of the double-indirect tree, listing blocks 1, 1 and 2; block 2 holds
the last chunk; block 3 is the single-indirect block, listing block 1 in every entry;
block 4 is the outer block, listing block 1. -/
def shared_rows_fs : FS :=
  set_blk (set_blk (set_blk (set_blk (set_blk
    (set_slot fresh 0 1
      { size := 4251649, type := TYPE_FILE, direct := List.replicate 12 1,
        indirect_single := 3, indirect_double := 4 })
    0 0 (padded (entry_bytes 1 [102])))
    0 1 (ptrs_bytes (1 :: 1 :: 2 :: List.replicate 1021 0)))
    0 2 (padded [1]))
    0 3 (ptrs_bytes (List.replicate 1024 1)))
    0 4 (ptrs_bytes (1 :: List.replicate 1023 0))

/-- The archive after `-r /f` on `shared_rows_fs`: the directory entry, the blocks 1, 3
and 4 and the inode record of slot 1 are zero; block 2 is as it was. -/
def shared_rows_removed : FS :=
  set_slot (set_blk (set_blk (set_blk (set_blk shared_rows_fs 0 0 zero_block)
    0 1 zero_block) 0 3 zero_block) 0 4 zero_block) 0 1 zero_inode

/-- Every non-zero entry of the pointer list `l` is the number of a block inside the data
segments that is not block 0 of its segment and is listed by no persisted inode: what
holds of the block numbers that `find_free_block` returned during one `run_add`. -/
def unlisted (fs : FS) (l : List Nat) : Prop :=
  ∀ p ∈ l, p ≠ 0 → 1 ≤ p % 256 ∧ p / 256 < num_data_segments fs ∧ ¬ referenced fs p

/-- The archive holds the host file `host` of at most twelve chunks under the root-level
name `name`: the first entry of the root directory is that of inode 1 under `name`, and
the direct pointers of inode 1 lead to blocks that hold the chunks of `host`. -/
def stored_small (fs : FS) (name host : List Nat) : Prop :=
  slot_at fs 0 0 = some root_inode
    ∧ 0 < num_inode_segments fs
    ∧ (∃ rest, blk_at fs 0 0 = some (entry_bytes 1 name ++ rest))
    ∧ ∃ file ps tail, slot_at fs 0 1 = some file ∧ file.type = TYPE_FILE
        ∧ file.size = host.length ∧ file.direct.take DIRECT_BLOCKS = ps ++ tail
        ∧ ps.length = (file_chunks host.length host).length
        ∧ ∀ j (h1 : j < ps.length) (h2 : j < (file_chunks host.length host).length),
            holds_chunk fs (ps.get ⟨j, h1⟩) ((file_chunks host.length host).get ⟨j, h2⟩)

/-- Some persisted inode has among its first `DIRECT_BLOCKS` direct entries a 32-bit value
that is the block number `g` when taken as `int`: what the loops over `i`, `j`, `k` of
`find_free_block` look for. -/
def direct_listed (fs : FS) (g : Nat) : Prop :=
  ∃ sg ∈ fs.inode_segments, ∃ ino ∈ sg, ∃ d ∈ ino.direct.take DIRECT_BLOCKS,
    toInt32 d = (g : Int)

/-- An archive whose inode table consists of `k` full segments: every record has type
`TYPE_FILE`, so no slot is free. -/
def full_inode_table (k : Nat) : FS :=
  ⟨List.replicate k (List.replicate INODES_PER_SEGMENT { zero_inode with type := TYPE_FILE }),
    [zero_data_segment]⟩

/-- The entries a walk over a directory block visits from `offset` on, in order, each with
the `name_len` name bytes that follow its 5-byte header.  The walk is the one of the loops
of `helpers.c` and `path.c`: `read_slot` at each offset, then an advance by
`4 + 1 + name_len + 1`; the list ends at the first terminator, at the block end, and where
no record header fits into the block any more. -/
def entry_list (block : List Nat) : Nat → Nat → List (Nat × List Nat)
  | 0, _ => []
  | fuel + 1, offset =>
    if offset < BLOCK_SIZE then
      match read_slot block offset with
      | .ok (.entry inode_num name_len) =>
        (inode_num, (block.drop (offset + 5)).take name_len)
          :: entry_list block fuel (offset + (4 + 1 + name_len + 1))
      | _ => []
    else []

/-- A path whose intermediate component has 256 bytes: `/aaa...a/x`. -/
def path_component_256 : List Nat := (47 :: List.replicate 256 97) ++ [47, 120]

/-- The result of `find_or_create_path` on the archive left by an earlier call. -/
def then_find_or_create (r : Except Fault (Nat × FS)) (exfs_path : List Nat) :
    Except Fault (Nat × FS) :=
  match r with
  | .error e => .error e
  | .ok (_, fs) => find_or_create_path fs exfs_path

/-- The inode number an `Except` result of `find_or_create_path` carries. -/
def created_parent (r : Except Fault (Nat × FS)) : Option Nat :=
  match r with
  | .error _ => none
  | .ok (n, _) => some n

/-- The archive an `Except` result of `find_or_create_path` carries. -/
def created_fs (r : Except Fault (Nat × FS)) : Except Fault FS :=
  match r with
  | .error e => .error e
  | .ok (_, fs) => .ok fs

/-- A directory block that starts with fifteen entries whose names have 255 bytes (261
bytes each, 3915 bytes together), followed by the bytes `tail` and zero bytes. -/
def names_block (tail : List Nat) : List Nat :=
  padded ((List.replicate 15 (entry_bytes 1 (List.replicate 255 97))).flatten ++ tail)

/-- Every block of `fs` is in `fs1` what it was or starts with `BLOCK_SIZE` zero bytes: the
effect of the block zeroing loops of `run_remove` on the data segments. -/
def zeroed_or_kept (fs fs1 : FS) : Prop :=
  ∀ s b x, blk_at fs s b = some x →
    blk_at fs1 s b = some x ∨ ∃ y, blk_at fs1 s b = some (zero_block ++ y)

/-- The inode of a one-byte file whose byte stands in block `g`. -/
def one_byte_inode (g : Nat) : Inode :=
  { size := 1, type := TYPE_FILE, direct := g :: List.replicate 11 0,
    indirect_single := 0, indirect_double := 0 }

/-- The archive that `-a /a`, `-a /b`, `-a /c` with the one-byte host files `A`, `B`, `C`
leave: inodes 1, 2, 3 with the blocks 1, 2, 3 and three entries in the root block. -/
def three_files_fs : FS :=
  set_blk (set_blk (set_blk (set_blk
    (set_slot (set_slot (set_slot fresh 0 1 (one_byte_inode 1)) 0 2 (one_byte_inode 2))
      0 3 (one_byte_inode 3))
    0 1 (padded [65])) 0 2 (padded [66])) 0 3 (padded [67]))
    0 0 (padded (entry_bytes 1 [97] ++ entry_bytes 2 [98] ++ entry_bytes 3 [99]))

/-- The archive `three_files_fs` after `-r /b`: inode 2 and block 2 are zero and the root
block holds the entry `a` only. -/
def three_files_removed : FS :=
  set_blk (set_blk (set_slot three_files_fs 0 2 zero_inode) 0 2 zero_block)
    0 0 (padded (entry_bytes 1 [97]))

/-- Every element of the list is a byte value. -/
def byte_list (l : List Nat) : Prop := ∀ c ∈ l, c < 256

/-- Every block of the archive holds byte values only. -/
def BytesInv (fs : FS) : Prop := ∀ sg ∈ fs.data_segments, ∀ x ∈ sg, byte_list x

/-- The archive states that command invocations produce from an empty working directory
when paths and host files are sequences of bytes (`char` values), as the arguments of the
C program are. -/
inductive ByteReachable : FS → Prop where
  | init : ByteReachable fresh
  | reinit (fs : FS) : ByteReachable fs → ByteReachable (init_filesystem fs)
  | add (fs fs1 : FS) (exfs_path : List Nat) (host : Option (List Nat)) (st : AddStatus) :
      ByteReachable fs → byte_list exfs_path → (∀ bytes, host = some bytes → byte_list bytes) →
      run_add fs exfs_path host = .ok (st, fs1) → ByteReachable fs1
  | remove (fs fs1 : FS) (exfs_path : List Nat) (st : RemoveStatus) :
      ByteReachable fs → byte_list exfs_path →
      run_remove fs exfs_path = .ok (st, fs1) → ByteReachable fs1

/-- A corrupted archive whose directory entries form a cycle: the root lists the directory
`d` (inode 1, block 1), and block 1 lists `d` again under inode 1. -/
def cyclic_fs : FS :=
  set_blk (set_blk
    (set_slot fresh 0 1 { size := 0, type := TYPE_DIR, direct := 1 :: List.replicate 11 0,
                          indirect_single := 0, indirect_double := 0 })
    0 0 (padded (entry_bytes 1 [100]))) 0 1 (padded (entry_bytes 1 [100]))

/-- The shape of an archive that the directory code relies on: the data segments are
shaped as the allocator expects (`Shaped`), every inode segment holds `INODES_PER_SEGMENT`
records and every block `BLOCK_SIZE` bytes, there are at most `MAX_SEGMENTS` segments of
each family and at least one data segment, and slot 0 of inode segment 0 is in use. -/
structure Regular (fs : FS) : Prop where
  shaped : Shaped fs
  nds_pos : 0 < num_data_segments fs
  iseg : ∀ sg ∈ fs.inode_segments, sg.length = INODES_PER_SEGMENT
  nis : num_inode_segments fs ≤ MAX_SEGMENTS
  root : ∃ r, slot_at fs 0 0 = some r ∧ r.type ≠ 0
  blen : ∀ sg ∈ fs.data_segments, ∀ x ∈ sg, x.length = BLOCK_SIZE

/-- The record `find_or_create_path` writes for a new directory whose block is `g`:
`Inode new_dir = {0}; new_dir.type = TYPE_DIR; new_dir.direct[0] = new_block`. -/
def new_dir (g : Nat) : Inode :=
  { zero_inode with type := TYPE_DIR, direct := zero_inode.direct.set 0 g }

/-- The archive `fs1` extends `fs`: every inode record in use is kept, no segment is lost,
and every block is kept or replaced by a block with a non-zero byte in which every name
that was found is still found with the same inode number. -/
def Ext (fs fs1 : FS) : Prop :=
  (∀ s o ino, slot_at fs s o = some ino → ino.type ≠ 0 → slot_at fs1 s o = some ino)
    ∧ num_inode_segments fs ≤ num_inode_segments fs1
    ∧ num_data_segments fs ≤ num_data_segments fs1
    ∧ ∀ s b blk, blk_at fs s b = some blk →
        ∃ blk1, blk_at fs1 s b = some blk1 ∧ (blk1 = blk ∨ all_zero blk1 = false)
          ∧ ∀ name i, dir_find_cast blk name BLOCK_SIZE 0 = .ok (some i) →
              dir_find_cast blk1 name BLOCK_SIZE 0 = .ok (some i)

/-- The hypotheses on the directories along a path: starting from inode `cur`, every
component that already has an entry leads to an inode of type `TYPE_DIR`, and where a
component has no entry the directory block has room for one.  The last inode reached is a
directory with a valid number. -/
def path_dirs (fs : FS) : Nat → List (List Nat) → Prop
  | cur, [] =>
    cur < 2147483648 ∧ ∃ seg off ino,
      get_segment_and_inode_offset fs (toInt32 cur) = .ok (seg, off)
        ∧ read_inode fs seg off = .ok ino ∧ ino.type = TYPE_DIR
  | cur, c :: rest =>
    ∃ seg off ino bseg boff block,
      get_segment_and_inode_offset fs (toInt32 cur) = .ok (seg, off)
        ∧ read_inode fs seg off = .ok ino ∧ ino.type = TYPE_DIR
        ∧ get_segment_and_block_offset fs (toInt32 (ino.direct.getD 0 0)) = .ok (bseg, boff)
        ∧ read_block fs bseg boff = .ok block
        ∧ ((∃ next, dir_find_cast block c BLOCK_SIZE 0 = .ok (some next)
              ∧ path_dirs fs next rest)
          ∨ (dir_find_cast block c BLOCK_SIZE 0 = .ok none
              ∧ ∃ t, dir_end_offset block BLOCK_SIZE 0 = .ok t
                  ∧ t + 5 + c.length + 1 ≤ 4096))

/-- What a call that leads from the archive `fs` to the archive `fs1` did to the inode
table: every slot of `fs1` holds the record it held in `fs`, or a blank record, or the
record `new_dir g` of a directory the call created.  For such a directory the block `g` is
not a block 0 of its segment, held only zero bytes before the call (or lies in a data
segment the call created), was listed by no inode in use before the call, and is listed by
no other slot of `fs1`. -/
def created_dirs (fs fs1 : FS) : Prop :=
  ∀ s o ino, slot_at fs1 s o = some ino →
    slot_at fs s o = some ino ∨ ino = zero_inode
      ∨ ∃ g, ino = new_dir g ∧ 1 ≤ g % 256
          ∧ (blk_at fs (g / 256) (g % 256) = some zero_block
              ∨ num_data_segments fs ≤ g / 256)
          ∧ (∀ s1 o1 r, slot_at fs s1 o1 = some r → r.type ≠ 0 →
              g ∉ r.direct.take DIRECT_BLOCKS)
          ∧ ∀ s1 o1 r, slot_at fs1 s1 o1 = some r → g ∈ r.direct.take DIRECT_BLOCKS →
              s1 = s ∧ o1 = o

/-- Five directory names of 255 bytes each: 255 times `a`, `b`, `c`, `d`, `e`. -/
def long_dirs : List (List Nat) :=
  [List.replicate 255 97, List.replicate 255 98, List.replicate 255 99,
   List.replicate 255 100, List.replicate 255 101]

/-- The archive after `find_or_create_path` created `/a` (inode 1, block 1) and `/a/b`
(inode 2, block 2) in a fresh archive: the root block lists `a`, block 1 lists `b`, and
block 2 holds only zeros. -/
def two_dirs_fs : FS :=
  set_blk (set_blk (set_slot (set_slot fresh 0 1 (new_dir 1)) 0 2 (new_dir 2))
    0 0 (padded (entry_bytes 1 [97]))) 0 1 (padded (entry_bytes 2 [98]))

/-- The bytes of the directory records of the entries `es` (inode number, name), one
record after the other. -/
def records (es : List (Nat × List Nat)) : List Nat :=
  (es.map (fun e => entry_bytes e.1 e.2)).flatten

/-- The archive that holds 62 nested directories, each named `a`: `/a`, `/a/a`, ... .  The
directory at depth `k` (the root for `k = 0`) is inode `k` with block `k`; for `k < 62` its
block lists the one entry `a` with inode `k + 1`, and the innermost directory 62 is
empty. -/
def nested_dirs_fs : FS :=
  ⟨[(List.range 256).map (fun k => if k ≤ 62 then new_dir k else zero_inode)],
   [(List.range 256).map (fun k =>
      if k < 62 then padded (entry_bytes (k + 1) [97]) else zero_block)]⟩

/-! ## Evaluated scenarios

Closed facts about concrete archives, checked by evaluation.  They compare whole blocks
and archives and come first. -/

theorem write_zero_block_fresh : write_block fresh 0 1 zero_block = .ok fresh := by
  decide!

theorem add_from_zero_chunks_tail :
    add_from (zero_chunks_state 1036) [zero_block, List.replicate 4096 1, [1]] 0 [102]
      = .ok (.added, shared_rows_fs) := by
  decide!

theorem three_files_remove :
    run_remove three_files_fs (str "/b") = .ok (.removed, three_files_removed) := by
  decide!

theorem two_dirs_create :
    find_or_create_path fresh (join_path ([[97], [98]] ++ [[120]])) = .ok (2, two_dirs_fs) := by
  decide!

/-- The archive that holds the one-byte files `/a` and `/b`: `-r /a` removes `/a`. -/
theorem two_files_remove_first :
    run_remove (result_fs (then_add (then_add (.ok fresh) (str "/a") [1]) (str "/b") [2]))
        (str "/a")
      = .ok (.removed, result_fs (then_remove
          (then_add (then_add (.ok fresh) (str "/a") [1]) (str "/b") [2]) (str "/a"))) := by
  decide!

/-- The archive left by `-a /x -f f1` with an empty host file `f1`. -/
theorem empty_file_add :
    run_add fresh (47 :: str "x") (some [])
      = .ok (.added, set_blk (set_slot fresh 0 1
          { size := 0, type := TYPE_FILE, direct := List.replicate 12 0,
            indirect_single := 0, indirect_double := 0 }) 0 0
          (padded (entry_bytes 1 (str "x")))) := by
  decide!

/-- The root block of the archive left by `-a /a/f` on a fresh archive lists `a` only. -/
theorem nested_file_root_block :
    read_block (result_fs (then_add (.ok fresh) (str "/a/f") [1])) 0 0
      = .ok (padded (entry_bytes 1 [97])) := by
  decide!

/-- The archive that holds the file `/x` with the bytes `hi\n` in block 1, before
`run_add` of `/x/g`. -/
theorem one_file_before :
    then_inode scenario_one_file 1
        = some { size := 3, type := TYPE_FILE, direct := 1 :: List.replicate 11 0,
                 indirect_single := 0, indirect_double := 0 }
      ∧ then_block scenario_one_file 1 = some (padded (str "hi\n"))
      ∧ then_extract scenario_one_file (str "/x") = .ok (str "hi\n")
      ∧ then_add_status scenario_one_file (str "/x/g") (str "D") = some .added := by
  decide!

/-- The same archive after `run_add` of `/x/g`: the inode of `/x` is kept and block 1 holds
the directory entry `g`. -/
theorem one_file_after :
    then_inode (then_add scenario_one_file (str "/x/g") (str "D")) 1
          = then_inode scenario_one_file 1
      ∧ then_block (then_add scenario_one_file (str "/x/g") (str "D")) 1
          = some (padded (entry_bytes 2 (str "g")))
      ∧ then_extract (then_add scenario_one_file (str "/x/g") (str "D")) (str "/x")
          = .ok [2, 0, 0] := by
  decide!

/-- The first `find_or_create_path` of `path_component_256` on a fresh archive. -/
theorem long_component_first_call :
    created_parent (find_or_create_path fresh path_component_256) = some 1
      ∧ then_inode (created_fs (find_or_create_path fresh path_component_256)) 2
          = some zero_inode
      ∧ then_block (created_fs (find_or_create_path fresh path_component_256)) 0
          = some (padded ([1, 0, 0, 0, 0, 97])) := by
  decide!

/-- The second `find_or_create_path` of `path_component_256`, on the archive left by the
first. -/
theorem long_component_second_call :
    created_parent (then_find_or_create (find_or_create_path fresh path_component_256)
          path_component_256) = some 2
      ∧ created_fs (then_find_or_create (find_or_create_path fresh path_component_256)
          path_component_256) ≠ created_fs (find_or_create_path fresh path_component_256)
      ∧ then_inode (created_fs (then_find_or_create
          (find_or_create_path fresh path_component_256) path_component_256)) 2
          = some { size := 0, type := TYPE_DIR, direct := 2 :: List.replicate 11 0,
                   indirect_single := 0, indirect_double := 0 }
      ∧ then_block (created_fs (then_find_or_create
          (find_or_create_path fresh path_component_256) path_component_256)) 0
          = some (padded ([2, 0, 0, 0, 0, 97])) := by
  decide!

/-! ## Basic facts about the state accessors -/

theorem toInt32_of_lt (n : Nat) (h : n < 2147483648) : toInt32 n = (n : Int) := by
  unfold toInt32
  have h1 : n % 4294967296 = n := Nat.mod_eq_of_lt (by omega)
  rw [h1, if_pos h]

theorem gsbo_nat (fs : FS) (g : Nat) (h : g < 256 * num_data_segments fs) :
    get_segment_and_block_offset fs (g : Int)
      = .ok (((g / 256 : Nat) : Int), ((g % 256 : Nat) : Int)) := by
  unfold get_segment_and_block_offset
  by_cases hg : (g : Int) = 0
  · have : g = 0 := by exact_mod_cast hg
    subst this
    simp
  · rw [if_neg hg]
    have h1 : Int.tdiv (g : Int) (BLOCKS_PER_SEGMENT : Nat) = ((g / 256 : Nat) : Int) := by
      simp [Int.tdiv, BLOCKS_PER_SEGMENT]
    have h2 : Int.tmod (g : Int) (BLOCKS_PER_SEGMENT : Nat) = ((g % 256 : Nat) : Int) := by
      simp [Int.tmod, BLOCKS_PER_SEGMENT]
    simp only [h1, h2]
    have h3 : g / 256 < num_data_segments fs := by omega
    have h4 : ¬ ((g / 256 : Nat) : Int) ≥ (num_data_segments fs : Int) := by
      simp only [ge_iff_le, Int.ofNat_le]; omega
    have h5 : ¬ ((g / 256 : Nat) : Int) < 0 := by omega
    rw [if_neg h4, if_neg h5]

theorem gsio_nat (fs : FS) (n : Nat) (h : n < 256 * num_inode_segments fs) :
    get_segment_and_inode_offset fs (n : Int)
      = .ok (((n / 256 : Nat) : Int), ((n % 256 : Nat) : Int)) := by
  unfold get_segment_and_inode_offset
  have h1 : Int.tdiv (n : Int) (INODES_PER_SEGMENT : Nat) = ((n / 256 : Nat) : Int) := by
    simp [Int.tdiv, INODES_PER_SEGMENT]
  have h2 : Int.tmod (n : Int) (INODES_PER_SEGMENT : Nat) = ((n % 256 : Nat) : Int) := by
    simp [Int.tmod, INODES_PER_SEGMENT]
  simp only [h1, h2]
  have h4 : ¬ ((n / 256 : Nat) : Int) ≥ (num_inode_segments fs : Int) := by
    simp only [ge_iff_le, Int.ofNat_le]; omega
  rw [if_neg h4]

theorem read_inode_nat (fs : FS) (s o : Nat) (ino : Inode) (h : slot_at fs s o = some ino) :
    read_inode fs (s : Int) (o : Int) = .ok ino := by
  unfold slot_at at h
  unfold read_inode
  have h0 : ¬ ((s : Int) < 0 ∨ (o : Int) < 0) := by omega
  rw [if_neg h0]
  simp only [Int.toNat_ofNat]
  cases hs : fs.inode_segments[s]? with
  | none => rw [hs] at h; simp at h
  | some sg =>
    rw [hs] at h
    simp only at h
    simp only [h]

theorem read_block_nat (fs : FS) (s b : Nat) (blk : List Nat) (h : blk_at fs s b = some blk) :
    read_block fs (s : Int) (b : Int) = .ok blk := by
  unfold blk_at at h
  unfold read_block
  have h0 : ¬ ((s : Int) < 0 ∨ (b : Int) < 0) := by omega
  rw [if_neg h0]
  simp only [Int.toNat_ofNat]
  cases hs : fs.data_segments[s]? with
  | none => rw [hs] at h; simp at h
  | some sg =>
    rw [hs] at h
    simp only at h
    simp only [h]

theorem write_block_nat (fs : FS) (s b : Nat) (old bytes : List Nat)
    (h : blk_at fs s b = some old) :
    write_block fs (s : Int) (b : Int) bytes
      = .ok (set_blk fs s b (bytes ++ old.drop bytes.length)) := by
  unfold blk_at at h
  unfold write_block set_blk
  have h0 : ¬ ((s : Int) < 0 ∨ (b : Int) < 0) := by omega
  rw [if_neg h0]
  simp only [Int.toNat_ofNat]
  cases hs : fs.data_segments[s]? with
  | none => rw [hs] at h; simp at h
  | some sg =>
    rw [hs] at h
    simp only at h
    simp only [h]
    have : fs.data_segments.getD s [] = sg := by
      simp [List.getD_eq_getElem?_getD, hs]
    rw [this]

theorem write_inode_nat (fs : FS) (s o : Nat) (old ino : Inode)
    (h : slot_at fs s o = some old) :
    write_inode fs (s : Int) (o : Int) ino = .ok (set_slot fs s o ino) := by
  unfold slot_at at h
  unfold write_inode set_slot
  have h0 : ¬ ((s : Int) < 0 ∨ (o : Int) < 0) := by omega
  rw [if_neg h0]
  simp only [Int.toNat_ofNat]
  cases hs : fs.inode_segments[s]? with
  | none => rw [hs] at h; simp at h
  | some sg =>
    rw [hs] at h
    simp only at h
    have hlt : o < sg.length := by
      rcases List.getElem?_eq_some_iff.mp h with ⟨hl, _⟩
      exact hl
    simp only [if_pos hlt]
    have : fs.inode_segments.getD s [] = sg := by
      simp [List.getD_eq_getElem?_getD, hs]
    rw [this]

@[simp] theorem set_blk_inode_segments (fs : FS) (s b : Nat) (x : List Nat) :
    (set_blk fs s b x).inode_segments = fs.inode_segments := rfl

@[simp] theorem set_slot_data_segments (fs : FS) (s o : Nat) (x : Inode) :
    (set_slot fs s o x).data_segments = fs.data_segments := rfl

@[simp] theorem num_data_segments_set_blk (fs : FS) (s b : Nat) (x : List Nat) :
    num_data_segments (set_blk fs s b x) = num_data_segments fs := by
  simp [num_data_segments, set_blk]

@[simp] theorem num_inode_segments_set_blk (fs : FS) (s b : Nat) (x : List Nat) :
    num_inode_segments (set_blk fs s b x) = num_inode_segments fs := rfl

@[simp] theorem num_data_segments_set_slot (fs : FS) (s o : Nat) (x : Inode) :
    num_data_segments (set_slot fs s o x) = num_data_segments fs := rfl

@[simp] theorem num_inode_segments_set_slot (fs : FS) (s o : Nat) (x : Inode) :
    num_inode_segments (set_slot fs s o x) = num_inode_segments fs := by
  simp [num_inode_segments, set_slot]

@[simp] theorem slot_at_set_blk (fs : FS) (s b : Nat) (x : List Nat) (s1 o1 : Nat) :
    slot_at (set_blk fs s b x) s1 o1 = slot_at fs s1 o1 := rfl

@[simp] theorem blk_at_set_slot (fs : FS) (s o : Nat) (x : Inode) (s1 b1 : Nat) :
    blk_at (set_slot fs s o x) s1 b1 = blk_at fs s1 b1 := rfl

theorem blk_at_set_blk_same (fs : FS) (s b : Nat) (x old : List Nat)
    (h : blk_at fs s b = some old) : blk_at (set_blk fs s b x) s b = some x := by
  unfold blk_at at h ⊢
  unfold set_blk
  cases hs : fs.data_segments[s]? with
  | none => rw [hs] at h; simp at h
  | some sg =>
    rw [hs] at h
    simp only at h
    obtain ⟨hl, rfl⟩ := List.getElem?_eq_some_iff.mp hs
    obtain ⟨hl2, _⟩ := List.getElem?_eq_some_iff.mp h
    simp [List.getD_eq_getElem?_getD, hl, hl2, List.getElem?_set]

theorem blk_at_set_blk_other (fs : FS) (s b : Nat) (x : List Nat) (s1 b1 : Nat)
    (h : s1 ≠ s ∨ b1 ≠ b) : blk_at (set_blk fs s b x) s1 b1 = blk_at fs s1 b1 := by
  unfold blk_at set_blk
  by_cases hs : s1 = s
  · subst hs
    have hb : b1 ≠ b := by
      rcases h with h | h
      · exact absurd rfl h
      · exact h
    cases hs : fs.data_segments[s1]? with
    | none =>
      have : ¬ s1 < fs.data_segments.length := by
        have := List.getElem?_eq_none_iff.mp hs
        omega
      simp [List.getElem?_set, this]
    | some sg =>
      obtain ⟨hl, rfl⟩ := List.getElem?_eq_some_iff.mp hs
      simp [List.getD_eq_getElem?_getD, hl, List.getElem?_set, Ne.symm hb]
  · simp [List.getElem?_set, Ne.symm hs]

theorem slot_at_set_slot_same (fs : FS) (s o : Nat) (x old : Inode)
    (h : slot_at fs s o = some old) : slot_at (set_slot fs s o x) s o = some x := by
  unfold slot_at at h ⊢
  unfold set_slot
  cases hs : fs.inode_segments[s]? with
  | none => rw [hs] at h; simp at h
  | some sg =>
    rw [hs] at h
    simp only at h
    obtain ⟨hl, rfl⟩ := List.getElem?_eq_some_iff.mp hs
    obtain ⟨hl2, _⟩ := List.getElem?_eq_some_iff.mp h
    simp [List.getD_eq_getElem?_getD, hl, hl2, List.getElem?_set]

theorem slot_at_set_slot_other (fs : FS) (s o : Nat) (x : Inode) (s1 o1 : Nat)
    (h : s1 ≠ s ∨ o1 ≠ o) : slot_at (set_slot fs s o x) s1 o1 = slot_at fs s1 o1 := by
  unfold slot_at set_slot
  by_cases hs : s1 = s
  · subst hs
    have hb : o1 ≠ o := by
      rcases h with h | h
      · exact absurd rfl h
      · exact h
    cases hs : fs.inode_segments[s1]? with
    | none =>
      have : ¬ s1 < fs.inode_segments.length := by
        have := List.getElem?_eq_none_iff.mp hs
        omega
      simp [List.getElem?_set, this]
    | some sg =>
      obtain ⟨hl, rfl⟩ := List.getElem?_eq_some_iff.mp hs
      simp [List.getD_eq_getElem?_getD, hl, List.getElem?_set, Ne.symm hb]
  · simp [List.getElem?_set, Ne.symm hs]
/-! ## The allocator on inode tables without direct pointers -/

theorem direct_uses_zero (fs : FS) (s b : Nat) (ds : List Nat) (hz : ∀ d ∈ ds, d = 0)
    (hb : b ≠ 0) : direct_uses fs s b ds = .ok false := by
  induction ds with
  | nil => rfl
  | cons d ds ih =>
    have hd : d = 0 := hz d (by simp)
    subst hd
    have h0 : get_segment_and_block_offset fs (toInt32 0) = .ok (0, 0) := by
      simp [get_segment_and_block_offset, toInt32]
    simp only [direct_uses, h0]
    have hne : ¬ ((0 : Int) = (s : Int) ∧ (0 : Int) = (b : Int)) := by
      intro h
      have : (b : Int) = 0 := h.2.symm
      exact hb (by exact_mod_cast this)
    rw [if_neg hne]
    exact ih (fun d hd => hz d (by simp [hd]))

theorem inodes_use_zero (fs : FS) (s b : Nat) (inos : List Inode)
    (hz : ∀ ino ∈ inos, ∀ d ∈ ino.direct.take DIRECT_BLOCKS, d = 0) (hb : b ≠ 0) :
    inodes_use fs s b inos = .ok false := by
  induction inos with
  | nil => rfl
  | cons ino rest ih =>
    simp only [inodes_use, direct_uses_zero fs s b _ (hz ino (by simp)) hb]
    exact ih (fun i hi => hz i (by simp [hi]))

theorem inode_segments_use_zero (fs : FS) (s b : Nat) (tbl : List (List Inode))
    (hz : ptr_free tbl) (hb : b ≠ 0) : inode_segments_use fs s b tbl = .ok false := by
  induction tbl with
  | nil => rfl
  | cons sg rest ih =>
    simp only [inode_segments_use, inodes_use_zero fs s b sg (hz sg (by simp)) hb]
    exact ih (fun g hg => hz g (by simp [hg]))

theorem block_is_free_of_ptr_free (fs : FS) (s b : Nat) (blk : List Nat)
    (hp : ptr_free fs.inode_segments) (hb : b ≠ 0) (h : blk_at fs s b = some blk) :
    block_is_free fs s b = .ok (all_zero blk) := by
  simp only [block_is_free, inode_segments_use_zero fs s b _ hp hb, read_block_nat fs s b blk h]

theorem scan_blocks_append_false (fs : FS) (s : Nat) (bs1 bs2 : List Nat)
    (h : ∀ b ∈ bs1, block_is_free fs s b = .ok false) :
    scan_blocks fs s (bs1 ++ bs2) = scan_blocks fs s bs2 := by
  induction bs1 with
  | nil => rfl
  | cons b bs ih =>
    simp only [List.cons_append, scan_blocks, h b (by simp)]
    exact ih (fun x hx => h x (by simp [hx]))

theorem scan_blocks_all_false (fs : FS) (s : Nat) (bs : List Nat)
    (h : ∀ b ∈ bs, block_is_free fs s b = .ok false) : scan_blocks fs s bs = .ok none := by
  have := scan_blocks_append_false fs s bs [] h
  simpa [scan_blocks] using this

theorem scan_blocks_hit (fs : FS) (s b : Nat) (bs : List Nat)
    (h : block_is_free fs s b = .ok true) :
    scan_blocks fs s (b :: bs) = .ok (some (s * BLOCKS_PER_SEGMENT + b)) := by
  simp only [scan_blocks, h]

theorem scan_segments_append_none (fs : FS) (ss1 ss2 : List Nat)
    (h : ∀ s ∈ ss1, scan_blocks fs s (List.range' 1 (BLOCKS_PER_SEGMENT - 1)) = .ok none) :
    scan_segments fs (ss1 ++ ss2) = scan_segments fs ss2 := by
  induction ss1 with
  | nil => rfl
  | cons s ss ih =>
    simp only [List.cons_append, scan_segments, h s (by simp)]
    exact ih (fun x hx => h x (by simp [hx]))

theorem scan_segments_all_none (fs : FS) (ss : List Nat)
    (h : ∀ s ∈ ss, scan_blocks fs s (List.range' 1 (BLOCKS_PER_SEGMENT - 1)) = .ok none) :
    scan_segments fs ss = .ok none := by
  have := scan_segments_append_none fs ss [] h
  simpa [scan_segments] using this
/-! ## Sequential allocation -/

theorem all_zero_zero_block : all_zero zero_block = true := by decide!

theorem zero_data_segment_get (b : Nat) (hb : b < 256) :
    zero_data_segment[b]? = some zero_block := by
  simp [zero_data_segment, List.getElem?_replicate, hb]

theorem find_free_block_in_segment (fs : FS) (c : Nat × Nat) (h : SeqInv fs c) (hm : c.2 < 255) :
    find_free_block fs = .ok (cur_block (cur_next c), fs) := by
  obtain ⟨nf, m⟩ := c
  simp only at hm
  have hfull : ∀ s ∈ List.range nf,
      scan_blocks fs s (List.range' 1 (BLOCKS_PER_SEGMENT - 1)) = .ok none := by
    intro s hs
    apply scan_blocks_all_false
    intro b hb
    have hs' : s < nf := List.mem_range.mp hs
    rcases List.mem_range'_1.mp hb with ⟨hb1, hb2⟩
    obtain ⟨blk, h1, h2⟩ := h.full s b hs' hb1 (by simp at hb2; omega)
    rw [block_is_free_of_ptr_free fs s b blk h.ptrs (by omega) h1, h2]
  have hused : ∀ b ∈ List.range' 1 m, block_is_free fs nf b = .ok false := by
    intro b hb
    rcases List.mem_range'_1.mp hb with ⟨hb1, hb2⟩
    obtain ⟨blk, h1, h2⟩ := h.used b hb1 (by simp; omega)
    rw [block_is_free_of_ptr_free fs nf b blk h.ptrs (by omega) h1, h2]
  have hfree : block_is_free fs nf (m + 1) = .ok true := by
    rw [block_is_free_of_ptr_free fs nf (m + 1) zero_block h.ptrs (by omega)
      (h.rest (m + 1) (by simp) (by omega)), all_zero_zero_block]
  have hsplit : List.range' 1 (BLOCKS_PER_SEGMENT - 1)
      = List.range' 1 m ++ (m + 1) :: List.range' (m + 2) (254 - m) := by
    have : List.range' 1 (BLOCKS_PER_SEGMENT - 1) = List.range' 1 m ++ List.range' (1 + m) (255 - m) := by
      rw [List.range'_append_1]
      congr 1
      simp; omega
    rw [this]
    congr 1
    have h2 : 255 - m = (254 - m) + 1 := by omega
    rw [h2, List.range'_succ]
    congr 1
    · omega
    · congr 1; omega
  have hscan : scan_blocks fs nf (List.range' 1 (BLOCKS_PER_SEGMENT - 1))
      = .ok (some (nf * BLOCKS_PER_SEGMENT + (m + 1))) := by
    rw [hsplit, scan_blocks_append_false fs nf _ _ hused, scan_blocks_hit fs nf _ _ hfree]
  unfold find_free_block
  rw [h.nseg, List.range_succ, scan_segments_append_none fs _ _ hfull]
  simp only [scan_segments, hscan, cur_block, cur_next, if_pos hm]
theorem find_free_block_new_segment (fs : FS) (c : Nat × Nat) (h : SeqInv fs c)
    (hm : ¬ c.2 < 255) (hcap : c.1 + 1 < MAX_SEGMENTS) :
    find_free_block fs = .ok (cur_block (cur_next c), with_room fs c) := by
  obtain ⟨nf, m⟩ := c
  simp only at hm hcap
  have hm' : m = 255 := by have := h.m_le; simp only at this; omega
  subst hm'
  have hall : ∀ s ∈ List.range (nf + 1),
      scan_blocks fs s (List.range' 1 (BLOCKS_PER_SEGMENT - 1)) = .ok none := by
    intro s hs
    apply scan_blocks_all_false
    intro b hb
    have hs' : s < nf + 1 := List.mem_range.mp hs
    rcases List.mem_range'_1.mp hb with ⟨hb1, hb2⟩
    have hb3 : b ≤ 255 := by simp at hb2; omega
    by_cases hlt : s < nf
    · obtain ⟨blk, h1, h2⟩ := h.full s b hlt hb1 hb3
      rw [block_is_free_of_ptr_free fs s b blk h.ptrs (by omega) h1, h2]
    · have : s = nf := by omega
      subst this
      obtain ⟨blk, h1, h2⟩ := h.used b hb1 hb3
      rw [block_is_free_of_ptr_free fs s b blk h.ptrs (by omega) h1, h2]
  have hn : num_data_segments fs = nf + 1 := h.nseg
  unfold find_free_block
  rw [hn, scan_segments_all_none fs _ hall]
  have hc : ¬ num_data_segments fs ≥ MAX_SEGMENTS := by rw [hn]; omega
  simp only [create_new_data_segment, if_neg hc, with_room, if_neg hm, cur_block, cur_next]
  simp only [num_data_segments] at hn
  simp [num_data_segments, hn]

theorem find_free_block_seq (fs : FS) (c : Nat × Nat) (h : SeqInv fs c)
    (hcap : c.2 < 255 ∨ c.1 + 1 < MAX_SEGMENTS) :
    find_free_block fs = .ok (cur_block (cur_next c), with_room fs c) := by
  by_cases hm : c.2 < 255
  · rw [find_free_block_in_segment fs c h hm, with_room, if_pos hm]
  · rcases hcap with h1 | h1
    · exact absurd h1 hm
    · exact find_free_block_new_segment fs c h hm h1

@[simp] theorem with_room_inode_segments (fs : FS) (c : Nat × Nat) :
    (with_room fs c).inode_segments = fs.inode_segments := by
  unfold with_room
  split <;> rfl

theorem blk_at_with_room (fs : FS) (c : Nat × Nat) (s b : Nat) (x : List Nat)
    (h : blk_at fs s b = some x) : blk_at (with_room fs c) s b = some x := by
  unfold with_room
  split
  · exact h
  · unfold blk_at at h ⊢
    cases hs : fs.data_segments[s]? with
    | none => rw [hs] at h; simp at h
    | some sg =>
      obtain ⟨hl, _⟩ := List.getElem?_eq_some_iff.mp hs
      rw [hs] at h
      simp only [List.getElem?_append_left hl, hs]
      exact h

theorem SeqInv_with_room (fs : FS) (c : Nat × Nat) (h : SeqInv fs c) :
    SeqInv (with_room fs c) ((cur_next c).1, (cur_next c).2 - 1) := by
  obtain ⟨nf, m⟩ := c
  by_cases hm : m < 255
  · have e1 : with_room fs (nf, m) = fs := by simp [with_room, hm]
    have e2 : cur_next (nf, m) = (nf, m + 1) := by simp [cur_next, hm]
    rw [e1, e2]
    simpa using h
  · have hm' : m = 255 := by have := h.m_le; simp only at this; omega
    subst hm'
    have e2 : cur_next (nf, 255) = (nf + 1, 1) := by simp [cur_next]
    rw [e2]
    have hn : fs.data_segments.length = nf + 1 := h.nseg
    refine ⟨?_, ?_, ?_, ?_, ?_, ?_⟩
    · simpa using h.ptrs
    · simp [with_room, num_data_segments, hn]
    · simp
    · intro s b hs hb1 hb2
      simp only at hs
      by_cases hlt : s < nf
      · obtain ⟨blk, h1, h2⟩ := h.full s b hlt hb1 hb2
        exact ⟨blk, blk_at_with_room fs _ s b blk h1, h2⟩
      · have : s = nf := by omega
        subst this
        obtain ⟨blk, h1, h2⟩ := h.used b hb1 hb2
        exact ⟨blk, blk_at_with_room fs _ s b blk h1, h2⟩
    · intro b hb1 hb2
      simp only at hb2
      omega
    · intro b _ hb2
      simp only [with_room, blk_at]
      have : ¬ (255 < 255) := by omega
      simp only [if_neg this]
      have hl : (fs.data_segments ++ [zero_data_segment])[nf + 1]? = some zero_data_segment := by
        rw [List.getElem?_append_right (by omega)]
        simp [hn]
      simp only [hl]
      exact zero_data_segment_get b (by omega)

theorem SeqInv_write (fs : FS) (s m : Nat) (x : List Nat) (h : SeqInv fs (s, m)) (hm : m < 255)
    (hx : all_zero x = false) : SeqInv (set_blk fs s (m + 1) x) (s, m + 1) := by
  have hz : blk_at fs s (m + 1) = some zero_block := h.rest (m + 1) (by simp) (by omega)
  refine ⟨?_, ?_, ?_, ?_, ?_, ?_⟩
  · simpa using h.ptrs
  · simpa using h.nseg
  · simp; omega
  · intro s1 b hs hb1 hb2
    simp only at hs
    obtain ⟨blk, h1, h2⟩ := h.full s1 b hs hb1 hb2
    refine ⟨blk, ?_, h2⟩
    rw [blk_at_set_blk_other fs s (m + 1) x s1 b (Or.inl (by omega))]
    exact h1
  · intro b hb1 hb2
    simp only at hb2
    by_cases hb : b = m + 1
    · subst hb
      exact ⟨x, blk_at_set_blk_same fs s (m + 1) x _ hz, hx⟩
    · obtain ⟨blk, h1, h2⟩ := h.used b hb1 (by simp; omega)
      refine ⟨blk, ?_, h2⟩
      rw [blk_at_set_blk_other fs s (m + 1) x s b (Or.inr hb)]
      exact h1
  · intro b hb1 hb2
    simp only at hb1
    rw [blk_at_set_blk_other fs s (m + 1) x s b (Or.inr (by omega))]
    exact h.rest b (by simp; omega) hb2
theorem cur_next_snd_pos (c : Nat × Nat) (h : c.2 ≤ 255) :
    1 ≤ (cur_next c).2 ∧ (cur_next c).2 ≤ 255 := by
  unfold cur_next
  by_cases h1 : c.2 < 255
  · rw [if_pos h1]; simp only; omega
  · rw [if_neg h1]; simp only; omega

theorem cur_next_fst_lt (c : Nat × Nat) (h : c.2 ≤ 255) (hcnt : c.1 * 255 + c.2 < 255 * MAX_SEGMENTS) :
    (cur_next c).1 < MAX_SEGMENTS := by
  unfold cur_next
  by_cases h1 : c.2 < 255
  · rw [if_pos h1]; simp only; simp only [MAX_SEGMENTS] at *; omega
  · rw [if_neg h1]; simp only; simp only [MAX_SEGMENTS] at *; omega

theorem cur_next_count (c : Nat × Nat) (h : c.2 ≤ 255) :
    (cur_next c).1 * 255 + (cur_next c).2 = c.1 * 255 + c.2 + 1 := by
  unfold cur_next
  by_cases h1 : c.2 < 255
  · rw [if_pos h1]; dsimp only; omega
  · rw [if_neg h1]; dsimp only; omega

theorem SeqInv_step (fs : FS) (c : Nat × Nat) (x : List Nat) (h : SeqInv fs c)
    (hx : all_zero x = false) :
    SeqInv (set_blk (with_room fs c) (cur_next c).1 (cur_next c).2 x) (cur_next c) := by
  have h1 := SeqInv_with_room fs c h
  have hpos := cur_next_snd_pos c h.m_le
  have h2 := SeqInv_write (with_room fs c) (cur_next c).1 ((cur_next c).2 - 1) x h1 (by omega) hx
  have e : (cur_next c).2 - 1 + 1 = (cur_next c).2 := by omega
  rw [e] at h2
  exact h2

theorem blk_at_room (fs : FS) (c : Nat × Nat) (h : SeqInv fs c) :
    blk_at (with_room fs c) (cur_next c).1 (cur_next c).2 = some zero_block := by
  have h1 := SeqInv_with_room fs c h
  have hpos := cur_next_snd_pos c h.m_le
  exact h1.rest (cur_next c).2 (by simp; omega) hpos.2

theorem num_data_segments_with_room (fs : FS) (c : Nat × Nat) (h : SeqInv fs c) :
    num_data_segments (with_room fs c) = (cur_next c).1 + 1 :=
  (SeqInv_with_room fs c h).nseg

theorem find_free_block_count (fs : FS) (c : Nat × Nat) (h : SeqInv fs c)
    (hcnt : c.1 * 255 + c.2 < 255 * MAX_SEGMENTS) :
    find_free_block fs = .ok (cur_block (cur_next c), with_room fs c) := by
  apply find_free_block_seq fs c h
  by_cases h1 : c.2 < 255
  · exact Or.inl h1
  · right
    have := h.m_le
    simp only [MAX_SEGMENTS] at *
    omega

/-- The address of the block that `find_free_block` returned on a sequentially filled
archive. -/
theorem gsbo_after_alloc (fs : FS) (c : Nat × Nat) (h : SeqInv fs c)
    (hcnt : c.1 * 255 + c.2 < 255 * MAX_SEGMENTS) :
    get_segment_and_block_offset (with_room fs c) (toInt32 (cur_block (cur_next c)))
      = .ok (((cur_next c).1 : Int), ((cur_next c).2 : Int)) := by
  have hpos := cur_next_snd_pos c h.m_le
  have hseg := cur_next_fst_lt c h.m_le hcnt
  have hn := num_data_segments_with_room fs c h
  have hlt : cur_block (cur_next c) < 2147483648 := by
    unfold cur_block; simp only [MAX_SEGMENTS] at hseg; omega
  have hdiv : cur_block (cur_next c) / 256 = (cur_next c).1 := by unfold cur_block; omega
  have hmod : cur_block (cur_next c) % 256 = (cur_next c).2 := by unfold cur_block; omega
  rw [toInt32_of_lt _ hlt, gsbo_nat _ _ (by rw [hn]; unfold cur_block; omega)]
  simp only [hdiv, hmod]

theorem write_after_alloc (fs : FS) (c : Nat × Nat) (buffer : List Nat) (h : SeqInv fs c) :
    write_block (with_room fs c) ((cur_next c).1 : Int) ((cur_next c).2 : Int) buffer
      = .ok (seq_write fs c buffer) := by
  rw [write_block_nat _ _ _ zero_block buffer (blk_at_room fs c h)]
  rfl

/-- One iteration of the block writing loop on a sequentially filled archive. -/
theorem add_loop_step_seq (st : AddState) (c : Nat × Nat) (buffer : List Nat)
    (rest : List (List Nat)) (h : SeqInv st.fs c)
    (hcnt : c.1 * 255 + c.2 < 255 * MAX_SEGMENTS)
    (htb : st.total_blocks < DIRECT_BLOCKS + PTRS_PER_BLOCK) :
    add_loop st (buffer :: rest)
      = add_loop (note_block st (seq_write st.fs c buffer) (cur_block (cur_next c)) buffer.length)
          rest := by
  rw [add_loop, find_free_block_count st.fs c h hcnt]
  simp only [gsbo_after_alloc st.fs c h hcnt, write_after_alloc st.fs c buffer h]
  unfold note_block
  by_cases h12 : st.total_blocks < DIRECT_BLOCKS
  · simp only [if_pos h12]
  · simp only [if_neg h12, if_pos htb]
@[simp] theorem note_block_fs (st : AddState) (fs : FS) (block len : Nat) :
    (note_block st fs block len).fs = fs := by
  unfold note_block; split <;> rfl

@[simp] theorem note_block_total_blocks (st : AddState) (fs : FS) (block len : Nat) :
    (note_block st fs block len).total_blocks = st.total_blocks + 1 := by
  unfold note_block; split <;> rfl

@[simp] theorem note_block_indirect_double (st : AddState) (fs : FS) (block len : Nat) :
    (note_block st fs block len).indirect_double = st.indirect_double := by
  unfold note_block; split <;> rfl

@[simp] theorem note_block_double_level (st : AddState) (fs : FS) (block len : Nat) :
    (note_block st fs block len).double_level = st.double_level := by
  unfold note_block; split <;> rfl

@[simp] theorem note_block_size (st : AddState) (fs : FS) (block len : Nat) :
    (note_block st fs block len).new_file.size = (st.new_file.size + len) % 4294967296 := by
  unfold note_block; split <;> rfl

@[simp] theorem note_block_type (st : AddState) (fs : FS) (block len : Nat) :
    (note_block st fs block len).new_file.type = st.new_file.type := by
  unfold note_block; split <;> rfl

/-- The block writing loop on a sequentially filled archive: as long as the chunks hold
a non-zero byte and stay below the double-indirect range, the blocks are handed out in
sequence. -/
theorem add_loop_seq (chunks tail : List (List Nat)) :
    ∀ (st : AddState) (c : Nat × Nat), SeqInv st.fs c →
      c.1 * 255 + c.2 + chunks.length ≤ 255 * MAX_SEGMENTS →
      st.total_blocks + chunks.length ≤ DIRECT_BLOCKS + PTRS_PER_BLOCK →
      (∀ b ∈ chunks, all_zero (padded b) = false) →
      add_loop st (chunks ++ tail) = add_loop (seq_loop st c chunks) tail
        ∧ SeqInv (seq_loop st c chunks).fs (cur_iter chunks.length c)
        ∧ (seq_loop st c chunks).total_blocks = st.total_blocks + chunks.length := by
  induction chunks with
  | nil =>
    intro st c h _ _ _
    exact ⟨rfl, h, rfl⟩
  | cons buffer rest ih =>
    intro st c h hcnt htb hnz
    simp only [List.length_cons] at hcnt htb
    have hstep := add_loop_step_seq st c buffer (rest ++ tail) h (by omega) (by omega)
    have hinv : SeqInv (seq_write st.fs c buffer) (cur_next c) :=
      SeqInv_step st.fs c (padded buffer) h (hnz buffer (by simp))
    have hc := cur_next_count c h.m_le
    obtain ⟨h1, h2, h3⟩ := ih
      (note_block st (seq_write st.fs c buffer) (cur_block (cur_next c)) buffer.length)
      (cur_next c) (by simpa using hinv) (by omega) (by simp; omega)
      (fun b hb => hnz b (by simp [hb]))
    refine ⟨?_, ?_, ?_⟩
    · rw [List.cons_append, hstep, h1]
      rfl
    · exact h2
    · rw [seq_loop, h3]
      simp
      omega
theorem not_after_next (p c : Nat × Nat) (h : not_after p c) (hc : c.2 ≤ 255) :
    not_after p (cur_next c) ∧ (p.1 ≠ (cur_next c).1 ∨ p.2 ≠ (cur_next c).2) := by
  unfold not_after at *
  unfold cur_next
  by_cases h1 : c.2 < 255
  · rw [if_pos h1]; dsimp only; omega
  · rw [if_neg h1]; dsimp only; omega

theorem blk_at_seq_write_other (fs : FS) (c : Nat × Nat) (buffer : List Nat) (s b : Nat)
    (x : List Nat) (h : blk_at fs s b = some x) (hna : not_after (s, b) c) (hc : c.2 ≤ 255) :
    blk_at (seq_write fs c buffer) s b = some x := by
  unfold seq_write
  rw [blk_at_set_blk_other _ _ _ _ s b (not_after_next (s, b) c hna hc).2]
  exact blk_at_with_room fs c s b x h

theorem blk_at_seq_write_same (fs : FS) (c : Nat × Nat) (buffer : List Nat) (h : SeqInv fs c) :
    blk_at (seq_write fs c buffer) (cur_next c).1 (cur_next c).2 = some (padded buffer) := by
  unfold seq_write
  exact blk_at_set_blk_same _ _ _ _ _ (blk_at_room fs c h)

@[simp] theorem seq_write_inode_segments (fs : FS) (c : Nat × Nat) (buffer : List Nat) :
    (seq_write fs c buffer).inode_segments = fs.inode_segments := by
  simp [seq_write]

theorem seq_loop_blk_other (chunks : List (List Nat)) :
    ∀ (st : AddState) (c : Nat × Nat) (s b : Nat) (x : List Nat),
      blk_at st.fs s b = some x → not_after (s, b) c → c.2 ≤ 255 →
      blk_at (seq_loop st c chunks).fs s b = some x := by
  induction chunks with
  | nil => intro st c s b x h _ _; exact h
  | cons buffer rest ih =>
    intro st c s b x h hna hc
    rw [seq_loop]
    apply ih
    · simp only [note_block_fs]
      exact blk_at_seq_write_other st.fs c buffer s b x h hna hc
    · exact (not_after_next (s, b) c hna hc).1
    · exact (cur_next_snd_pos c hc).2

theorem seq_loop_inode_segments (chunks : List (List Nat)) :
    ∀ (st : AddState) (c : Nat × Nat),
      (seq_loop st c chunks).fs.inode_segments = st.fs.inode_segments := by
  induction chunks with
  | nil => intro st c; rfl
  | cons buffer rest ih =>
    intro st c
    rw [seq_loop, ih]
    simp

theorem seq_loop_ptrs (chunks : List (List Nat)) :
    ∀ (st : AddState) (c : Nat × Nat),
      ((seq_loop st c chunks).new_file.direct, (seq_loop st c chunks).indirect_single)
        = seq_ptrs st.total_blocks c chunks.length (st.new_file.direct, st.indirect_single) := by
  induction chunks with
  | nil => intro st c; rfl
  | cons buffer rest ih =>
    intro st c
    rw [seq_loop, ih, List.length_cons, seq_ptrs]
    simp only [note_block_total_blocks]
    congr 1
    unfold note_block
    split <;> rfl

theorem seq_loop_other_fields (chunks : List (List Nat)) :
    ∀ (st : AddState) (c : Nat × Nat),
      (seq_loop st c chunks).new_file.type = st.new_file.type
        ∧ (seq_loop st c chunks).new_file.indirect_single = st.new_file.indirect_single
        ∧ (seq_loop st c chunks).new_file.indirect_double = st.new_file.indirect_double
        ∧ (seq_loop st c chunks).indirect_double = st.indirect_double
        ∧ (seq_loop st c chunks).double_level = st.double_level := by
  induction chunks with
  | nil =>
    intro st c
    exact ⟨rfl, rfl, rfl, rfl, rfl⟩
  | cons buffer rest ih =>
    intro st c
    rw [seq_loop]
    obtain ⟨h1, h2, h3, h4, h5⟩ := ih
      (note_block st (seq_write st.fs c buffer) (cur_block (cur_next c)) buffer.length) (cur_next c)
    refine ⟨?_, ?_, ?_, ?_, ?_⟩
    · rw [h1]; simp
    · rw [h2]; unfold note_block; split <;> rfl
    · rw [h3]; unfold note_block; split <;> rfl
    · rw [h4]; simp
    · rw [h5]; simp

theorem seq_loop_size (chunks : List (List Nat)) :
    ∀ (st : AddState) (c : Nat × Nat), st.new_file.size < 4294967296 →
      (seq_loop st c chunks).new_file.size
        = (st.new_file.size + (chunks.map List.length).sum) % 4294967296 := by
  induction chunks with
  | nil =>
    intro st c h
    simp only [seq_loop, List.map_nil, List.sum_nil, Nat.add_zero]
    exact (Nat.mod_eq_of_lt h).symm
  | cons buffer rest ih =>
    intro st c h
    rw [seq_loop, ih _ _ (by simp only [note_block_size]; omega)]
    simp only [note_block_size, List.map_cons, List.sum_cons]
    omega
/-! ## The chunks of a host file -/

theorem file_chunks_eq (fuel : Nat) :
    ∀ (B : List Nat), B.length ≤ fuel →
      file_chunks fuel B
        = (List.range ((B.length + 4095) / 4096)).map (fun j => (B.drop (4096 * j)).take 4096) := by
  induction fuel with
  | zero =>
    intro B h
    have : B = [] := List.eq_nil_of_length_eq_zero (by omega)
    subst this
    rfl
  | succ fuel ih =>
    intro B h
    cases B with
    | nil => rfl
    | cons b bs =>
      rw [file_chunks]
      have hlen : ((b :: bs).drop BLOCK_SIZE).length ≤ fuel := by
        simp only [List.length_drop, List.length_cons, BLOCK_SIZE] at *
        omega
      rw [ih _ hlen]
      have hn : ((b :: bs).length + 4095) / 4096
          = (((b :: bs).drop BLOCK_SIZE).length + 4095) / 4096 + 1 := by
        simp only [List.length_drop, List.length_cons, BLOCK_SIZE]
        omega
      rw [hn, List.range_succ_eq_map, List.map_cons, List.map_map]
      congr 1
      apply List.map_congr_left
      intro j _
      simp only [Function.comp, List.drop_drop, BLOCK_SIZE]
      congr 2
      omega

theorem fresh_eq : fresh = ⟨[zero_inode_segment.set 0 root_inode], [zero_data_segment]⟩ := by
  decide!

theorem ptr_free_fresh : ptr_free fresh.inode_segments := by
  rw [fresh_eq]
  intro sg hsg ino hino d hd
  simp only [List.mem_singleton] at hsg
  subst hsg
  have h1 : ino = root_inode ∨ ino = zero_inode := by
    rcases List.mem_or_eq_of_mem_set hino with h | h
    · right
      exact List.eq_of_mem_replicate h
    · left; exact h
  rcases h1 with h | h
  · subst h
    have : root_inode.direct.take DIRECT_BLOCKS = List.replicate 12 0 := by decide
    rw [this] at hd
    exact List.eq_of_mem_replicate hd
  · subst h
    have : zero_inode.direct.take DIRECT_BLOCKS = List.replicate 12 0 := by decide
    rw [this] at hd
    exact List.eq_of_mem_replicate hd

theorem SeqInv_fresh : SeqInv fresh (0, 0) := by
  refine ⟨ptr_free_fresh, ?_, ?_, ?_, ?_, ?_⟩
  · rw [fresh_eq]; rfl
  · simp
  · intro s b hs; simp at hs
  · intro b h1 h2; simp only at h2; omega
  · intro b _ hb
    rw [fresh_eq]
    simp only [blk_at, List.getElem?_cons_zero]
    exact zero_data_segment_get b (by omega)
/-! ## The steps of `run_add` after the loop -/

theorem write_single_indirect_seq (st : AddState) (c : Nat × Nat) (h : SeqInv st.fs c)
    (hcnt : c.1 * 255 + c.2 < 255 * MAX_SEGMENTS) (htb : st.total_blocks > DIRECT_BLOCKS) :
    write_single_indirect st
      = .ok ({ st.new_file with indirect_single := cur_block (cur_next c) },
             seq_write st.fs c (ptrs_bytes st.indirect_single)) := by
  unfold write_single_indirect
  rw [if_pos htb, find_free_block_count st.fs c h hcnt]
  simp only [gsbo_after_alloc st.fs c h hcnt, write_after_alloc st.fs c _ h]

theorem write_single_indirect_small (st : AddState) (htb : ¬ st.total_blocks > DIRECT_BLOCKS) :
    write_single_indirect st = .ok (st.new_file, st.fs) := by
  unfold write_single_indirect
  rw [if_neg htb]

theorem write_double_indirect_small (st : AddState) (file1 : Inode) (fsa : FS)
    (htb : ¬ st.total_blocks > DIRECT_BLOCKS + PTRS_PER_BLOCK) :
    write_double_indirect st file1 fsa = .ok (file1, fsa) := by
  unfold write_double_indirect
  rw [if_neg htb]

theorem find_free_inode_fresh_table (fs : FS) (h : fs.inode_segments = fresh.inode_segments) :
    find_free_inode fs = .ok (1, fs) := by
  unfold find_free_inode
  rw [h]
  have : scan_inode_segments fresh.inode_segments 0 = some 1 := by decide!
  rw [this]

theorem slot_at_fresh_table (fs : FS) (h : fs.inode_segments = fresh.inode_segments) :
    slot_at fs 0 0 = some root_inode ∧ slot_at fs 0 1 = some zero_inode
      ∧ num_inode_segments fs = 1 := by
  unfold slot_at num_inode_segments
  rw [h]
  decide!

theorem entry_bytes_length (n : Nat) (name : List Nat) :
    (entry_bytes n name).length = 5 + (name.length % 256 + 1) := by
  unfold entry_bytes u32_bytes
  simp only [List.length_append, List.length_cons, List.length_nil, List.length_take,
    List.length_replicate, MAX_NAME_LEN]
  omega

theorem padded_length (bytes : List Nat) (h : bytes.length ≤ 4096) :
    (padded bytes).length = 4096 := by
  unfold padded zero_block
  simp only [List.length_append, List.length_drop, List.length_replicate, BLOCK_SIZE]
  omega

theorem dir_end_offset_zero_block : dir_end_offset zero_block BLOCK_SIZE 0 = .ok 0 := by
  decide!

/-- `update_directory_entry` on the empty root directory. -/
theorem update_directory_entry_empty_root (fs : FS) (n : Nat) (name : List Nat)
    (hroot : slot_at fs 0 0 = some root_inode) (hni : 0 < num_inode_segments fs)
    (hnd : 0 < num_data_segments fs) (hblk : blk_at fs 0 0 = some zero_block) :
    update_directory_entry fs 0 n name = .ok (set_blk fs 0 0 (padded (entry_bytes n name))) := by
  unfold update_directory_entry
  have h0 : toInt32 0 = ((0 : Nat) : Int) := by decide
  have hg := gsio_nat fs 0 (by omega)
  have hb := gsbo_nat fs 0 (by omega)
  have hd : root_inode.direct.getD 0 0 = 0 := by decide
  simp only [h0, hg, Nat.zero_div, Nat.zero_mod, read_inode_nat fs 0 0 root_inode hroot, hd, hb,
    read_block_nat fs 0 0 zero_block hblk, dir_end_offset_zero_block]
  have hlen := entry_bytes_length n name
  have hpoke : poke zero_block 0 (entry_bytes n name) = .ok (padded (entry_bytes n name)) := by
    unfold poke padded
    have : ¬ 0 + (entry_bytes n name).length > BLOCK_SIZE := by
      rw [hlen]; simp only [BLOCK_SIZE]; omega
    rw [if_neg this]
    simp
  simp only [hpoke]
  rw [write_block_nat fs 0 0 zero_block _ hblk]
  have hl : (padded (entry_bytes n name)).length = 4096 :=
    padded_length _ (by rw [hlen]; omega)
  have : List.drop (padded (entry_bytes n name)).length zero_block = [] := by
    rw [hl]; decide!
  rw [this, List.append_nil]
/-! ## Paths and their components -/

theorem takeWhile_component (c rest : List Nat) (hc : 47 ∉ c)
    (hr : rest = [] ∨ ∃ r, rest = 47 :: r) :
    (c ++ rest).takeWhile (fun x => x != 47) = c
      ∧ (c ++ rest).dropWhile (fun x => x != 47) = rest := by
  induction c with
  | nil =>
    rcases hr with h | ⟨r, h⟩
    · subst h; simp
    · subst h; simp
  | cons x xs ih =>
    have hx : x ≠ 47 := fun h => hc (by simp [h])
    have hxs : 47 ∉ xs := fun h => hc (by simp [h])
    obtain ⟨h1, h2⟩ := ih hxs
    simp only [List.cons_append, List.takeWhile_cons, List.dropWhile_cons]
    have : (x != 47) = true := by simp [hx]
    simp only [this, if_true, h1, h2, and_self]

theorem join_path_cons (c : List Nat) (cs : List (List Nat)) :
    join_path (c :: cs) = 47 :: (c ++ join_path cs) := by
  simp [join_path]

theorem join_path_head (cs : List (List Nat)) :
    join_path cs = [] ∨ ∃ r, join_path cs = 47 :: r := by
  cases cs with
  | nil => left; rfl
  | cons c cs => right; exact ⟨_, join_path_cons c cs⟩

theorem strtok_tokens_join (cs : List (List Nat)) :
    ∀ fuel, cs.length < fuel → (∀ c ∈ cs, c ≠ [] ∧ 47 ∉ c) →
      strtok_tokens fuel (join_path cs) = cs := by
  induction cs with
  | nil =>
    intro fuel hf _
    cases fuel with
    | zero => rfl
    | succ f => rfl
  | cons c cs ih =>
    intro fuel hf hcs
    cases fuel with
    | zero => simp at hf
    | succ f =>
      obtain ⟨hne, h47⟩ := hcs c (by simp)
      cases c with
      | nil => exact absurd rfl hne
      | cons x xs =>
        have hx : x ≠ 47 := fun h => h47 (by simp [h])
        obtain ⟨h1, h2⟩ := takeWhile_component (x :: xs) (join_path cs) h47 (join_path_head cs)
        rw [join_path_cons, strtok_tokens]
        have hd : (47 :: (x :: xs ++ join_path cs)).dropWhile (fun c => c == 47)
            = x :: (xs ++ join_path cs) := by
          simp [List.dropWhile_cons, hx]
        rw [hd]
        simp only
        rw [← List.cons_append, h1, h2, ih f (by simpa using hf) (fun c hc => hcs c (by simp [hc]))]

theorem path_tokens_join (cs : List (List Nat)) (hcs : ∀ c ∈ cs, c ≠ [] ∧ 47 ∉ c)
    (hlen : (join_path cs).length ≤ MAX_PATH - 1) (hn : cs.length < MAX_PATH) :
    path_tokens (join_path cs) = cs.take (MAX_PATH_DEPTH - 1) := by
  unfold path_tokens
  rw [List.take_of_length_le hlen, strtok_tokens_join cs MAX_PATH hn hcs]

theorem split_last_slash_root (name : List Nat) (h47 : 47 ∉ name) :
    split_last_slash (47 :: name) = some ([], name) := by
  unfold split_last_slash
  have hrev : 47 ∉ name.reverse := by simpa using h47
  obtain ⟨h1, h2⟩ := takeWhile_component name.reverse [47] hrev (Or.inr ⟨[], rfl⟩)
  simp only [List.reverse_cons, h1, h2, List.reverse_nil, List.reverse_reverse]
theorem join_path_length_ge (cs : List (List Nat)) : cs.length ≤ (join_path cs).length := by
  induction cs with
  | nil => simp [join_path]
  | cons c cs ih =>
    rw [join_path_cons]
    simp only [List.length_cons, List.length_append]
    omega

theorem path_tokens_single (name : List Nat) (hne : name ≠ []) (h47 : 47 ∉ name) :
    path_tokens (47 :: name) = [name.take 1022] := by
  unfold path_tokens
  have h1 : (47 :: name).take (MAX_PATH - 1) = join_path [name.take 1022] := by
    show (47 :: name).take 1023 = join_path [name.take 1022]
    simp [join_path]
  have hne' : name.take 1022 ≠ [] := by
    cases name with
    | nil => exact absurd rfl hne
    | cons x xs => simp
  have h47' : 47 ∉ name.take 1022 := fun h => h47 (List.mem_of_mem_take h)
  rw [h1, strtok_tokens_join [name.take 1022] MAX_PATH (by simp)
    (by intro c hc; simp only [List.mem_singleton] at hc; subst hc; exact ⟨hne', h47'⟩)]
  simp

theorem find_or_create_path_root (fs : FS) (name : List Nat) (hne : name ≠ [])
    (h47 : 47 ∉ name) : find_or_create_path fs (47 :: name) = .ok (0, fs) := by
  unfold find_or_create_path
  rw [path_tokens_single name hne h47]
  simp [create_path_loop]

theorem seq_loop_append (xs ys : List (List Nat)) :
    ∀ (st : AddState) (c : Nat × Nat),
      seq_loop st c (xs ++ ys) = seq_loop (seq_loop st c xs) (cur_iter xs.length c) ys := by
  induction xs with
  | nil => intro st c; rfl
  | cons x xs ih =>
    intro st c
    simp only [List.cons_append, seq_loop, List.length_cons, cur_iter]
    exact ih _ _

theorem cur_iter_count (n : Nat) :
    ∀ c : Nat × Nat, c.2 ≤ 255 →
      (cur_iter n c).1 * 255 + (cur_iter n c).2 = c.1 * 255 + c.2 + n ∧ (cur_iter n c).2 ≤ 255 := by
  induction n with
  | zero => intro c h; exact ⟨by simp [cur_iter], h⟩
  | succ n ih =>
    intro c h
    rw [cur_iter]
    obtain ⟨h1, h2⟩ := ih (cur_next c) (cur_next_snd_pos c h).2
    have := cur_next_count c h
    exact ⟨by omega, h2⟩

/-- The block writing loop on a sequentially filled archive when every chunk but the last
holds a non-zero byte. -/
theorem add_loop_seq_last (chunks : List (List Nat)) (st : AddState) (c : Nat × Nat)
    (h : SeqInv st.fs c) (hcnt : c.1 * 255 + c.2 + chunks.length ≤ 255 * MAX_SEGMENTS)
    (htb : st.total_blocks + chunks.length ≤ DIRECT_BLOCKS + PTRS_PER_BLOCK)
    (hnz : ∀ j (hj : j < chunks.length), j + 1 < chunks.length →
      all_zero (padded (chunks[j])) = false) :
    add_loop st chunks = .ok (seq_loop st c chunks, false) := by
  rcases List.eq_nil_or_concat chunks with h0 | ⟨pre, last, h0⟩
  · subst h0; rfl
  · subst h0
    simp only [List.concat_eq_append, List.length_append, List.length_singleton,
      MAX_SEGMENTS, DIRECT_BLOCKS, PTRS_PER_BLOCK, BLOCK_SIZE, sizeof_uint32] at *
    have hpre : ∀ b ∈ pre, all_zero (padded b) = false := by
      intro b hb
      obtain ⟨j, hj, rfl⟩ := List.getElem_of_mem hb
      have := hnz j (by omega) (by omega)
      rw [List.getElem_append_left hj] at this
      exact this
    obtain ⟨h1, h2, h3⟩ := add_loop_seq pre [last] st c h
      (by simp only [MAX_SEGMENTS]; omega)
      (by simp only [DIRECT_BLOCKS, PTRS_PER_BLOCK, BLOCK_SIZE, sizeof_uint32]; omega) hpre
    obtain ⟨hc1, hc2⟩ := cur_iter_count pre.length c h.m_le
    rw [h1, add_loop_step_seq _ _ last [] h2 (by simp only [MAX_SEGMENTS]; omega)
      (by simp only [DIRECT_BLOCKS, PTRS_PER_BLOCK, BLOCK_SIZE, sizeof_uint32]; omega),
      seq_loop_append]
    simp [seq_loop, add_loop]
theorem num_data_segments_pos_of_blk (fs : FS) (s b : Nat) (x : List Nat)
    (h : blk_at fs s b = some x) : s < num_data_segments fs := by
  unfold blk_at at h
  unfold num_data_segments
  cases hs : fs.data_segments[s]? with
  | none => rw [hs] at h; simp at h
  | some sg => exact (List.getElem?_eq_some_iff.mp hs).1

/-- The steps "Write inode" and "Add directory entry" when the inode table is the one of
a fresh archive and the root directory is empty. -/
theorem write_file_inode_fresh_table (fs : FS) (file : Inode) (name : List Nat)
    (h : fs.inode_segments = fresh.inode_segments) (hblk : blk_at fs 0 0 = some zero_block) :
    write_file_inode fs file 0 name
      = .ok (set_blk (set_slot fs 0 1 file) 0 0 (padded (entry_bytes 1 name))) := by
  obtain ⟨hroot, hslot, hn⟩ := slot_at_fresh_table fs h
  unfold write_file_inode
  rw [find_free_inode_fresh_table fs h]
  have hg := gsio_nat fs 1 (by omega)
  simp only [hg, Nat.reduceDiv, Nat.reduceMod, write_inode_nat fs 0 1 zero_inode file hslot]
  apply update_directory_entry_empty_root
  · rw [slot_at_set_slot_other fs 0 1 file 0 0 (Or.inr (by omega))]
    exact hroot
  · simp; omega
  · simp; exact num_data_segments_pos_of_blk fs 0 0 _ hblk
  · simpa using hblk

theorem file_chunks_length (host : List Nat) :
    (file_chunks host.length host).length = (host.length + 4095) / 4096 := by
  rw [file_chunks_eq host.length host (le_refl _)]
  simp

theorem file_chunks_getElem (host : List Nat) (j : Nat)
    (hj : j < (file_chunks host.length host).length) :
    (file_chunks host.length host)[j] = (host.drop (4096 * j)).take 4096 := by
  have h := file_chunks_eq host.length host (le_refl _)
  have : (file_chunks host.length host)[j]? = some ((host.drop (4096 * j)).take 4096) := by
    rw [h]
    rw [file_chunks_length] at hj
    simp [List.getElem?_map, List.getElem?_range hj]
  exact (List.getElem?_eq_some_iff.mp this).2

theorem seq_loop_total_blocks (chunks : List (List Nat)) :
    ∀ (st : AddState) (c : Nat × Nat),
      (seq_loop st c chunks).total_blocks = st.total_blocks + chunks.length := by
  induction chunks with
  | nil => intro st c; rfl
  | cons buffer rest ih =>
    intro st c
    rw [seq_loop, ih]
    simp only [note_block_total_blocks, List.length_cons]
    omega

theorem fresh_loop_total_blocks (host : List Nat) :
    (fresh_loop host).total_blocks = (host.length + 4095) / 4096 := by
  unfold fresh_loop
  rw [seq_loop_total_blocks, file_chunks_length]
  simp [add_init]

theorem blk_at_fresh_zero : blk_at fresh 0 0 = some zero_block := by
  rw [fresh_eq]
  simp only [blk_at, List.getElem?_cons_zero]
  exact zero_data_segment_get 0 (by omega)

theorem fresh_loop_facts (host : List Nat) :
    (fresh_loop host).fs.inode_segments = fresh.inode_segments
      ∧ blk_at (fresh_loop host).fs 0 0 = some zero_block := by
  unfold fresh_loop
  refine ⟨?_, ?_⟩
  · rw [seq_loop_inode_segments]; rfl
  · apply seq_loop_blk_other
    · exact blk_at_fresh_zero
    · left; rfl
    · simp

/-- The block writing loop of `run_add` on a fresh archive for a host file of at most
`12 + 1024` chunks whose chunks, the last one apart, hold a non-zero byte. -/
theorem add_loop_fresh (host : List Nat)
    (hlen : host.length ≤ (12 + 1024) * 4096)
    (hnz : ∀ j, 4096 * (j + 1) < host.length →
      all_zero (padded ((host.drop (4096 * j)).take 4096)) = false) :
    add_loop (add_init fresh) (file_chunks host.length host) = .ok (fresh_loop host, false) := by
  unfold fresh_loop
  have hl := file_chunks_length host
  apply add_loop_seq_last _ _ _ SeqInv_fresh
  · rw [hl]; simp only [MAX_SEGMENTS]; omega
  · rw [hl]
    show 0 + _ ≤ _
    simp only [DIRECT_BLOCKS, PTRS_PER_BLOCK, BLOCK_SIZE, sizeof_uint32]
    omega
  · intro j hj hj1
    rw [file_chunks_getElem host j hj]
    apply hnz
    rw [hl] at hj1
    omega

/-- `run_add` of a host file of at most twelve chunks under a root-level name in a fresh
archive, when every chunk but the last holds a non-zero byte. -/
theorem run_add_root_direct (name host : List Nat) (hne : name ≠ []) (h47 : 47 ∉ name)
    (hlen : host.length ≤ 12 * 4096)
    (hnz : ∀ j, 4096 * (j + 1) < host.length →
      all_zero (padded ((host.drop (4096 * j)).take 4096)) = false) :
    run_add fresh (47 :: name) (some host) = .ok (.added, small_add_fs name host) := by
  unfold run_add
  rw [split_last_slash_root name h47]
  have hl : ¬ name.length = 0 := by
    intro h; exact hne (List.eq_nil_of_length_eq_zero h)
  simp only [if_neg hl, find_or_create_path_root fresh name hne h47]
  have h0 : ¬ toInt32 0 < 0 := by decide
  simp only [if_neg h0, add_loop_fresh host (by omega) hnz]
  obtain ⟨hi, hb⟩ := fresh_loop_facts host
  have htb := fresh_loop_total_blocks host
  have h12 : ¬ (fresh_loop host).total_blocks > DIRECT_BLOCKS := by
    rw [htb]; simp only [DIRECT_BLOCKS]; omega
  have h1036 : ¬ (fresh_loop host).total_blocks > DIRECT_BLOCKS + PTRS_PER_BLOCK := by
    rw [htb]; simp only [DIRECT_BLOCKS, PTRS_PER_BLOCK, BLOCK_SIZE, sizeof_uint32]; omega
  unfold add_finish
  simp only [write_single_indirect_small _ h12, write_double_indirect_small _ _ _ h1036,
    write_file_inode_fresh_table _ _ name hi hb]
  rfl
/-! ## Looking up the entry written into an empty directory block -/

theorem entry_bytes_short (n : Nat) (name : List Nat) (h : name.length ≤ 255) :
    entry_bytes n name = u32_bytes n ++ [name.length] ++ (name ++ [0]) := by
  unfold entry_bytes
  have h1 : name.length % 256 = name.length := Nat.mod_eq_of_lt (by omega)
  have h2 : name.take MAX_NAME_LEN = name := List.take_of_length_le h
  rw [h1, h2]
  congr 1
  rw [List.take_append_eq_append_take]
  have h3 : name.take (name.length + 1) = name := List.take_of_length_le (by omega)
  have h4 : name.length + 1 - name.length = 1 := by omega
  rw [h3, h4]
  rfl

theorem strncmp_eq_prefix (name rest : List Nat) :
    strncmp_eq (name ++ rest) name name.length = .ok true := by
  induction name with
  | nil => simp [strncmp_eq]
  | cons x xs ih =>
    simp only [List.cons_append, List.length_cons, strncmp_eq, if_true]
    exact ih

theorem u32_bytes_small (n : Nat) (h : n < 256) : u32_bytes n = [n, 0, 0, 0] := by
  unfold u32_bytes
  have h1 : n % 256 = n := Nat.mod_eq_of_lt h
  have h2 : n / 256 = 0 := Nat.div_eq_of_lt h
  have h3 : n / 65536 = 0 := Nat.div_eq_of_lt (by omega)
  have h4 : n / 16777216 = 0 := Nat.div_eq_of_lt (by omega)
  simp [h1, h2, h3, h4]

/-- The first record of a block that starts with the entry `(n, name)`. -/
theorem read_slot_first_entry (n : Nat) (name rest : List Nat) (hn : 0 < n) (hn2 : n < 256)
    (hne : name ≠ []) (h : name.length ≤ 255) :
    read_slot (entry_bytes n name ++ rest) 0 = .ok (.entry n name.length) := by
  rw [entry_bytes_short n name h, u32_bytes_small n hn2]
  unfold read_slot read_u32
  have hl : name.length ≠ 0 := fun h0 => hne (List.eq_nil_of_length_eq_zero h0)
  have hn0 : n ≠ 0 := by omega
  simp [List.getD_eq_getElem?_getD, hn0, hne, BLOCK_SIZE, sizeof_uint32, sizeof_uint8]

theorem drop_first_entry (n : Nat) (name rest : List Nat) (hn2 : n < 256)
    (h : name.length ≤ 255) :
    (entry_bytes n name ++ rest).drop 5 = name ++ ([0] ++ rest) := by
  rw [entry_bytes_short n name h, u32_bytes_small n hn2]
  simp

theorem dir_find_exact_first (n : Nat) (name rest : List Nat) (hn : 0 < n) (hn2 : n < 256)
    (hne : name ≠ []) (h : name.length ≤ 255) :
    dir_find_exact (entry_bytes n name ++ rest) name BLOCK_SIZE 0 = .ok (some (n, 0)) := by
  show dir_find_exact (entry_bytes n name ++ rest) name (4095 + 1) 0 = .ok (some (n, 0))
  rw [dir_find_exact]
  have h0 : (0 : Nat) < BLOCK_SIZE := by decide
  simp only [if_pos h0, read_slot_first_entry n name rest hn hn2 hne h, if_true,
    Nat.zero_add, drop_first_entry n name rest hn2 h, strncmp_eq_prefix]

theorem dir_find_cast_first (n : Nat) (name rest : List Nat) (hn : 0 < n) (hn2 : n < 256)
    (hne : name ≠ []) (h : name.length ≤ 255) :
    dir_find_cast (entry_bytes n name ++ rest) name BLOCK_SIZE 0 = .ok (some n) := by
  show dir_find_cast (entry_bytes n name ++ rest) name (4095 + 1) 0 = .ok (some n)
  rw [dir_find_cast]
  have h0 : (0 : Nat) < BLOCK_SIZE := by decide
  have h1 : name.length % 256 = name.length := Nat.mod_eq_of_lt (by omega)
  simp only [if_pos h0, read_slot_first_entry n name rest hn hn2 hne h,
    Nat.zero_add, drop_first_entry n name rest hn2 h, strncmp_eq_prefix, h1, if_true]
/-! ## Reading a file back -/

theorem padded_take (c : List Nat) : (padded c).take c.length = c := by
  unfold padded
  simp

theorem emit_blocks_zero (fs : FS) (ps : List Nat) : emit_blocks fs ps 0 = .ok (0, []) := by
  cases ps with
  | nil => rfl
  | cons p ps => simp [emit_blocks]

/-- The pointer loop of `run_extract` over blocks that hold the chunks `cs` of a file:
it emits the chunks and ends with `remaining = 0`. -/
theorem emit_blocks_chunks (fs : FS) (cs : List (List Nat)) :
    ∀ (ps tail : List Nat), ps.length = cs.length →
      (∀ j (h1 : j < ps.length) (h2 : j < cs.length), holds_chunk fs ps[j] cs[j]) →
      (∀ j (h : j < cs.length), 0 < cs[j].length ∧ cs[j].length ≤ 4096
        ∧ (j + 1 < cs.length → cs[j].length = 4096)) →
      emit_blocks fs (ps ++ tail) (cs.map List.length).sum = .ok (0, cs.flatten) := by
  induction cs with
  | nil =>
    intro ps tail hl _ _
    simp only [List.map_nil, List.sum_nil, List.flatten_nil]
    exact emit_blocks_zero fs _
  | cons c cs ih =>
    intro ps tail hl hh hc
    cases ps with
    | nil => simp at hl
    | cons p ps =>
      obtain ⟨hp0, hp1, hp2, hp3⟩ := hh 0 (by simp) (by simp)
      obtain ⟨hc1, hc2, hc3⟩ := hc 0 (by simp)
      simp only [List.getElem_cons_zero] at hp0 hp1 hp2 hp3 hc1 hc2 hc3
      simp only [List.length_cons] at hc3 hl
      have ih' := ih ps tail (by omega)
        (fun j h1 h2 => by
          have := hh (j + 1) (by simp; omega) (by simp; omega)
          simpa using this)
        (fun j h => by
          have := hc (j + 1) (by simp; omega)
          simp only [List.getElem_cons_succ, List.length_cons] at this
          exact ⟨this.1, this.2.1, fun h' => this.2.2 (by omega)⟩)
      have hrem : (List.map List.length (c :: cs)).sum > 0 := by
        simp only [List.map_cons, List.sum_cons]; omega
      simp only [List.cons_append, emit_blocks, if_pos hrem, if_neg hp0, toInt32_of_lt p hp2,
        gsbo_nat fs p hp1, read_block_nat fs _ _ _ hp3]
      have hto : (if (List.map List.length (c :: cs)).sum > BLOCK_SIZE then BLOCK_SIZE
          else (List.map List.length (c :: cs)).sum) = c.length := by
        simp only [List.map_cons, List.sum_cons, BLOCK_SIZE]
        cases cs with
        | nil => simp; omega
        | cons c2 cs2 =>
          have h4096 := hc3 (by simp)
          have hc2pos := (hc 1 (by simp)).1
          simp only [List.getElem_cons_succ, List.getElem_cons_zero] at hc2pos
          simp only [List.map_cons, List.sum_cons]
          rw [if_pos (by omega)]
          omega
      rw [hto]
      have hsub : (List.map List.length (c :: cs)).sum - c.length = (cs.map List.length).sum := by
        simp
      have ih2 : emit_blocks fs (ps.append tail) (cs.map List.length).sum
          = .ok (0, cs.flatten) := ih'
      rw [hsub, ih2, padded_take]
      simp
theorem file_chunks_flatten (fuel : Nat) :
    ∀ (B : List Nat), B.length ≤ fuel → (file_chunks fuel B).flatten = B := by
  induction fuel with
  | zero =>
    intro B h
    have : B = [] := List.eq_nil_of_length_eq_zero (by omega)
    subst this
    rfl
  | succ fuel ih =>
    intro B h
    cases B with
    | nil => rfl
    | cons b bs =>
      rw [file_chunks]
      have hlen : ((b :: bs).drop BLOCK_SIZE).length ≤ fuel := by
        simp only [List.length_drop, List.length_cons, BLOCK_SIZE] at *
        omega
      rw [List.flatten_cons, ih _ hlen, List.take_append_drop]

theorem file_chunks_sum (host : List Nat) :
    ((file_chunks host.length host).map List.length).sum = host.length := by
  have h := congrArg List.length (file_chunks_flatten host.length host (le_refl _))
  rw [List.length_flatten] at h
  exact h

theorem file_chunks_sizes (host : List Nat) (j : Nat)
    (hj : j < (file_chunks host.length host).length) :
    0 < ((file_chunks host.length host)[j]).length
      ∧ ((file_chunks host.length host)[j]).length ≤ 4096
      ∧ (j + 1 < (file_chunks host.length host).length →
          ((file_chunks host.length host)[j]).length = 4096) := by
  rw [file_chunks_getElem host j hj]
  rw [file_chunks_length] at hj ⊢
  simp only [List.length_take, List.length_drop]
  omega

theorem cur_iter_small (n : Nat) : ∀ m, m + n ≤ 255 → cur_iter n (0, m) = (0, m + n) := by
  induction n with
  | zero => intro m _; rfl
  | succ n ih =>
    intro m h
    rw [cur_iter]
    have : cur_next (0, m) = (0, m + 1) := by
      unfold cur_next
      rw [if_pos (by simp; omega)]
    rw [this, ih (m + 1) (by omega)]
    congr 1
    omega

/-- The block of the `j`-th chunk after the sequential loop, when the chunks before it
hold a non-zero byte. -/
theorem seq_loop_content (chunks : List (List Nat)) :
    ∀ (st : AddState) (c : Nat × Nat), SeqInv st.fs c →
      ∀ (j : Nat) (hj : j < chunks.length),
        (∀ i (hi : i < chunks.length), i < j → all_zero (padded chunks[i]) = false) →
        blk_at (seq_loop st c chunks).fs (cur_iter (j + 1) c).1 (cur_iter (j + 1) c).2
          = some (padded chunks[j]) := by
  induction chunks with
  | nil => intro st c _ j hj; simp at hj
  | cons buffer rest ih =>
    intro st c h j hj hnz
    rw [seq_loop]
    cases j with
    | zero =>
      apply seq_loop_blk_other
      · simp only [note_block_fs]
        exact blk_at_seq_write_same st.fs c buffer h
      · unfold not_after cur_iter cur_iter
        right; right
        exact ⟨rfl, le_refl _⟩
      · exact (cur_next_snd_pos c h.m_le).2
    | succ j =>
      have hb : all_zero (padded buffer) = false := by
        have := hnz 0 (by simp) (by omega)
        simpa using this
      have hinv : SeqInv (seq_write st.fs c buffer) (cur_next c) :=
        SeqInv_step st.fs c (padded buffer) h hb
      have := ih (note_block st (seq_write st.fs c buffer) (cur_block (cur_next c)) buffer.length)
        (cur_next c) (by simpa using hinv) j (by simpa using hj)
        (fun i hi hij => by
          have := hnz (i + 1) (by simp; omega) (by omega)
          simpa using this)
      simpa [cur_iter] using this

theorem seq_ptrs_direct_small :
    ∀ n, n ≤ 12 →
      (seq_ptrs 0 (0, 0) n (List.replicate 12 0, List.replicate 1024 0)).1
        = List.range' 1 n ++ List.replicate (12 - n) 0 := by
  decide
/-! ## The archive after a small root-level add -/

theorem fresh_loop_fields (host : List Nat) (hlen : host.length ≤ 12 * 4096) :
    (fresh_loop host).new_file.type = TYPE_FILE
      ∧ (fresh_loop host).new_file.size = host.length
      ∧ (fresh_loop host).new_file.indirect_single = 0
      ∧ (fresh_loop host).new_file.indirect_double = 0
      ∧ (fresh_loop host).new_file.direct
          = List.range' 1 ((host.length + 4095) / 4096)
              ++ List.replicate (12 - (host.length + 4095) / 4096) 0 := by
  obtain ⟨h1, h2, h3, _, _⟩ :=
    seq_loop_other_fields (file_chunks host.length host) (add_init fresh) (0, 0)
  have h4 := seq_loop_size (file_chunks host.length host) (add_init fresh) (0, 0) (by decide)
  have h5 := seq_loop_ptrs (file_chunks host.length host) (add_init fresh) (0, 0)
  unfold fresh_loop
  refine ⟨h1, ?_, h2, h3, ?_⟩
  · rw [h4, file_chunks_sum]
    show (0 + host.length) % 4294967296 = host.length
    rw [Nat.zero_add]
    exact Nat.mod_eq_of_lt (by omega)
  · have h6 := congrArg Prod.fst h5
    simp only at h6
    rw [h6, file_chunks_length]
    exact seq_ptrs_direct_small _ (by omega)

theorem small_add_fs_facts (name host : List Nat) :
    slot_at (small_add_fs name host) 0 0 = some root_inode
      ∧ slot_at (small_add_fs name host) 0 1 = some (fresh_loop host).new_file
      ∧ num_inode_segments (small_add_fs name host) = 1
      ∧ blk_at (small_add_fs name host) 0 0 = some (padded (entry_bytes 1 name))
      ∧ 0 < num_data_segments (small_add_fs name host) := by
  obtain ⟨hi, hb⟩ := fresh_loop_facts host
  obtain ⟨hroot, hslot, hn⟩ := slot_at_fresh_table _ hi
  unfold small_add_fs
  refine ⟨?_, ?_, ?_, ?_, ?_⟩
  · rw [slot_at_set_blk, slot_at_set_slot_other _ _ _ _ _ _ (Or.inr (by omega))]
    exact hroot
  · rw [slot_at_set_blk]
    exact slot_at_set_slot_same _ _ _ _ _ hslot
  · simpa using hn
  · exact blk_at_set_blk_same _ _ _ _ _ (by simpa using hb)
  · simp
    exact num_data_segments_pos_of_blk _ 0 0 _ hb

theorem gsio_zero (fs : FS) (h : 0 < num_inode_segments fs) :
    get_segment_and_inode_offset fs 0 = .ok (0, 0) := by
  have := gsio_nat fs 0 (by omega)
  simpa using this

theorem gsbo_zero (fs : FS) : get_segment_and_block_offset fs 0 = .ok (0, 0) := by
  simp [get_segment_and_block_offset]

theorem read_inode_zero (fs : FS) (o : Nat) (ino : Inode) (h : slot_at fs 0 o = some ino) :
    read_inode fs 0 (o : Int) = .ok ino := by
  have := read_inode_nat fs 0 o ino h
  simpa using this

/-- The file stored under a root-level name of at most 255 bytes is found under that name. -/
theorem find_inode_by_path_small (name host : List Nat) (hne : name ≠ []) (h47 : 47 ∉ name)
    (hname : name.length ≤ 255) :
    find_inode_by_path (small_add_fs name host) (47 :: name) = .ok 1 := by
  obtain ⟨hroot, hslot, hn, hblk, hnd⟩ := small_add_fs_facts name host
  unfold find_inode_by_path
  rw [path_tokens_single name hne h47, List.take_of_length_le (by omega)]
  have h0 : toInt32 0 = 0 := by decide
  have h1 : toInt32 1 = 1 := by decide
  have hd : root_inode.direct.getD 0 0 = 0 := by decide
  have ht : ¬ root_inode.type ≠ TYPE_DIR := by decide
  have hrb : read_block (small_add_fs name host) 0 0 = .ok (padded (entry_bytes 1 name)) := by
    have := read_block_nat _ 0 0 _ hblk
    simpa using this
  have hri : read_inode (small_add_fs name host) 0 0 = .ok root_inode := by
    have := read_inode_nat _ 0 0 _ hroot
    simpa using this
  have hg := gsio_zero (small_add_fs name host) (by omega)
  simp only [find_inode_loop, h0, hg, hri, if_neg ht, hd, gsbo_zero, hrb]
  unfold padded
  rw [dir_find_cast_first 1 name _ (by omega) (by omega) hne hname]
  simp only [h1]
theorem extract_path_tail_root (name : List Nat) (hne : name ≠ []) (h47 : 47 ∉ name)
    (hname : name.length ≤ 1022) : extract_path_tail (47 :: name) = some ([47], name) := by
  unfold extract_path_tail
  have : (47 :: name).take (MAX_PATH - 1) = 47 :: name :=
    List.take_of_length_le (by simp only [List.length_cons, MAX_PATH]; omega)
  rw [this, split_last_slash_root name h47]
  simp [hne]

theorem find_inode_by_path_slash (fs : FS) : find_inode_by_path fs [47] = .ok 0 := by
  unfold find_inode_by_path
  have : path_tokens [47] = [] := by decide
  rw [this]
  rfl

/-- The blocks of the direct pointers of the stored file hold its chunks. -/
theorem small_add_fs_holds (name host : List Nat) (hlen : host.length ≤ 12 * 4096)
    (hnz : ∀ j, 4096 * (j + 1) < host.length →
      all_zero (padded ((host.drop (4096 * j)).take 4096)) = false)
    (j : Nat) (h1 : j < (List.range' 1 ((host.length + 4095) / 4096)).length)
    (h2 : j < (file_chunks host.length host).length) :
    holds_chunk (small_add_fs name host) (List.range' 1 ((host.length + 4095) / 4096))[j]
      (file_chunks host.length host)[j] := by
  obtain ⟨_, _, _, _, hnd⟩ := small_add_fs_facts name host
  have hl := file_chunks_length host
  have hj : j < (host.length + 4095) / 4096 := by rw [hl] at h2; exact h2
  have hj12 : j < 12 := by omega
  rw [List.getElem_range']
  simp only [Nat.one_mul]
  refine ⟨by omega, by omega, by omega, ?_⟩
  have hdiv : (1 + j) / 256 = 0 := Nat.div_eq_of_lt (by omega)
  have hmod : (1 + j) % 256 = 1 + j := Nat.mod_eq_of_lt (by omega)
  rw [hdiv, hmod]
  unfold small_add_fs
  rw [blk_at_set_blk_other _ _ _ _ _ _ (Or.inr (by omega)), blk_at_set_slot]
  have hc := seq_loop_content (file_chunks host.length host) (add_init fresh) (0, 0)
    SeqInv_fresh j h2
    (fun i hi hij => by
      rw [file_chunks_getElem host i hi]
      apply hnz
      rw [hl] at hi
      omega)
  rw [cur_iter_small (j + 1) 0 (by omega)] at hc
  simp only [Nat.zero_add] at hc
  have e : 1 + j = j + 1 := by omega
  rw [e]
  exact hc

/-- Round trip for small files: a host file of at most twelve chunks whose chunks, the
last one apart, hold a non-zero byte is extracted unchanged. -/
theorem run_extract_small (name host : List Nat) (hne : name ≠ []) (h47 : 47 ∉ name)
    (hname : name.length ≤ 255) (hlen : host.length ≤ 12 * 4096)
    (hnz : ∀ j, 4096 * (j + 1) < host.length →
      all_zero (padded ((host.drop (4096 * j)).take 4096)) = false) :
    run_extract (small_add_fs name host) (47 :: name) = .ok host := by
  obtain ⟨hroot, hslot, hn, hblk, hnd⟩ := small_add_fs_facts name host
  obtain ⟨ft, fsz, fis, fid, fdir⟩ := fresh_loop_fields host hlen
  unfold run_extract
  rw [extract_path_tail_root name hne h47 (by omega)]
  have h0 : ¬ ((0 : Int) < 0) := by decide
  have h1 : toInt32 1 = ((1 : Nat) : Int) := by decide
  have h00 : toInt32 0 = 0 := by decide
  have hd : root_inode.direct.getD 0 0 = 0 := by decide
  have hrb : read_block (small_add_fs name host) 0 0 = .ok (padded (entry_bytes 1 name)) := by
    have := read_block_nat _ 0 0 _ hblk
    simpa using this
  have hri : read_inode (small_add_fs name host) 0 0 = .ok root_inode := by
    have := read_inode_nat _ 0 0 _ hroot
    simpa using this
  have hg := gsio_zero (small_add_fs name host) (by omega)
  have hg1 := gsio_nat (small_add_fs name host) 1 (by omega)
  have hri1 := read_inode_nat (small_add_fs name host) 0 1 _ hslot
  have hfind : dir_find_exact (padded (entry_bytes 1 name)) name BLOCK_SIZE 0
      = .ok (some (1, 0)) := by
    unfold padded
    exact dir_find_exact_first 1 name _ (by omega) (by omega) hne hname
  have hmax : ¬ (1 = UINT32_MAX) := by decide
  have hty : ¬ (fresh_loop host).new_file.type ≠ TYPE_FILE := by rw [ft]; simp
  simp only [find_inode_by_path_slash, if_neg h0, hg, hri, hd, h00, gsbo_zero, hrb, hfind,
    if_neg hmax, h1, hg1, Nat.reduceDiv, Nat.reduceMod, hri1, if_neg hty]
  unfold extract_file
  have hl := file_chunks_length host
  have htake : (fresh_loop host).new_file.direct.take DIRECT_BLOCKS
      = List.range' 1 ((host.length + 4095) / 4096)
          ++ List.replicate (12 - (host.length + 4095) / 4096) 0 := by
    rw [fdir]
    apply List.take_of_length_le
    simp only [List.length_append, List.length_range', List.length_replicate, DIRECT_BLOCKS]
    omega
  have hemit := emit_blocks_chunks (small_add_fs name host) (file_chunks host.length host)
    (List.range' 1 ((host.length + 4095) / 4096))
    (List.replicate (12 - (host.length + 4095) / 4096) 0)
    (by rw [hl]; simp)
    (fun j h1 h2 => small_add_fs_holds name host hlen hnz j h1 h2)
    (fun j h => file_chunks_sizes host j h)
  rw [file_chunks_sum, file_chunks_flatten host.length host (le_refl _)] at hemit
  rw [htake, fsz, hemit]
  simp
theorem join_path_take_length (cs : List (List Nat)) (k : Nat) :
    (join_path (cs.take k)).length ≤ (join_path cs).length := by
  induction cs generalizing k with
  | nil => simp
  | cons c cs ih =>
    cases k with
    | zero => simp [join_path]
    | succ k =>
      rw [List.take_succ_cons, join_path_cons, join_path_cons]
      simp only [List.length_cons, List.length_append]
      have := ih k
      omega

/-! ## Files with a single-indirect block -/

theorem SeqInv_write_zero (fs : FS) (s m b : Nat) (h : SeqInv fs (s, m)) (hb1 : m < b)
    (hb2 : b ≤ 255) : SeqInv (set_blk fs s b zero_block) (s, m) := by
  have hz : blk_at fs s b = some zero_block := h.rest b hb1 hb2
  refine ⟨?_, ?_, h.m_le, ?_, ?_, ?_⟩
  · simpa using h.ptrs
  · simpa using h.nseg
  · intro s1 b1 hs h1 h2
    simp only at hs
    obtain ⟨blk, h3, h4⟩ := h.full s1 b1 hs h1 h2
    refine ⟨blk, ?_, h4⟩
    rw [blk_at_set_blk_other fs s b _ s1 b1 (Or.inl (by omega))]
    exact h3
  · intro b1 h1 h2
    simp only at h2
    obtain ⟨blk, h3, h4⟩ := h.used b1 h1 h2
    refine ⟨blk, ?_, h4⟩
    rw [blk_at_set_blk_other fs s b _ s b1 (Or.inr (by omega))]
    exact h3
  · intro b1 h1 h2
    simp only at h1
    by_cases e : b1 = b
    · subst e
      exact blk_at_set_blk_same fs s b1 _ _ hz
    · rw [blk_at_set_blk_other fs s b _ s b1 (Or.inr e)]
      exact h.rest b1 h1 h2

/-- `run_add` of a host file of 13 to `12 + 1024` chunks under a root-level name in a
fresh archive, when every chunk but the last holds a non-zero byte and the archive after
the loop is filled sequentially up to `c`. -/
theorem run_add_root_single (c : Nat × Nat) (name host : List Nat) (hne : name ≠ [])
    (h47 : 47 ∉ name) (hlo : 12 * 4096 < host.length) (hhi : host.length ≤ (12 + 1024) * 4096)
    (hnz : ∀ j, 4096 * (j + 1) < host.length →
      all_zero (padded ((host.drop (4096 * j)).take 4096)) = false)
    (hinv : SeqInv (fresh_loop host).fs c) (hcnt : c.1 * 255 + c.2 < 255 * MAX_SEGMENTS) :
    run_add fresh (47 :: name) (some host) = .ok (.added, single_add_fs c name host) := by
  unfold run_add
  rw [split_last_slash_root name h47]
  have hl : ¬ name.length = 0 := by
    intro h; exact hne (List.eq_nil_of_length_eq_zero h)
  simp only [if_neg hl, find_or_create_path_root fresh name hne h47]
  have h0 : ¬ toInt32 0 < 0 := by decide
  simp only [if_neg h0, add_loop_fresh host hhi hnz]
  obtain ⟨hi, hb⟩ := fresh_loop_facts host
  have htb := fresh_loop_total_blocks host
  have h12 : (fresh_loop host).total_blocks > DIRECT_BLOCKS := by
    rw [htb]; simp only [DIRECT_BLOCKS]; omega
  have h1036 : ¬ (fresh_loop host).total_blocks > DIRECT_BLOCKS + PTRS_PER_BLOCK := by
    rw [htb]; simp only [DIRECT_BLOCKS, PTRS_PER_BLOCK, BLOCK_SIZE, sizeof_uint32]; omega
  unfold add_finish
  simp only [write_single_indirect_seq _ c hinv hcnt h12, write_double_indirect_small _ _ _ h1036]
  rw [write_file_inode_fresh_table _ _ name (by simpa using hi)
    (blk_at_seq_write_other _ c _ 0 0 _ hb (Or.inl rfl) hinv.m_le)]
  rfl

/-- The pointer loop of `run_extract` over blocks that hold full chunks, when more bytes
remain than the blocks hold: the chunks are emitted and the rest remains. -/
theorem emit_blocks_full (fs : FS) (cs : List (List Nat)) :
    ∀ (ps : List Nat) (extra : Nat), ps.length = cs.length →
      (∀ j (h1 : j < ps.length) (h2 : j < cs.length), holds_chunk fs ps[j] cs[j]) →
      (∀ j (h : j < cs.length), cs[j].length = 4096) → 0 < extra →
      emit_blocks fs ps (4096 * cs.length + extra) = .ok (extra, cs.flatten) := by
  induction cs with
  | nil =>
    intro ps extra hl _ _ _
    have : ps = [] := List.eq_nil_of_length_eq_zero (by simpa using hl)
    subst this
    simp [emit_blocks]
  | cons c cs ih =>
    intro ps extra hl hh hc hx
    cases ps with
    | nil => simp at hl
    | cons p ps =>
      obtain ⟨hp0, hp1, hp2, hp3⟩ := hh 0 (by simp) (by simp)
      have hc1 := hc 0 (by simp)
      simp only [List.getElem_cons_zero] at hp0 hp1 hp2 hp3 hc1
      simp only [List.length_cons] at hl
      have ih' := ih ps extra (by omega)
        (fun j h1 h2 => by
          have := hh (j + 1) (by simp; omega) (by simp; omega)
          simpa using this)
        (fun j h => by
          have := hc (j + 1) (by simp; omega)
          simpa using this)
        hx
      have hrem : 4096 * (c :: cs).length + extra > 0 := by
        simp only [List.length_cons]; omega
      have hbig : 4096 * (c :: cs).length + extra > BLOCK_SIZE := by
        simp only [List.length_cons, BLOCK_SIZE]; omega
      simp only [emit_blocks, if_pos hrem, if_neg hp0, toInt32_of_lt p hp2,
        gsbo_nat fs p hp1, read_block_nat fs _ _ _ hp3, if_pos hbig]
      have hsub : 4096 * (c :: cs).length + extra - BLOCK_SIZE = 4096 * cs.length + extra := by
        simp only [List.length_cons, BLOCK_SIZE]; omega
      have ht : (padded c).take BLOCK_SIZE = c := by
        have := padded_take c
        rw [hc1] at this
        exact this
      rw [hsub, ih', ht]
      simp
theorem all_zero_false_of_mem (l : List Nat) (x : Nat) (hx : x ∈ l) (h0 : x ≠ 0) :
    all_zero l = false := by
  unfold all_zero
  rw [List.all_eq_false]
  exact ⟨x, hx, by simpa using h0⟩

/-- A chunk with a non-zero byte at offset `i` is not all zero. -/
theorem chunk_nonzero (host : List Nat) (j i : Nat) (hi : i < 4096)
    (h : host.getD (4096 * j + i) 0 ≠ 0) :
    all_zero (padded ((host.drop (4096 * j)).take 4096)) = false := by
  apply all_zero_false_of_mem _ (host.getD (4096 * j + i) 0) _ h
  unfold padded
  apply List.mem_append_left
  have hlt : 4096 * j + i < host.length := by
    by_contra hge
    have : host.getD (4096 * j + i) 0 = 0 := by
      rw [List.getD_eq_getElem?_getD, List.getElem?_eq_none (by omega)]
      rfl
    exact h this
  have hmem : ((host.drop (4096 * j)).take 4096)[i]? = some (host.getD (4096 * j + i) 0) := by
    rw [List.getElem?_take_of_lt hi, List.getElem?_drop, List.getD_eq_getElem?_getD,
      List.getElem?_eq_getElem hlt]
    rfl
  exact List.getElem?_mem hmem

theorem mod256_file_length : mod256_file.length = 49153 := by
  simp [mod256_file]

theorem mod256_file_getD (k : Nat) (hk : k < 49153) : mod256_file.getD k 0 = k % 256 := by
  unfold mod256_file
  rw [List.getD_eq_getElem?_getD, List.getElem?_map, List.getElem?_range hk]
  rfl

theorem mod256_file_nonzero (j : Nat) (hj : 4096 * (j + 1) < mod256_file.length) :
    all_zero (padded ((mod256_file.drop (4096 * j)).take 4096)) = false := by
  rw [mod256_file_length] at hj
  apply chunk_nonzero mod256_file j 1 (by omega)
  rw [mod256_file_getD _ (by omega)]
  omega

theorem mod256_file_last : mod256_file.drop 49152 = [0] := by
  apply List.ext_getElem?
  intro i
  rw [List.getElem?_drop]
  unfold mod256_file
  rw [List.getElem?_map]
  cases i with
  | zero =>
    rw [List.getElem?_range (by omega)]
    rfl
  | succ i =>
    rw [List.getElem?_eq_none (by simp; omega)]
    simp
theorem single_add_fs_facts (c : Nat × Nat) (name host : List Nat)
    (hinv : SeqInv (fresh_loop host).fs c) :
    slot_at (single_add_fs c name host) 0 0 = some root_inode
      ∧ slot_at (single_add_fs c name host) 0 1
          = some { (fresh_loop host).new_file with indirect_single := cur_block (cur_next c) }
      ∧ num_inode_segments (single_add_fs c name host) = 1
      ∧ blk_at (single_add_fs c name host) 0 0 = some (padded (entry_bytes 1 name))
      ∧ num_data_segments (single_add_fs c name host) = (cur_next c).1 + 1
      ∧ blk_at (single_add_fs c name host) (cur_next c).1 (cur_next c).2
          = some (padded (ptrs_bytes (fresh_loop host).indirect_single))
      ∧ ∀ s b x, blk_at (fresh_loop host).fs s b = some x → not_after (s, b) c → b ≠ 0 →
          blk_at (single_add_fs c name host) s b = some x := by
  obtain ⟨hi, hb⟩ := fresh_loop_facts host
  have hi' : (seq_write (fresh_loop host).fs c
      (ptrs_bytes (fresh_loop host).indirect_single)).inode_segments = fresh.inode_segments := by
    simpa using hi
  obtain ⟨hroot, hslot, hn⟩ := slot_at_fresh_table _ hi'
  have hpos := cur_next_snd_pos c hinv.m_le
  unfold single_add_fs
  refine ⟨?_, ?_, ?_, ?_, ?_, ?_, ?_⟩
  · rw [slot_at_set_blk, slot_at_set_slot_other _ _ _ _ _ _ (Or.inr (by omega))]
    exact hroot
  · rw [slot_at_set_blk]
    exact slot_at_set_slot_same _ _ _ _ _ hslot
  · simpa using hn
  · apply blk_at_set_blk_same _ _ _ _ zero_block
    rw [blk_at_set_slot]
    exact blk_at_seq_write_other _ c _ 0 0 _ hb (Or.inl rfl) hinv.m_le
  · simp only [num_data_segments_set_blk, num_data_segments_set_slot]
    unfold seq_write
    rw [num_data_segments_set_blk]
    exact num_data_segments_with_room _ c hinv
  · rw [blk_at_set_blk_other _ _ _ _ _ _ (Or.inr (by omega)), blk_at_set_slot]
    exact blk_at_seq_write_same _ c _ hinv
  · intro s b x hx hna hb0
    rw [blk_at_set_blk_other _ _ _ _ _ _ (Or.inr hb0), blk_at_set_slot]
    exact blk_at_seq_write_other _ c _ s b x hx hna hinv.m_le

/-- After the loop over a host file of 13 chunks whose last chunk is zero, the archive
is filled sequentially up to block 12: block 13 is still all zero. -/
theorem fresh_loop_inv_zero_last (host : List Nat) (hlo : 12 * 4096 < host.length)
    (hhi : host.length ≤ 13 * 4096)
    (hnz : ∀ j, 4096 * (j + 1) < host.length →
      all_zero (padded ((host.drop (4096 * j)).take 4096)) = false)
    (hz : padded ((host.drop (4096 * 12)).take 4096) = zero_block) :
    SeqInv (fresh_loop host).fs (0, 12) := by
  have hl := file_chunks_length host
  have hl13 : (file_chunks host.length host).length = 13 := by rw [hl]; omega
  have hsplit : file_chunks host.length host
      = (file_chunks host.length host).take 12 ++ [(host.drop (4096 * 12)).take 4096] := by
    have h1 := (List.take_append_drop 12 (file_chunks host.length host)).symm
    have h2 : (file_chunks host.length host).drop 12
        = [(file_chunks host.length host)[12]] := by
      rw [List.drop_eq_getElem_cons (by omega)]
      congr 1
      apply List.drop_of_length_le
      omega
    rw [h2, file_chunks_getElem host 12 (by omega)] at h1
    exact h1
  have hpre : ∀ b ∈ (file_chunks host.length host).take 12, all_zero (padded b) = false := by
    intro b hb
    obtain ⟨j, hj, rfl⟩ := List.getElem_of_mem hb
    simp only [List.length_take] at hj
    rw [List.getElem_take, file_chunks_getElem host j (by omega)]
    apply hnz
    omega
  have hlen12 : ((file_chunks host.length host).take 12).length = 12 := by
    simp only [List.length_take]; omega
  obtain ⟨_, h2, _⟩ := add_loop_seq ((file_chunks host.length host).take 12) []
    (add_init fresh) (0, 0) SeqInv_fresh
    (by rw [hlen12]; simp only [MAX_SEGMENTS]; omega)
    (by rw [hlen12]; show 0 + 12 ≤ _
        simp only [DIRECT_BLOCKS, PTRS_PER_BLOCK, BLOCK_SIZE, sizeof_uint32]; omega)
    hpre
  rw [hlen12, cur_iter_small 12 0 (by omega)] at h2
  unfold fresh_loop
  rw [hsplit, seq_loop_append, hlen12, cur_iter_small 12 0 (by omega)]
  simp only [seq_loop, note_block_fs, Nat.zero_add]
  unfold seq_write
  have hn : cur_next (0, 12) = (0, 13) := by decide
  have hw : ∀ fs, with_room fs (0, 12) = fs := by
    intro fs; simp [with_room]
  rw [hn, hw, hz]
  exact SeqInv_write_zero _ 0 12 13 h2 (by omega) (by omega)

/-! ## Pointer blocks -/

theorem ptrs_bytes_length (l : List Nat) : (ptrs_bytes l).length = 4 * l.length := by
  induction l with
  | nil => rfl
  | cons p ps ih =>
    simp only [ptrs_bytes, List.length_append, ih, List.length_cons, u32_bytes, List.length_nil]
    omega

theorem read_u32_shift (a b : List Nat) (off : Nat) :
    read_u32 (a ++ b) (a.length + off) = read_u32 b off := by
  unfold read_u32
  have h : ∀ k, (a ++ b).getD (a.length + off + k) 0 = b.getD (off + k) 0 := by
    intro k
    rw [List.getD_eq_getElem?_getD, List.getD_eq_getElem?_getD,
      List.getElem?_append_right (by omega)]
    congr 2
    omega
  have h0 := h 0
  simp only [Nat.add_zero] at h0
  rw [h0, h 1, h 2, h 3]

theorem read_u32_head (p : Nat) (rest : List Nat) (hp : p < 4294967296) :
    read_u32 (u32_bytes p ++ rest) 0 = p := by
  unfold read_u32 u32_bytes
  simp only [List.cons_append, List.nil_append, List.getD_cons_zero, List.getD_cons_succ,
    Nat.zero_add]
  omega

theorem read_u32_ptrs_bytes (l : List Nat) :
    ∀ (rest : List Nat) (i : Nat) (hi : i < l.length), (∀ p ∈ l, p < 4294967296) →
      read_u32 (ptrs_bytes l ++ rest) (4 * i) = l[i] := by
  induction l with
  | nil => intro rest i hi; simp at hi
  | cons p ps ih =>
    intro rest i hi hp
    rw [ptrs_bytes, List.append_assoc]
    cases i with
    | zero =>
      simp only [Nat.mul_zero, List.getElem_cons_zero]
      exact read_u32_head p _ (hp p (by simp))
    | succ i =>
      have hl : (u32_bytes p).length = 4 := rfl
      have e : 4 * (i + 1) = (u32_bytes p).length + 4 * i := by rw [hl]; omega
      rw [e, read_u32_shift]
      simp only [List.getElem_cons_succ]
      exact ih rest i (by simpa using hi) (fun q hq => hp q (by simp [hq]))

/-- Reading back a pointer block that was written from an array of 1024 pointers. -/
theorem block_ptrs_ptrs_bytes (l rest : List Nat) (hl : l.length = 1024)
    (hp : ∀ p ∈ l, p < 4294967296) : block_ptrs (ptrs_bytes l ++ rest) = l := by
  unfold block_ptrs
  apply List.ext_getElem
  · simp only [List.length_map, List.length_range, hl]; rfl
  · intro i h1 h2
    simp only [List.getElem_map, List.getElem_range]
    exact read_u32_ptrs_bytes l rest i h2 hp

theorem padded_ptrs_bytes (l : List Nat) (hl : l.length = 1024) :
    padded (ptrs_bytes l) = ptrs_bytes l := by
  unfold padded
  have : (ptrs_bytes l).length = 4096 := by rw [ptrs_bytes_length, hl]
  rw [this]
  have : List.drop 4096 zero_block = [] := by decide!
  rw [this, List.append_nil]

/-! ## A file whose last chunk is all zero -/

/-- `run_extract` of a root-level name whose entry is the first of the root directory and
points to inode 1: the lookup part ends at the streaming of that inode. -/
theorem run_extract_root_file (fs : FS) (name : List Nat) (file : Inode) (hne : name ≠ [])
    (h47 : 47 ∉ name) (hname : name.length ≤ 255)
    (hroot : slot_at fs 0 0 = some root_inode) (hslot : slot_at fs 0 1 = some file)
    (hn : num_inode_segments fs = 1)
    (hblk : blk_at fs 0 0 = some (padded (entry_bytes 1 name)))
    (hty : file.type = TYPE_FILE) :
    run_extract fs (47 :: name) = extract_file fs file := by
  unfold run_extract
  rw [extract_path_tail_root name hne h47 (by omega)]
  have h0 : ¬ ((0 : Int) < 0) := by decide
  have h1 : toInt32 1 = ((1 : Nat) : Int) := by decide
  have h00 : toInt32 0 = 0 := by decide
  have hd : root_inode.direct.getD 0 0 = 0 := by decide
  have hrb : read_block fs 0 0 = .ok (padded (entry_bytes 1 name)) := by
    have := read_block_nat _ 0 0 _ hblk
    simpa using this
  have hri : read_inode fs 0 0 = .ok root_inode := by
    have := read_inode_nat _ 0 0 _ hroot
    simpa using this
  have hg := gsio_zero fs (by omega)
  have hg1 := gsio_nat fs 1 (by omega)
  have hri1 := read_inode_nat fs 0 1 _ hslot
  have hfind : dir_find_exact (padded (entry_bytes 1 name)) name BLOCK_SIZE 0
      = .ok (some (1, 0)) := by
    unfold padded
    exact dir_find_exact_first 1 name _ (by omega) (by omega) hne hname
  have hmax : ¬ (1 = UINT32_MAX) := by decide
  have hty' : ¬ file.type ≠ TYPE_FILE := by rw [hty]; simp
  simp only [find_inode_by_path_slash, if_neg h0, hg, hri, hd, h00, gsbo_zero, hrb, hfind,
    if_neg hmax, h1, hg1, Nat.reduceDiv, Nat.reduceMod, hri1, if_neg hty']

theorem seq_ptrs_13 :
    seq_ptrs 0 (0, 0) 13 (List.replicate 12 0, List.replicate 1024 0)
      = (List.range' 1 12, 13 :: List.replicate 1023 0) := by
  decide!

theorem padded_single_zero : padded [0] = zero_block := by decide!

theorem chunks_range_flatten (B : List Nat) (n : Nat) :
    ((List.range n).map (fun j => (B.drop (4096 * j)).take 4096)).flatten
      = B.take (4096 * n) := by
  induction n with
  | zero => simp
  | succ n ih =>
    rw [List.range_succ, List.map_append, List.flatten_append, ih]
    simp only [List.map_cons, List.map_nil, List.flatten_cons, List.flatten_nil,
      List.append_nil]
    rw [show 4096 * (n + 1) = 4096 * n + 4096 by omega, List.take_add]

theorem file_chunks_take_flatten (host : List Nat) (n : Nat) (hn : 4096 * n ≤ host.length) :
    ((file_chunks host.length host).take n).flatten = host.take (4096 * n) := by
  rw [file_chunks_eq host.length host (le_refl _), ← List.map_take, List.take_range,
    Nat.min_eq_left (by omega)]
  exact chunks_range_flatten host n

/-- The direct blocks of the archive left by `run_add` of a file of thirteen chunks whose
last chunk is all zero hold the first twelve chunks. -/
theorem single_add_fs_holds (name host : List Nat) (hlo : 12 * 4096 < host.length)
    (hhi : host.length ≤ 13 * 4096)
    (hnz : ∀ j, 4096 * (j + 1) < host.length →
      all_zero (padded ((host.drop (4096 * j)).take 4096)) = false)
    (hinv : SeqInv (fresh_loop host).fs (0, 12))
    (j : Nat) (h1 : j < (List.range' 1 12).length)
    (h2 : j < ((file_chunks host.length host).take 12).length) :
    holds_chunk (single_add_fs (0, 12) name host) (List.range' 1 12)[j]
      ((file_chunks host.length host).take 12)[j] := by
  obtain ⟨_, _, _, _, hnd, _, hframe⟩ := single_add_fs_facts (0, 12) name host hinv
  have hl := file_chunks_length host
  have hj12 : j < 12 := by simpa using h1
  have hj : j < (file_chunks host.length host).length := by rw [hl]; omega
  have hcn : cur_next (0, 12) = (0, 13) := by decide
  rw [hcn] at hnd
  rw [List.getElem_range', List.getElem_take]
  simp only [Nat.one_mul]
  refine ⟨by omega, by rw [hnd]; omega, by omega, ?_⟩
  have hdiv : (1 + j) / 256 = 0 := Nat.div_eq_of_lt (by omega)
  have hmod : (1 + j) % 256 = j + 1 := by rw [Nat.mod_eq_of_lt (by omega)]; omega
  rw [hdiv, hmod]
  apply hframe
  · have hc := seq_loop_content (file_chunks host.length host) (add_init fresh) (0, 0)
      SeqInv_fresh j hj
      (fun i hi hij => by
        rw [file_chunks_getElem host i hi]
        apply hnz
        omega)
    rw [cur_iter_small (j + 1) 0 (by omega)] at hc
    simp only [Nat.zero_add] at hc
    exact hc
  · right; right
    exact ⟨rfl, by show j + 1 ≤ 12; omega⟩
  · omega

theorem emit_one_block (fs : FS) (p : Nat) (ps block : List Nat) (r : Nat)
    (hp0 : p ≠ 0) (hp : p < 256 * num_data_segments fs) (hp2 : p < 2147483648)
    (hb : blk_at fs (p / 256) (p % 256) = some block) (hr : 0 < r) (hr2 : r ≤ 4096) :
    emit_blocks fs (p :: ps) r = .ok (0, block.take r) := by
  have h13 : toInt32 p = (p : Int) := toInt32_of_lt p hp2
  have hg := gsbo_nat fs p hp
  have hrb := read_block_nat fs _ _ _ hb
  have hx2 : ¬ (r > BLOCK_SIZE) := by simp only [BLOCK_SIZE]; omega
  rw [emit_blocks, if_pos hr, if_neg hp0, h13, hg]
  simp only [hrb, if_neg hx2, Nat.sub_self, emit_blocks_zero, List.append_nil]

/-- The direct-block loop of `run_extract` on the archive left by `run_add` of a file of
thirteen chunks whose last chunk is all zero. -/
theorem emit_direct_zero_last (name host : List Nat) (hlo : 12 * 4096 < host.length)
    (hhi : host.length ≤ 13 * 4096)
    (hnz : ∀ j, 4096 * (j + 1) < host.length →
      all_zero (padded ((host.drop (4096 * j)).take 4096)) = false)
    (hinv : SeqInv (fresh_loop host).fs (0, 12)) :
    emit_blocks (single_add_fs (0, 12) name host) (List.range' 1 12) host.length
      = .ok (host.length - 49152, host.take 49152) := by
  have hl := file_chunks_length host
  have hcl : ((file_chunks host.length host).take 12).length = 12 := by
    rw [List.length_take, hl]
    omega
  have hemit := emit_blocks_full (single_add_fs (0, 12) name host)
    ((file_chunks host.length host).take 12) (List.range' 1 12) (host.length - 49152)
    (by rw [hcl]; rfl)
    (single_add_fs_holds name host hlo hhi hnz hinv)
    (fun j h => by
      rw [List.getElem_take]
      have hj : j < 12 := by rw [hcl] at h; exact h
      exact (file_chunks_sizes host j (by rw [hl]; omega)).2.2 (by rw [hl]; omega))
    (by omega)
  have hsum : 4096 * ((file_chunks host.length host).take 12).length + (host.length - 49152)
      = host.length := by rw [hcl]; omega
  rw [hsum, file_chunks_take_flatten host 12 (by omega)] at hemit
  exact hemit

/-- The single-indirect part of `run_extract` when the single-indirect block `p` lists
itself as its first pointer: the leading bytes of the pointer array are emitted. -/
theorem extract_indirect_self (fs : FS) (p : Nat) (ps : List Nat) (r : Nat)
    (hp0 : p ≠ 0) (hp : p < 256 * num_data_segments fs) (hp2 : p < 2147483648)
    (hl : (p :: ps).length = 1024) (hps : ∀ q ∈ ps, q < 4294967296)
    (hb : blk_at fs (p / 256) (p % 256) = some (ptrs_bytes (p :: ps)))
    (hr : 0 < r) (hr2 : r ≤ 4096) :
    extract_indirect_block fs p r = .ok (0, (ptrs_bytes (p :: ps)).take r) := by
  have hbp : block_ptrs (ptrs_bytes (p :: ps)) = p :: ps := by
    have := block_ptrs_ptrs_bytes (p :: ps) [] hl (by
      intro q hq
      rcases List.mem_cons.mp hq with h | h
      · omega
      · exact hps q h)
    rwa [List.append_nil] at this
  have h13 : toInt32 p = (p : Int) := toInt32_of_lt p hp2
  have hg := gsbo_nat fs p hp
  have hrb := read_block_nat fs _ _ _ hb
  have hseg : ¬ ((((p / 256 : Nat) : Int)) < 0
      ∨ (((p / 256 : Nat) : Int)) ≥ (num_data_segments fs : Int)) := by
    have : p / 256 < num_data_segments fs := by omega
    omega
  unfold extract_indirect_block
  rw [h13, hg]
  simp only [if_neg hseg, hrb, hbp]
  exact emit_one_block fs p ps _ r hp0 hp hp2 hb hr hr2

/-- The streaming part of `run_extract` for a file that ends inside its single-indirect
range. -/
theorem extract_file_single (fs : FS) (ino : Inode) (r : Nat) (out1 out2 : List Nat)
    (h1 : emit_blocks fs (ino.direct.take DIRECT_BLOCKS) ino.size = .ok (r, out1))
    (hr : r > 0) (his : ino.indirect_single ≠ 0)
    (h2 : extract_indirect_block fs ino.indirect_single r = .ok (0, out2)) :
    extract_file fs ino = .ok (out1 ++ out2) := by
  unfold extract_file
  rw [h1]
  simp only [if_pos (show r > 0 ∧ ino.indirect_single ≠ 0 from ⟨hr, his⟩), h2]
  rw [if_neg (by omega)]

/-- The streaming part of `run_extract` on the archive left by `run_add` of a file of
thirteen chunks whose last chunk is all zero: the first twelve chunks are followed by the
leading bytes of the single-indirect block, which took the place of the thirteenth data
block. -/
theorem extract_file_zero_last (name host : List Nat) (hlo : 12 * 4096 < host.length)
    (hhi : host.length ≤ 13 * 4096)
    (hnz : ∀ j, 4096 * (j + 1) < host.length →
      all_zero (padded ((host.drop (4096 * j)).take 4096)) = false)
    (hinv : SeqInv (fresh_loop host).fs (0, 12))
    (hind : (fresh_loop host).indirect_single = 13 :: List.replicate 1023 0)
    (ino : Inode) (hsz : ino.size = host.length) (hdir : ino.direct = List.range' 1 12)
    (his : ino.indirect_single = 13) :
    extract_file (single_add_fs (0, 12) name host) ino
      = .ok (host.take 49152
          ++ (ptrs_bytes (13 :: List.replicate 1023 0)).take (host.length - 49152)) := by
  obtain ⟨_, _, _, _, hnd, hsingle, _⟩ := single_add_fs_facts (0, 12) name host hinv
  have hcn : cur_next (0, 12) = (0, 13) := by decide
  rw [hcn] at hnd hsingle
  simp only at hnd hsingle
  have hemit := emit_direct_zero_last name host hlo hhi hnz hinv
  have ht : (List.range' 1 12).take DIRECT_BLOCKS = List.range' 1 12 := by decide
  have hl1024 : (13 :: List.replicate 1023 0).length = 1024 := by
    rw [List.length_cons, List.length_replicate]
  have hblock : blk_at (single_add_fs (0, 12) name host) (13 / 256) (13 % 256)
      = some (ptrs_bytes (13 :: List.replicate 1023 0)) := by
    rw [hind, padded_ptrs_bytes _ hl1024] at hsingle
    exact hsingle
  have hx : host.length - 49152 > 0 := by omega
  have hei := extract_indirect_self (single_add_fs (0, 12) name host) 13
    (List.replicate 1023 0) (host.length - 49152) (by decide) (by rw [hnd]; decide) (by decide)
    hl1024 (fun q hq => by rw [(List.mem_replicate.mp hq).2]; decide) hblock hx (by omega)
  apply extract_file_single _ _ (host.length - 49152) _ _ _ hx
  · rw [his]; decide
  · rw [his]; exact hei
  · rw [hdir, hsz, ht]; exact hemit

theorem ptrs_bytes_take_one (p : Nat) (ps : List Nat) (hp : p < 256) :
    (ptrs_bytes (p :: ps)).take 1 = [p] := by
  rw [ptrs_bytes, u32_bytes]
  simp only [List.cons_append, List.take_succ_cons, List.take_zero, Nat.mod_eq_of_lt hp]

theorem inode_with_single (x : Inode) (sz ty : Nat) (dir : List Nat) (v w dbl : Nat)
    (h1 : x.size = sz) (h2 : x.type = ty) (h3 : x.direct = dir) (h4 : v = w)
    (h5 : x.indirect_double = dbl) :
    ({ x with indirect_single := v } : Inode)
      = { size := sz, type := ty, direct := dir, indirect_single := w,
          indirect_double := dbl } := by
  subst h1 h2 h3 h4 h5
  rfl
/-! ## Files with a double-indirect tree -/

theorem with_room_of_lt (fs : FS) (c : Nat × Nat) (h : c.2 < 255) : with_room fs c = fs := by
  unfold with_room
  rw [if_pos h]

theorem cur_next_of_lt (s m : Nat) (h : m < 255) : cur_next (s, m) = (s, m + 1) := by
  unfold cur_next
  rw [if_pos h]

/-- One iteration of the block writing loop in the double-indirect range, for a row
without an inner block, on a sequentially filled archive: the chunk goes to the block
after the cursor and the block after that one is picked as inner block of the row, without
being written. -/
theorem add_loop_step_double (st : AddState) (s m : Nat) (buffer : List Nat)
    (rest : List (List Nat)) (h : SeqInv st.fs (s, m)) (hm : m + 2 ≤ 255)
    (hs : s < MAX_SEGMENTS)
    (hlo : DIRECT_BLOCKS + PTRS_PER_BLOCK ≤ st.total_blocks)
    (hhi : st.total_blocks < DIRECT_BLOCKS + PTRS_PER_BLOCK * (1 + PTRS_PER_BLOCK))
    (hrow : st.indirect_double.getD
      ((st.total_blocks - DIRECT_BLOCKS - PTRS_PER_BLOCK) / PTRS_PER_BLOCK) 0 = 0)
    (hbuf : all_zero (padded buffer) = false)
    (b1 p1 p2 : Nat) (hb1 : b1 = m + 1) (hp1 : p1 = s * 256 + (m + 1))
    (hp2 : p2 = s * 256 + (m + 2)) :
    add_loop st (buffer :: rest)
      = add_loop (note_double st (set_blk st.fs s b1 (padded buffer)) p1 p2 buffer.length)
          rest := by
  subst hb1 hp1 hp2
  have hcnt : (s, m).1 * 255 + (s, m).2 < 255 * MAX_SEGMENTS := by
    simp only [MAX_SEGMENTS] at hs ⊢
    omega
  have hcnt2 : (s, m + 1).1 * 255 + (s, m + 1).2 < 255 * MAX_SEGMENTS := by
    simp only [MAX_SEGMENTS] at hs ⊢
    omega
  have hw : seq_write st.fs (s, m) buffer = set_blk st.fs s (m + 1) (padded buffer) := by
    unfold seq_write
    rw [with_room_of_lt _ _ (by simp only; omega), cur_next_of_lt s m (by omega)]
  have h2 : SeqInv (set_blk st.fs s (m + 1) (padded buffer)) (s, m + 1) :=
    SeqInv_write st.fs s m _ h (by omega) hbuf
  have hcb : cur_block (cur_next (s, m)) = s * 256 + (m + 1) := by
    rw [cur_next_of_lt s m (by omega)]
    rfl
  have hcb2 : cur_block (cur_next (s, m + 1)) = s * 256 + (m + 2) := by
    rw [cur_next_of_lt s (m + 1) (by omega)]
    rfl
  have h12 : ¬ st.total_blocks < DIRECT_BLOCKS := by
    simp only [DIRECT_BLOCKS, PTRS_PER_BLOCK, BLOCK_SIZE, sizeof_uint32] at hlo ⊢
    omega
  have h1036 : ¬ st.total_blocks < DIRECT_BLOCKS + PTRS_PER_BLOCK := by omega
  have hr : ¬ st.indirect_double.getD
      ((st.total_blocks - DIRECT_BLOCKS - PTRS_PER_BLOCK) / PTRS_PER_BLOCK) 0 ≠ 0 := by
    rw [hrow]
    simp
  rw [add_loop, find_free_block_count st.fs (s, m) h hcnt]
  simp only [gsbo_after_alloc st.fs (s, m) h hcnt, write_after_alloc st.fs (s, m) buffer h,
    if_neg h12, if_neg h1036, if_pos hhi, if_neg hr]
  simp only [hw, find_free_block_count _ (s, m + 1) h2 hcnt2,
    with_room_of_lt _ (s, m + 1) (show (s, m + 1).2 < 255 by simp only; omega), hcb, hcb2]
  rfl
theorem all_zero_ptrs_bytes (l : List Nat) (x : Nat) (hx : x ∈ l) (h : x % 256 ≠ 0) :
    all_zero (ptrs_bytes l) = false := by
  apply all_zero_false_of_mem _ (x % 256) _ h
  induction l with
  | nil => simp at hx
  | cons p ps ih =>
    rw [ptrs_bytes]
    rcases List.mem_cons.mp hx with hp | hp
    · subst hp
      apply List.mem_append_left
      simp [u32_bytes]
    · exact List.mem_append_right _ (ih hp)

theorem ptrs_bytes_over (l old : List Nat) (hl : l.length = 1024) (ho : old.length ≤ 4096) :
    ptrs_bytes l ++ old.drop (ptrs_bytes l).length = ptrs_bytes l := by
  rw [ptrs_bytes_length, hl, List.drop_eq_nil_of_le (by omega), List.append_nil]

/-- The loop over the rows of the double-indirect tree when only the first row has an
inner block: the row is written to that block, over whatever the block held. -/
theorem write_inner_blocks_one (fs : FS) (inner : Nat) (tl : List Nat) (rows : List (List Nat))
    (old : List Nat) (hp0 : inner ≠ 0) (hp1 : inner < 256 * num_data_segments fs)
    (hp2 : inner < 2147483648)
    (hb : blk_at fs (inner / 256) (inner % 256) = some old) (ho : old.length ≤ 4096)
    (hrow : (rows.headD []).length = 1024) :
    write_inner_blocks fs (inner :: 0 :: tl) rows
      = .ok (set_blk fs (inner / 256) (inner % 256) (ptrs_bytes (rows.headD []))) := by
  rw [write_inner_blocks, if_neg hp0, toInt32_of_lt inner hp2, gsbo_nat fs inner hp1]
  simp only [write_block_nat fs _ _ old _ hb, ptrs_bytes_over _ old hrow ho]
  rw [write_inner_blocks, if_pos rfl]
theorem zero_block_length : zero_block.length = 4096 := by
  unfold zero_block
  rw [List.length_replicate]

/-- The steps of `run_add` after the block writing loop for a file whose double-indirect
tree has one row, on a sequentially filled archive: the block after the cursor, picked but
not written as inner block during the loop, is handed out again as single-indirect block
and then receives the row of the tree; the block after it becomes the outer block. -/
theorem add_finish_double (st : AddState) (s m : Nat) (name row tl : List Nat)
    (h : SeqInv st.fs (s, m)) (hm : m + 2 ≤ 255) (hs : s < MAX_SEGMENTS)
    (htb : st.total_blocks > DIRECT_BLOCKS + PTRS_PER_BLOCK)
    (hsl : st.indirect_single.length = 1024)
    (x : Nat) (hx : x ∈ st.indirect_single) (hx0 : x % 256 ≠ 0)
    (b1 b2 p1 p2 : Nat) (hb1 : b1 = m + 1) (hb2 : b2 = m + 2)
    (hp1 : p1 = s * 256 + (m + 1)) (hp2 : p2 = s * 256 + (m + 2))
    (hid : st.indirect_double.take PTRS_PER_BLOCK = p1 :: 0 :: tl)
    (hdp : double_ptrs st.indirect_double = p1 :: List.replicate 1023 0)
    (hrow : st.double_level.headD [] = row) (hrl : row.length = 1024)
    (hi : st.fs.inode_segments = fresh.inode_segments)
    (hb0 : blk_at st.fs 0 0 = some zero_block) :
    add_finish st 0 name
      = .ok (set_blk (set_slot
          (set_blk (set_blk (set_blk st.fs s b1 (ptrs_bytes st.indirect_single))
            s b1 (ptrs_bytes row)) s b2 (ptrs_bytes (p1 :: List.replicate 1023 0)))
          0 1 { size := st.new_file.size, type := st.new_file.type,
                direct := st.new_file.direct, indirect_single := p1,
                indirect_double := p2 })
          0 0 (padded (entry_bytes 1 name))) := by
  subst hb1 hb2 hp1 hp2
  have hs' : s < 1024 := hs
  have hcnt : (s, m).1 * 255 + (s, m).2 < 255 * MAX_SEGMENTS := by
    simp only [MAX_SEGMENTS]
    omega
  have hcnt2 : (s, m + 1).1 * 255 + (s, m + 1).2 < 255 * MAX_SEGMENTS := by
    simp only [MAX_SEGMENTS]
    omega
  have h12 : st.total_blocks > DIRECT_BLOCKS := by
    simp only [DIRECT_BLOCKS, PTRS_PER_BLOCK, BLOCK_SIZE, sizeof_uint32] at htb ⊢
    omega
  have hw : seq_write st.fs (s, m) (ptrs_bytes st.indirect_single)
      = set_blk st.fs s (m + 1) (ptrs_bytes st.indirect_single) := by
    unfold seq_write
    rw [with_room_of_lt _ _ (by simp only; omega), cur_next_of_lt s m (by omega),
      padded_ptrs_bytes _ hsl]
  have hcb : cur_block (cur_next (s, m)) = s * 256 + (m + 1) := by
    rw [cur_next_of_lt s m (by omega)]
    rfl
  have hcb2 : cur_block (cur_next (s, m + 1)) = s * 256 + (m + 2) := by
    rw [cur_next_of_lt s (m + 1) (by omega)]
    rfl
  have hA : SeqInv (set_blk st.fs s (m + 1) (ptrs_bytes st.indirect_single)) (s, m + 1) :=
    SeqInv_write st.fs s m _ h (by omega) (all_zero_ptrs_bytes _ x hx hx0)
  have hdiv : (s * 256 + (m + 1)) / 256 = s := by omega
  have hmod : (s * 256 + (m + 1)) % 256 = m + 1 := by omega
  have hbA : blk_at (set_blk st.fs s (m + 1) (ptrs_bytes st.indirect_single))
      ((s * 256 + (m + 1)) / 256) ((s * 256 + (m + 1)) % 256)
      = some (ptrs_bytes st.indirect_single) := by
    rw [hdiv, hmod]
    exact blk_at_set_blk_same _ _ _ _ _ (h.rest (m + 1) (by simp only; omega) (by omega))
  have hinner := write_inner_blocks_one
    (set_blk st.fs s (m + 1) (ptrs_bytes st.indirect_single)) (s * 256 + (m + 1)) tl
    st.double_level (ptrs_bytes st.indirect_single) (by omega)
    (by rw [hA.nseg]; simp only; omega) (by omega) hbA
    (by rw [ptrs_bytes_length, hsl]) (by rw [hrow, hrl])
  rw [hdiv, hmod, hrow] at hinner
  have hbO : blk_at (set_blk (set_blk st.fs s (m + 1) (ptrs_bytes st.indirect_single))
      s (m + 1) (ptrs_bytes row)) s (m + 2) = some zero_block := by
    rw [blk_at_set_blk_other _ _ _ _ _ _ (Or.inr (by omega)),
      blk_at_set_blk_other _ _ _ _ _ _ (Or.inr (by omega))]
    exact h.rest (m + 2) (by simp only; omega) (by omega)
  have hwO := write_block_nat _ s (m + 2) zero_block
    (ptrs_bytes ((s * 256 + (m + 1)) :: List.replicate 1023 0)) hbO
  rw [ptrs_bytes_over _ zero_block (by rw [List.length_cons, List.length_replicate])
    (by rw [zero_block_length])] at hwO
  have hgO := gsbo_after_alloc _ (s, m + 1) hA hcnt2
  rw [with_room_of_lt _ (s, m + 1) (by simp only; omega), hcb2,
    cur_next_of_lt s (m + 1) (by omega)] at hgO
  simp only at hgO
  have hfO := find_free_block_count _ (s, m + 1) hA hcnt2
  rw [with_room_of_lt _ (s, m + 1) (by simp only; omega), hcb2] at hfO
  have hfile := write_file_inode_fresh_table
    (set_blk (set_blk (set_blk st.fs s (m + 1) (ptrs_bytes st.indirect_single))
      s (m + 1) (ptrs_bytes row)) s (m + 2)
      (ptrs_bytes ((s * 256 + (m + 1)) :: List.replicate 1023 0)))
    { size := st.new_file.size, type := st.new_file.type,
      direct := st.new_file.direct, indirect_single := s * 256 + (m + 1),
      indirect_double := s * 256 + (m + 2) } name (by simp only [set_blk_inode_segments]; exact hi)
    (by
      rw [blk_at_set_blk_other _ _ _ _ _ _ (Or.inr (by omega)),
        blk_at_set_blk_other _ _ _ _ _ _ (Or.inr (by omega)),
        blk_at_set_blk_other _ _ _ _ _ _ (Or.inr (by omega))]
      exact hb0)
  unfold add_finish
  rw [write_single_indirect_seq st (s, m) h hcnt h12, hw, hcb]
  simp only
  unfold write_double_indirect
  rw [if_pos htb, hfO]
  simp only [hgO, hid, hinner, hdp]
  have e : ((m + 1 + 1 : Nat) : Int) = ((m + 2 : Nat) : Int) := rfl
  simp only [e, hwO]
  exact hfile
theorem getD_replicate_self (n i : Nat) (a : Nat) : (List.replicate n a).getD i a = a := by
  rw [List.getD_eq_getElem?_getD, List.getElem?_replicate]
  split <;> rfl

theorem file_chunks_split_last (host : List Nat) (n : Nat)
    (hl : (file_chunks host.length host).length = n + 1) :
    file_chunks host.length host
      = (file_chunks host.length host).take n ++ [(host.drop (4096 * n)).take 4096] := by
  have h1 := (List.take_append_drop n (file_chunks host.length host)).symm
  have h2 : (file_chunks host.length host).drop n = [(file_chunks host.length host)[n]] := by
    rw [List.drop_eq_getElem_cons (by omega)]
    congr 1
    apply List.drop_of_length_le
    omega
  rw [h2, file_chunks_getElem host n (by omega)] at h1
  exact h1

theorem seq_loop_single_length (chunks : List (List Nat)) :
    ∀ (st : AddState) (c : Nat × Nat),
      (seq_loop st c chunks).indirect_single.length = st.indirect_single.length := by
  induction chunks with
  | nil => intro st c; rfl
  | cons b rest ih =>
    intro st c
    rw [seq_loop, ih]
    unfold note_block
    split
    · rfl
    · simp only [List.length_set]

/-- The last pointer staged by the sequential loop, when it belongs to the single-indirect
range, stands in the staged single-indirect array. -/
theorem seq_loop_last_single (chunks : List (List Nat)) (b : List Nat) (st : AddState)
    (c : Nat × Nat) (h12 : DIRECT_BLOCKS ≤ st.total_blocks + chunks.length)
    (hlen : st.total_blocks + chunks.length - DIRECT_BLOCKS < st.indirect_single.length) :
    cur_block (cur_next (cur_iter chunks.length c))
      ∈ (seq_loop st c (chunks ++ [b])).indirect_single := by
  rw [seq_loop_append]
  have htb := seq_loop_total_blocks chunks st c
  have hsl := seq_loop_single_length chunks st c
  have hn : ¬ (seq_loop st c chunks).total_blocks < DIRECT_BLOCKS := by omega
  simp only [seq_loop, note_block, if_neg hn]
  apply List.mem_iff_getElem.mpr
  refine ⟨(seq_loop st c chunks).total_blocks - DIRECT_BLOCKS, ?_, ?_⟩
  · rw [List.length_set, hsl, htb]
    exact hlen
  · rw [List.getElem_set_self]
theorem double_row_take :
    ((List.replicate PTRS_PER_BLOCK 0).set
        ((1036 - DIRECT_BLOCKS - PTRS_PER_BLOCK) / PTRS_PER_BLOCK) 1042).take PTRS_PER_BLOCK
      = 1042 :: 0 :: List.replicate 1022 0 := by decide!

theorem double_row_ptrs :
    double_ptrs ((List.replicate PTRS_PER_BLOCK 0).set
        ((1036 - DIRECT_BLOCKS - PTRS_PER_BLOCK) / PTRS_PER_BLOCK) 1042)
      = 1042 :: List.replicate 1023 0 := by decide!

theorem double_row_level :
    ((List.replicate PTRS_PER_BLOCK (List.replicate PTRS_PER_BLOCK 0)).set
        ((1036 - DIRECT_BLOCKS - PTRS_PER_BLOCK) / PTRS_PER_BLOCK)
        (((List.replicate PTRS_PER_BLOCK (List.replicate PTRS_PER_BLOCK 0)).getD
            ((1036 - DIRECT_BLOCKS - PTRS_PER_BLOCK) / PTRS_PER_BLOCK) []).set
          ((1036 - DIRECT_BLOCKS - PTRS_PER_BLOCK) % PTRS_PER_BLOCK) 1041)).headD []
      = 1041 :: List.replicate 1023 0 := by decide!

theorem cur_iter_1036 : cur_iter 1036 (0, 0) = (4, 16) := by decide!

theorem cur_iter_1035 : cur_iter 1035 (0, 0) = (4, 15) := by decide!
/-- The sequential part of the block writing loop for a host file of 1037 chunks that all
hold a non-zero byte, on a fresh archive. -/
theorem double_pre_facts (host : List Nat) (hlo : 1036 * 4096 < host.length)
    (hhi : host.length ≤ 1037 * 4096)
    (hnz : ∀ j, 4096 * j < host.length →
      all_zero (padded ((host.drop (4096 * j)).take 4096)) = false) :
    add_loop (add_init fresh) (file_chunks host.length host)
        = add_loop (seq_loop (add_init fresh) (0, 0) ((file_chunks host.length host).take 1036))
            [(host.drop (4096 * 1036)).take 4096]
      ∧ SeqInv (seq_loop (add_init fresh) (0, 0)
          ((file_chunks host.length host).take 1036)).fs (4, 16)
      ∧ (seq_loop (add_init fresh) (0, 0)
          ((file_chunks host.length host).take 1036)).total_blocks = 1036
      ∧ 1040 ∈ (seq_loop (add_init fresh) (0, 0)
          ((file_chunks host.length host).take 1036)).indirect_single := by
  have hl := file_chunks_length host
  have hl2 : (file_chunks host.length host).length = 1036 + 1 := by rw [hl]; omega
  have hsplit := file_chunks_split_last host 1036 hl2
  have hpre : ∀ b ∈ (file_chunks host.length host).take 1036, all_zero (padded b) = false := by
    intro b hb
    obtain ⟨j, hj, rfl⟩ := List.getElem_of_mem hb
    simp only [List.length_take] at hj
    rw [List.getElem_take, file_chunks_getElem host j (by omega)]
    apply hnz
    omega
  have hlen : ((file_chunks host.length host).take 1036).length = 1036 := by
    simp only [List.length_take]; omega
  obtain ⟨h1, h2, h3⟩ := add_loop_seq ((file_chunks host.length host).take 1036)
    [(host.drop (4096 * 1036)).take 4096]
    (add_init fresh) (0, 0) SeqInv_fresh
    (by rw [hlen]; simp only [MAX_SEGMENTS]; omega)
    (by rw [hlen]; show 0 + 1036 ≤ _
        simp only [DIRECT_BLOCKS, PTRS_PER_BLOCK, BLOCK_SIZE, sizeof_uint32]; omega)
    hpre
  rw [← hsplit] at h1
  rw [hlen, cur_iter_1036] at h2
  rw [hlen] at h3
  refine ⟨h1, h2, h3, ?_⟩
  have hl3 : ((file_chunks host.length host).take 1035).length = 1035 := by
    simp only [List.length_take]; omega
  have ht : (file_chunks host.length host).take 1036
      = (file_chunks host.length host).take 1035 ++ [(file_chunks host.length host)[1035]] := by
    rw [List.take_succ, List.getElem?_eq_getElem (by omega)]
    rfl
  have hm := seq_loop_last_single ((file_chunks host.length host).take 1035)
    ((file_chunks host.length host)[1035]) (add_init fresh) (0, 0)
    (by rw [hl3]; show 12 ≤ 0 + 1035; omega)
    (by rw [hl3]; show 0 + 1035 - 12 < (List.replicate PTRS_PER_BLOCK 0).length
        rw [List.length_replicate]
        simp only [PTRS_PER_BLOCK, BLOCK_SIZE, sizeof_uint32]; omega)
  rw [hl3, cur_iter_1035, ← ht] at hm
  exact hm
/-- The block writing loop for a host file of 1037 chunks that all hold a non-zero byte,
on a fresh archive. -/
theorem add_loop_double (host : List Nat) (hlo : 1036 * 4096 < host.length)
    (hhi : host.length ≤ 1037 * 4096)
    (hnz : ∀ j, 4096 * j < host.length →
      all_zero (padded ((host.drop (4096 * j)).take 4096)) = false) :
    add_loop (add_init fresh) (file_chunks host.length host) = .ok (double_loop host, false) := by
  obtain ⟨h1, h2, h3, _⟩ := double_pre_facts host hlo hhi hnz
  obtain ⟨_, _, _, hdbl, _⟩ := seq_loop_other_fields
    ((file_chunks host.length host).take 1036) (add_init fresh) (0, 0)
  have hrow : (seq_loop (add_init fresh) (0, 0)
      ((file_chunks host.length host).take 1036)).indirect_double.getD
      (((seq_loop (add_init fresh) (0, 0)
        ((file_chunks host.length host).take 1036)).total_blocks
          - DIRECT_BLOCKS - PTRS_PER_BLOCK) / PTRS_PER_BLOCK) 0 = 0 := by
    rw [hdbl]
    exact getD_replicate_self _ _ 0
  have hstep := add_loop_step_double _ 4 16 ((host.drop (4096 * 1036)).take 4096) [] h2
    (by omega) (by decide)
    (by rw [h3]; decide) (by rw [h3]; decide) hrow (hnz 1036 (by omega))
    17 1041 1042 rfl rfl rfl
  rw [h1, hstep, add_loop]
  rfl

/-- The archive and the local state after the block writing loop for a host file of 1037
chunks that all hold a non-zero byte. -/
theorem double_loop_facts (host : List Nat) (hlo : 1036 * 4096 < host.length)
    (hhi : host.length ≤ 1037 * 4096)
    (hnz : ∀ j, 4096 * j < host.length →
      all_zero (padded ((host.drop (4096 * j)).take 4096)) = false) :
    SeqInv (double_loop host).fs (4, 17)
      ∧ (double_loop host).total_blocks = 1037
      ∧ (double_loop host).indirect_single.length = 1024
      ∧ 1040 ∈ (double_loop host).indirect_single
      ∧ (double_loop host).indirect_double.take PTRS_PER_BLOCK
          = 1042 :: 0 :: List.replicate 1022 0
      ∧ double_ptrs (double_loop host).indirect_double = 1042 :: List.replicate 1023 0
      ∧ (double_loop host).double_level.headD [] = 1041 :: List.replicate 1023 0
      ∧ (double_loop host).fs.inode_segments = fresh.inode_segments
      ∧ blk_at (double_loop host).fs 0 0 = some zero_block
      ∧ blk_at (double_loop host).fs 4 17
          = some (padded ((host.drop (4096 * 1036)).take 4096)) := by
  obtain ⟨_, h2, h3, h4⟩ := double_pre_facts host hlo hhi hnz
  obtain ⟨_, _, _, hdbl, hlvl⟩ := seq_loop_other_fields
    ((file_chunks host.length host).take 1036) (add_init fresh) (0, 0)
  have hsl := seq_loop_single_length ((file_chunks host.length host).take 1036)
    (add_init fresh) (0, 0)
  have hi := seq_loop_inode_segments ((file_chunks host.length host).take 1036)
    (add_init fresh) (0, 0)
  have hb := seq_loop_blk_other ((file_chunks host.length host).take 1036)
    (add_init fresh) (0, 0) 0 0 zero_block blk_at_fresh_zero (Or.inl rfl) (by decide)
  have hlast := hnz 1036 (by omega)
  unfold double_loop note_double
  simp only
  refine ⟨SeqInv_write _ 4 16 _ h2 (by omega) hlast, by rw [h3], ?_, h4, ?_, ?_, ?_, ?_, ?_, ?_⟩
  · rw [hsl]
    show (List.replicate PTRS_PER_BLOCK 0).length = 1024
    rw [List.length_replicate]
    rfl
  · rw [hdbl, h3]
    exact double_row_take
  · rw [hdbl, h3]
    exact double_row_ptrs
  · rw [hlvl, h3]
    exact double_row_level
  · rw [set_blk_inode_segments]
    exact hi
  · rw [blk_at_set_blk_other _ _ _ _ _ _ (Or.inl (by omega))]
    exact hb
  · exact blk_at_set_blk_same _ _ _ _ _ (h2.rest 17 (by simp only; omega) (by omega))

/-- The function `run_add` on a fresh archive for a root-level name and a host file of
1037 chunks that all hold a non-zero byte. -/
theorem run_add_root_double (name host : List Nat) (hne : name ≠ []) (h47 : 47 ∉ name)
    (hlo : 1036 * 4096 < host.length) (hhi : host.length ≤ 1037 * 4096)
    (hnz : ∀ j, 4096 * j < host.length →
      all_zero (padded ((host.drop (4096 * j)).take 4096)) = false) :
    run_add fresh (47 :: name) (some host) = .ok (.added, double_add_fs name host) := by
  obtain ⟨hinv, htb, hsl, hx, hid, hdp, hrow, hi, hb0, _⟩ :=
    double_loop_facts host hlo hhi hnz
  unfold run_add
  rw [split_last_slash_root name h47]
  have hl : ¬ name.length = 0 := by
    intro h; exact hne (List.eq_nil_of_length_eq_zero h)
  simp only [if_neg hl, find_or_create_path_root fresh name hne h47]
  have h0 : ¬ toInt32 0 < 0 := by decide
  simp only [if_neg h0, add_loop_double host hlo hhi hnz]
  rw [add_finish_double (double_loop host) 4 17 name (1041 :: List.replicate 1023 0)
    (List.replicate 1022 0) hinv (by omega) (by decide) (by rw [htb]; decide) hsl 1040 hx
    (by decide) 18 19 1042 1043 rfl rfl rfl rfl hid hdp hrow
    (by rw [List.length_cons, List.length_replicate]) hi hb0]
  rfl
/-- The function `extract_block_list` on a block that holds a pointer array. -/
theorem extract_block_list_ptrs (fs : FS) (p : Nat) (l : List Nat)
    (hp1 : p < 256 * num_data_segments fs) (hp2 : p < 2147483648)
    (hb : blk_at fs (p / 256) (p % 256) = some (ptrs_bytes l)) (hl : l.length = 1024)
    (hq : ∀ q ∈ l, q < 4294967296) :
    extract_block_list fs p = .ok l := by
  have hbp : block_ptrs (ptrs_bytes l) = l := by
    have := block_ptrs_ptrs_bytes l [] hl hq
    rwa [List.append_nil] at this
  have hseg : ¬ ((((p / 256 : Nat) : Int)) < 0
      ∨ (((p / 256 : Nat) : Int)) ≥ (num_data_segments fs : Int)) := by
    have : p / 256 < num_data_segments fs := by omega
    omega
  unfold extract_block_list
  rw [toInt32_of_lt p hp2, gsbo_nat fs p hp1]
  simp only [if_neg hseg, read_block_nat fs _ _ _ hb, hbp]

/-- What `run_add` leaves for a host file of 1037 chunks that all hold a non-zero byte:
inode 1 with `indirect_single = 1042` and `indirect_double = 1043`, the outer array in
block 1043, row 0 of the tree in block 1042, the last chunk in block 1041. -/
theorem double_add_fs_facts (name host : List Nat) (hlo : 1036 * 4096 < host.length)
    (hhi : host.length ≤ 1037 * 4096)
    (hnz : ∀ j, 4096 * j < host.length →
      all_zero (padded ((host.drop (4096 * j)).take 4096)) = false) :
    slot_at (double_add_fs name host) 0 1
        = some { size := (double_loop host).new_file.size,
                 type := (double_loop host).new_file.type,
                 direct := (double_loop host).new_file.direct, indirect_single := 1042,
                 indirect_double := 1043 }
      ∧ num_data_segments (double_add_fs name host) = 5
      ∧ blk_at (double_add_fs name host) 4 19
          = some (ptrs_bytes (1042 :: List.replicate 1023 0))
      ∧ blk_at (double_add_fs name host) 4 18
          = some (ptrs_bytes (1041 :: List.replicate 1023 0))
      ∧ blk_at (double_add_fs name host) 4 17
          = some (padded ((host.drop (4096 * 1036)).take 4096))
      ∧ blk_at (double_add_fs name host) 0 0 = some (padded (entry_bytes 1 name)) := by
  obtain ⟨hinv, _, _, _, _, _, _, hi, hb0, hb17⟩ := double_loop_facts host hlo hhi hnz
  have h18 := hinv.rest 18 (by simp only; omega) (by omega)
  have h19 := hinv.rest 19 (by simp only; omega) (by omega)
  have hnd := hinv.nseg
  simp only at h18 h19 hnd
  unfold double_add_fs
  refine ⟨?_, ?_, ?_, ?_, ?_, ?_⟩
  · rw [slot_at_set_blk]
    apply slot_at_set_slot_same _ _ _ _ zero_inode
    exact (slot_at_fresh_table _ (by simp only [set_blk_inode_segments]; exact hi)).2.1
  · simp only [num_data_segments_set_blk, num_data_segments_set_slot, hnd]
  · rw [blk_at_set_blk_other _ _ _ _ _ _ (Or.inl (by omega)), blk_at_set_slot]
    apply blk_at_set_blk_same _ _ _ _ zero_block
    rw [blk_at_set_blk_other _ _ _ _ _ _ (Or.inr (by omega)),
      blk_at_set_blk_other _ _ _ _ _ _ (Or.inr (by omega))]
    exact h19
  · rw [blk_at_set_blk_other _ _ _ _ _ _ (Or.inl (by omega)), blk_at_set_slot,
      blk_at_set_blk_other _ _ _ _ _ _ (Or.inr (by omega))]
    apply blk_at_set_blk_same _ _ _ _ (ptrs_bytes (double_loop host).indirect_single)
    exact blk_at_set_blk_same _ _ _ _ _ h18
  · rw [blk_at_set_blk_other _ _ _ _ _ _ (Or.inl (by omega)), blk_at_set_slot,
      blk_at_set_blk_other _ _ _ _ _ _ (Or.inr (by omega)),
      blk_at_set_blk_other _ _ _ _ _ _ (Or.inr (by omega)),
      blk_at_set_blk_other _ _ _ _ _ _ (Or.inr (by omega))]
    exact hb17
  · apply blk_at_set_blk_same _ _ _ _ zero_block
    rw [blk_at_set_slot, blk_at_set_blk_other _ _ _ _ _ _ (Or.inl (by omega)),
      blk_at_set_blk_other _ _ _ _ _ _ (Or.inl (by omega)),
      blk_at_set_blk_other _ _ _ _ _ _ (Or.inl (by omega))]
    exact hb0

theorem replicate_one_chunk_nonzero (n j : Nat) (h : 4096 * j < (List.replicate n 1).length) :
    all_zero (padded (((List.replicate n 1).drop (4096 * j)).take 4096)) = false := by
  rw [List.length_replicate] at h
  apply chunk_nonzero _ j 0 (by omega)
  rw [List.getD_eq_getElem?_getD, List.getElem?_replicate, if_pos (by omega)]
  decide

/-! ## Inode records -/

theorem inode_at_eq_slot_at (fs : FS) (n : Nat) :
    inode_at fs n = slot_at fs (n / INODES_PER_SEGMENT) (n % INODES_PER_SEGMENT) := rfl

theorem inode_of_fields (x : Inode) (sz ty : Nat) (dir : List Nat) (s d : Nat)
    (h1 : x.size = sz) (h2 : x.type = ty) (h3 : x.direct = dir) (h4 : x.indirect_single = s)
    (h5 : x.indirect_double = d) :
    x = { size := sz, type := ty, direct := dir, indirect_single := s, indirect_double := d } := by
  cases x
  simp only at h1 h2 h3 h4 h5
  subst h1 h2 h3 h4 h5
  rfl

theorem fresh_loop_nil : fresh_loop [] = add_init fresh := rfl

/-- The function `run_add` for an empty host file, on any archive: after the path is
resolved, only the steps "Write inode" and "Add directory entry" run, with the record
`{0}` of type `TYPE_FILE`. -/
theorem run_add_empty (fs fs1 : FS) (exfs_path before filename : List Nat) (parent : Nat)
    (hs : split_last_slash exfs_path = some (before, filename)) (hf : filename ≠ [])
    (hp : find_or_create_path fs exfs_path = .ok (parent, fs1))
    (hpos : ¬ toInt32 parent < 0) :
    run_add fs exfs_path (some [])
      = match write_file_inode fs1 { zero_inode with type := TYPE_FILE } parent filename with
        | .error e => .error e
        | .ok fs2 => .ok (.added, fs2) := by
  have hl : ¬ filename.length = 0 := by
    intro h; exact hf (List.eq_nil_of_length_eq_zero h)
  unfold run_add
  rw [hs]
  simp only [if_neg hl, hp, if_neg hpos]
  rfl

/-! ## What the steps leave of the inode table -/

theorem write_block_inode_segments (fs fs' : FS) (s b : Int) (x : List Nat)
    (h : write_block fs s b x = .ok fs') : fs'.inode_segments = fs.inode_segments := by
  unfold write_block at h
  split at h
  · cases h
  · split at h
    · cases h
    · split at h
      · cases h
      · cases h
        rfl

theorem create_new_data_segment_inode_segments (fs fs' : FS)
    (h : create_new_data_segment fs = .ok fs') : fs'.inode_segments = fs.inode_segments := by
  unfold create_new_data_segment at h
  split at h
  · cases h
  · cases h
    rfl

theorem find_free_block_inode_segments (fs fs' : FS) (g : Nat)
    (h : find_free_block fs = .ok (g, fs')) : fs'.inode_segments = fs.inode_segments := by
  unfold find_free_block at h
  split at h
  · cases h
  · cases h
    rfl
  · split at h
    · cases h
    · rename_i fs1 h1
      cases h
      exact create_new_data_segment_inode_segments _ _ h1

/-- The block writing loop of `run_add` leaves the inode table alone and keeps the type
of the inode under construction. -/
theorem add_loop_inode_segments (chunks : List (List Nat)) :
    ∀ (st st' : AddState) (flag : Bool), add_loop st chunks = .ok (st', flag) →
      st'.fs.inode_segments = st.fs.inode_segments
        ∧ st'.new_file.type = st.new_file.type := by
  induction chunks with
  | nil =>
    intro st st' flag h
    rw [add_loop] at h
    cases h
    exact ⟨rfl, rfl⟩
  | cons buffer rest ih =>
    intro st st' flag h
    rw [add_loop] at h
    split at h
    · cases h
    · rename_i block fs1 h1
      have e1 := find_free_block_inode_segments _ _ _ h1
      split at h
      · cases h
      · rename_i seg blk h2
        split at h
        · cases h
        · rename_i fs2 h3
          have e2 := write_block_inode_segments _ _ _ _ _ h3
          simp only at h
          split at h
          · obtain ⟨a, b⟩ := ih _ _ _ h
            exact ⟨by rw [a]; simp only; rw [e2, e1], by rw [b]⟩
          · split at h
            · obtain ⟨a, b⟩ := ih _ _ _ h
              exact ⟨by rw [a]; simp only; rw [e2, e1], by rw [b]⟩
            · split at h
              · split at h
                · cases h
                · rename_i inner fs3 h4
                  obtain ⟨a, b⟩ := ih _ _ _ h
                  have e3 : fs3.inode_segments = fs2.inode_segments := by
                    split at h4
                    · cases h4
                      rfl
                    · exact find_free_block_inode_segments _ _ _ h4
                  exact ⟨by rw [a]; simp only; rw [e3, e2, e1], by rw [b]⟩
              · cases h
                exact ⟨by simp only; rw [e2, e1], rfl⟩
theorem write_single_indirect_inode_segments (st : AddState) (file1 : Inode) (fsa : FS)
    (h : write_single_indirect st = .ok (file1, fsa)) :
    fsa.inode_segments = st.fs.inode_segments ∧ file1.type = st.new_file.type := by
  unfold write_single_indirect at h
  split at h
  · split at h
    · cases h
    · rename_i single fs1 h1
      have e1 := find_free_block_inode_segments _ _ _ h1
      split at h
      · cases h
      · split at h
        · cases h
        · rename_i fs2 h3
          have e2 := write_block_inode_segments _ _ _ _ _ h3
          cases h
          exact ⟨by rw [e2, e1], rfl⟩
  · cases h
    exact ⟨rfl, rfl⟩

theorem write_inner_blocks_inode_segments (ps : List Nat) :
    ∀ (fs fs' : FS) (rows : List (List Nat)), write_inner_blocks fs ps rows = .ok fs' →
      fs'.inode_segments = fs.inode_segments := by
  induction ps with
  | nil =>
    intro fs fs' rows h
    rw [write_inner_blocks] at h
    cases h
    rfl
  | cons p ps ih =>
    intro fs fs' rows h
    rw [write_inner_blocks] at h
    split at h
    · cases h
      rfl
    · split at h
      · cases h
      · split at h
        · cases h
        · rename_i fs1 h3
          rw [ih _ _ _ h, write_block_inode_segments _ _ _ _ _ h3]

theorem write_double_indirect_inode_segments (st : AddState) (file1 file2 : Inode)
    (fsa fsb : FS) (h : write_double_indirect st file1 fsa = .ok (file2, fsb)) :
    fsb.inode_segments = fsa.inode_segments ∧ file2.type = file1.type := by
  unfold write_double_indirect at h
  split at h
  · split at h
    · cases h
    · rename_i outer fs1 h1
      have e1 := find_free_block_inode_segments _ _ _ h1
      split at h
      · cases h
      · split at h
        · cases h
        · rename_i fs2 h3
          have e2 := write_inner_blocks_inode_segments _ _ _ _ h3
          split at h
          · cases h
          · rename_i fs3 h4
            have e3 := write_block_inode_segments _ _ _ _ _ h4
            cases h
            exact ⟨by rw [e3, e2, e1], rfl⟩
  · cases h
    exact ⟨rfl, rfl⟩

theorem update_directory_entry_inode_segments (fs fs' : FS) (p n : Nat) (name : List Nat)
    (h : update_directory_entry fs p n name = .ok fs') :
    fs'.inode_segments = fs.inode_segments := by
  unfold update_directory_entry at h
  split at h
  · cases h
  · split at h
    · cases h
    · split at h
      · cases h
      · split at h
        · cases h
        · split at h
          · cases h
          · split at h
            · cases h
            · exact write_block_inode_segments _ _ _ _ _ h

/-- What a successful `write_inode` leaves: the record stands in the addressed slot, which
existed, and nothing else changed. -/
theorem write_inode_ok (fs fs' : FS) (seg off : Int) (ino : Inode)
    (h : write_inode fs seg off ino = .ok fs') :
    ∃ sg, fs.inode_segments[seg.toNat]? = some sg ∧ off.toNat < sg.length
      ∧ 0 ≤ seg ∧ 0 ≤ off
      ∧ fs'.inode_segments = fs.inode_segments.set seg.toNat (sg.set off.toNat ino)
      ∧ fs'.data_segments = fs.data_segments := by
  unfold write_inode at h
  split at h
  · cases h
  · rename_i hneg
    split at h
    · cases h
    · rename_i sg hsg
      split at h
      · rename_i hoff
        cases h
        exact ⟨sg, hsg, hoff, by omega, by omega, rfl, rfl⟩
      · cases h

/-- What a successful `find_free_inode` leaves: either the table is unchanged and holds a
record of type 0, or a segment of zero records was appended. -/
theorem find_free_inode_ok (fs fs' : FS) (n : Nat) (h : find_free_inode fs = .ok (n, fs')) :
    fs'.data_segments = fs.data_segments
      ∧ ((fs' = fs ∧ scan_inode_segments fs.inode_segments 0 = some n)
        ∨ (scan_inode_segments fs.inode_segments 0 = none
            ∧ fs'.inode_segments = fs.inode_segments ++ [zero_inode_segment]
            ∧ n = fs.inode_segments.length * INODES_PER_SEGMENT)) := by
  unfold find_free_inode at h
  split at h
  · rename_i m hm
    cases h
    exact ⟨rfl, Or.inl ⟨rfl, hm⟩⟩
  · rename_i hnone
    split at h
    · cases h
    · rename_i fs1 h1
      unfold create_new_inode_segment at h1
      split at h1
      · cases h1
      · cases h1
        split at h
        · cases h
        · rename_i fs2 h2
          cases h
          obtain ⟨sg, hsg, hoff, _, _, e, ed⟩ := write_inode_ok _ _ _ _ _ h2
          simp only [num_inode_segments, List.length_append, List.length_singleton,
            Nat.cast_add, Nat.cast_one, add_sub_cancel_right, Int.toNat_ofNat] at hsg e
          rw [List.getElem?_append_right (le_refl _), Nat.sub_self] at hsg
          simp only [List.getElem?_cons_zero, Option.some.injEq] at hsg
          subst hsg
          have hz : zero_inode_segment.set (Int.toNat 0) zero_inode = zero_inode_segment := by
            decide!
          rw [hz] at e
          have hset : (fs.inode_segments ++ [zero_inode_segment]).set fs.inode_segments.length
              zero_inode_segment = fs.inode_segments ++ [zero_inode_segment] := by
            rw [List.set_append_right _ _ (le_refl _), Nat.sub_self]
            rfl
          rw [hset] at e
          refine ⟨ed, Or.inr ⟨hnone, e, ?_⟩⟩
          simp only [num_inode_segments, e, List.length_append, List.length_singleton,
            Nat.add_sub_cancel]
theorem inode_ok_zero : inode_ok zero_inode := ⟨Or.inl rfl, fun _ => rfl⟩

theorem inode_ok_of_type (ino : Inode) (h : ino.type = TYPE_FILE ∨ ino.type = TYPE_DIR) :
    inode_ok ino := by
  refine ⟨Or.inr h, ?_⟩
  intro h0
  rcases h with h | h <;> rw [h0] at h <;> exact absurd h (by decide)

theorem TableInv_set (tbl : List (List Inode)) (s o : Nat) (sg : List Inode) (ino : Inode)
    (h : TableInv tbl) (hs : tbl[s]? = some sg) (hi : inode_ok ino) :
    TableInv (tbl.set s (sg.set o ino)) := by
  intro sg' hsg'
  rcases List.mem_or_eq_of_mem_set hsg' with hm | rfl
  · exact h sg' hm
  · have hsg := h sg (List.getElem?_mem hs)
    refine ⟨by rw [List.length_set]; exact hsg.1, ?_⟩
    intro x hx
    rcases List.mem_or_eq_of_mem_set hx with hm | rfl
    · exact hsg.2 x hm
    · exact hi

theorem TableInv_zero_segment : TableInv [zero_inode_segment] := by
  intro sg hsg
  rw [List.mem_singleton] at hsg
  subst hsg
  refine ⟨by unfold zero_inode_segment; rw [List.length_replicate], ?_⟩
  intro x hx
  unfold zero_inode_segment at hx
  rw [(List.mem_replicate.mp hx).2]
  exact inode_ok_zero

theorem TableInv_append (a b : List (List Inode)) (ha : TableInv a) (hb : TableInv b) :
    TableInv (a ++ b) := by
  intro sg hsg
  rcases List.mem_append.mp hsg with h | h
  · exact ha sg h
  · exact hb sg h

theorem write_inode_TableInv (fs fs' : FS) (seg off : Int) (ino : Inode)
    (h : write_inode fs seg off ino = .ok fs') (ht : TableInv fs.inode_segments)
    (hi : inode_ok ino) : TableInv fs'.inode_segments := by
  obtain ⟨sg, hsg, _, _, _, e, _⟩ := write_inode_ok _ _ _ _ _ h
  rw [e]
  exact TableInv_set _ _ _ _ _ ht hsg hi

theorem find_free_inode_TableInv (fs fs' : FS) (n : Nat) (h : find_free_inode fs = .ok (n, fs'))
    (ht : TableInv fs.inode_segments) : TableInv fs'.inode_segments := by
  obtain ⟨_, h1 | h2⟩ := find_free_inode_ok _ _ _ h
  · rw [h1.1]
    exact ht
  · rw [h2.2.1]
    exact TableInv_append _ _ ht TableInv_zero_segment

theorem create_path_loop_TableInv (tokens : List (List Nat)) :
    ∀ (fs fs' : FS) (cur parent : Nat), create_path_loop fs cur tokens = .ok (parent, fs') →
      TableInv fs.inode_segments → TableInv fs'.inode_segments := by
  induction tokens with
  | nil =>
    intro fs fs' cur parent h ht
    rw [create_path_loop] at h
    cases h
    exact ht
  | cons dirname rest ih =>
    intro fs fs' cur parent h ht
    rw [create_path_loop] at h
    split at h
    · cases h
    · split at h
      · cases h
      · split at h
        · cases h
        · split at h
          · cases h
          · split at h
            · cases h
            · exact ih _ _ _ _ h ht
            · split at h
              · cases h
              · rename_i new_inode fs1 h1
                have t1 := find_free_inode_TableInv _ _ _ h1 ht
                split at h
                · cases h
                · rename_i new_block fs2 h2
                  have e2 := find_free_block_inode_segments _ _ _ h2
                  split at h
                  · cases h
                  · rename_i fs3 h3
                    have t3 := write_inode_TableInv _ _ _ _ _ h3 (by rw [e2]; exact t1)
                      (inode_ok_of_type _ (Or.inr rfl))
                    split at h
                    · cases h
                    · split at h
                      · cases h
                      · rename_i fs4 h4
                        have e4 := write_block_inode_segments _ _ _ _ _ h4
                        exact ih _ _ _ _ h (by rw [e4]; exact t3)

theorem write_file_inode_TableInv (fs fs' : FS) (file : Inode) (parent : Nat)
    (name : List Nat) (h : write_file_inode fs file parent name = .ok fs')
    (ht : TableInv fs.inode_segments) (hi : inode_ok file) : TableInv fs'.inode_segments := by
  unfold write_file_inode at h
  split at h
  · cases h
  · rename_i n fsc h1
    have t1 := find_free_inode_TableInv _ _ _ h1 ht
    split at h
    · cases h
    · split at h
      · cases h
      · rename_i fsd h3
        have t3 := write_inode_TableInv _ _ _ _ _ h3 t1 hi
        rw [update_directory_entry_inode_segments _ _ _ _ _ h]
        exact t3

theorem add_init_type (fs : FS) : (add_init fs).new_file.type = TYPE_FILE := rfl

theorem run_add_TableInv (fs fs' : FS) (exfs_path : List Nat) (host : Option (List Nat))
    (st : AddStatus) (h : run_add fs exfs_path host = .ok (st, fs'))
    (ht : TableInv fs.inode_segments) : TableInv fs'.inode_segments := by
  unfold run_add at h
  split at h
  · cases h
    exact ht
  · split at h
    · cases h
      exact ht
    · split at h
      · cases h
      · rename_i parent fs1 h1
        have t1 := create_path_loop_TableInv _ _ _ _ _ h1 ht
        split at h
        · cases h
          exact t1
        · split at h
          · cases h
            exact t1
          · split at h
            · cases h
            · rename_i st1 h2
              obtain ⟨e2, _⟩ := add_loop_inode_segments _ _ _ _ h2
              cases h
              rw [e2]
              exact t1
            · rename_i st1 h2
              obtain ⟨e2, ty2⟩ := add_loop_inode_segments _ _ _ _ h2
              split at h
              · cases h
              · rename_i fs2 h3
                cases h
                unfold add_finish at h3
                split at h3
                · cases h3
                · rename_i file1 fsa h4
                  obtain ⟨e4, ty4⟩ := write_single_indirect_inode_segments _ _ _ h4
                  split at h3
                  · cases h3
                  · rename_i file2 fsb h5
                    obtain ⟨e5, ty5⟩ := write_double_indirect_inode_segments _ _ _ _ _ h5
                    refine write_file_inode_TableInv _ _ _ _ _ h3 ?_ ?_
                    · rw [e5, e4, e2]
                      exact t1
                    · apply inode_ok_of_type
                      left
                      rw [ty5, ty4, ty2]
                      rfl
theorem zero_listed_blocks_inode_segments (ps : List Nat) :
    ∀ (fs fs' : FS), zero_listed_blocks fs ps = .ok fs' →
      fs'.inode_segments = fs.inode_segments := by
  induction ps with
  | nil =>
    intro fs fs' h
    rw [zero_listed_blocks] at h
    cases h
    rfl
  | cons p ps ih =>
    intro fs fs' h
    rw [zero_listed_blocks] at h
    split at h
    · cases h
      rfl
    · split at h
      · cases h
      · split at h
        · cases h
        · rename_i fs1 h3
          rw [ih _ _ h, write_block_inode_segments _ _ _ _ _ h3]

theorem zero_direct_blocks_inode_segments (ps : List Nat) :
    ∀ (fs fs' : FS), zero_direct_blocks fs ps = .ok fs' →
      fs'.inode_segments = fs.inode_segments := by
  induction ps with
  | nil =>
    intro fs fs' h
    rw [zero_direct_blocks] at h
    cases h
    rfl
  | cons p ps ih =>
    intro fs fs' h
    rw [zero_direct_blocks] at h
    split at h
    · split at h
      · cases h
      · split at h
        · cases h
        · rename_i fs1 h3
          rw [ih _ _ h, write_block_inode_segments _ _ _ _ _ h3]
    · exact ih _ _ h

theorem zero_indirect_inode_segments (fs fs' : FS) (p : Nat)
    (h : zero_indirect fs p = .ok fs') : fs'.inode_segments = fs.inode_segments := by
  unfold zero_indirect at h
  split at h
  · cases h
  · split at h
    · cases h
    · rename_i fs1 h2
      split at h
      · cases h
      · rw [write_block_inode_segments _ _ _ _ _ h, zero_listed_blocks_inode_segments _ _ _ h2]

theorem zero_double_rows_inode_segments (ps : List Nat) :
    ∀ (fs fs' : FS), zero_double_rows fs ps = .ok fs' →
      fs'.inode_segments = fs.inode_segments := by
  induction ps with
  | nil =>
    intro fs fs' h
    rw [zero_double_rows] at h
    cases h
    rfl
  | cons p ps ih =>
    intro fs fs' h
    rw [zero_double_rows] at h
    split at h
    · cases h
      rfl
    · split at h
      · cases h
      · rename_i fs1 h3
        rw [ih _ _ h, zero_indirect_inode_segments _ _ _ h3]

theorem zero_double_tree_inode_segments (fs fs' : FS) (p : Nat)
    (h : zero_double_tree fs p = .ok fs') : fs'.inode_segments = fs.inode_segments := by
  unfold zero_double_tree at h
  split at h
  · cases h
  · split at h
    · cases h
    · rename_i fs1 h2
      split at h
      · cases h
      · rw [write_block_inode_segments _ _ _ _ _ h, zero_double_rows_inode_segments _ _ _ h2]

/-- What a successful `remove_file_blocks` leaves of the inode table: the record of the
addressed slot is replaced by the zero record. -/
theorem remove_file_blocks_table (fs fs' : FS) (n : Nat)
    (h : remove_file_blocks fs n = .ok fs') :
    ∃ (seg off : Int) (sg : List Inode),
      get_segment_and_inode_offset fs (toInt32 n) = .ok (seg, off)
        ∧ 0 ≤ seg ∧ 0 ≤ off
        ∧ fs.inode_segments[seg.toNat]? = some sg ∧ off.toNat < sg.length
        ∧ fs'.inode_segments = fs.inode_segments.set seg.toNat (sg.set off.toNat zero_inode) := by
  unfold remove_file_blocks at h
  split at h
  · cases h
  · rename_i seg off hg
    split at h
    · cases h
    · split at h
      · cases h
      · rename_i fs1 h1
        have e1 := zero_direct_blocks_inode_segments _ _ _ h1
        split at h
        · cases h
        · rename_i fs2 h2
          have e2 : fs2.inode_segments = fs1.inode_segments := by
            split at h2
            · exact zero_indirect_inode_segments _ _ _ h2
            · cases h2
              rfl
          split at h
          · cases h
          · rename_i fs4 h4
            have e4 : fs4.inode_segments = fs2.inode_segments := by
              split at h4
              · exact zero_double_tree_inode_segments _ _ _ h4
              · cases h4
                rfl
            obtain ⟨sg, hsg, hoff, hs0, ho0, e, _⟩ := write_inode_ok _ _ _ _ _ h
            rw [e4, e2, e1] at hsg e
            exact ⟨seg, off, sg, hg, hs0, ho0, hsg, hoff, e⟩

theorem remove_file_blocks_TableInv (fs fs' : FS) (n : Nat)
    (h : remove_file_blocks fs n = .ok fs') (ht : TableInv fs.inode_segments) :
    TableInv fs'.inode_segments := by
  obtain ⟨seg, off, sg, _, _, _, hsg, _, e⟩ := remove_file_blocks_table _ _ _ h
  rw [e]
  exact TableInv_set _ _ _ _ _ ht hsg inode_ok_zero

/-- What a `run_remove` that returns through its normal end did: it cleared
`sizeof(DirEntry)` bytes of the parent's directory block and ran `remove_file_blocks` on
the inode number of the entry. -/
theorem run_remove_removed (fs fs' : FS) (exfs_path : List Nat)
    (h : run_remove fs exfs_path = .ok (.removed, fs')) :
    ∃ (fs1 : FS) (n : Nat), fs1.inode_segments = fs.inode_segments
      ∧ remove_file_blocks fs1 n = .ok fs' := by
  unfold run_remove at h
  split at h
  · cases h
  · split at h
    · cases h
    · split at h
      · cases h
      · split at h
        · cases h
        · split at h
          · cases h
          · split at h
            · cases h
            · split at h
              · cases h
              · split at h
                · cases h
                · split at h
                  · cases h
                  · cases h
                  · rename_i target found_offset hfind
                    split at h
                    · cases h
                    · split at h
                      · cases h
                      · split at h
                        · cases h
                        · rename_i fs1 hw
                          split at h
                          · cases h
                          · rename_i fs2 hr
                            cases h
                            exact ⟨fs1, target, write_block_inode_segments _ _ _ _ _ hw, hr⟩

theorem run_remove_other (fs fs' : FS) (exfs_path : List Nat) (st : RemoveStatus)
    (h : run_remove fs exfs_path = .ok (st, fs')) (hst : st ≠ .removed) : fs' = fs := by
  unfold run_remove at h
  split at h
  · cases h; rfl
  · split at h
    · cases h; rfl
    · split at h
      · cases h
      · split at h
        · cases h; rfl
        · split at h
          · cases h
          · split at h
            · cases h
            · split at h
              · cases h
              · split at h
                · cases h
                · split at h
                  · cases h
                  · cases h; rfl
                  · split at h
                    · cases h; rfl
                    · split at h
                      · cases h
                      · split at h
                        · cases h
                        · split at h
                          · cases h
                          · cases h
                            exact absurd rfl hst

theorem run_remove_TableInv (fs fs' : FS) (exfs_path : List Nat) (st : RemoveStatus)
    (h : run_remove fs exfs_path = .ok (st, fs')) (ht : TableInv fs.inode_segments) :
    TableInv fs'.inode_segments := by
  by_cases hst : st = .removed
  · subst hst
    obtain ⟨fs1, n, e1, hr⟩ := run_remove_removed _ _ _ h
    exact remove_file_blocks_TableInv _ _ _ hr (by rw [e1]; exact ht)
  · rw [run_remove_other _ _ _ _ h hst]
    exact ht

theorem TableInv_fresh : TableInv fresh.inode_segments := by
  rw [fresh_eq]
  exact TableInv_set [zero_inode_segment] 0 0 zero_inode_segment root_inode
    TableInv_zero_segment rfl (inode_ok_of_type _ (Or.inr rfl))

theorem init_filesystem_inode_segments (fs : FS) :
    ∃ iseg, iseg = (if fs.inode_segments = [] then [zero_inode_segment] else fs.inode_segments)
      ∧ ((init_filesystem fs).inode_segments = iseg
        ∨ (init_filesystem fs).inode_segments = iseg.set 0 ((iseg.headD []).set 0 root_inode)) := by
  refine ⟨_, rfl, ?_⟩
  unfold init_filesystem
  simp only
  by_cases h : (((if fs.inode_segments = [] then [zero_inode_segment]
      else fs.inode_segments).headD []).getD 0 zero_inode).type ≠ TYPE_DIR
  · right
    rw [if_pos h]
  · left
    rw [if_neg h]

theorem init_filesystem_TableInv (fs : FS) (ht : TableInv fs.inode_segments) :
    TableInv (init_filesystem fs).inode_segments := by
  obtain ⟨iseg, hi, h⟩ := init_filesystem_inode_segments fs
  have hti : TableInv iseg := by
    rw [hi]
    split
    · exact TableInv_zero_segment
    · exact ht
  rcases h with h | h
  · rw [h]
    exact hti
  · rw [h]
    cases iseg with
    | nil => exact hti
    | cons sg rest =>
      exact TableInv_set (sg :: rest) 0 0 sg root_inode hti (List.getElem?_cons_zero ..)
        (inode_ok_of_type _ (Or.inr rfl))

/-- The inode table of every reachable archive state is regular and its records satisfy
`inode_ok`. -/
theorem Reachable_TableInv (fs : FS) (h : Reachable fs) : TableInv fs.inode_segments := by
  induction h with
  | init => exact TableInv_fresh
  | reinit fs _ ih => exact init_filesystem_TableInv fs ih
  | add fs fs1 p host st _ hrun ih => exact run_add_TableInv _ _ _ _ _ hrun ih
  | remove fs fs1 p st _ hrun ih => exact run_remove_TableInv _ _ _ _ hrun ih
/-- The scan of one inode segment from slot number `i` on: the result is the first record
of type 0. -/
theorem scan_inode_slots_spec (sg : List Inode) :
    ∀ (i : Nat),
      (∀ m, scan_inode_slots sg i = some m →
        ∃ j, m = i + j ∧ (∃ ino, sg[j]? = some ino ∧ ino.type = 0)
          ∧ ∀ k, k < j → ∀ ino, sg[k]? = some ino → ino.type ≠ 0)
      ∧ (scan_inode_slots sg i = none → ∀ ino ∈ sg, ino.type ≠ 0) := by
  induction sg with
  | nil =>
    intro i
    refine ⟨?_, ?_⟩
    · intro m h
      rw [scan_inode_slots] at h
      cases h
    · intro _ ino hino
      cases hino
  | cons x rest ih =>
    intro i
    rw [scan_inode_slots]
    by_cases hx : x.type = 0
    · rw [if_pos hx]
      refine ⟨?_, ?_⟩
      · intro m h
        cases h
        exact ⟨0, rfl, ⟨x, List.getElem?_cons_zero .., hx⟩,
          fun k hk => absurd hk (Nat.not_lt_zero k)⟩
      · intro h
        cases h
    · rw [if_neg hx]
      obtain ⟨ih1, ih2⟩ := ih (i + 1)
      refine ⟨?_, ?_⟩
      · intro m h
        obtain ⟨j, hm, hj, hlt⟩ := ih1 m h
        refine ⟨j + 1, by omega, by simpa using hj, ?_⟩
        intro k hk ino hino
        cases k with
        | zero =>
          simp only [List.getElem?_cons_zero, Option.some.injEq] at hino
          subst hino
          exact hx
        | succ k =>
          simp only [List.getElem?_cons_succ] at hino
          exact hlt k (by omega) ino hino
      · intro h ino hino
        rcases List.mem_cons.mp hino with rfl | hm
        · exact hx
        · exact ih2 h ino hm

/-- The scan of the inode segments from segment `s` on, for segments of
`INODES_PER_SEGMENT` records: the result is the number of the first record of type 0. -/
theorem scan_inode_segments_spec (tbl : List (List Inode)) :
    ∀ (s : Nat), (∀ sg ∈ tbl, sg.length = INODES_PER_SEGMENT) →
      (∀ m, scan_inode_segments tbl s = some m →
        ∃ t j sg ino, m = (s + t) * INODES_PER_SEGMENT + j ∧ j < INODES_PER_SEGMENT
          ∧ tbl[t]? = some sg ∧ sg[j]? = some ino ∧ ino.type = 0
          ∧ ∀ t' j' sg' ino', tbl[t']? = some sg' → sg'[j']? = some ino' →
              (t' < t ∨ (t' = t ∧ j' < j)) → ino'.type ≠ 0)
      ∧ (scan_inode_segments tbl s = none → ∀ sg ∈ tbl, ∀ ino ∈ sg, ino.type ≠ 0) := by
  induction tbl with
  | nil =>
    intro s _
    refine ⟨?_, ?_⟩
    · intro m h
      rw [scan_inode_segments] at h
      cases h
    · intro _ sg hsg
      cases hsg
  | cons sg rest ih =>
    intro s hreg
    have hlen := hreg sg (List.mem_cons_self _ _)
    obtain ⟨ih1, ih2⟩ := ih (s + 1) (fun sg' h => hreg sg' (List.mem_cons_of_mem _ h))
    obtain ⟨sp1, sp2⟩ := scan_inode_slots_spec sg 0
    rw [scan_inode_segments]
    cases hscan : scan_inode_slots sg 0 with
    | some i =>
      simp only
      refine ⟨?_, ?_⟩
      · intro m h
        cases h
        obtain ⟨j, hm, ⟨ino, hj, hty⟩, hlt⟩ := sp1 i hscan
        have hjl : j < sg.length := by
          by_contra hc
          rw [List.getElem?_eq_none (by omega)] at hj
          cases hj
        refine ⟨0, j, sg, ino, by rw [hm]; simp, by omega, List.getElem?_cons_zero .., hj, hty, ?_⟩
        intro t' j' sg' ino' ht' hj' hord
        rcases hord with h | ⟨h, h'⟩
        · omega
        · subst h
          simp only [List.getElem?_cons_zero, Option.some.injEq] at ht'
          subst ht'
          exact hlt j' h' ino' hj'
      · intro h
        cases h
    | none =>
      simp only
      have hsg := sp2 hscan
      refine ⟨?_, ?_⟩
      · intro m h
        obtain ⟨t, j, sg1, ino, hm, hj, ht, hsj, hty, hlt⟩ := ih1 m h
        refine ⟨t + 1, j, sg1, ino, by rw [hm]; congr 2; omega, hj, by simpa using ht, hsj, hty, ?_⟩
        intro t' j' sg' ino' ht' hj' hord
        cases t' with
        | zero =>
          simp only [List.getElem?_cons_zero, Option.some.injEq] at ht'
          subst ht'
          exact hsg ino' (List.getElem?_mem hj')
        | succ t' =>
          simp only [List.getElem?_cons_succ] at ht'
          exact hlt t' j' sg' ino' ht' hj' (by omega)
      · intro h sg' hsg' ino hino
        rcases List.mem_cons.mp hsg' with rfl | hm
        · exact hsg ino hino
        · exact ih2 h sg' hm ino hino
theorem find_free_inode_of_scan (fs : FS) (m : Nat)
    (h : scan_inode_segments fs.inode_segments 0 = some m) : find_free_inode fs = .ok (m, fs) := by
  unfold find_free_inode
  rw [h]

theorem gsio_ok_nat (fs : FS) (n : Nat) (seg off : Int)
    (h : get_segment_and_inode_offset fs (n : Int) = .ok (seg, off)) :
    seg = ((n / 256 : Nat) : Int) ∧ off = ((n % 256 : Nat) : Int)
      ∧ n / 256 < num_inode_segments fs := by
  unfold get_segment_and_inode_offset at h
  have h1 : Int.tdiv (n : Int) (INODES_PER_SEGMENT : Nat) = ((n / 256 : Nat) : Int) := by
    simp [Int.tdiv, INODES_PER_SEGMENT]
  have h2 : Int.tmod (n : Int) (INODES_PER_SEGMENT : Nat) = ((n % 256 : Nat) : Int) := by
    simp [Int.tmod, INODES_PER_SEGMENT]
  simp only [h1, h2] at h
  split at h
  · cases h
  · rename_i hlt
    cases h
    exact ⟨rfl, rfl, by omega⟩

/-- A successful `get_segment_and_inode_offset` on a `uint32_t` number read as `int` that
yields a non-negative slot address: the number was not negative as `int`, and the address
is its quotient and remainder by `INODES_PER_SEGMENT`. -/
theorem gsio_toInt32_ok (fs : FS) (n : Nat) (seg off : Int) (hn : n < 4294967296)
    (h : get_segment_and_inode_offset fs (toInt32 n) = .ok (seg, off))
    (hs : 0 ≤ seg) (ho : 0 ≤ off) :
    seg = ((n / 256 : Nat) : Int) ∧ off = ((n % 256 : Nat) : Int)
      ∧ n / 256 < num_inode_segments fs := by
  by_cases hlt : n < 2147483648
  · rw [toInt32_of_lt n hlt] at h
    exact gsio_ok_nat fs n seg off h
  · exfalso
    have e : toInt32 n = -(((4294967296 - n : Nat)) : Int) := by
      unfold toInt32
      rw [Nat.mod_eq_of_lt hn, if_neg hlt]
      omega
    rw [e] at h
    unfold get_segment_and_inode_offset at h
    have h1 : Int.tdiv (-(((4294967296 - n : Nat)) : Int)) (INODES_PER_SEGMENT : Nat)
        = -((((4294967296 - n) / 256 : Nat)) : Int) := by
      rw [Int.neg_tdiv]
      simp [Int.tdiv, INODES_PER_SEGMENT]
    have h2 : Int.tmod (-(((4294967296 - n : Nat)) : Int)) (INODES_PER_SEGMENT : Nat)
        = -((((4294967296 - n) % 256 : Nat)) : Int) := by
      have hid := Int.tmod_add_tdiv (-(((4294967296 - n : Nat)) : Int)) (INODES_PER_SEGMENT : Nat)
      rw [h1] at hid
      simp only [INODES_PER_SEGMENT] at hid ⊢
      omega
    simp only [h1, h2] at h
    split at h
    · cases h
    · cases h
      omega

/-- The inode record of slot `n` after a successful `remove_file_blocks` on the inode
number `n` is the zero record, and the table keeps its shape. -/
theorem remove_file_blocks_slot (fs fs' : FS) (n : Nat) (hn : n < 4294967296)
    (h : remove_file_blocks fs n = .ok fs') :
    inode_at fs' n = some zero_inode
      ∧ ((∀ sg ∈ fs.inode_segments, sg.length = INODES_PER_SEGMENT) →
          ∀ sg ∈ fs'.inode_segments, sg.length = INODES_PER_SEGMENT) := by
  obtain ⟨seg, off, sg, hg, hs, ho, hsg, hoff, e⟩ := remove_file_blocks_table _ _ _ h
  obtain ⟨e1, e2, _⟩ := gsio_toInt32_ok fs n seg off hn hg hs ho
  subst e1 e2
  simp only [Int.toNat_ofNat] at hsg hoff e
  refine ⟨?_, ?_⟩
  · unfold inode_at
    rw [e]
    have hl : n / 256 < fs.inode_segments.length := by
      by_contra hc
      rw [List.getElem?_eq_none (by omega)] at hsg
      cases hsg
    show (match (fs.inode_segments.set (n / 256) (sg.set (n % 256) zero_inode))[n / 256]? with
      | none => none
      | some sg => sg[n % 256]?) = some zero_inode
    rw [List.getElem?_set_self hl]
    simp only
    rw [List.getElem?_set_self hoff]
  · intro hreg sg' hsg'
    rw [e] at hsg'
    rcases List.mem_or_eq_of_mem_set hsg' with hm | rfl
    · exact hreg sg' hm
    · rw [List.length_set]
      exact hreg sg (List.getElem?_mem hsg)

/-- The function `find_free_inode` on a regular table in which slot `n` holds a record of
type 0: it returns, without changing the archive, a slot number `m ≤ n` whose record has
type 0, and `m = n` when every slot below `n` holds a record of another type. -/
theorem find_free_inode_le (fs : FS) (n : Nat) (ino : Inode)
    (hreg : ∀ sg ∈ fs.inode_segments, sg.length = INODES_PER_SEGMENT)
    (hslot : inode_at fs n = some ino) (hty : ino.type = 0) :
    ∃ m, scan_inode_segments fs.inode_segments 0 = some m
      ∧ find_free_inode fs = .ok (m, fs) ∧ m ≤ n
      ∧ (∃ ino', inode_at fs m = some ino' ∧ ino'.type = 0)
      ∧ ((∀ k, k < n → ∀ ino', inode_at fs k = some ino' → ino'.type ≠ 0) → m = n) := by
  obtain ⟨sp1, sp2⟩ := scan_inode_segments_spec fs.inode_segments 0 hreg
  unfold inode_at at hslot
  cases hsg : fs.inode_segments[n / INODES_PER_SEGMENT]? with
  | none => rw [hsg] at hslot; cases hslot
  | some sg =>
    rw [hsg] at hslot
    simp only at hslot
    cases hscan : scan_inode_segments fs.inode_segments 0 with
    | none =>
      exact absurd hty (sp2 hscan sg (List.getElem?_mem hsg) ino (List.getElem?_mem hslot))
    | some m =>
      obtain ⟨t, j, sg1, ino1, hm, hj, ht, hsj, hty1, hmin⟩ := sp1 m hscan
      simp only [Nat.zero_add] at hm
      have hmt : m / INODES_PER_SEGMENT = t := by
        rw [hm]
        simp only [INODES_PER_SEGMENT] at hj ⊢
        omega
      have hmj : m % INODES_PER_SEGMENT = j := by
        rw [hm]
        simp only [INODES_PER_SEGMENT] at hj ⊢
        omega
      have hslotm : inode_at fs m = some ino1 := by
        unfold inode_at
        rw [hmt, ht]
        simp only
        rw [hmj, hsj]
      have hle : m ≤ n := by
        by_contra hc
        have hord : n / INODES_PER_SEGMENT < t
            ∨ (n / INODES_PER_SEGMENT = t ∧ n % INODES_PER_SEGMENT < j) := by
          simp only [INODES_PER_SEGMENT] at hj hm ⊢
          omega
        exact hmin _ _ sg ino hsg hslot hord hty
      refine ⟨m, rfl, find_free_inode_of_scan fs m hscan, hle, ⟨ino1, hslotm, hty1⟩, ?_⟩
      intro hocc
      by_contra hne
      exact hocc m (by omega) ino1 hslotm hty1

/-- The steps "Write inode" and "Add directory entry" of `run_add` put the record into the
first slot of type 0. -/
theorem write_file_inode_slot (fs fs' : FS) (file : Inode) (parent : Nat) (name : List Nat)
    (m : Nat) (hscan : scan_inode_segments fs.inode_segments 0 = some m)
    (h : write_file_inode fs file parent name = .ok fs') : inode_at fs' m = some file := by
  unfold write_file_inode at h
  rw [find_free_inode_of_scan fs m hscan] at h
  simp only at h
  split at h
  · cases h
  · rename_i seg off hg
    obtain ⟨e1, e2, _⟩ := gsio_ok_nat fs m seg off hg
    subst e1 e2
    split at h
    · cases h
    · rename_i fsd hw
      obtain ⟨sg, hsg, hoff, _, _, e, _⟩ := write_inode_ok _ _ _ _ _ hw
      simp only [Int.toNat_ofNat] at hsg hoff e
      have hl : m / 256 < fs.inode_segments.length := by
        by_contra hc
        rw [List.getElem?_eq_none (by omega)] at hsg
        cases hsg
      unfold inode_at
      rw [update_directory_entry_inode_segments _ _ _ _ _ h, e]
      show (match (fs.inode_segments.set (m / 256) (sg.set (m % 256) file))[m / 256]? with
        | none => none
        | some sg => sg[m % 256]?) = some file
      rw [List.getElem?_set_self hl]
      simp only
      rw [List.getElem?_set_self hoff]

/-- A `run_add` that returns through its normal end and whose path resolution left the
inode table alone stores the inode of the file, a record of type `TYPE_FILE`, in the first
slot of type 0. -/
theorem run_add_uses_free_slot (fs fs1 fs2 : FS) (exfs_path host : List Nat) (parent m : Nat)
    (hp : find_or_create_path fs exfs_path = .ok (parent, fs1))
    (hsame : fs1.inode_segments = fs.inode_segments)
    (hscan : scan_inode_segments fs.inode_segments 0 = some m)
    (h : run_add fs exfs_path (some host) = .ok (.added, fs2)) :
    ∃ ino, inode_at fs2 m = some ino ∧ ino.type = TYPE_FILE := by
  unfold run_add at h
  split at h
  · cases h
  · split at h
    · cases h
    · rw [hp] at h
      simp only at h
      split at h
      · cases h
      · split at h
        · cases h
        · rename_i st1 h2
          cases h
        · rename_i st1 h2
          obtain ⟨e2, ty2⟩ := add_loop_inode_segments _ _ _ _ h2
          split at h
          · cases h
          · rename_i fs3 h3
            cases h
            unfold add_finish at h3
            split at h3
            · cases h3
            · rename_i file1 fsa h4
              obtain ⟨e4, ty4⟩ := write_single_indirect_inode_segments _ _ _ h4
              split at h3
              · cases h3
              · rename_i file2 fsb h5
                obtain ⟨e5, ty5⟩ := write_double_indirect_inode_segments _ _ _ _ _ h5
                have etbl : fsb.inode_segments = fs.inode_segments := by
                  rw [e5, e4, e2]
                  exact hsame
                refine ⟨file2, write_file_inode_slot _ _ _ _ _ m (by rw [etbl]; exact hscan) h3, ?_⟩
                rw [ty5, ty4, ty2]
                rfl
theorem file_chunks_take_sum (host : List Nat) (k : Nat) (hk : 4096 * k ≤ host.length) :
    (((file_chunks host.length host).take k).map List.length).sum = 4096 * k := by
  have h := congrArg List.length (file_chunks_take_flatten host k hk)
  rw [List.length_flatten, List.length_take] at h
  rw [h]
  omega

theorem seq_ptrs_1036_direct :
    (seq_ptrs 0 (0, 0) 1036 (List.replicate 12 0, List.replicate 1024 0)).1
      = List.range' 1 12 := by decide!

theorem listed_single (p : Nat) (hp : p ≠ 0) : listed (p :: List.replicate 1023 0) = [p] := by
  unfold listed
  rw [List.takeWhile_cons, if_pos (by simpa using hp)]
  rw [show List.replicate 1023 0 = 0 :: List.replicate 1022 0 from rfl, List.takeWhile_cons]
  simp

theorem size_after_chunks (host : List Nat) (k : Nat) (h1 : 4096 * k ≤ host.length)
    (h2 : host.length ≤ 4096 * (k + 1)) (hn : host.length < 4294967296) :
    ((0 + 4096 * k) % 4294967296 + ((host.drop (4096 * k)).take 4096).length) % 4294967296
      = host.length := by
  rw [List.length_take, List.length_drop]
  omega

/-- The inode fields staged by the block writing loop for a host file of 1037 chunks that
all hold a non-zero byte. -/
theorem double_loop_fields (host : List Nat) (hlo : 1036 * 4096 < host.length)
    (hhi : host.length ≤ 1037 * 4096) :
    (double_loop host).new_file.size = host.length
      ∧ (double_loop host).new_file.type = TYPE_FILE
      ∧ (double_loop host).new_file.direct = List.range' 1 12 := by
  have hl := file_chunks_length host
  have hlen : ((file_chunks host.length host).take 1036).length = 1036 := by
    simp only [List.length_take]; omega
  have hptrs := seq_loop_ptrs ((file_chunks host.length host).take 1036) (add_init fresh) (0, 0)
  rw [hlen] at hptrs
  have hd : (seq_loop (add_init fresh) (0, 0)
      ((file_chunks host.length host).take 1036)).new_file.direct = List.range' 1 12 := by
    have := congrArg Prod.fst hptrs
    simp only at this
    rw [this]
    exact seq_ptrs_1036_direct
  obtain ⟨hty, _⟩ := seq_loop_other_fields ((file_chunks host.length host).take 1036)
    (add_init fresh) (0, 0)
  have hsz := seq_loop_size ((file_chunks host.length host).take 1036) (add_init fresh) (0, 0)
    (by decide)
  rw [file_chunks_take_sum host 1036 (by omega)] at hsz
  have hs0 : (add_init fresh).new_file.size = 0 := rfl
  rw [hs0] at hsz
  unfold double_loop note_double
  simp only
  refine ⟨?_, hty, hd⟩
  rw [hsz]
  exact size_after_chunks host 1036 (by omega) (by omega) (by omega)

/-- The pointer blocks left by `run_add` for a host file of 1037 chunks that all hold a
non-zero byte, as `extract_block_list` reads them. -/
theorem double_add_fs_lists (name host : List Nat) (hlo : 1036 * 4096 < host.length)
    (hhi : host.length ≤ 1037 * 4096)
    (hnz : ∀ j, 4096 * j < host.length →
      all_zero (padded ((host.drop (4096 * j)).take 4096)) = false) :
    extract_block_list (double_add_fs name host) 1043 = .ok (1042 :: List.replicate 1023 0)
      ∧ extract_block_list (double_add_fs name host) 1042
          = .ok (1041 :: List.replicate 1023 0) := by
  obtain ⟨_, hnd, h19, h18, _, _⟩ := double_add_fs_facts name host hlo hhi hnz
  have hl : ∀ p : Nat, (p :: List.replicate 1023 0).length = 1024 := by
    intro p
    rw [List.length_cons, List.length_replicate]
  have hq : ∀ p : Nat, p < 4294967296 → ∀ q ∈ p :: List.replicate 1023 0, q < 4294967296 := by
    intro p hp q hq
    rcases List.mem_cons.mp hq with h | h
    · omega
    · rw [(List.mem_replicate.mp h).2]
      omega
  exact ⟨extract_block_list_ptrs (double_add_fs name host) 1043
      (1042 :: List.replicate 1023 0) (by rw [hnd]; decide) (by decide) h19 (hl 1042)
      (hq 1042 (by decide)),
    extract_block_list_ptrs (double_add_fs name host) 1042
      (1041 :: List.replicate 1023 0) (by rw [hnd]; decide) (by decide) h18 (hl 1041)
      (hq 1041 (by decide))⟩

/-! ## The allocator on arbitrary inode tables -/

theorem div_mod_eq_iff (d s b : Nat) (hb : b < 256) :
    (((d / 256 : Nat) : Int) = (s : Int) ∧ ((d % 256 : Nat) : Int) = (b : Int)) ↔ d = s * 256 + b := by
  constructor
  · intro ⟨h1, h2⟩
    omega
  · intro h
    subst h
    constructor <;> omega

/-- The loop over `k` of `find_free_block` on direct entries that lie inside the data
segments: it answers whether block `b` of segment `s` is among them. -/
theorem direct_uses_spec (fs : FS) (s b : Nat) (hb : b < 256)
    (hn : num_data_segments fs ≤ MAX_SEGMENTS) (ds : List Nat)
    (h : ∀ d ∈ ds, d < 256 * num_data_segments fs) :
    ∃ r, direct_uses fs s b ds = .ok r ∧ (r = true ↔ s * 256 + b ∈ ds) := by
  induction ds with
  | nil => exact ⟨false, rfl, by simp⟩
  | cons d ds ih =>
    have hd := h d (List.mem_cons_self _ _)
    have hn' : num_data_segments fs ≤ 1024 := hn
    obtain ⟨r, hr, hiff⟩ := ih (fun x hx => h x (List.mem_cons_of_mem _ hx))
    rw [direct_uses, toInt32_of_lt d (by omega), gsbo_nat fs d hd]
    simp only
    by_cases hc : ((d / 256 : Nat) : Int) = (s : Int) ∧ ((d % 256 : Nat) : Int) = (b : Int)
    · rw [if_pos hc]
      refine ⟨true, rfl, ?_⟩
      have := (div_mod_eq_iff d s b hb).mp hc
      simp [this]
    · rw [if_neg hc]
      refine ⟨r, hr, ?_⟩
      rw [hiff, List.mem_cons]
      constructor
      · intro hm; exact Or.inr hm
      · intro hm
        rcases hm with hm | hm
        · exact absurd ((div_mod_eq_iff d s b hb).mpr hm.symm) hc
        · exact hm

theorem inodes_use_spec (fs : FS) (s b : Nat) (hb : b < 256)
    (hn : num_data_segments fs ≤ MAX_SEGMENTS) (inos : List Inode)
    (h : ∀ ino ∈ inos, ∀ d ∈ ino.direct.take DIRECT_BLOCKS, d < 256 * num_data_segments fs) :
    ∃ r, inodes_use fs s b inos = .ok r
      ∧ (r = true ↔ ∃ ino ∈ inos, s * 256 + b ∈ ino.direct.take DIRECT_BLOCKS) := by
  induction inos with
  | nil => exact ⟨false, rfl, by simp⟩
  | cons ino rest ih =>
    obtain ⟨r1, hr1, hiff1⟩ := direct_uses_spec fs s b hb hn (ino.direct.take DIRECT_BLOCKS)
      (h ino (List.mem_cons_self _ _))
    obtain ⟨r, hr, hiff⟩ := ih (fun x hx => h x (List.mem_cons_of_mem _ hx))
    rw [inodes_use, hr1]
    cases r1 with
    | true =>
      simp only
      refine ⟨true, rfl, ?_⟩
      simp only [true_iff]
      exact ⟨ino, List.mem_cons_self _ _, hiff1.mp rfl⟩
    | false =>
      simp only
      refine ⟨r, hr, ?_⟩
      rw [hiff]
      constructor
      · intro ⟨x, hx, hm⟩
        exact ⟨x, List.mem_cons_of_mem _ hx, hm⟩
      · intro ⟨x, hx, hm⟩
        rcases List.mem_cons.mp hx with rfl | hx'
        · have := hiff1.mpr hm
          cases this
        · exact ⟨x, hx', hm⟩

theorem inode_segments_use_spec (fs : FS) (s b : Nat) (hb : b < 256)
    (hn : num_data_segments fs ≤ MAX_SEGMENTS) (tbl : List (List Inode))
    (h : ∀ sg ∈ tbl, ∀ ino ∈ sg, ∀ d ∈ ino.direct.take DIRECT_BLOCKS,
      d < 256 * num_data_segments fs) :
    ∃ r, inode_segments_use fs s b tbl = .ok r
      ∧ (r = true ↔ ∃ sg ∈ tbl, ∃ ino ∈ sg, s * 256 + b ∈ ino.direct.take DIRECT_BLOCKS) := by
  induction tbl with
  | nil => exact ⟨false, rfl, by simp⟩
  | cons sg rest ih =>
    obtain ⟨r1, hr1, hiff1⟩ := inodes_use_spec fs s b hb hn sg (h sg (List.mem_cons_self _ _))
    obtain ⟨r, hr, hiff⟩ := ih (fun x hx => h x (List.mem_cons_of_mem _ hx))
    rw [inode_segments_use, hr1]
    cases r1 with
    | true =>
      simp only
      refine ⟨true, rfl, ?_⟩
      simp only [true_iff]
      exact ⟨sg, List.mem_cons_self _ _, hiff1.mp rfl⟩
    | false =>
      simp only
      refine ⟨r, hr, ?_⟩
      rw [hiff]
      constructor
      · intro ⟨x, hx, hm⟩
        exact ⟨x, List.mem_cons_of_mem _ hx, hm⟩
      · intro ⟨x, hx, hm⟩
        rcases List.mem_cons.mp hx with rfl | hx'
        · have := hiff1.mpr hm
          cases this
        · exact ⟨x, hx', hm⟩

theorem blk_at_of_shaped (fs : FS) (hs : Shaped fs) (s b : Nat) (h1 : s < num_data_segments fs)
    (h2 : b < 256) : ∃ blk, blk_at fs s b = some blk := by
  unfold blk_at
  unfold num_data_segments at h1
  rw [List.getElem?_eq_getElem h1]
  simp only
  have hl := hs.dseg _ (List.getElem_mem h1)
  have hb : b < (fs.data_segments[s]).length := by
    rw [hl]
    exact h2
  exact ⟨_, List.getElem?_eq_getElem hb⟩

/-- The body of the block loop of `find_free_block` on a shaped archive: it answers
whether the block is free. -/
theorem block_is_free_spec (fs : FS) (hs : Shaped fs) (s b : Nat)
    (h1 : s < num_data_segments fs) (h2 : b < 256) :
    ∃ r, block_is_free fs s b = .ok r ∧ (r = true ↔ free_block fs s b) := by
  obtain ⟨u, hu, hiff⟩ := inode_segments_use_spec fs s b h2 hs.nds fs.inode_segments
    (fun sg hsg ino hino d hd => hs.ptrs d ⟨sg, hsg, ino, hino, hd⟩)
  obtain ⟨blk, hblk⟩ := blk_at_of_shaped fs hs s b h1 h2
  have hrb := read_block_nat fs s b blk hblk
  unfold block_is_free
  rw [hu]
  cases u with
  | true =>
    simp only
    refine ⟨false, rfl, ?_⟩
    simp only [Bool.false_eq_true, false_iff]
    intro hf
    exact hf.1 (hiff.mp rfl)
  | false =>
    simp only
    rw [hrb]
    simp only
    refine ⟨all_zero blk, rfl, ?_⟩
    constructor
    · intro hz
      refine ⟨?_, blk, hblk, hz⟩
      intro href
      have := hiff.mpr href
      cases this
    · intro hf
      obtain ⟨_, blk', hb', hz⟩ := hf
      rw [hblk] at hb'
      cases hb'
      exact hz
theorem scan_blocks_sound (fs : FS) (hs : Shaped fs) (s : Nat) (h1 : s < num_data_segments fs)
    (bs : List Nat) (hbs : ∀ b ∈ bs, 1 ≤ b ∧ b < 256) :
    ∃ r, scan_blocks fs s bs = .ok r
      ∧ ∀ g, r = some g → ∃ b, 1 ≤ b ∧ b < 256 ∧ g = s * 256 + b ∧ free_block fs s b := by
  induction bs with
  | nil =>
    refine ⟨none, rfl, ?_⟩
    intro g hg
    cases hg
  | cons b bs ih =>
    obtain ⟨hb1, hb2⟩ := hbs b (List.mem_cons_self _ _)
    obtain ⟨r1, hr1, hiff⟩ := block_is_free_spec fs hs s b h1 hb2
    obtain ⟨r, hr, hsound⟩ := ih (fun x hx => hbs x (List.mem_cons_of_mem _ hx))
    rw [scan_blocks, hr1]
    cases r1 with
    | true =>
      simp only
      refine ⟨_, rfl, ?_⟩
      intro g hg
      cases hg
      exact ⟨b, hb1, hb2, rfl, hiff.mp rfl⟩
    | false =>
      simp only
      exact ⟨r, hr, hsound⟩

theorem scan_segments_sound (fs : FS) (hs : Shaped fs) (ss : List Nat)
    (hss : ∀ s ∈ ss, s < num_data_segments fs) :
    ∃ r, scan_segments fs ss = .ok r
      ∧ ∀ g, r = some g →
          ∃ s b, s < num_data_segments fs ∧ 1 ≤ b ∧ b < 256 ∧ g = s * 256 + b
            ∧ free_block fs s b := by
  induction ss with
  | nil =>
    refine ⟨none, rfl, ?_⟩
    intro g hg
    cases hg
  | cons s ss ih =>
    have h1 := hss s (List.mem_cons_self _ _)
    obtain ⟨r1, hr1, hsound1⟩ := scan_blocks_sound fs hs s h1
      (List.range' 1 (BLOCKS_PER_SEGMENT - 1))
      (by
        intro b hb
        rw [List.mem_range'_1] at hb
        simp only [BLOCKS_PER_SEGMENT] at hb
        omega)
    obtain ⟨r, hr, hsound⟩ := ih (fun x hx => hss x (List.mem_cons_of_mem _ hx))
    rw [scan_segments, hr1]
    cases r1 with
    | some g1 =>
      simp only
      refine ⟨_, rfl, ?_⟩
      intro g hg
      cases hg
      obtain ⟨b, hb1, hb2, hg, hf⟩ := hsound1 g1 rfl
      exact ⟨s, b, h1, hb1, hb2, hg, hf⟩
    | none =>
      simp only
      exact ⟨r, hr, hsound⟩

theorem referenced_congr (fs fs1 : FS) (h : fs1.inode_segments = fs.inode_segments) (g : Nat) :
    referenced fs1 g ↔ referenced fs g := by
  unfold referenced
  rw [h]

theorem blk_at_append_segment (fs : FS) (sg : List (List Nat)) (s b : Nat) (x : List Nat)
    (h : blk_at fs s b = some x) :
    blk_at { fs with data_segments := fs.data_segments ++ [sg] } s b = some x := by
  unfold blk_at at h ⊢
  simp only
  cases hs : fs.data_segments[s]? with
  | none => rw [hs] at h; cases h
  | some seg =>
    rw [hs] at h
    have hl : s < fs.data_segments.length := by
      by_contra hc
      rw [List.getElem?_eq_none (by omega)] at hs
      cases hs
    rw [List.getElem?_append_left hl, hs]
    exact h

/-- What `find_free_block` hands out on a shaped archive with room for one more data
segment: a block that is not block 0 of its segment, lies inside the data segments of the
resulting archive, is listed by no persisted inode and holds only zero bytes.  The archive
keeps its inode table and its blocks; at most one data segment is appended. -/
theorem find_free_block_sound (fs : FS) (hs : Shaped fs)
    (hn : num_data_segments fs < MAX_SEGMENTS) :
    ∃ g fs1, find_free_block fs = .ok (g, fs1)
      ∧ fs1.inode_segments = fs.inode_segments ∧ Shaped fs1
      ∧ num_data_segments fs ≤ num_data_segments fs1
      ∧ num_data_segments fs1 ≤ num_data_segments fs + 1
      ∧ (∀ s b x, blk_at fs s b = some x → blk_at fs1 s b = some x)
      ∧ 1 ≤ g % 256 ∧ g / 256 < num_data_segments fs1
      ∧ free_block fs1 (g / 256) (g % 256) := by
  obtain ⟨r, hr, hsound⟩ := scan_segments_sound fs hs (List.range (num_data_segments fs))
    (fun s h => List.mem_range.mp h)
  unfold find_free_block
  rw [hr]
  cases r with
  | some g =>
    simp only
    obtain ⟨s, b, h1, hb1, hb2, hg, hf⟩ := hsound g rfl
    have hdiv : g / 256 = s := by omega
    have hmod : g % 256 = b := by omega
    refine ⟨g, fs, rfl, rfl, hs, le_refl _, by omega, fun _ _ _ h => h, by omega, by omega, ?_⟩
    rw [hdiv, hmod]
    exact hf
  | none =>
    simp only
    unfold create_new_data_segment
    rw [if_neg (by omega)]
    simp only
    have hnds : num_data_segments { fs with data_segments := fs.data_segments ++ [zero_data_segment] }
        = num_data_segments fs + 1 := by
      simp [num_data_segments]
    have hshape : Shaped { fs with data_segments := fs.data_segments ++ [zero_data_segment] } := by
      refine ⟨?_, by rw [hnds]; omega, ?_⟩
      · intro sg hsg
        simp only [List.mem_append, List.mem_singleton] at hsg
        rcases hsg with h | rfl
        · exact hs.dseg sg h
        · unfold zero_data_segment
          rw [List.length_replicate]
      · intro g hg
        have := hs.ptrs g ((referenced_congr fs _ rfl g).mp hg)
        rw [hnds]
        omega
    refine ⟨_, _, rfl, rfl, hshape, by rw [hnds]; omega, by rw [hnds],
      fun s b x h => blk_at_append_segment fs _ s b x h, ?_, ?_, ?_⟩
    · rw [hnds]
      simp only [Nat.add_sub_cancel, BLOCKS_PER_SEGMENT]
      omega
    · rw [hnds]
      simp only [Nat.add_sub_cancel, BLOCKS_PER_SEGMENT]
      omega
    · rw [hnds]
      simp only [Nat.add_sub_cancel, BLOCKS_PER_SEGMENT]
      have hdiv : (num_data_segments fs * 256 + 1) / 256 = num_data_segments fs := by omega
      have hmod : (num_data_segments fs * 256 + 1) % 256 = 1 := by omega
      rw [hdiv, hmod]
      refine ⟨?_, zero_block, ?_, all_zero_zero_block⟩
      · intro href
        have := hs.ptrs _ ((referenced_congr fs _ rfl _).mp href)
        omega
      · unfold blk_at
        simp only
        unfold num_data_segments
        rw [List.getElem?_append_right (le_refl _), Nat.sub_self]
        simp only [List.getElem?_cons_zero]
        exact zero_data_segment_get 1 (by omega)
theorem referenced_set_blk (fs : FS) (s b : Nat) (x : List Nat) (g : Nat) :
    referenced (set_blk fs s b x) g ↔ referenced fs g :=
  referenced_congr fs _ rfl g

theorem Shaped_set_blk (fs : FS) (hs : Shaped fs) (s b : Nat) (x : List Nat) :
    Shaped (set_blk fs s b x) := by
  refine ⟨?_, ?_, ?_⟩
  · intro sg hsg
    unfold set_blk at hsg
    simp only at hsg
    rcases List.mem_or_eq_of_mem_set hsg with h | rfl
    · exact hs.dseg sg h
    · rw [List.length_set]
      by_cases hl : s < fs.data_segments.length
      · rw [List.getD_eq_getElem?_getD, List.getElem?_eq_getElem hl]
        exact hs.dseg _ (List.getElem_mem hl)
      · exfalso
        rw [List.set_eq_of_length_le (by omega)] at hsg
        have hne := List.getD_eq_default fs.data_segments ([] : List (List Nat))
          (show fs.data_segments.length ≤ s by omega)
        rw [hne] at hsg
        have := hs.dseg _ hsg
        simp at this
  · rw [num_data_segments_set_blk]
    exact hs.nds
  · intro g hg
    rw [num_data_segments_set_blk]
    exact hs.ptrs g ((referenced_set_blk fs s b x g).mp hg)

theorem Frame_refl (fs : FS) : Frame fs fs := ⟨rfl, le_refl _, fun _ _ _ h _ => h⟩

theorem Frame_trans (a b c : FS) (h1 : Frame a b) (h2 : Frame b c) : Frame a c := by
  obtain ⟨e1, n1, f1⟩ := h1
  obtain ⟨e2, n2, f2⟩ := h2
  refine ⟨by rw [e2, e1], by omega, ?_⟩
  intro s blk x hx hp
  apply f2 s blk x (f1 s blk x hx hp)
  rcases hp with h | h
  · exact Or.inl h
  · exact Or.inr ((referenced_congr a b e1 _).mpr h)

theorem Frame_set_blk (fs : FS) (s b : Nat) (x : List Nat) (hb : b ≠ 0)
    (hr : ¬ referenced fs (s * 256 + b)) : Frame fs (set_blk fs s b x) := by
  refine ⟨rfl, by rw [num_data_segments_set_blk], ?_⟩
  intro s1 b1 y hy hp
  rw [blk_at_set_blk_other]
  · exact hy
  · by_contra hc
    have hc' : s1 = s ∧ b1 = b := by
      constructor
      · by_contra h; exact hc (Or.inl h)
      · by_contra h; exact hc (Or.inr h)
    obtain ⟨rfl, rfl⟩ := hc'
    rcases hp with h | h
    · exact hb h
    · exact hr h

/-- One allocation followed by the write of `bytes` to the block handed out, as the block
writing loop and the pointer-block steps of `run_add` do it. -/
theorem alloc_and_write (fs : FS) (hs : Shaped fs) (hn : num_data_segments fs < MAX_SEGMENTS)
    (bytes : List Nat) :
    ∃ g fs1 fs2, find_free_block fs = .ok (g, fs1)
      ∧ get_segment_and_block_offset fs1 (toInt32 g)
          = .ok (((g / 256 : Nat) : Int), ((g % 256 : Nat) : Int))
      ∧ write_block fs1 ((g / 256 : Nat) : Int) ((g % 256 : Nat) : Int) bytes = .ok fs2
      ∧ Shaped fs2 ∧ Frame fs fs2 ∧ num_data_segments fs2 ≤ num_data_segments fs + 1
      ∧ g ≠ 0 ∧ g < 256 * num_data_segments fs2 ∧ ¬ referenced fs g := by
  obtain ⟨g, fs1, hf, e1, hs1, n1, n2, keep, hg1, hg2, hfree⟩ := find_free_block_sound fs hs hn
  obtain ⟨hnr, old, hold, _⟩ := hfree
  have hn1 : num_data_segments fs1 ≤ 1024 := hs1.nds
  have hglt : g < 256 * num_data_segments fs1 := by omega
  have hdm : g / 256 * 256 + g % 256 = g := by omega
  rw [hdm] at hnr
  refine ⟨g, fs1, set_blk fs1 (g / 256) (g % 256) (bytes ++ old.drop bytes.length), hf, ?_,
    write_block_nat fs1 _ _ old bytes hold, Shaped_set_blk fs1 hs1 _ _ _, ?_, ?_, by omega, ?_,
    (referenced_congr fs fs1 e1 g).not.mp hnr⟩
  · rw [toInt32_of_lt g (by omega)]
    exact gsbo_nat fs1 g hglt
  · apply Frame_trans fs fs1 _ ⟨e1, n1, fun s b x h _ => keep s b x h⟩
    apply Frame_set_blk fs1 _ _ _ (by omega)
    rw [hdm]
    exact hnr
  · rw [num_data_segments_set_blk]
    exact n2
  · rw [num_data_segments_set_blk]
    exact hglt
/-! ### What `run_add` writes into the inode of the file -/

theorem scan_blocks_mem (fs : FS) (s : Nat) :
    ∀ (bs : List Nat) (g : Nat), scan_blocks fs s bs = .ok (some g) →
      ∃ b ∈ bs, g = s * BLOCKS_PER_SEGMENT + b := by
  intro bs
  induction bs with
  | nil =>
    intro g h
    rw [scan_blocks] at h
    cases h
  | cons b bs ih =>
    intro g h
    rw [scan_blocks] at h
    split at h
    · cases h
    · cases h
      exact ⟨b, List.mem_cons_self _ _, rfl⟩
    · obtain ⟨b', hb', e⟩ := ih g h
      exact ⟨b', List.mem_cons_of_mem _ hb', e⟩

theorem scan_segments_pos (fs : FS) :
    ∀ (ss : List Nat) (g : Nat), scan_segments fs ss = .ok (some g) → g ≠ 0 := by
  intro ss
  induction ss with
  | nil =>
    intro g h
    rw [scan_segments] at h
    cases h
  | cons s ss ih =>
    intro g h
    rw [scan_segments] at h
    split at h
    · cases h
    · rename_i g' hg'
      cases h
      obtain ⟨b, hb, e⟩ := scan_blocks_mem fs s _ _ hg'
      rw [List.mem_range'_1] at hb
      omega
    · exact ih g h

/-- The block number that `find_free_block` returns is never 0. -/
theorem find_free_block_pos (fs fs1 : FS) (g : Nat) (h : find_free_block fs = .ok (g, fs1)) :
    g ≠ 0 := by
  unfold find_free_block at h
  split at h
  · cases h
  · rename_i g' hg'
    cases h
    exact scan_segments_pos fs _ _ hg'
  · split at h
    · cases h
    · cases h
      simp [BLOCKS_PER_SEGMENT]
/-- What the block writing loop leaves in its local state when it ends at the end of the
host file: the count of blocks, the size, the direct pointers and the fields it never
writes. -/
theorem add_loop_counts (chunks : List (List Nat)) :
    ∀ (st st' : AddState), add_loop st chunks = .ok (st', false) →
      st.new_file.direct.length = DIRECT_BLOCKS → st.new_file.size < 4294967296 →
      st'.total_blocks = st.total_blocks + chunks.length
        ∧ st'.new_file.indirect_single = st.new_file.indirect_single
        ∧ st'.new_file.indirect_double = st.new_file.indirect_double
        ∧ st'.new_file.size = (st.new_file.size + (chunks.map List.length).sum) % 4294967296
        ∧ st'.new_file.direct.length = DIRECT_BLOCKS
        ∧ ∀ i, i < DIRECT_BLOCKS →
            ((i < st.total_blocks ∨ st.total_blocks + chunks.length ≤ i) →
              st'.new_file.direct.getD i 0 = st.new_file.direct.getD i 0)
            ∧ (st.total_blocks ≤ i → i < st.total_blocks + chunks.length →
              st'.new_file.direct.getD i 0 ≠ 0) := by
  induction chunks with
  | nil =>
    intro st st' h hd hsz
    rw [add_loop] at h
    cases h
    refine ⟨rfl, rfl, rfl, ?_, hd, ?_⟩
    · simp only [List.map_nil, List.sum_nil, Nat.add_zero]
      exact (Nat.mod_eq_of_lt hsz).symm
    · intro i _
      refine ⟨fun _ => rfl, ?_⟩
      intro h1 h2
      simp only [List.length_nil, Nat.add_zero] at h2
      omega
  | cons buffer rest ih =>
    intro st st' h hd hsz
    have hmod : ∀ a : Nat, ((st.new_file.size + buffer.length) % 4294967296 + a) % 4294967296
        = (st.new_file.size + (buffer.length + a)) % 4294967296 := by
      intro a
      omega
    rw [add_loop] at h
    split at h
    · cases h
    · rename_i block fs1 h1
      have hpos := find_free_block_pos _ _ _ h1
      split at h
      · cases h
      · rename_i seg blk h2
        split at h
        · cases h
        · rename_i fs2 h3
          simp only at h
          split at h
          · rename_i hlt
            obtain ⟨a, b, c, d, e, f⟩ := ih _ _ h (by simp only [List.length_set]; exact hd)
              (Nat.mod_lt _ (by decide))
            simp only at a b c d e f
            refine ⟨by rw [a, List.length_cons]; omega, b, c, ?_, e, ?_⟩
            · rw [d, List.map_cons, List.sum_cons, hmod]
            · intro i hi
              obtain ⟨f1, f2⟩ := f i hi
              simp only [List.length_cons]
              refine ⟨?_, ?_⟩
              · intro hor
                rw [f1 (by omega), List.getD_eq_getElem?_getD, List.getD_eq_getElem?_getD,
                  List.getElem?_set_ne (by omega)]
              · intro h1 h2
                by_cases hi2 : i = st.total_blocks
                · rw [f1 (by omega), List.getD_eq_getElem?_getD, hi2,
                    List.getElem?_set_self (by omega)]
                  exact hpos
                · exact f2 (by omega) (by omega)
          · rename_i hge
            split at h
            · obtain ⟨a, b, c, d, e, f⟩ := ih _ _ h hd (Nat.mod_lt _ (by decide))
              simp only at a b c d e f
              refine ⟨by rw [a, List.length_cons]; omega, b, c, ?_, e, ?_⟩
              · rw [d, List.map_cons, List.sum_cons, hmod]
              · intro i hi
                obtain ⟨f1, f2⟩ := f i hi
                simp only [List.length_cons]
                refine ⟨fun _ => f1 (by omega), ?_⟩
                intro h1 h2
                omega
            · split at h
              · split at h
                · cases h
                · rename_i inner fs3 h4
                  obtain ⟨a, b, c, d, e, f⟩ := ih _ _ h hd (Nat.mod_lt _ (by decide))
                  simp only at a b c d e f
                  refine ⟨by rw [a, List.length_cons]; omega, b, c, ?_, e, ?_⟩
                  · rw [d, List.map_cons, List.sum_cons, hmod]
                  · intro i hi
                    obtain ⟨f1, f2⟩ := f i hi
                    simp only [List.length_cons]
                    refine ⟨fun _ => f1 (by omega), ?_⟩
                    intro h1 h2
                    omega
              · cases h

theorem write_single_indirect_fields (st : AddState) (file1 : Inode) (fsa : FS)
    (h : write_single_indirect st = .ok (file1, fsa)) :
    file1.size = st.new_file.size ∧ file1.type = st.new_file.type
      ∧ file1.direct = st.new_file.direct
      ∧ file1.indirect_double = st.new_file.indirect_double
      ∧ (st.total_blocks > DIRECT_BLOCKS → file1.indirect_single ≠ 0)
      ∧ (¬ st.total_blocks > DIRECT_BLOCKS →
          file1.indirect_single = st.new_file.indirect_single) := by
  unfold write_single_indirect at h
  split at h
  · rename_i hgt
    split at h
    · cases h
    · rename_i single fs1 h1
      have hpos := find_free_block_pos _ _ _ h1
      split at h
      · cases h
      · split at h
        · cases h
        · cases h
          exact ⟨rfl, rfl, rfl, rfl, fun _ => hpos, fun hc => absurd hgt hc⟩
  · rename_i hle
    cases h
    exact ⟨rfl, rfl, rfl, rfl, fun hc => absurd hc hle, fun _ => rfl⟩

theorem write_double_indirect_fields (st : AddState) (file1 file2 : Inode) (fsa fsb : FS)
    (h : write_double_indirect st file1 fsa = .ok (file2, fsb)) :
    file2.size = file1.size ∧ file2.type = file1.type ∧ file2.direct = file1.direct
      ∧ file2.indirect_single = file1.indirect_single
      ∧ (st.total_blocks > DIRECT_BLOCKS + PTRS_PER_BLOCK → file2.indirect_double ≠ 0)
      ∧ (¬ st.total_blocks > DIRECT_BLOCKS + PTRS_PER_BLOCK →
          file2.indirect_double = file1.indirect_double) := by
  unfold write_double_indirect at h
  split at h
  · rename_i hgt
    split at h
    · cases h
    · rename_i outer fs1 h1
      have hpos := find_free_block_pos _ _ _ h1
      split at h
      · cases h
      · split at h
        · cases h
        · split at h
          · cases h
          · cases h
            exact ⟨rfl, rfl, rfl, rfl, fun _ => hpos, fun hc => absurd hgt hc⟩
  · rename_i hle
    cases h
    exact ⟨rfl, rfl, rfl, rfl, fun hc => absurd hc hle, fun _ => rfl⟩

/-- The slot that `find_free_inode` hands to the step "Write inode" holds the inode of the
file when `run_add` is through. -/
theorem write_file_inode_stores (fs fs' : FS) (file : Inode) (parent : Nat) (name : List Nat)
    (h : write_file_inode fs file parent name = .ok fs') :
    ∃ m fsc, find_free_inode fs = .ok (m, fsc) ∧ inode_at fs' m = some file := by
  unfold write_file_inode at h
  split at h
  · cases h
  · rename_i m fsc hf
    refine ⟨m, fsc, hf, ?_⟩
    split at h
    · cases h
    · rename_i seg off hg
      obtain ⟨e1, e2, _⟩ := gsio_ok_nat fsc m seg off hg
      subst e1 e2
      split at h
      · cases h
      · rename_i fsd hw
        obtain ⟨sg, hsg, hoff, _, _, e, _⟩ := write_inode_ok _ _ _ _ _ hw
        simp only [Int.toNat_ofNat] at hsg hoff e
        have hl : m / 256 < fsc.inode_segments.length := by
          by_contra hc
          rw [List.getElem?_eq_none (by omega)] at hsg
          cases hsg
        unfold inode_at
        rw [update_directory_entry_inode_segments _ _ _ _ _ h, e]
        show (match (fsc.inode_segments.set (m / 256) (sg.set (m % 256) file))[m / 256]? with
          | none => none
          | some sg => sg[m % 256]?) = some file
        rw [List.getElem?_set_self hl]
        simp only
        rw [List.getElem?_set_self hoff]
/-! ### A host file whose chunks of zeros all go to one block -/

/-- One iteration of the block writing loop below the double-indirect range, from the
results of its three calls. -/
theorem add_loop_step_of (st : AddState) (block : Nat) (fs1 fs2 : FS) (seg blk : Int)
    (buffer : List Nat) (rest : List (List Nat))
    (hf : find_free_block st.fs = .ok (block, fs1))
    (hg : get_segment_and_block_offset fs1 (toInt32 block) = .ok (seg, blk))
    (hw : write_block fs1 seg blk buffer = .ok fs2)
    (htb : st.total_blocks < DIRECT_BLOCKS + PTRS_PER_BLOCK) :
    add_loop st (buffer :: rest) = add_loop (note_block st fs2 block buffer.length) rest := by
  rw [add_loop, hf]
  simp only [hg, hw]
  unfold note_block
  by_cases h12 : st.total_blocks < DIRECT_BLOCKS
  · simp only [if_pos h12]
  · simp only [if_neg h12, if_pos htb]

theorem set_replicate_append (x y : Nat) :
    ∀ (a b : Nat), 0 < b →
      (List.replicate a x ++ List.replicate b y).set a x
        = List.replicate (a + 1) x ++ List.replicate (b - 1) y := by
  intro a
  induction a with
  | zero =>
    intro b hb
    obtain ⟨c, rfl⟩ : ∃ c, b = c + 1 := ⟨b - 1, by omega⟩
    rfl
  | succ a ih =>
    intro b hb
    rw [List.replicate_succ, List.cons_append, List.set_cons_succ, ih b hb]
    rfl

theorem find_free_block_fresh : find_free_block fresh = .ok (1, fresh) := by
  decide!

theorem note_block_zero_chunk (j : Nat) (hj : j < 1036) :
    note_block (zero_chunks_state j) fresh 1 zero_block.length = zero_chunks_state (j + 1) := by
  unfold note_block
  by_cases h12 : j < 12
  · have hc : (zero_chunks_state j).total_blocks < DIRECT_BLOCKS := h12
    rw [if_pos hc]
    unfold zero_chunks_state
    simp only [AddState.mk.injEq, Inode.mk.injEq, true_and, and_true]
    refine ⟨⟨?_, ?_⟩, ?_⟩
    · rw [zero_block_length]
      omega
    · rw [Nat.min_eq_left (by omega), Nat.min_eq_left (by omega),
        set_replicate_append 1 0 j (12 - j) (by omega)]
      congr 2
    · congr 2 <;> omega
  · have hc : ¬ (zero_chunks_state j).total_blocks < DIRECT_BLOCKS := h12
    rw [if_neg hc]
    unfold zero_chunks_state
    simp only [AddState.mk.injEq, Inode.mk.injEq, true_and, and_true]
    refine ⟨⟨?_, ?_⟩, ?_⟩
    · rw [zero_block_length]
      omega
    · congr 2 <;> omega
    · show (List.replicate (j - 12) 1 ++ List.replicate (1024 - (j - 12)) 0).set (j - 12) 1 = _
      rw [set_replicate_append 1 0 (j - 12) (1024 - (j - 12)) (by omega)]
      congr 2 <;> omega

theorem add_loop_zero_chunk (j : Nat) (hj : j < 1036) (rest : List (List Nat)) :
    add_loop (zero_chunks_state j) (zero_block :: rest)
      = add_loop (zero_chunks_state (j + 1)) rest := by
  rw [add_loop_step_of (zero_chunks_state j) 1 fresh fresh 0 1 zero_block rest
    find_free_block_fresh (by decide) write_zero_block_fresh hj, note_block_zero_chunk j hj]

theorem add_loop_zero_chunks (k : Nat) :
    ∀ (j : Nat), j + k ≤ 1036 → ∀ (rest : List (List Nat)),
      add_loop (zero_chunks_state j) (List.replicate k zero_block ++ rest)
        = add_loop (zero_chunks_state (j + k)) rest := by
  induction k with
  | zero =>
    intro j _ rest
    rfl
  | succ k ih =>
    intro j hj rest
    rw [List.replicate_succ, List.cons_append, add_loop_zero_chunk j (by omega),
      ih (j + 1) (by omega) rest]
    congr 2
    omega

theorem add_init_fresh_zero_chunks : add_init fresh = zero_chunks_state 0 := rfl
theorem chunk_in_zeros (k j : Nat) (t : List Nat) (hj : j < k) :
    ((List.replicate (k * 4096) 0 ++ t).drop (4096 * j)).take 4096 = zero_block := by
  rw [List.drop_append_of_le_length (by rw [List.length_replicate]; omega), List.drop_replicate,
    List.take_append_of_le_length (by rw [List.length_replicate]; omega), List.take_replicate]
  unfold zero_block
  congr 1
  simp only [BLOCK_SIZE]
  omega

theorem chunk_after_zeros (k j : Nat) (t : List Nat) :
    ((List.replicate (k * 4096) 0 ++ t).drop (4096 * (k + j))).take 4096
      = (t.drop (4096 * j)).take 4096 := by
  have e : 4096 * (k + j) = (List.replicate (k * 4096) 0).length + 4096 * j := by
    rw [List.length_replicate]
    omega
  rw [e, List.drop_append]

theorem file_chunks_after_zeros (k : Nat) (t : List Nat) (c : Nat)
    (hc : (t.length + 4095) / 4096 = c) :
    file_chunks (List.replicate (k * 4096) 0 ++ t).length (List.replicate (k * 4096) 0 ++ t)
      = List.replicate k zero_block
          ++ (List.range c).map (fun j => (t.drop (4096 * j)).take 4096) := by
  rw [file_chunks_eq _ _ (le_refl _)]
  have hl : ((List.replicate (k * 4096) 0 ++ t).length + 4095) / 4096 = k + c := by
    rw [List.length_append, List.length_replicate]
    omega
  rw [hl, List.range_add, List.map_append, List.map_map]
  congr 1
  · apply List.ext_getElem
    · simp
    · intro i h1 h2
      rw [List.getElem_map, List.getElem_range, List.getElem_replicate]
      exact chunk_in_zeros k i t (by simpa using h1)
  · apply List.map_congr_left
    intro j _
    exact chunk_after_zeros k j t

theorem file_chunks_zeros_then_ones :
    file_chunks zeros_then_ones_file.length zeros_then_ones_file
      = List.replicate 1037 zero_block ++ [List.replicate 4096 1, [1]] := by
  unfold zeros_then_ones_file
  rw [file_chunks_after_zeros 1037 (List.replicate 4097 1) 2 (by rw [List.length_replicate])]
  have hr : List.range 2 = [0, 1] := rfl
  have a : min 4096 (4097 - 4096 * 0) = 4096 := by decide
  have b : min 4096 (4097 - 4096 * 1) = 1 := by decide
  rw [hr, List.map_cons, List.map_cons, List.map_nil, List.drop_replicate, List.take_replicate,
    List.drop_replicate, List.take_replicate, a, b]
  rfl

/-- The `run_add` of a host file under a root-level name in terms of the part after the
host file was opened. -/
theorem run_add_root_from (fs : FS) (name host : List Nat) (hne : name ≠ []) (h47 : 47 ∉ name) :
    run_add fs (47 :: name) (some host)
      = add_from (add_init fs) (file_chunks host.length host) 0 name := by
  unfold run_add add_from
  rw [split_last_slash_root name h47]
  have hl : ¬ name.length = 0 := by
    intro h; exact hne (List.eq_nil_of_length_eq_zero h)
  simp only [if_neg hl, find_or_create_path_root fs name hne h47]
  have h0 : ¬ toInt32 0 < 0 := by decide
  simp only [if_neg h0]

theorem add_from_congr (st st' : AddState) (chunks chunks' : List (List Nat)) (parent : Nat)
    (filename : List Nat) (h : add_loop st chunks = add_loop st' chunks') :
    add_from st chunks parent filename = add_from st' chunks' parent filename := by
  unfold add_from
  rw [h]

theorem run_add_zeros_then_ones :
    run_add fresh (47 :: [102]) (some zeros_then_ones_file) = .ok (.added, shared_rows_fs) := by
  rw [run_add_root_from fresh [102] _ (by decide) (by decide), file_chunks_zeros_then_ones,
    add_init_fresh_zero_chunks]
  have e : List.replicate 1037 zero_block ++ [List.replicate 4096 1, [1]]
      = List.replicate 1036 zero_block ++ [zero_block, List.replicate 4096 1, [1]] := by
    have e0 : List.replicate (1036 + 1) zero_block
        = List.replicate 1036 zero_block ++ [zero_block] := List.replicate_succ' 1036 zero_block
    have e1 : List.replicate 1037 zero_block
        = List.replicate 1036 zero_block ++ [zero_block] := e0
    rw [e1, List.append_assoc]
    rfl
  have hloop : add_loop (zero_chunks_state 0)
        (List.replicate 1036 zero_block ++ [zero_block, List.replicate 4096 1, [1]])
      = add_loop (zero_chunks_state 1036) [zero_block, List.replicate 4096 1, [1]] :=
    add_loop_zero_chunks 1036 0 (le_refl _) _
  rw [e, add_from_congr _ _ _ _ 0 [102] hloop]
  exact add_from_zero_chunks_tail
/-! ### `run_remove` step by step -/

theorem list_set_self {α : Type} (l : List α) :
    ∀ (i : Nat) (x : α), l[i]? = some x → l.set i x = l := by
  induction l with
  | nil =>
    intro i x h
    rfl
  | cons a l ih =>
    intro i x h
    cases i with
    | zero =>
      rw [List.getElem?_cons_zero] at h
      cases h
      rfl
    | succ i =>
      rw [List.getElem?_cons_succ] at h
      rw [List.set_cons_succ, ih i x h]

theorem set_blk_self (fs : FS) (s b : Nat) (x : List Nat) (h : blk_at fs s b = some x) :
    set_blk fs s b x = fs := by
  unfold blk_at at h
  unfold set_blk
  cases hs : fs.data_segments[s]? with
  | none => rw [hs] at h; cases h
  | some sg =>
    rw [hs] at h
    simp only at h
    have e1 : fs.data_segments.getD s [] = sg := by
      rw [List.getD_eq_getElem?_getD, hs]
      rfl
    rw [e1, list_set_self sg b x h, list_set_self fs.data_segments s sg hs]

theorem write_zero_block (fs : FS) (s b : Nat) (old : List Nat) (h : blk_at fs s b = some old)
    (hl : old.length ≤ 4096) :
    write_block fs (s : Int) (b : Int) zero_block = .ok (set_blk fs s b zero_block) := by
  rw [write_block_nat fs s b old zero_block h, zero_block_length,
    List.drop_eq_nil_of_le hl, List.append_nil]

theorem write_zero_block_again (fs : FS) (s b : Nat) (h : blk_at fs s b = some zero_block) :
    write_block fs (s : Int) (b : Int) zero_block = .ok fs := by
  rw [write_zero_block fs s b zero_block h (by rw [zero_block_length]), set_blk_self fs s b _ h]

/-- The loop over `direct[i]` when every entry is the number of one block that already
holds only zeros. -/
theorem zero_direct_blocks_zeroed (fs : FS) (p s b : Nat) (hp : p ≠ 0)
    (hg : get_segment_and_block_offset fs (toInt32 p) = .ok ((s : Int), (b : Int)))
    (hz : blk_at fs s b = some zero_block) :
    ∀ k, zero_direct_blocks fs (List.replicate k p) = .ok fs := by
  intro k
  induction k with
  | zero => rfl
  | succ k ih =>
    rw [List.replicate_succ, zero_direct_blocks, if_pos hp, hg]
    simp only [write_zero_block_again fs s b hz]
    exact ih

/-- The loop over a pointer list when every entry is the number of one block that already
holds only zeros. -/
theorem zero_listed_blocks_zeroed (fs : FS) (p s b : Nat) (hp : p ≠ 0)
    (hg : get_segment_and_block_offset fs (toInt32 p) = .ok ((s : Int), (b : Int)))
    (hz : blk_at fs s b = some zero_block) :
    ∀ k, zero_listed_blocks fs (List.replicate k p) = .ok fs := by
  intro k
  induction k with
  | zero => rfl
  | succ k ih =>
    rw [List.replicate_succ, zero_listed_blocks, if_neg hp, hg]
    simp only [write_zero_block_again fs s b hz]
    exact ih

theorem zero_listed_blocks_zero_head (fs : FS) (l : List Nat) :
    zero_listed_blocks fs (0 :: l) = .ok fs := by
  rw [zero_listed_blocks, if_pos rfl]

/-- The steps of `zero_indirect` from their results. -/
theorem zero_indirect_of (fs fs1 fs2 : FS) (p : Nat) (l : List Nat) (seg blk : Int)
    (h1 : extract_block_list fs p = .ok l) (h2 : zero_listed_blocks fs l = .ok fs1)
    (h3 : get_segment_and_block_offset fs1 (toInt32 p) = .ok (seg, blk))
    (h4 : write_block fs1 seg blk zero_block = .ok fs2) :
    zero_indirect fs p = .ok fs2 := by
  unfold zero_indirect
  rw [h1]
  simp only [h2, h3, h4]

/-- The steps of `zero_double_tree` from their results. -/
theorem zero_double_tree_of (fs fs1 fs2 : FS) (p : Nat) (l : List Nat) (seg blk : Int)
    (h1 : extract_block_list fs p = .ok l) (h2 : zero_double_rows fs l = .ok fs1)
    (h3 : get_segment_and_block_offset fs1 (toInt32 p) = .ok (seg, blk))
    (h4 : write_block fs1 seg blk zero_block = .ok fs2) :
    zero_double_tree fs p = .ok fs2 := by
  unfold zero_double_tree
  rw [h1]
  simp only [h2, h3, h4]

/-- The steps of `remove_file_blocks` from their results, for an inode that has a
single-indirect block and a double-indirect tree. -/
theorem remove_file_blocks_of (fs fs1 fs2 fs3 fs4 : FS) (n : Nat) (seg off : Int)
    (ino : Inode)
    (h1 : get_segment_and_inode_offset fs (toInt32 n) = .ok (seg, off))
    (h2 : read_inode fs seg off = .ok ino)
    (h3 : zero_direct_blocks fs (ino.direct.take DIRECT_BLOCKS) = .ok fs1)
    (hs : ino.indirect_single ≠ 0) (h4 : zero_indirect fs1 ino.indirect_single = .ok fs2)
    (hd : ino.indirect_double ≠ 0) (h5 : zero_double_tree fs2 ino.indirect_double = .ok fs3)
    (h6 : write_inode fs3 seg off zero_inode = .ok fs4) :
    remove_file_blocks fs n = .ok fs4 := by
  unfold remove_file_blocks
  rw [h1]
  simp only [h2, h3, if_pos hs, h4, if_pos hd, h5, h6]

/-- The steps of `run_remove` from their results, for a path whose entry is found. -/
theorem run_remove_of (fs fs1 fs2 : FS) (exfs_path parent_path filename : List Nat)
    (pin : Int) (ps po bs bo : Int) (parent : Inode) (db db1 : List Nat) (t off : Nat)
    (h1 : split_last_slash (exfs_path.take (MAX_PATH - 1)) = some (parent_path, filename))
    (h2 : filename ≠ [])
    (h3 : find_inode_by_path fs (if parent_path = [] then [47] else parent_path) = .ok pin)
    (h4 : ¬ pin < 0)
    (h5 : get_segment_and_inode_offset fs pin = .ok (ps, po))
    (h6 : read_inode fs ps po = .ok parent)
    (h7 : get_segment_and_block_offset fs (toInt32 (parent.direct.getD 0 0)) = .ok (bs, bo))
    (h8 : read_block fs bs bo = .ok db)
    (h9 : dir_find_exact db filename BLOCK_SIZE 0 = .ok (some (t, off)))
    (h10 : t ≠ UINT32_MAX)
    (h11 : poke db off (List.replicate sizeof_DirEntry 0) = .ok db1)
    (h12 : write_block fs bs bo db1 = .ok fs1)
    (h13 : remove_file_blocks fs1 t = .ok fs2) :
    run_remove fs exfs_path = .ok (.removed, fs2) := by
  unfold run_remove
  rw [h1]
  simp only [if_neg h2, h3, if_neg h4, h5, h6, h7, h8, h9, if_neg h10, h11, h12, h13]
theorem ptrs_bytes_zero : ptrs_bytes (List.replicate 1024 0) = zero_block := by decide!

theorem remove_file_blocks_shared_rows :
    remove_file_blocks (set_blk shared_rows_fs 0 0 zero_block) 1 = .ok shared_rows_removed := by
  have hz1 : blk_at (set_blk (set_blk shared_rows_fs 0 0 zero_block) 0 1 zero_block) 0 1
      = some zero_block := by decide!
  have hg1 : get_segment_and_block_offset
      (set_blk (set_blk shared_rows_fs 0 0 zero_block) 0 1 zero_block) (toInt32 1)
      = .ok (((0 : Nat) : Int), ((1 : Nat) : Int)) := by decide!
  have hz3 : blk_at (set_blk (set_blk (set_blk shared_rows_fs 0 0 zero_block) 0 1 zero_block)
      0 3 zero_block) 0 1 = some zero_block := by decide!
  have hg3 : get_segment_and_block_offset
      (set_blk (set_blk (set_blk shared_rows_fs 0 0 zero_block) 0 1 zero_block) 0 3 zero_block)
      (toInt32 1) = .ok (((0 : Nat) : Int), ((1 : Nat) : Int)) := by decide!
  apply remove_file_blocks_of (set_blk shared_rows_fs 0 0 zero_block)
    (set_blk (set_blk shared_rows_fs 0 0 zero_block) 0 1 zero_block)
    (set_blk (set_blk (set_blk shared_rows_fs 0 0 zero_block) 0 1 zero_block) 0 3 zero_block)
    (set_blk (set_blk (set_blk (set_blk shared_rows_fs 0 0 zero_block) 0 1 zero_block)
      0 3 zero_block) 0 4 zero_block)
    shared_rows_removed 1 ((0 : Nat) : Int) ((1 : Nat) : Int)
    { size := 4251649, type := TYPE_FILE, direct := List.replicate 12 1,
      indirect_single := 3, indirect_double := 4 }
  · decide!
  · decide!
  · show zero_direct_blocks (set_blk shared_rows_fs 0 0 zero_block)
      (1 :: List.replicate 11 1) = _
    have hg : get_segment_and_block_offset (set_blk shared_rows_fs 0 0 zero_block) (toInt32 1)
        = .ok (((0 : Nat) : Int), ((1 : Nat) : Int)) := by decide!
    have hb : blk_at (set_blk shared_rows_fs 0 0 zero_block) 0 1
        = some (ptrs_bytes (1 :: 1 :: 2 :: List.replicate 1021 0)) := by decide!
    rw [zero_direct_blocks, if_pos (by decide), hg]
    have hl : (ptrs_bytes (1 :: 1 :: 2 :: List.replicate 1021 0)).length ≤ 4096 := by
      rw [ptrs_bytes_length, List.length_cons, List.length_cons, List.length_cons,
        List.length_replicate]
    simp only [write_zero_block _ 0 1 _ hb hl]
    exact zero_direct_blocks_zeroed _ 1 0 1 (by decide) hg1 hz1 11
  · decide
  · show zero_indirect _ 3 = _
    have hb : blk_at (set_blk (set_blk shared_rows_fs 0 0 zero_block) 0 1 zero_block) 0 3
        = some (ptrs_bytes (List.replicate 1024 1)) := by decide!
    have hg : get_segment_and_block_offset
        (set_blk (set_blk shared_rows_fs 0 0 zero_block) 0 1 zero_block) (toInt32 3)
        = .ok (((0 : Nat) : Int), ((3 : Nat) : Int)) := by decide!
    apply zero_indirect_of _ _ _ 3 (List.replicate 1024 1) _ _
      (extract_block_list_ptrs _ 3 _ (by decide) (by decide) hb (by rw [List.length_replicate])
        (by intro q hq; rw [List.eq_of_mem_replicate hq]; decide))
      (zero_listed_blocks_zeroed _ 1 0 1 (by decide) hg1 hz1 1024) hg
    exact write_zero_block _ 0 3 _ hb (by rw [ptrs_bytes_length, List.length_replicate])
  · decide
  · show zero_double_tree _ 4 = _
    have hb : blk_at (set_blk (set_blk (set_blk shared_rows_fs 0 0 zero_block) 0 1 zero_block)
        0 3 zero_block) 0 4 = some (ptrs_bytes (1 :: List.replicate 1023 0)) := by decide!
    have hg : get_segment_and_block_offset
        (set_blk (set_blk (set_blk shared_rows_fs 0 0 zero_block) 0 1 zero_block) 0 3 zero_block)
        (toInt32 4) = .ok (((0 : Nat) : Int), ((4 : Nat) : Int)) := by decide!
    have hrow : zero_indirect
        (set_blk (set_blk (set_blk shared_rows_fs 0 0 zero_block) 0 1 zero_block) 0 3 zero_block)
        1 = .ok (set_blk (set_blk (set_blk shared_rows_fs 0 0 zero_block) 0 1 zero_block)
          0 3 zero_block) := by
      apply zero_indirect_of _ _ _ 1 (List.replicate 1024 0) _ _
        (extract_block_list_ptrs _ 1 _ (by decide) (by decide)
          (by rw [ptrs_bytes_zero]; exact hz3) (by rw [List.length_replicate])
          (by intro q hq; rw [List.eq_of_mem_replicate hq]; decide))
        (zero_listed_blocks_zero_head _ (List.replicate 1023 0)) hg3
      exact write_zero_block_again _ 0 1 hz3
    apply zero_double_tree_of _ _ _ 4 (1 :: List.replicate 1023 0) _ _
      (extract_block_list_ptrs _ 4 _ (by decide) (by decide) hb
        (by rw [List.length_cons, List.length_replicate])
        (by
          intro q hq
          rcases List.mem_cons.mp hq with h | h
          · rw [h]; decide
          · rw [List.eq_of_mem_replicate h]; decide))
      ?_ hg
    · exact write_zero_block _ 0 4 _ hb (by
        rw [ptrs_bytes_length, List.length_cons, List.length_replicate])
    · rw [zero_double_rows, if_neg (by decide), hrow]
      simp only
      rw [show List.replicate 1023 0 = 0 :: List.replicate 1022 0 from rfl, zero_double_rows,
        if_pos rfl]
  · exact write_inode_nat _ 0 1
      { size := 4251649, type := TYPE_FILE, direct := List.replicate 12 1,
        indirect_single := 3, indirect_double := 4 } zero_inode (by decide!)

theorem run_remove_shared_rows :
    run_remove shared_rows_fs (47 :: [102]) = .ok (.removed, shared_rows_removed) := by
  apply run_remove_of shared_rows_fs (set_blk shared_rows_fs 0 0 zero_block) shared_rows_removed
    (47 :: [102]) [] [102] 0 ((0 : Nat) : Int) ((0 : Nat) : Int) ((0 : Nat) : Int)
    ((0 : Nat) : Int)
    { size := 0, type := TYPE_DIR, direct := List.replicate 12 0, indirect_single := 0,
      indirect_double := 0 }
    (padded (entry_bytes 1 [102])) zero_block 1 0
  · decide
  · decide
  · decide!
  · decide
  · decide!
  · decide!
  · decide!
  · decide!
  · decide!
  · decide
  · decide!
  · have hb : blk_at shared_rows_fs 0 0 = some (padded (entry_bytes 1 [102])) := by decide!
    exact write_zero_block _ 0 0 _ hb (by rw [padded_length _ (by decide)])
  · exact remove_file_blocks_shared_rows
/-! ### What a `run_add` leaves of the blocks of other files -/

theorem write_block_ok_nat (fs fs' : FS) (s b : Nat) (bytes : List Nat)
    (h : write_block fs (s : Int) (b : Int) bytes = .ok fs') :
    ∃ old, blk_at fs s b = some old ∧ fs' = set_blk fs s b (bytes ++ old.drop bytes.length) := by
  cases hb : blk_at fs s b with
  | none =>
    exfalso
    unfold blk_at at hb
    unfold write_block at h
    have h0 : ¬ ((s : Int) < 0 ∨ (b : Int) < 0) := by omega
    rw [if_neg h0] at h
    simp only [Int.toNat_ofNat] at h
    cases hs : fs.data_segments[s]? with
    | none => rw [hs] at h; cases h
    | some sg =>
      rw [hs] at h hb
      simp only at h hb
      rw [hb] at h
      cases h
  | some old =>
    rw [write_block_nat fs s b old bytes hb] at h
    cases h
    exact ⟨old, rfl, rfl⟩

/-- The result of `find_free_block` on a shaped archive, whenever it returns. -/
theorem find_free_block_inv (fs fs1 : FS) (g : Nat) (hs : Shaped fs)
    (h : find_free_block fs = .ok (g, fs1)) :
    fs1.inode_segments = fs.inode_segments ∧ Shaped fs1
      ∧ num_data_segments fs ≤ num_data_segments fs1
      ∧ (∀ s b x, blk_at fs s b = some x → blk_at fs1 s b = some x)
      ∧ 1 ≤ g % 256 ∧ g / 256 < num_data_segments fs1
      ∧ ¬ referenced fs1 g := by
  have key : num_data_segments fs < MAX_SEGMENTS
      ∨ ∃ g', scan_segments fs (List.range (num_data_segments fs)) = .ok (some g') := by
    by_cases hn : num_data_segments fs < MAX_SEGMENTS
    · exact Or.inl hn
    · right
      unfold find_free_block at h
      split at h
      · cases h
      · rename_i g' hg'
        exact ⟨g', hg'⟩
      · unfold create_new_data_segment at h
        rw [if_pos (by omega)] at h
        cases h
  rcases key with hn | ⟨g', hg'⟩
  · obtain ⟨g2, fs2, hf, e1, hs1, n1, _, keep, hg1, hg2, hfree⟩ := find_free_block_sound fs hs hn
    rw [hf] at h
    cases h
    have hdm : g / 256 * 256 + g % 256 = g := by omega
    refine ⟨e1, hs1, n1, keep, hg1, hg2, ?_⟩
    have := hfree.1
    rw [hdm] at this
    exact this
  · obtain ⟨r, hr, hsound⟩ := scan_segments_sound fs hs (List.range (num_data_segments fs))
      (fun s h => List.mem_range.mp h)
    rw [hg'] at hr
    cases hr
    unfold find_free_block at h
    rw [hg'] at h
    cases h
    obtain ⟨s, b, h1, hb1, hb2, hg, hf⟩ := hsound g rfl
    have hdiv : g / 256 = s := by omega
    have hmod : g % 256 = b := by omega
    refine ⟨rfl, hs, le_refl _, fun _ _ _ h => h, by omega, by omega, ?_⟩
    rw [hg]
    exact hf.1

/-- A write to a block that lies inside the data segments, is not block 0 of its segment
and is listed by no persisted inode keeps the shape and the blocks of the other files. -/
theorem write_unreferenced (fs fs' : FS) (p : Nat) (seg blk : Int) (bytes : List Nat)
    (hs : Shaped fs) (hp1 : 1 ≤ p % 256) (hp2 : p / 256 < num_data_segments fs)
    (hp3 : ¬ referenced fs p)
    (hg : get_segment_and_block_offset fs (toInt32 p) = .ok (seg, blk))
    (hw : write_block fs seg blk bytes = .ok fs') :
    Shaped fs' ∧ Frame fs fs' ∧ num_data_segments fs' = num_data_segments fs := by
  have hn : num_data_segments fs ≤ 1024 := hs.nds
  have hlt : p < 256 * num_data_segments fs := by omega
  rw [toInt32_of_lt p (by omega), gsbo_nat fs p hlt] at hg
  cases hg
  obtain ⟨old, _, e⟩ := write_block_ok_nat _ _ _ _ _ hw
  subst e
  refine ⟨Shaped_set_blk fs hs _ _ _, ?_, num_data_segments_set_blk _ _ _ _⟩
  apply Frame_set_blk fs _ _ _ (by omega)
  have hdm : p / 256 * 256 + p % 256 = p := by omega
  rw [hdm]
  exact hp3

/-- One allocation and the write to the block handed out, whenever they return. -/
theorem alloc_write_inv (fs fs1 fs2 : FS) (g : Nat) (seg blk : Int) (bytes : List Nat)
    (hs : Shaped fs) (hf : find_free_block fs = .ok (g, fs1))
    (hg : get_segment_and_block_offset fs1 (toInt32 g) = .ok (seg, blk))
    (hw : write_block fs1 seg blk bytes = .ok fs2) :
    Shaped fs2 ∧ Frame fs fs2 ∧ 1 ≤ g % 256 ∧ g / 256 < num_data_segments fs2
      ∧ ¬ referenced fs2 g := by
  obtain ⟨e1, hs1, n1, keep, hg1, hg2, hnr⟩ := find_free_block_inv fs fs1 g hs hf
  obtain ⟨hs2, fr, n2⟩ := write_unreferenced fs1 fs2 g seg blk bytes hs1 hg1 hg2 hnr hg hw
  refine ⟨hs2, ?_, hg1, by rw [n2]; exact hg2, ?_⟩
  · exact Frame_trans fs fs1 fs2 ⟨e1, n1, fun s b x h _ => keep s b x h⟩ fr
  · exact (referenced_congr fs1 fs2 fr.1 g).not.mpr hnr
theorem unlisted_frame (fs fs' : FS) (l : List Nat) (h : unlisted fs l) (fr : Frame fs fs') :
    unlisted fs' l := by
  intro p hp hp0
  obtain ⟨a, b, c⟩ := h p hp hp0
  refine ⟨a, ?_, ?_⟩
  · have := fr.2.1
    omega
  · exact (referenced_congr fs fs' fr.1 p).not.mpr c

theorem unlisted_set (fs : FS) (l : List Nat) (i x : Nat) (h : unlisted fs l)
    (hx : x ≠ 0 → 1 ≤ x % 256 ∧ x / 256 < num_data_segments fs ∧ ¬ referenced fs x) :
    unlisted fs (l.set i x) := by
  intro p hp hp0
  rcases List.mem_or_eq_of_mem_set hp with h1 | h1
  · exact h p h1 hp0
  · subst h1
    exact hx hp0

theorem unlisted_replicate_zero (fs : FS) (n : Nat) : unlisted fs (List.replicate n 0) := by
  intro p hp hp0
  exact absurd (List.eq_of_mem_replicate hp) hp0

/-- The block writing loop of `run_add` on a shaped archive, whenever it returns: the
archive stays shaped, the inode table and every block listed by a persisted inode are as
before, and the inner blocks picked for the double-indirect tree are listed by no
persisted inode. -/
theorem add_loop_frame (chunks : List (List Nat)) :
    ∀ (st st' : AddState) (flag : Bool), Shaped st.fs → unlisted st.fs st.indirect_double →
      add_loop st chunks = .ok (st', flag) →
      Shaped st'.fs ∧ Frame st.fs st'.fs ∧ unlisted st'.fs st'.indirect_double := by
  induction chunks with
  | nil =>
    intro st st' flag hs hu h
    rw [add_loop] at h
    cases h
    exact ⟨hs, Frame_refl _, hu⟩
  | cons buffer rest ih =>
    intro st st' flag hs hu h
    rw [add_loop] at h
    split at h
    · cases h
    · rename_i block fs1 h1
      split at h
      · cases h
      · rename_i seg blk h2
        split at h
        · cases h
        · rename_i fs2 h3
          obtain ⟨hs2, fr2, _, _, _⟩ := alloc_write_inv st.fs fs1 fs2 block seg blk buffer hs h1 h2 h3
          have hu2 := unlisted_frame _ _ _ hu fr2
          simp only at h
          split at h
          · obtain ⟨a, b, c⟩ := ih _ _ _ hs2 hu2 h
            exact ⟨a, Frame_trans _ _ _ fr2 b, c⟩
          · split at h
            · obtain ⟨a, b, c⟩ := ih _ _ _ hs2 hu2 h
              exact ⟨a, Frame_trans _ _ _ fr2 b, c⟩
            · split at h
              · split at h
                · cases h
                · rename_i inner fs3 h4
                  have h5 : Shaped fs3 ∧ Frame fs2 fs3
                      ∧ (inner ≠ 0 → 1 ≤ inner % 256 ∧ inner / 256 < num_data_segments fs3
                          ∧ ¬ referenced fs3 inner) := by
                    split at h4
                    · rename_i hne
                      cases h4
                      refine ⟨hs2, Frame_refl _, fun _ => ?_⟩
                      apply hu2 _ _ hne
                      rw [List.getD_eq_getElem?_getD] at hne ⊢
                      cases hget : st.indirect_double[(st.total_blocks - DIRECT_BLOCKS
                          - PTRS_PER_BLOCK) / PTRS_PER_BLOCK]? with
                      | none =>
                        rw [hget] at hne
                        exact absurd rfl hne
                      | some v =>
                        exact List.getElem?_mem hget
                    · obtain ⟨e1, hs3, n1, keep, g1, g2, g3⟩ := find_free_block_inv _ _ _ hs2 h4
                      exact ⟨hs3, ⟨e1, n1, fun s b x h _ => keep s b x h⟩, fun _ => ⟨g1, g2, g3⟩⟩
                  obtain ⟨hs3, fr3, hin⟩ := h5
                  have hu3 := unlisted_set fs3 st.indirect_double
                    ((st.total_blocks - DIRECT_BLOCKS - PTRS_PER_BLOCK) / PTRS_PER_BLOCK) inner
                    (unlisted_frame _ _ _ hu2 fr3) hin
                  obtain ⟨a, b, c⟩ := ih _ _ _ hs3 hu3 h
                  exact ⟨a, Frame_trans _ _ _ (Frame_trans _ _ _ fr2 fr3) b, c⟩
              · cases h
                exact ⟨hs2, fr2, hu2⟩
theorem gsbo_congr (fs fs' : FS) (g : Int) (h : num_data_segments fs' = num_data_segments fs) :
    get_segment_and_block_offset fs' g = get_segment_and_block_offset fs g := by
  unfold get_segment_and_block_offset
  rw [h]

theorem unlisted_take (fs : FS) (l : List Nat) (n : Nat) (h : unlisted fs l) :
    unlisted fs (l.take n) :=
  fun p hp hp0 => h p (List.mem_of_mem_take hp) hp0

theorem write_single_indirect_frame (st : AddState) (file1 : Inode) (fsa : FS)
    (hs : Shaped st.fs) (h : write_single_indirect st = .ok (file1, fsa)) :
    Shaped fsa ∧ Frame st.fs fsa := by
  unfold write_single_indirect at h
  split at h
  · split at h
    · cases h
    · rename_i single fs1 h1
      split at h
      · cases h
      · rename_i seg blk h2
        split at h
        · cases h
        · rename_i fs2 h3
          cases h
          obtain ⟨a, b, _⟩ := alloc_write_inv st.fs fs1 fsa single seg blk _ hs h1 h2 h3
          exact ⟨a, b⟩
  · cases h
    exact ⟨hs, Frame_refl _⟩

theorem write_inner_blocks_frame (ps : List Nat) :
    ∀ (fs fs' : FS) (rows : List (List Nat)), Shaped fs → unlisted fs ps →
      write_inner_blocks fs ps rows = .ok fs' →
      Shaped fs' ∧ Frame fs fs' ∧ num_data_segments fs' = num_data_segments fs := by
  induction ps with
  | nil =>
    intro fs fs' rows hs _ h
    rw [write_inner_blocks] at h
    cases h
    exact ⟨hs, Frame_refl _, rfl⟩
  | cons p ps ih =>
    intro fs fs' rows hs hu h
    rw [write_inner_blocks] at h
    split at h
    · cases h
      exact ⟨hs, Frame_refl _, rfl⟩
    · rename_i hp0
      obtain ⟨a, b, c⟩ := hu p (List.mem_cons_self _ _) hp0
      split at h
      · cases h
      · rename_i seg blk hg
        split at h
        · cases h
        · rename_i fs1 hw
          obtain ⟨hs1, fr1, n1⟩ := write_unreferenced fs fs1 p seg blk _ hs a b c hg hw
          have hu1 : unlisted fs1 ps :=
            unlisted_frame fs fs1 ps (fun q hq => hu q (List.mem_cons_of_mem _ hq)) fr1
          obtain ⟨hs2, fr2, n2⟩ := ih fs1 fs' rows.tail hs1 hu1 h
          exact ⟨hs2, Frame_trans _ _ _ fr1 fr2, by rw [n2, n1]⟩

theorem write_double_indirect_frame (st : AddState) (file1 file2 : Inode) (fsa fsb : FS)
    (hs : Shaped fsa) (hu : unlisted fsa st.indirect_double)
    (h : write_double_indirect st file1 fsa = .ok (file2, fsb)) :
    Shaped fsb ∧ Frame fsa fsb := by
  unfold write_double_indirect at h
  split at h
  · split at h
    · cases h
    · rename_i outer fs1 h1
      obtain ⟨e1, hs1, n1, keep, g1, g2, g3⟩ := find_free_block_inv _ _ _ hs h1
      have fr1 : Frame fsa fs1 := ⟨e1, n1, fun s b x h _ => keep s b x h⟩
      split at h
      · cases h
      · rename_i seg blk hg
        split at h
        · cases h
        · rename_i fs2 hi
          obtain ⟨hs2, fr2, n2⟩ := write_inner_blocks_frame _ fs1 fs2 _ hs1
            (unlisted_take _ _ _ (unlisted_frame _ _ _ hu fr1)) hi
          split at h
          · cases h
          · rename_i fs3 hw
            cases h
            rw [← gsbo_congr fs1 fs2 _ n2] at hg
            obtain ⟨hs3, fr3, _⟩ := write_unreferenced fs2 fsb outer seg blk _ hs2 g1
              (by rw [n2]; exact g2) ((referenced_congr fs1 fs2 fr2.1 outer).not.mpr g3) hg hw
            exact ⟨hs3, Frame_trans _ _ _ fr1 (Frame_trans _ _ _ fr2 fr3)⟩
  · cases h
    exact ⟨hs, Frame_refl _⟩

/-- The data part of a `run_add` on a shaped archive, whenever the block writing loop and
the steps that write the pointer blocks return: the inode table and every block listed by
a persisted inode are as before. -/
theorem add_data_frame (fs : FS) (chunks : List (List Nat)) (st : AddState) (flag : Bool)
    (hs : Shaped fs) (h : add_loop (add_init fs) chunks = .ok (st, flag)) :
    Shaped st.fs ∧ Frame fs st.fs
      ∧ ∀ parent filename fs2, add_finish st parent filename = .ok fs2 →
          ∃ file2 fsb, Shaped fsb ∧ Frame fs fsb
            ∧ write_file_inode fsb file2 parent filename = .ok fs2 := by
  obtain ⟨a, b, c⟩ := add_loop_frame chunks (add_init fs) st flag hs
    (unlisted_replicate_zero _ _) h
  refine ⟨a, b, ?_⟩
  intro parent filename fs2 hf
  unfold add_finish at hf
  split at hf
  · cases hf
  · rename_i file1 fsa h4
    obtain ⟨hsa, fra⟩ := write_single_indirect_frame st file1 fsa a h4
    split at hf
    · cases hf
    · rename_i file2 fsb h5
      obtain ⟨hsb, frb⟩ := write_double_indirect_frame st file1 file2 fsa fsb hsa
        (unlisted_frame _ _ _ c fra) h5
      exact ⟨file2, fsb, hsb, Frame_trans _ _ _ b (Frame_trans _ _ _ fra frb), hf⟩
theorem slot_at_table_set_other (fs fsd : FS) (a b a1 b1 : Nat) (sg : List Inode) (x : Inode)
    (hsg : fs.inode_segments[a]? = some sg)
    (e : fsd.inode_segments = fs.inode_segments.set a (sg.set b x))
    (hne : a1 ≠ a ∨ b1 ≠ b) : slot_at fsd a1 b1 = slot_at fs a1 b1 := by
  unfold slot_at
  rw [e]
  by_cases ha : a1 = a
  · subst ha
    have hb : b1 ≠ b := by
      rcases hne with h | h
      · exact absurd rfl h
      · exact h
    have hl : a1 < fs.inode_segments.length := by
      by_contra hc
      rw [List.getElem?_eq_none (by omega)] at hsg
      cases hsg
    rw [List.getElem?_set_self hl, hsg]
    simp only
    rw [List.getElem?_set_ne (Ne.symm hb)]
  · rw [List.getElem?_set_ne (Ne.symm ha)]

theorem slot_at_append_segment (fs fsc : FS) (sg : List Inode) (s o : Nat)
    (e : fsc.inode_segments = fs.inode_segments ++ [sg]) (hs : s < fs.inode_segments.length) :
    slot_at fsc s o = slot_at fs s o := by
  unfold slot_at
  rw [e, List.getElem?_append_left hs]

/-- The steps "Write inode" and "Add directory entry" leave every inode record of a type
other than 0 where it is, and touch no block before the directory entry is written. -/
theorem write_file_inode_keeps (fs fs' : FS) (file : Inode) (parent : Nat) (name : List Nat)
    (hreg : ∀ sg ∈ fs.inode_segments, sg.length = INODES_PER_SEGMENT)
    (h : write_file_inode fs file parent name = .ok fs') :
    ∃ m fsd, fsd.data_segments = fs.data_segments
      ∧ fs'.inode_segments = fsd.inode_segments
      ∧ (∀ n ino, inode_at fs n = some ino → ino.type ≠ 0 → inode_at fsd n = some ino)
      ∧ update_directory_entry fsd parent m name = .ok fs' := by
  unfold write_file_inode at h
  split at h
  · cases h
  · rename_i m fsc hf
    split at h
    · cases h
    · rename_i seg off hg
      obtain ⟨e1, e2, _⟩ := gsio_ok_nat fsc m seg off hg
      subst e1 e2
      split at h
      · cases h
      · rename_i fsd hw
        obtain ⟨sg, hsg, hoff, _, _, e, ed⟩ := write_inode_ok _ _ _ _ _ hw
        simp only [Int.toNat_ofNat] at hsg hoff e
        obtain ⟨edc, hcase⟩ := find_free_inode_ok _ _ _ hf
        refine ⟨m, fsd, by rw [ed, edc], update_directory_entry_inode_segments _ _ _ _ _ h,
          ?_, h⟩
        intro n ino hn hty
        rw [inode_at_eq_slot_at] at hn ⊢
        have hnl : n / INODES_PER_SEGMENT < fs.inode_segments.length := by
          by_contra hc
          unfold slot_at at hn
          rw [List.getElem?_eq_none (by omega)] at hn
          cases hn
        rcases hcase with ⟨rfl, hscan⟩ | ⟨_, happ, hm⟩
        · obtain ⟨sp1, _⟩ := scan_inode_segments_spec fsc.inode_segments 0 hreg
          obtain ⟨t, j, sg0, ino0, hmt, hj, htbl, hsl, hty0, _⟩ := sp1 m hscan
          have hne : n / INODES_PER_SEGMENT ≠ m / 256 ∨ n % INODES_PER_SEGMENT ≠ m % 256 := by
            by_contra hc
            have hc1 : n / INODES_PER_SEGMENT = m / 256 := by
              by_contra h1; exact hc (Or.inl h1)
            have hc2 : n % INODES_PER_SEGMENT = m % 256 := by
              by_contra h1; exact hc (Or.inr h1)
            simp only [INODES_PER_SEGMENT] at hmt hj
            have hd : m / 256 = t := by omega
            have hmod : m % 256 = j := by omega
            unfold slot_at at hn
            rw [hc1, hc2, hd, hmod, htbl] at hn
            simp only at hn
            rw [hsl] at hn
            cases hn
            exact hty hty0
          rw [slot_at_table_set_other fsc fsd _ _ _ _ sg file hsg e hne]
          exact hn
        · have hm2 : m / 256 = fs.inode_segments.length := by
            rw [hm]
            simp only [INODES_PER_SEGMENT]
            omega
          have hne : n / INODES_PER_SEGMENT ≠ m / 256 ∨ n % INODES_PER_SEGMENT ≠ m % 256 :=
            Or.inl (by omega)
          rw [slot_at_table_set_other fsc fsd _ _ _ _ sg file hsg e hne,
            slot_at_append_segment fs fsc _ _ _ happ hnl]
          exact hn

theorem dir_end_offset_ge (block : List Nat) :
    ∀ (fuel offset r : Nat), dir_end_offset block fuel offset = .ok r → offset ≤ r := by
  intro fuel
  induction fuel with
  | zero =>
    intro offset r h
    rw [dir_end_offset] at h
    cases h
    exact le_refl _
  | succ fuel ih =>
    intro offset r h
    rw [dir_end_offset] at h
    split at h
    · split at h
      · cases h
      · cases h
        exact le_refl _
      · have := ih _ _ h
        omega
    · cases h
      exact le_refl _

/-- Appending an entry to a root directory whose first entry is that of inode 1 under
`name1` leaves that first entry in place. -/
theorem update_directory_entry_after_first (fs fs' : FS) (m : Nat) (name name1 rest : List Nat)
    (hne : name1 ≠ []) (hname : name1.length ≤ 255)
    (hroot : slot_at fs 0 0 = some root_inode) (hni : 0 < num_inode_segments fs)
    (hblk : blk_at fs 0 0 = some (entry_bytes 1 name1 ++ rest))
    (h : update_directory_entry fs 0 m name = .ok fs') :
    ∃ rest', fs' = set_blk fs 0 0 (entry_bytes 1 name1 ++ rest') := by
  unfold update_directory_entry at h
  have h0 : toInt32 0 = ((0 : Nat) : Int) := by decide
  have hg := gsio_nat fs 0 (by omega)
  have hd : root_inode.direct.getD 0 0 = 0 := by decide
  have hb : get_segment_and_block_offset fs ((0 : Nat) : Int)
      = .ok (((0 : Nat) : Int), ((0 : Nat) : Int)) := gsbo_zero fs
  simp only [h0, hg, Nat.zero_div, Nat.zero_mod, read_inode_nat fs 0 0 root_inode hroot, hd, hb,
    read_block_nat fs 0 0 _ hblk] at h
  split at h
  · cases h
  · rename_i off hoff
    have hge : (entry_bytes 1 name1).length ≤ off := by
      have hstep : dir_end_offset (entry_bytes 1 name1 ++ rest) (4095 + 1) 0 = .ok off := hoff
      rw [dir_end_offset] at hstep
      have hlt : (0 : Nat) < BLOCK_SIZE := by decide
      simp only [if_pos hlt, read_slot_first_entry 1 name1 rest (by omega) (by omega) hne hname]
        at hstep
      have := dir_end_offset_ge _ _ _ _ hstep
      rw [entry_bytes_length, Nat.mod_eq_of_lt (by omega)]
      omega
    split at h
    · cases h
    · rename_i block1 hp
      unfold poke at hp
      split at hp
      · cases hp
      · cases hp
        obtain ⟨old, _, e⟩ := write_block_ok_nat _ _ _ _ _ h
        have key : ∀ (A B C : List Nat),
            (((entry_bytes 1 name1 ++ rest).take off ++ A) ++ B) ++ C
              = entry_bytes 1 name1
                  ++ (rest.take (off - (entry_bytes 1 name1).length) ++ A ++ B ++ C) := by
          intro A B C
          rw [List.take_append_eq_append_take, List.take_of_length_le hge]
          simp only [List.append_assoc]
        exact ⟨_, e.trans (congrArg (set_blk fs 0 0) (key _ _ _))⟩
/-! ### A small file and later commands -/

/-- `run_extract` of a root-level name whose entry is the first of the root directory and
points to inode 1, whatever follows that entry. -/
theorem run_extract_first_entry (fs : FS) (name rest : List Nat) (file : Inode)
    (hne : name ≠ []) (h47 : 47 ∉ name) (hname : name.length ≤ 255)
    (hroot : slot_at fs 0 0 = some root_inode) (hslot : slot_at fs 0 1 = some file)
    (hn : 0 < num_inode_segments fs)
    (hblk : blk_at fs 0 0 = some (entry_bytes 1 name ++ rest))
    (hty : file.type = TYPE_FILE) :
    run_extract fs (47 :: name) = extract_file fs file := by
  unfold run_extract
  rw [extract_path_tail_root name hne h47 (by omega)]
  have h0 : ¬ ((0 : Int) < 0) := by decide
  have h1 : toInt32 1 = ((1 : Nat) : Int) := by decide
  have h00 : toInt32 0 = 0 := by decide
  have hd : root_inode.direct.getD 0 0 = 0 := by decide
  have hrb : read_block fs 0 0 = .ok (entry_bytes 1 name ++ rest) := by
    have := read_block_nat _ 0 0 _ hblk
    simpa using this
  have hri : read_inode fs 0 0 = .ok root_inode := by
    have := read_inode_nat _ 0 0 _ hroot
    simpa using this
  have hg := gsio_zero fs hn
  have hg1 := gsio_nat fs 1 (by omega)
  have hri1 := read_inode_nat fs 0 1 _ hslot
  have hfind : dir_find_exact (entry_bytes 1 name ++ rest) name BLOCK_SIZE 0
      = .ok (some (1, 0)) :=
    dir_find_exact_first 1 name _ (by omega) (by omega) hne hname
  have hmax : ¬ (1 = UINT32_MAX) := by decide
  have hty' : ¬ file.type ≠ TYPE_FILE := by rw [hty]; simp
  simp only [find_inode_by_path_slash, if_neg h0, hg, hri, hd, h00, gsbo_zero, hrb, hfind,
    if_neg hmax, h1, hg1, Nat.reduceDiv, Nat.reduceMod, hri1, if_neg hty']

/-- A file stored in the sense of `stored_small` is extracted unchanged. -/
theorem run_extract_stored_small (fs : FS) (name host : List Nat) (hne : name ≠ [])
    (h47 : 47 ∉ name) (hname : name.length ≤ 255) (h : stored_small fs name host) :
    run_extract fs (47 :: name) = .ok host := by
  obtain ⟨hroot, hn, ⟨rest, hblk⟩, file, ps, tail, hslot, hty, hsz, hdir, hlen, hold⟩ := h
  rw [run_extract_first_entry fs name rest file hne h47 hname hroot hslot hn hblk hty]
  unfold extract_file
  have hemit := emit_blocks_chunks fs (file_chunks host.length host) ps tail hlen
    (fun j h1 h2 => hold j h1 h2) (fun j h => file_chunks_sizes host j h)
  rw [file_chunks_sum, file_chunks_flatten host.length host (le_refl _)] at hemit
  rw [hdir, hsz, hemit]
  simp

theorem referenced_of_slot (fs : FS) (s o : Nat) (ino : Inode) (g : Nat)
    (h : slot_at fs s o = some ino) (hg : g ∈ ino.direct.take DIRECT_BLOCKS) :
    referenced fs g := by
  unfold slot_at at h
  cases hs : fs.inode_segments[s]? with
  | none => rw [hs] at h; cases h
  | some sg =>
    rw [hs] at h
    exact ⟨sg, List.getElem?_mem hs, ino, List.getElem?_mem h, hg⟩

theorem slot_at_congr (fs fs' : FS) (h : fs'.inode_segments = fs.inode_segments) (s o : Nat) :
    slot_at fs' s o = slot_at fs s o := by
  unfold slot_at
  rw [h]

theorem blk_at_congr (fs fs' : FS) (h : fs'.data_segments = fs.data_segments) (s b : Nat) :
    blk_at fs' s b = blk_at fs s b := by
  unfold blk_at
  rw [h]

/-- Whatever keeps the inode table and the blocks listed by persisted inodes keeps a
stored small file. -/
theorem stored_small_frame (fs fs' : FS) (name host : List Nat)
    (h : stored_small fs name host) (fr : Frame fs fs') : stored_small fs' name host := by
  obtain ⟨hroot, hn, ⟨rest, hblk⟩, file, ps, tail, hslot, hty, hsz, hdir, hlen, hold⟩ := h
  obtain ⟨e, n, keep⟩ := fr
  refine ⟨by rw [slot_at_congr fs fs' e]; exact hroot, ?_, ⟨rest, keep 0 0 _ hblk (Or.inl rfl)⟩,
    file, ps, tail, by rw [slot_at_congr fs fs' e]; exact hslot, hty, hsz, hdir, hlen, ?_⟩
  · unfold num_inode_segments at hn ⊢
    rw [e]
    exact hn
  · intro j h1 h2
    obtain ⟨a, b, c, d⟩ := hold j h1 h2
    refine ⟨a, by omega, c, keep _ _ _ d (Or.inr ?_)⟩
    have hdm : ps.get ⟨j, h1⟩ / 256 * 256 + ps.get ⟨j, h1⟩ % 256 = ps.get ⟨j, h1⟩ := by omega
    rw [hdm]
    apply referenced_of_slot fs 0 1 file _ hslot
    rw [hdir]
    exact List.mem_append_left _ (List.get_mem _ _ _)
/-- The steps "Write inode" and "Add directory entry" of a `run_add` under the root keep
a stored small file. -/
theorem stored_small_write_file_inode (fs fs' : FS) (file2 : Inode) (name2 name host : List Nat)
    (hne : name ≠ []) (hname : name.length ≤ 255)
    (hreg : ∀ sg ∈ fs.inode_segments, sg.length = INODES_PER_SEGMENT)
    (h : stored_small fs name host)
    (hw : write_file_inode fs file2 0 name2 = .ok fs') : stored_small fs' name host := by
  obtain ⟨hroot, hn, ⟨rest, hblk⟩, file, ps, tail, hslot, hty, hsz, hdir, hlen, hold⟩ := h
  obtain ⟨m, fsd, ed, ei, keep, hu⟩ := write_file_inode_keeps fs fs' file2 0 name2 hreg hw
  have hroot_d : slot_at fsd 0 0 = some root_inode :=
    keep 0 root_inode hroot (by decide)
  have hslot_d : slot_at fsd 0 1 = some file :=
    keep 1 file hslot (by rw [hty]; decide)
  have hn_d : 0 < num_inode_segments fsd := by
    unfold slot_at at hroot_d
    unfold num_inode_segments
    by_contra hc
    rw [List.getElem?_eq_none (by omega)] at hroot_d
    cases hroot_d
  have hblk_d : blk_at fsd 0 0 = some (entry_bytes 1 name ++ rest) := by
    rw [blk_at_congr fs fsd ed]
    exact hblk
  obtain ⟨rest', e⟩ := update_directory_entry_after_first fsd fs' m name2 name rest hne hname
    hroot_d hn_d hblk_d hu
  subst e
  refine ⟨by rw [slot_at_set_blk]; exact hroot_d, by simpa using hn_d,
    ⟨rest', blk_at_set_blk_same _ _ _ _ _ hblk_d⟩, file, ps, tail,
    by rw [slot_at_set_blk]; exact hslot_d, hty, hsz, hdir, hlen, ?_⟩
  intro j h1 h2
  obtain ⟨a, b, c, d⟩ := hold j h1 h2
  have hnd : num_data_segments fsd = num_data_segments fs := by
    unfold num_data_segments
    rw [ed]
  refine ⟨a, by rw [num_data_segments_set_blk, hnd]; exact b, c, ?_⟩
  rw [blk_at_set_blk_other _ _ _ _ _ _ (by omega), blk_at_congr fs fsd ed]
  exact d

theorem Shaped_fresh : Shaped fresh := by
  refine ⟨?_, ?_, ?_⟩
  · rw [fresh_eq]
    intro sg hsg
    simp only [List.mem_singleton] at hsg
    subst hsg
    unfold zero_data_segment
    rw [List.length_replicate]
  · rw [fresh_eq]
    decide
  · intro g hg
    obtain ⟨sg, hsg, ino, hino, hmem⟩ := hg
    have := ptr_free_fresh sg hsg ino hino g hmem
    subst this
    rw [fresh_eq]
    decide

theorem referenced_set_slot (fs : FS) (s o : Nat) (ino : Inode) (g : Nat)
    (h : referenced (set_slot fs s o ino) g) :
    referenced fs g ∨ g ∈ ino.direct.take DIRECT_BLOCKS := by
  obtain ⟨sg, hsg, x, hx, hg⟩ := h
  unfold set_slot at hsg
  simp only at hsg
  rcases List.mem_or_eq_of_mem_set hsg with h1 | h1
  · exact Or.inl ⟨sg, h1, x, hx, hg⟩
  · subst h1
    rcases List.mem_or_eq_of_mem_set hx with h2 | h2
    · left
      by_cases hl : s < fs.inode_segments.length
      · refine ⟨fs.inode_segments.getD s [], ?_, x, h2, hg⟩
        rw [List.getD_eq_getElem?_getD, List.getElem?_eq_getElem hl]
        exact List.getElem_mem hl
      · exfalso
        rw [List.getD_eq_default _ _ (by omega)] at h2
        cases h2
    · subst h2
      exact Or.inr hg

theorem Shaped_set_slot (fs : FS) (hs : Shaped fs) (s o : Nat) (ino : Inode)
    (h : ∀ g ∈ ino.direct.take DIRECT_BLOCKS, g < 256 * num_data_segments fs) :
    Shaped (set_slot fs s o ino) := by
  refine ⟨hs.dseg, hs.nds, ?_⟩
  intro g hg
  rcases referenced_set_slot fs s o ino g hg with h1 | h1
  · exact hs.ptrs g h1
  · exact h g h1
theorem Shaped_small_add_fs (name host : List Nat) (hlen : host.length ≤ 12 * 4096)
    (hnz : ∀ j, 4096 * (j + 1) < host.length →
      all_zero (padded ((host.drop (4096 * j)).take 4096)) = false) :
    Shaped (small_add_fs name host) := by
  have hloop := add_loop_fresh host (by omega) hnz
  obtain ⟨hs, _, _⟩ := add_loop_frame _ (add_init fresh) (fresh_loop host) false Shaped_fresh
    (unlisted_replicate_zero _ _) hloop
  obtain ⟨_, _, _, _, fdir⟩ := fresh_loop_fields host hlen
  obtain ⟨_, hb⟩ := fresh_loop_facts host
  have hnd := num_data_segments_pos_of_blk _ _ _ _ hb
  unfold small_add_fs
  apply Shaped_set_blk
  apply Shaped_set_slot _ hs
  intro g hg
  rw [fdir] at hg
  have hg2 := List.mem_of_mem_take hg
  rcases List.mem_append.mp hg2 with h | h
  · rw [List.mem_range'_1] at h
    omega
  · rw [List.eq_of_mem_replicate h]
    omega

theorem small_add_fs_regular (name host : List Nat) :
    ∀ sg ∈ (small_add_fs name host).inode_segments, sg.length = INODES_PER_SEGMENT := by
  obtain ⟨hi, _⟩ := fresh_loop_facts host
  intro sg hsg
  unfold small_add_fs set_blk set_slot at hsg
  simp only at hsg
  rw [hi] at hsg
  rcases List.mem_or_eq_of_mem_set hsg with h | h
  · exact (TableInv_fresh sg h).1
  · subst h
    rw [List.length_set]
    decide!

theorem stored_small_small_add_fs (name host : List Nat) (hlen : host.length ≤ 12 * 4096)
    (hnz : ∀ j, 4096 * (j + 1) < host.length →
      all_zero (padded ((host.drop (4096 * j)).take 4096)) = false) :
    stored_small (small_add_fs name host) name host := by
  obtain ⟨hroot, hslot, hn, hblk, hnd⟩ := small_add_fs_facts name host
  obtain ⟨ft, fsz, fis, fid, fdir⟩ := fresh_loop_fields host hlen
  have hl := file_chunks_length host
  refine ⟨hroot, by omega, ⟨_, hblk⟩, (fresh_loop host).new_file,
    List.range' 1 ((host.length + 4095) / 4096),
    List.replicate (12 - (host.length + 4095) / 4096) 0, hslot, ft, fsz, ?_, ?_, ?_⟩
  · rw [fdir]
    apply List.take_of_length_le
    simp only [List.length_append, List.length_range', List.length_replicate, DIRECT_BLOCKS]
    omega
  · rw [hl]
    simp
  · intro j h1 h2
    exact small_add_fs_holds name host hlen hnz j h1 h2
theorem run_add_of_status (fs : FS) (exfs_path host : List Nat) (s : AddStatus)
    (h : then_add_status (.ok fs) exfs_path host = some s) :
    run_add fs exfs_path (some host)
      = .ok (s, result_fs (then_add (.ok fs) exfs_path host)) := by
  unfold then_add_status at h
  unfold then_add result_fs
  simp only at h ⊢
  cases hr : run_add fs exfs_path (some host) with
  | error e =>
    rw [hr] at h
    cases h
  | ok v =>
    obtain ⟨st, fs1⟩ := v
    rw [hr] at h
    simp only at h ⊢
    cases h
    rfl

/-- A `run_add` under a root-level name on an archive that holds a small file under the
first root entry, however it returns, leaves that file as it is. -/
theorem stored_small_run_add (fs fs2 : FS) (name name2 host host2 : List Nat) (st : AddStatus)
    (hne : name ≠ []) (hname : name.length ≤ 255) (hne2 : name2 ≠ []) (h472 : 47 ∉ name2)
    (hs : Shaped fs) (hreg : ∀ sg ∈ fs.inode_segments, sg.length = INODES_PER_SEGMENT)
    (h : stored_small fs name host)
    (h2 : run_add fs (47 :: name2) (some host2) = .ok (st, fs2)) :
    stored_small fs2 name host := by
  rw [run_add_root_from fs name2 host2 hne2 h472] at h2
  unfold add_from at h2
  split at h2
  · cases h2
  · rename_i st1 hl
    cases h2
    obtain ⟨_, fr, _⟩ := add_data_frame fs _ st1 true hs hl
    exact stored_small_frame _ _ _ _ h fr
  · rename_i st1 hl
    obtain ⟨_, _, hfin⟩ := add_data_frame fs _ st1 false hs hl
    split at h2
    · cases h2
    · rename_i fs3 hf
      cases h2
      obtain ⟨file2, fsb, _, frb, hw⟩ := hfin 0 name2 _ hf
      have hregb : ∀ sg ∈ fsb.inode_segments, sg.length = INODES_PER_SEGMENT := by
        rw [frb.1]
        exact hreg
      exact stored_small_write_file_inode fsb _ file2 name2 name host hne hname hregb
        (stored_small_frame _ _ _ _ h frb) hw
/-! ### Paths without a final component -/

theorem split_last_slash_no_slash (path : List Nat) (h : 47 ∉ path) :
    split_last_slash path = none := by
  unfold split_last_slash
  have hd : path.reverse.dropWhile (fun c => c != 47) = [] := by
    rw [List.dropWhile_eq_nil_iff]
    intro c hc
    have hc' : c ∈ path := List.mem_reverse.mp hc
    have : c ≠ 47 := fun e => h (e ▸ hc')
    simpa using this
  rw [hd]

theorem split_last_slash_trailing (p : List Nat) :
    split_last_slash (p ++ [47]) = some (p, []) := by
  unfold split_last_slash
  rw [List.reverse_append]
  simp [List.dropWhile, List.takeWhile]
/-! ### `find_free_block` on any archive, whenever it returns -/

theorem gsbo_ok_inv (fs : FS) (x seg blk : Int)
    (h : get_segment_and_block_offset fs x = .ok (seg, blk)) :
    (x = 0 ∧ seg = 0 ∧ blk = 0)
      ∨ (x ≠ 0 ∧ seg = Int.tdiv x 256 ∧ blk = Int.tmod x 256 ∧ 0 ≤ seg
          ∧ seg < (num_data_segments fs : Int)) := by
  unfold get_segment_and_block_offset at h
  split at h
  · rename_i h0
    cases h
    exact Or.inl ⟨h0, rfl, rfl⟩
  · rename_i h0
    simp only at h
    split at h
    · cases h
    · rename_i h1
      split at h
      · cases h
      · rename_i h2
        cases h
        right
        refine ⟨h0, rfl, rfl, by omega, ?_⟩
        have : ¬ Int.tdiv x (BLOCKS_PER_SEGMENT : Nat) ≥ (num_data_segments fs : Int) := h1
        have e : ((BLOCKS_PER_SEGMENT : Nat) : Int) = 256 := rfl
        rw [e] at this
        omega

theorem resolves_iff (fs : FS) (x seg blk : Int) (s b : Nat) (hb : 1 ≤ b)
    (hb2 : b < 256) (h : get_segment_and_block_offset fs x = .ok (seg, blk)) :
    (seg = (s : Int) ∧ blk = (b : Int)) ↔ x = ((s * 256 + b : Nat) : Int) := by
  rcases gsbo_ok_inv fs x seg blk h with ⟨h0, h1, h2⟩ | ⟨h0, h1, h2, h3, h4⟩
  · subst h0 h1 h2
    constructor
    · intro ⟨_, e⟩
      omega
    · intro e
      omega
  · have hsum := Int.tdiv_add_tmod x 256
    rw [← h1, ← h2] at hsum
    constructor
    · intro ⟨e1, e2⟩
      rw [e1, e2] at hsum
      omega
    · intro e
      subst e
      have d1 : Int.tdiv ((s * 256 + b : Nat) : Int) 256 = (((s * 256 + b) / 256 : Nat) : Int) := by
        simp [Int.tdiv]
      have d2 : Int.tmod ((s * 256 + b : Nat) : Int) 256 = (((s * 256 + b) % 256 : Nat) : Int) := by
        simp [Int.tmod]
      rw [h1, h2, d1, d2]
      constructor <;> omega

theorem direct_uses_inv (fs : FS) (s b : Nat) (hb : 1 ≤ b) (hb2 : b < 256) :
    ∀ (ds : List Nat) (r : Bool), direct_uses fs s b ds = .ok r →
      (r = true ↔ ∃ d ∈ ds, toInt32 d = ((s * 256 + b : Nat) : Int)) := by
  intro ds
  induction ds with
  | nil =>
    intro r h
    rw [direct_uses] at h
    cases h
    simp
  | cons d ds ih =>
    intro r h
    rw [direct_uses] at h
    split at h
    · cases h
    · rename_i seg blk hg
      have hiff := resolves_iff fs (toInt32 d) seg blk s b hb hb2 hg
      split at h
      · rename_i hc
        cases h
        simp only [true_iff]
        exact ⟨d, List.mem_cons_self _ _, hiff.mp hc⟩
      · rename_i hc
        rw [ih r h]
        constructor
        · intro ⟨x, hx, e⟩
          exact ⟨x, List.mem_cons_of_mem _ hx, e⟩
        · intro ⟨x, hx, e⟩
          rcases List.mem_cons.mp hx with h1 | h1
          · subst h1
            exact absurd (hiff.mpr e) hc
          · exact ⟨x, h1, e⟩

theorem inodes_use_inv (fs : FS) (s b : Nat) (hb : 1 ≤ b) (hb2 : b < 256) :
    ∀ (inos : List Inode) (r : Bool), inodes_use fs s b inos = .ok r →
      (r = true ↔ ∃ ino ∈ inos, ∃ d ∈ ino.direct.take DIRECT_BLOCKS,
        toInt32 d = ((s * 256 + b : Nat) : Int)) := by
  intro inos
  induction inos with
  | nil =>
    intro r h
    rw [inodes_use] at h
    cases h
    simp
  | cons ino rest ih =>
    intro r h
    rw [inodes_use] at h
    split at h
    · cases h
    · rename_i h1
      cases h
      simp only [true_iff]
      exact ⟨ino, List.mem_cons_self _ _, (direct_uses_inv fs s b hb hb2 _ _ h1).mp rfl⟩
    · rename_i h1
      have hno := direct_uses_inv fs s b hb hb2 _ _ h1
      rw [ih r h]
      constructor
      · intro ⟨x, hx, e⟩
        exact ⟨x, List.mem_cons_of_mem _ hx, e⟩
      · intro ⟨x, hx, e⟩
        rcases List.mem_cons.mp hx with h2 | h2
        · subst h2
          exact absurd (hno.mpr e) (by simp)
        · exact ⟨x, h2, e⟩

theorem inode_segments_use_inv (fs : FS) (s b : Nat) (hb : 1 ≤ b) (hb2 : b < 256) :
    ∀ (tbl : List (List Inode)) (r : Bool), inode_segments_use fs s b tbl = .ok r →
      (r = true ↔ ∃ sg ∈ tbl, ∃ ino ∈ sg, ∃ d ∈ ino.direct.take DIRECT_BLOCKS,
        toInt32 d = ((s * 256 + b : Nat) : Int)) := by
  intro tbl
  induction tbl with
  | nil =>
    intro r h
    rw [inode_segments_use] at h
    cases h
    simp
  | cons sg rest ih =>
    intro r h
    rw [inode_segments_use] at h
    split at h
    · cases h
    · rename_i h1
      cases h
      simp only [true_iff]
      exact ⟨sg, List.mem_cons_self _ _, (inodes_use_inv fs s b hb hb2 _ _ h1).mp rfl⟩
    · rename_i h1
      have hno := inodes_use_inv fs s b hb hb2 _ _ h1
      rw [ih r h]
      constructor
      · intro ⟨x, hx, e⟩
        exact ⟨x, List.mem_cons_of_mem _ hx, e⟩
      · intro ⟨x, hx, e⟩
        rcases List.mem_cons.mp hx with h2 | h2
        · subst h2
          exact absurd (hno.mpr e) (by simp)
        · exact ⟨x, h2, e⟩

theorem read_block_ok_nat (fs : FS) (s b : Nat) (blk : List Nat)
    (h : read_block fs (s : Int) (b : Int) = .ok blk) : blk_at fs s b = some blk := by
  unfold read_block at h
  unfold blk_at
  have h0 : ¬ ((s : Int) < 0 ∨ (b : Int) < 0) := by omega
  rw [if_neg h0] at h
  simp only [Int.toNat_ofNat] at h
  cases hs : fs.data_segments[s]? with
  | none => rw [hs] at h; cases h
  | some sg =>
    rw [hs] at h
    simp only at h ⊢
    cases hb : sg[b]? with
    | none => rw [hb] at h; cases h
    | some x =>
      rw [hb] at h
      cases h
      rfl

/-- The body of the block loop of `find_free_block`, whenever it returns: the block is
handed out exactly when no direct entry of a persisted inode is its number and it holds
only zero bytes. -/
theorem block_is_free_inv (fs : FS) (s b : Nat) (hb : 1 ≤ b) (hb2 : b < 256) (r : Bool)
    (h : block_is_free fs s b = .ok r) :
    (r = true → ¬ direct_listed fs (s * 256 + b)
        ∧ ∃ blk, blk_at fs s b = some blk ∧ all_zero blk = true)
      ∧ (r = false → direct_listed fs (s * 256 + b)
        ∨ ∃ blk, blk_at fs s b = some blk ∧ all_zero blk = false) := by
  unfold block_is_free at h
  split at h
  · cases h
  · rename_i h1
    cases h
    have := (inode_segments_use_inv fs s b hb hb2 _ _ h1).mp rfl
    exact ⟨fun e => (by cases e), fun _ => Or.inl this⟩
  · rename_i h1
    have hno := inode_segments_use_inv fs s b hb hb2 _ _ h1
    split at h
    · cases h
    · rename_i buffer h2
      cases h
      have hblk := read_block_ok_nat fs s b buffer h2
      constructor
      · intro e
        exact ⟨fun hl => absurd (hno.mpr hl) (by simp), buffer, hblk, e⟩
      · intro e
        exact Or.inr ⟨buffer, hblk, e⟩
theorem scan_blocks_range_inv (fs : FS) (s : Nat) :
    ∀ (n a : Nat) (r : Option Nat), scan_blocks fs s (List.range' a n) = .ok r →
      (r = none → ∀ b, a ≤ b → b < a + n → block_is_free fs s b = .ok false)
        ∧ (∀ g, r = some g → ∃ b, a ≤ b ∧ b < a + n ∧ g = s * 256 + b
            ∧ block_is_free fs s b = .ok true
            ∧ ∀ b', a ≤ b' → b' < b → block_is_free fs s b' = .ok false) := by
  intro n
  induction n with
  | zero =>
    intro a r h
    rw [List.range'_zero, scan_blocks] at h
    cases h
    refine ⟨fun _ b h1 h2 => by omega, fun g hg => by cases hg⟩
  | succ n ih =>
    intro a r h
    rw [List.range'_succ, scan_blocks] at h
    split at h
    · cases h
    · rename_i h1
      cases h
      refine ⟨fun e => (by cases e), ?_⟩
      intro g hg
      cases hg
      exact ⟨a, le_refl _, by omega, rfl, h1, fun b' h2 h3 => by omega⟩
    · rename_i h1
      obtain ⟨i1, i2⟩ := ih (a + 1) r h
      constructor
      · intro e b hb1 hb2
        by_cases hb : b = a
        · subst hb
          exact h1
        · exact i1 e b (by omega) (by omega)
      · intro g hg
        obtain ⟨b, hb1, hb2, hb3, hb4, hb5⟩ := i2 g hg
        refine ⟨b, by omega, by omega, hb3, hb4, ?_⟩
        intro b' h2 h3
        by_cases hb : b' = a
        · subst hb
          exact h1
        · exact hb5 b' (by omega) h3

theorem scan_segments_range_inv (fs : FS) :
    ∀ (n a : Nat) (r : Option Nat), scan_segments fs (List.range' a n) = .ok r →
      (r = none → ∀ s, a ≤ s → s < a + n → ∀ b, 1 ≤ b → b < 256 →
          block_is_free fs s b = .ok false)
        ∧ (∀ g, r = some g → ∃ s b, a ≤ s ∧ s < a + n ∧ 1 ≤ b ∧ b < 256 ∧ g = s * 256 + b
            ∧ block_is_free fs s b = .ok true
            ∧ (∀ b', 1 ≤ b' → b' < b → block_is_free fs s b' = .ok false)
            ∧ ∀ s', a ≤ s' → s' < s → ∀ b', 1 ≤ b' → b' < 256 →
                block_is_free fs s' b' = .ok false) := by
  intro n
  induction n with
  | zero =>
    intro a r h
    rw [List.range'_zero, scan_segments] at h
    cases h
    refine ⟨fun _ s h1 h2 => by omega, fun g hg => by cases hg⟩
  | succ n ih =>
    intro a r h
    rw [List.range'_succ, scan_segments] at h
    split at h
    · cases h
    · rename_i g1 h1
      cases h
      obtain ⟨_, j2⟩ := scan_blocks_range_inv fs a _ _ _ h1
      refine ⟨fun e => (by cases e), ?_⟩
      intro g hg
      cases hg
      obtain ⟨b, hb1, hb2, hb3, hb4, hb5⟩ := j2 _ rfl
      simp only [BLOCKS_PER_SEGMENT] at hb2
      exact ⟨a, b, le_refl _, by omega, hb1, by omega, hb3, hb4, hb5,
        fun s' h2 h3 => by omega⟩
    · rename_i h1
      obtain ⟨j1, _⟩ := scan_blocks_range_inv fs a _ _ _ h1
      obtain ⟨i1, i2⟩ := ih (a + 1) r h
      have hrow : ∀ b', 1 ≤ b' → b' < 256 → block_is_free fs a b' = .ok false := by
        intro b' h2 h3
        apply j1 rfl b' h2
        simp only [BLOCKS_PER_SEGMENT]
        omega
      constructor
      · intro e s hs1 hs2 b hb1 hb2
        by_cases hs : s = a
        · subst hs
          exact hrow b hb1 hb2
        · exact i1 e s (by omega) (by omega) b hb1 hb2
      · intro g hg
        obtain ⟨s, b, hs1, hs2, hb1, hb2, hg1, hf, hlow, hseg⟩ := i2 g hg
        refine ⟨s, b, by omega, by omega, hb1, hb2, hg1, hf, hlow, ?_⟩
        intro s' h2 h3 b' h4 h5
        by_cases hs : s' = a
        · subst hs
          exact hrow b' h4 h5
        · exact hseg s' (by omega) h3 b' h4 h5

/-- What `find_free_block` returns on any archive, whenever it returns: either a block of
an existing data segment that the block loop found free, the archive being as before, or
block 1 of a data segment appended to the archive; in both cases the block loop found no
lower block free. -/
theorem find_free_block_result (fs fs1 : FS) (g : Nat) (h : find_free_block fs = .ok (g, fs1)) :
    (∀ g', g' < g → 1 ≤ g' % 256 → block_is_free fs (g' / 256) (g' % 256) = .ok false)
      ∧ ((g / 256 < num_data_segments fs ∧ fs1 = fs ∧ 1 ≤ g % 256
            ∧ block_is_free fs (g / 256) (g % 256) = .ok true)
        ∨ (g = num_data_segments fs * 256 + 1 ∧ num_data_segments fs < MAX_SEGMENTS
            ∧ fs1 = { fs with data_segments := fs.data_segments ++ [zero_data_segment] })) := by
  unfold find_free_block at h
  rw [List.range_eq_range'] at h
  split at h
  · cases h
  · rename_i g1 h1
    cases h
    obtain ⟨_, i2⟩ := scan_segments_range_inv fs _ _ _ h1
    obtain ⟨s, b, _, hs2, hb1, hb2, hg1, hf, hlow, hseg⟩ := i2 g rfl
    have hdiv : g / 256 = s := by omega
    have hmod : g % 256 = b := by omega
    constructor
    · intro g' h2 h3
      by_cases hs : g' / 256 = s
      · rw [hs]
        exact hlow _ h3 (by omega)
      · exact hseg _ (Nat.zero_le _) (by omega) _ h3 (by omega)
    · left
      rw [hdiv, hmod]
      exact ⟨by omega, rfl, hb1, hf⟩
  · rename_i h1
    obtain ⟨i1, _⟩ := scan_segments_range_inv fs _ _ _ h1
    split at h
    · cases h
    · rename_i fs2 hc
      cases h
      unfold create_new_data_segment at hc
      split at hc
      · cases hc
      · rename_i hmax
        cases hc
        have hn : num_data_segments
            { fs with data_segments := fs.data_segments ++ [zero_data_segment] }
            = num_data_segments fs + 1 := by
          simp [num_data_segments]
        rw [hn]
        simp only [Nat.add_sub_cancel, BLOCKS_PER_SEGMENT]
        constructor
        · intro g' h2 h3
          exact i1 rfl _ (Nat.zero_le _) (by omega) _ h3 (by omega)
        · right
          exact ⟨trivial, Nat.lt_of_not_ge hmax, trivial⟩
theorem direct_listed_of_referenced (fs : FS) (g : Nat) (hg : g < 2147483648)
    (h : referenced fs g) : direct_listed fs g := by
  obtain ⟨sg, hsg, ino, hino, hmem⟩ := h
  exact ⟨sg, hsg, ino, hino, g, hmem, toInt32_of_lt g hg⟩

theorem referenced_of_direct_listed (fs : FS) (g : Nat)
    (hu : ∀ sg ∈ fs.inode_segments, ∀ ino ∈ sg, ∀ d ∈ ino.direct, d < 4294967296)
    (h : direct_listed fs g) : referenced fs g := by
  obtain ⟨sg, hsg, ino, hino, d, hmem, e⟩ := h
  have hd := hu sg hsg ino hino d (List.mem_of_mem_take hmem)
  have hdg : d = g := by
    unfold toInt32 at e
    rw [Nat.mod_eq_of_lt hd] at e
    split at e
    · omega
    · omega
  subst hdg
  exact ⟨sg, hsg, ino, hino, hmem⟩

theorem all_zero_iff (blk : List Nat) : all_zero blk = true ↔ ∀ x ∈ blk, x = 0 := by
  unfold all_zero
  simp [List.all_eq_true]

theorem all_zero_false_iff (blk : List Nat) : all_zero blk = false ↔ ∃ x ∈ blk, x ≠ 0 := by
  constructor
  · intro h
    by_contra hc
    have : all_zero blk = true := (all_zero_iff blk).mpr (by
      intro x hx
      by_contra hne
      exact hc ⟨x, hx, hne⟩)
    rw [h] at this
    cases this
  · intro ⟨x, hx, hne⟩
    cases hz : all_zero blk with
    | false => rfl
    | true => exact absurd ((all_zero_iff blk).mp hz x hx) hne

theorem block_at_eq_blk_at (fs : FS) (g : Nat) :
    block_at fs g = blk_at fs (g / 256) (g % 256) := rfl
theorem find_free_block_after_one_file :
    find_free_block (small_add_fs [120] [1]) = .ok (2, small_add_fs [120] [1]) := by
  decide!

/-- When no addressable slot has type 0, the scan of the inode table finds nothing. -/
theorem scan_inode_segments_none (fs : FS)
    (hreg : ∀ sg ∈ fs.inode_segments, sg.length = INODES_PER_SEGMENT)
    (hfull : ∀ n ino, inode_at fs n = some ino → ino.type ≠ 0) :
    scan_inode_segments fs.inode_segments 0 = none := by
  obtain ⟨sp1, _⟩ := scan_inode_segments_spec fs.inode_segments 0 hreg
  cases hscan : scan_inode_segments fs.inode_segments 0 with
  | none => rfl
  | some m =>
    exfalso
    obtain ⟨t, j, sg, ino, _, hj, ht, hs, hty, _⟩ := sp1 m hscan
    refine hfull (t * INODES_PER_SEGMENT + j) ino ?_ hty
    unfold inode_at
    have h1 : (t * INODES_PER_SEGMENT + j) / INODES_PER_SEGMENT = t := by
      unfold INODES_PER_SEGMENT at hj ⊢
      omega
    have h2 : (t * INODES_PER_SEGMENT + j) % INODES_PER_SEGMENT = j := by
      unfold INODES_PER_SEGMENT at hj ⊢
      omega
    rw [h1, ht]
    simp only
    rw [h2, hs]

/-- With no free slot and room for one more segment, `find_free_inode` appends one zero
segment and returns its slot 0. -/
theorem find_free_inode_of_no_scan (fs : FS)
    (hscan : scan_inode_segments fs.inode_segments 0 = none)
    (hroom : num_inode_segments fs < MAX_SEGMENTS) :
    find_free_inode fs
      = .ok (256 * num_inode_segments fs,
          { fs with inode_segments := fs.inode_segments ++ [zero_inode_segment] }) := by
  have hset : (fs.inode_segments ++ [zero_inode_segment]).set fs.inode_segments.length
      (zero_inode_segment.set 0 zero_inode) = fs.inode_segments ++ [zero_inode_segment] := by
    have hz : zero_inode_segment.set 0 zero_inode = zero_inode_segment := rfl
    rw [hz]
    apply list_set_self
    rw [List.getElem?_append_right (Nat.le_refl _), Nat.sub_self]
    rfl
  have hget : (fs.inode_segments ++ [zero_inode_segment])[fs.inode_segments.length]?
      = some zero_inode_segment := by
    rw [List.getElem?_append_right (Nat.le_refl _), Nat.sub_self]
    rfl
  unfold find_free_inode
  rw [hscan]
  simp only
  unfold create_new_inode_segment
  rw [if_neg (Nat.not_le.mpr hroom)]
  simp only
  unfold write_inode
  have hn : num_inode_segments
      { fs with inode_segments := fs.inode_segments ++ [zero_inode_segment] }
      = fs.inode_segments.length + 1 := by
    unfold num_inode_segments
    simp
  rw [hn]
  have hi : (((fs.inode_segments.length + 1 : Nat) : Int) - 1) = (fs.inode_segments.length : Int) := by
    push_cast
    omega
  rw [hi]
  have hneg : ¬ (((fs.inode_segments.length : Nat) : Int) < 0 ∨ (0 : Int) < 0) := by omega
  rw [if_neg hneg]
  simp only [Int.toNat_ofNat, Int.toNat_zero]
  rw [hget]
  simp only
  have hl : 0 < zero_inode_segment.length := by
    unfold zero_inode_segment
    rw [List.length_replicate]
    decide
  rw [if_pos hl]
  simp only
  rw [hset]
  have hn2 : num_inode_segments
      { fs with inode_segments := fs.inode_segments ++ [zero_inode_segment] }
      = fs.inode_segments.length + 1 := hn
  rw [hn2]
  unfold num_inode_segments INODES_PER_SEGMENT
  rw [Nat.add_sub_cancel, Nat.mul_comm]

/-- With no free slot and `MAX_SEGMENTS` inode segments, `find_free_inode` ends the
process with `exit(1)`. -/
theorem find_free_inode_of_full (fs : FS)
    (hscan : scan_inode_segments fs.inode_segments 0 = none)
    (hmax : MAX_SEGMENTS ≤ num_inode_segments fs) :
    find_free_inode fs = .error .exit_failure := by
  unfold find_free_inode
  rw [hscan]
  simp only
  unfold create_new_inode_segment
  rw [if_pos hmax]

/-- Every addressable slot of a table of full segments has type `TYPE_FILE`. -/
theorem inode_at_full_inode_table (k n : Nat) (ino : Inode)
    (h : inode_at (full_inode_table k) n = some ino) : ino.type = TYPE_FILE := by
  unfold inode_at full_inode_table at h
  simp only [List.getElem?_replicate] at h
  split at h
  · cases h
  · rename_i sg hsg
    split at hsg
    · cases hsg
      rw [List.getElem?_replicate] at h
      split at h
      · cases h
        rfl
      · cases h
    · cases hsg

theorem full_inode_table_regular (k : Nat) :
    ∀ sg ∈ (full_inode_table k).inode_segments, sg.length = INODES_PER_SEGMENT := by
  intro sg hsg
  unfold full_inode_table at hsg
  rw [List.eq_of_mem_replicate hsg, List.length_replicate]

theorem getD_of_take_eq (b b' : List Nat) (t i : Nat) (h : b'.take t = b.take t) (hi : i < t) :
    b'.getD i 0 = b.getD i 0 := by
  have h1 : (b'.take t)[i]? = b'[i]? := List.getElem?_take_of_lt hi
  have h2 : (b.take t)[i]? = b[i]? := List.getElem?_take_of_lt hi
  rw [List.getD_eq_getElem?_getD, List.getD_eq_getElem?_getD, ← h1, ← h2, h]

theorem read_u32_of_take_eq (b b' : List Nat) (t o : Nat) (h : b'.take t = b.take t)
    (ho : o + 4 ≤ t) : read_u32 b' o = read_u32 b o := by
  unfold read_u32
  rw [getD_of_take_eq b b' t o h (by omega), getD_of_take_eq b b' t (o + 1) h (by omega),
    getD_of_take_eq b b' t (o + 2) h (by omega), getD_of_take_eq b b' t (o + 3) h (by omega)]

theorem read_slot_of_take_eq (b b' : List Nat) (t o : Nat) (h : b'.take t = b.take t)
    (ho : o + 5 ≤ t) : read_slot b' o = read_slot b o := by
  unfold read_slot
  rw [read_u32_of_take_eq b b' t o h (by omega), getD_of_take_eq b b' t (o + 4) h (by omega)]

theorem name_of_take_eq (b b' : List Nat) (t a n : Nat) (h : b'.take t = b.take t)
    (ha : a + n ≤ t) : (b'.drop a).take n = (b.drop a).take n := by
  have e : ∀ l : List Nat, (l.drop a).take n = ((l.take t).drop a).take n := by
    intro l
    rw [List.drop_take, List.take_take, Nat.min_eq_left (by omega)]
  rw [e b', e b, h]

/-- A record that `read_slot` reports as an entry has a non-zero inode number and a
non-zero name length. -/
theorem read_slot_entry_inv (b : List Nat) (o i l : Nat) (h : read_slot b o = .ok (.entry i l)) :
    i ≠ 0 ∧ l ≠ 0 ∧ o + 5 ≤ BLOCK_SIZE ∧ i = read_u32 b o ∧ l = b.getD (o + 4) 0 := by
  unfold read_slot at h
  split at h
  · cases h
  · split at h
    · cases h
    · split at h
      · cases h
      · split at h
        · cases h
        · rename_i h1 h2 h3 h4
          cases h
          unfold sizeof_uint32 sizeof_uint8 at h3
          exact ⟨h2, h4, by omega, rfl, rfl⟩

/-- Appending one record at the end offset `t` of the walk: a block that agrees with `b`
below `t`, holds the entry `(m, len)` at `t` and lists nothing behind it, lists the entries
of `b` followed by the new one. -/
theorem entry_list_append (b b' : List Nat) (t m len : Nat)
    (htake : b'.take t = b.take t) (ht : t < BLOCK_SIZE)
    (hslot : read_slot b' t = .ok (.entry m len))
    (hafter : ∀ fuel, entry_list b' fuel (t + (4 + 1 + len + 1)) = []) :
    ∀ (fuel offset : Nat), BLOCK_SIZE < offset + 7 * fuel →
      dir_end_offset b fuel offset = .ok t →
      entry_list b' fuel offset
        = entry_list b fuel offset ++ [(m, (b'.drop (t + 5)).take len)] := by
  intro fuel
  induction fuel with
  | zero =>
    intro offset hinv h
    rw [dir_end_offset] at h
    cases h
    omega
  | succ fuel ih =>
    intro offset hinv h
    rw [dir_end_offset] at h
    rw [entry_list, entry_list]
    by_cases ho : offset < BLOCK_SIZE
    · rw [if_pos ho] at h
      rw [if_pos ho, if_pos ho]
      cases hs : read_slot b offset with
      | error e => rw [hs] at h; cases h
      | ok sl =>
        rw [hs] at h
        cases sl with
        | terminator =>
          simp only at h
          cases h
          rw [hslot]
          simp only [List.nil_append]
          rw [hafter fuel]
        | entry i l =>
          simp only at h
          have hge := dir_end_offset_ge b fuel _ t h
          obtain ⟨_, hl, _, _, _⟩ := read_slot_entry_inv b offset i l hs
          rw [read_slot_of_take_eq b b' t offset htake (by omega), hs]
          simp only [List.cons_append]
          rw [name_of_take_eq b b' t (offset + 5) l htake (by omega),
            ih (offset + (4 + 1 + l + 1)) (by omega) h]
    · rw [if_neg ho] at h
      cases h
      omega

/-- The walk over the block with the appended record ends behind that record, provided a
record header fits there or the block is full. -/
theorem dir_end_offset_append (b b' : List Nat) (t m len : Nat)
    (htake : b'.take t = b.take t) (ht : t < BLOCK_SIZE)
    (hslot : read_slot b' t = .ok (.entry m len))
    (hafter : ∀ fuel, dir_end_offset b' fuel (t + (4 + 1 + len + 1))
      = .ok (t + (4 + 1 + len + 1))) :
    ∀ (fuel offset : Nat), BLOCK_SIZE < offset + 7 * fuel →
      dir_end_offset b fuel offset = .ok t →
      dir_end_offset b' fuel offset = .ok (t + (4 + 1 + len + 1)) := by
  intro fuel
  induction fuel with
  | zero =>
    intro offset hinv h
    rw [dir_end_offset] at h
    cases h
    omega
  | succ fuel ih =>
    intro offset hinv h
    rw [dir_end_offset] at h
    rw [dir_end_offset]
    by_cases ho : offset < BLOCK_SIZE
    · rw [if_pos ho] at h
      rw [if_pos ho]
      cases hs : read_slot b offset with
      | error e => rw [hs] at h; cases h
      | ok sl =>
        rw [hs] at h
        cases sl with
        | terminator =>
          simp only at h
          cases h
          rw [hslot]
          simp only
          rw [hafter fuel]
        | entry i l =>
          simp only at h
          have hge := dir_end_offset_ge b fuel _ t h
          obtain ⟨_, hl, _, _, _⟩ := read_slot_entry_inv b offset i l hs
          rw [read_slot_of_take_eq b b' t offset htake (by omega), hs]
          simp only
          exact ih (offset + (4 + 1 + l + 1)) (by omega) h
    · rw [if_neg ho] at h
      cases h
      omega

theorem getD_shift (a b : List Nat) (k : Nat) : (a ++ b).getD (a.length + k) 0 = b.getD k 0 := by
  rw [List.getD_eq_getElem?_getD, List.getD_eq_getElem?_getD,
    List.getElem?_append_right (by omega)]
  congr 2
  omega

theorem read_u32_zeros (k : Nat) : read_u32 (List.replicate k 0) 0 = 0 := by
  unfold read_u32
  have h : ∀ i, (List.replicate k 0).getD i 0 = 0 := by
    intro i
    rw [List.getD_eq_getElem?_getD, List.getElem?_replicate]
    split <;> rfl
  rw [h, h, h, h]

/-- The record at the insertion offset of a block `A ++ entry_bytes m name ++ Z`. -/
theorem read_slot_appended (A Z name : List Nat) (m : Nat) (hm : m ≠ 0) (hm32 : m < 4294967296)
    (hn1 : 1 ≤ name.length) (hn2 : name.length ≤ 255) (hfit : A.length + 5 ≤ BLOCK_SIZE) :
    read_slot (A ++ entry_bytes m name ++ Z) A.length = .ok (.entry m name.length) := by
  have hu : read_u32 (A ++ entry_bytes m name ++ Z) A.length = m := by
    have := read_u32_shift A (entry_bytes m name ++ Z) 0
    rw [Nat.add_zero, ← List.append_assoc] at this
    rw [this, entry_bytes_short m name hn2, List.append_assoc, List.append_assoc]
    exact read_u32_head m _ hm32
  have hl : (A ++ entry_bytes m name ++ Z).getD (A.length + 4) 0 = name.length := by
    rw [List.append_assoc, getD_shift, entry_bytes_short m name hn2]
    unfold u32_bytes
    rfl
  unfold read_slot
  rw [hu, hl]
  unfold sizeof_uint32 sizeof_uint8
  unfold BLOCK_SIZE at hfit
  rw [if_neg (by unfold BLOCK_SIZE; omega), if_neg hm, if_neg (by unfold BLOCK_SIZE; omega),
    if_neg (by omega)]

theorem name_appended (A Z name : List Nat) (m : Nat) (hn2 : name.length ≤ 255) :
    ((A ++ entry_bytes m name ++ Z).drop (A.length + 5)).take name.length = name := by
  rw [List.append_assoc, entry_bytes_short m name hn2]
  have e : (A ++ (u32_bytes m ++ [name.length] ++ (name ++ [0]) ++ Z)).drop (A.length + 5)
      = name ++ ([0] ++ Z) := by
    rw [List.drop_append]
    unfold u32_bytes
    simp
  rw [e, List.take_left']
  rfl

/-- Behind the appended record a block with a zero tail lists nothing. -/
theorem entry_list_zero_tail (P : List Nat) (k : Nat) (fuel : Nat) :
    entry_list (P ++ List.replicate k 0) fuel P.length = [] := by
  cases fuel with
  | zero => rfl
  | succ fuel =>
    rw [entry_list]
    split
    · have hr : read_slot (P ++ List.replicate k 0) P.length = .error .undefined_behaviour
          ∨ read_slot (P ++ List.replicate k 0) P.length = .ok .terminator := by
        unfold read_slot
        have hu : read_u32 (P ++ List.replicate k 0) P.length = 0 := by
          have := read_u32_shift P (List.replicate k 0) 0
          rw [Nat.add_zero] at this
          rw [this, read_u32_zeros]
        rw [hu]
        split
        · exact Or.inl rfl
        · exact Or.inr (if_pos rfl)
      rcases hr with hr | hr <;> rw [hr]
    · rfl

/-- Behind the appended record the walk over a block with a zero tail stops at once,
provided a record header fits there or the block is full. -/
theorem dir_end_offset_zero_tail (P : List Nat) (k : Nat) (fuel : Nat)
    (h : P.length + 4 ≤ BLOCK_SIZE ∨ BLOCK_SIZE ≤ P.length) :
    dir_end_offset (P ++ List.replicate k 0) fuel P.length = .ok P.length := by
  cases fuel with
  | zero => rfl
  | succ fuel =>
    rw [dir_end_offset]
    split
    · rename_i hlt
      have h4 : P.length + 4 ≤ BLOCK_SIZE := by
        rcases h with h | h
        · exact h
        · omega
      have hr : read_slot (P ++ List.replicate k 0) P.length = .ok .terminator := by
        unfold read_slot
        have hu : read_u32 (P ++ List.replicate k 0) P.length = 0 := by
          have := read_u32_shift P (List.replicate k 0) 0
          rw [Nat.add_zero] at this
          rw [this, read_u32_zeros]
        rw [hu]
        unfold sizeof_uint32
        rw [if_neg (by omega), if_pos rfl]
      rw [hr]
    · rfl

/-- Writing a whole block where a block was read succeeds, and the block reads back. -/
theorem write_block_after_read (fs : FS) (seg blk : Int) (old bytes : List Nat)
    (h : read_block fs seg blk = .ok old) (hlen : bytes.length = old.length) :
    ∃ fs', write_block fs seg blk bytes = .ok fs' ∧ read_block fs' seg blk = .ok bytes
      ∧ fs'.inode_segments = fs.inode_segments := by
  unfold read_block at h
  split at h
  · cases h
  · rename_i hneg
    split at h
    · cases h
    · rename_i sg hsg
      split at h
      · cases h
      · rename_i b hb
        cases h
        have hd : bytes ++ List.drop bytes.length old = bytes := by
          rw [hlen, List.drop_length, List.append_nil]
        have h1 : seg.toNat < fs.data_segments.length := by
          rcases Nat.lt_or_ge seg.toNat fs.data_segments.length with h | h
          · exact h
          · rw [List.getElem?_eq_none h] at hsg
            cases hsg
        have h2 : blk.toNat < sg.length := by
          rcases Nat.lt_or_ge blk.toNat sg.length with h | h
          · exact h
          · rw [List.getElem?_eq_none h] at hb
            cases hb
        refine ⟨{ fs with data_segments :=
            fs.data_segments.set seg.toNat (sg.set blk.toNat bytes) }, ?_, ?_, rfl⟩
        · unfold write_block
          rw [if_neg hneg, hsg]
          simp only
          rw [hb]
          simp only
          rw [hd]
        · unfold read_block
          rw [if_neg hneg]
          simp only
          rw [List.getElem?_set_self h1]
          simp only
          rw [List.getElem?_set_self h2]

/-- The insertion loop of `find_or_create_path` writes at the offset where the walk over
the block ends, when that offset lies inside the block, and writes nothing otherwise. -/
theorem insert_entry_eq (block : List Nat) (m : Nat) (name : List Nat) :
    ∀ (fuel o t : Nat), BLOCK_SIZE < o + 7 * fuel → dir_end_offset block fuel o = .ok t →
      insert_entry block m name fuel o
        = if t < BLOCK_SIZE then poke block t (entry_bytes m name) else .ok block := by
  intro fuel
  induction fuel with
  | zero =>
    intro o t hinv h
    rw [dir_end_offset] at h
    cases h
    rw [insert_entry, if_neg (by omega)]
  | succ fuel ih =>
    intro o t hinv h
    rw [dir_end_offset] at h
    rw [insert_entry]
    by_cases ho : o < BLOCK_SIZE
    · rw [if_pos ho] at h
      rw [if_pos ho]
      cases hs : read_slot block o with
      | error e => rw [hs] at h; cases h
      | ok sl =>
        rw [hs] at h
        cases sl with
        | terminator =>
          simp only at h
          cases h
          simp only
          rw [if_pos ho]
        | entry i l =>
          simp only at h
          obtain ⟨_, hl, _, _, _⟩ := read_slot_entry_inv block o i l hs
          simp only
          exact ih (o + (4 + 1 + l + 1)) t (by omega) h
    · rw [if_neg ho] at h
      cases h
      rw [if_neg ho, if_neg ho]

/-- The walk that looks for the end of the entry list needs no more steps than the fuel
`fuel` when `BLOCK_SIZE < o + 7 * fuel`: more fuel gives the same result. -/
theorem dir_end_offset_fuel (block : List Nat) :
    ∀ (fuel o k : Nat), BLOCK_SIZE < o + 7 * fuel →
      dir_end_offset block (fuel + k) o = dir_end_offset block fuel o := by
  intro fuel
  induction fuel with
  | zero =>
    intro o k hinv
    rw [Nat.zero_add]
    cases k with
    | zero => rfl
    | succ k =>
      rw [dir_end_offset, dir_end_offset, if_neg (by omega)]
  | succ fuel ih =>
    intro o k hinv
    rw [Nat.add_right_comm, dir_end_offset, dir_end_offset]
    by_cases ho : o < BLOCK_SIZE
    · rw [if_pos ho, if_pos ho]
      cases hs : read_slot block o with
      | error e => rfl
      | ok sl =>
        cases sl with
        | terminator => rfl
        | entry i l =>
          obtain ⟨_, hl, _, _, _⟩ := read_slot_entry_inv block o i l hs
          simp only
          exact ih (o + (4 + 1 + l + 1)) k (by omega)
    · rw [if_neg ho, if_neg ho]

theorem dir_find_cast_fuel (block dirname : List Nat) :
    ∀ (fuel o k : Nat), BLOCK_SIZE < o + 7 * fuel →
      dir_find_cast block dirname (fuel + k) o = dir_find_cast block dirname fuel o := by
  intro fuel
  induction fuel with
  | zero =>
    intro o k hinv
    rw [Nat.zero_add]
    cases k with
    | zero => rfl
    | succ k =>
      rw [dir_find_cast, dir_find_cast, if_neg (by omega)]
  | succ fuel ih =>
    intro o k hinv
    rw [Nat.add_right_comm, dir_find_cast, dir_find_cast]
    by_cases ho : o < BLOCK_SIZE
    · rw [if_pos ho, if_pos ho]
      cases hs : read_slot block o with
      | error e => rfl
      | ok sl =>
        cases sl with
        | terminator => rfl
        | entry i l =>
          obtain ⟨_, hl, _, _, _⟩ := read_slot_entry_inv block o i l hs
          simp only
          rw [ih (o + (4 + 1 + l + 1)) k (by omega)]
    · rw [if_neg ho, if_neg ho]

theorem dir_find_exact_fuel (block filename : List Nat) :
    ∀ (fuel o k : Nat), BLOCK_SIZE < o + 7 * fuel →
      dir_find_exact block filename (fuel + k) o = dir_find_exact block filename fuel o := by
  intro fuel
  induction fuel with
  | zero =>
    intro o k hinv
    rw [Nat.zero_add]
    cases k with
    | zero => rfl
    | succ k =>
      rw [dir_find_exact, dir_find_exact, if_neg (by omega)]
  | succ fuel ih =>
    intro o k hinv
    rw [Nat.add_right_comm, dir_find_exact, dir_find_exact]
    by_cases ho : o < BLOCK_SIZE
    · rw [if_pos ho, if_pos ho]
      cases hs : read_slot block o with
      | error e => rfl
      | ok sl =>
        cases sl with
        | terminator => rfl
        | entry i l =>
          obtain ⟨_, hl, _, _, _⟩ := read_slot_entry_inv block o i l hs
          simp only
          rw [ih (o + (4 + 1 + l + 1)) k (by omega)]
    · rw [if_neg ho, if_neg ho]

theorem list_entries_fuel
    (descend : Nat → Nat → List Nat → Except Fault (List Nat × List Nat))
    (block : List Nat) (depth : Nat) :
    ∀ (fuel o k : Nat) (visited : List Nat), BLOCK_SIZE < o + 7 * fuel →
      list_entries descend block depth (fuel + k) o visited
        = list_entries descend block depth fuel o visited := by
  intro fuel
  induction fuel with
  | zero =>
    intro o k visited hinv
    rw [Nat.zero_add]
    cases k with
    | zero => rfl
    | succ k =>
      rw [list_entries, list_entries, if_neg (by omega)]
  | succ fuel ih =>
    intro o k visited hinv
    rw [Nat.add_right_comm, list_entries, list_entries]
    by_cases ho : o < BLOCK_SIZE
    · rw [if_pos ho, if_pos ho]
      cases hs : read_slot block o with
      | error e => rfl
      | ok sl =>
        cases sl with
        | terminator => rfl
        | entry i l =>
          obtain ⟨_, hl, _, _, _⟩ := read_slot_entry_inv block o i l hs
          simp only
          cases c_string_at block (o + 5) with
          | error e => rfl
          | ok name =>
            simp only
            cases descend i (depth + 1) visited with
            | error e => rfl
            | ok r =>
              obtain ⟨v1, out1⟩ := r
              simp only
              rw [ih (o + (4 + 1 + l + 1)) k v1 (by omega)]
    · rw [if_neg ho, if_neg ho]

/-- A walk over a directory block visits at most 585 records: the record at offset `o`
needs `o + 5 ≤ BLOCK_SIZE` and the next one starts at least 7 bytes later. -/
theorem entry_list_length (block : List Nat) :
    ∀ (fuel o : Nat), (entry_list block fuel o) ≠ [] →
      7 * (entry_list block fuel o).length + o ≤ 4098 := by
  intro fuel
  induction fuel with
  | zero =>
    intro o h
    rw [entry_list] at h
    exact absurd rfl h
  | succ fuel ih =>
    intro o h
    rw [entry_list] at h ⊢
    by_cases ho : o < BLOCK_SIZE
    · rw [if_pos ho] at h ⊢
      cases hs : read_slot block o with
      | error e => rw [hs] at h; exact absurd rfl h
      | ok sl =>
        cases sl with
        | terminator => rw [hs] at h; exact absurd rfl h
        | entry i l =>
          obtain ⟨_, hl, hb, _, _⟩ := read_slot_entry_inv block o i l hs
          simp only [List.length_cons]
          by_cases hn : entry_list block fuel (o + (4 + 1 + l + 1)) = []
          · rw [hn]
            simp only [List.length_nil]
            unfold BLOCK_SIZE at hb
            omega
          · have := ih (o + (4 + 1 + l + 1)) hn
            omega
    · rw [if_neg ho] at h
      exact absurd rfl h

/-- The steps by which a directory walk reaches the root block, in a fresh archive whose
root block was replaced by `b`. -/
theorem root_block_steps (b : List Nat) :
    get_segment_and_inode_offset (set_blk fresh 0 0 b) (toInt32 0) = .ok (0, 0)
      ∧ read_inode (set_blk fresh 0 0 b) 0 0 = .ok root_inode
      ∧ get_segment_and_block_offset (set_blk fresh 0 0 b)
          (toInt32 (root_inode.direct.getD 0 0)) = .ok (0, 0)
      ∧ read_block (set_blk fresh 0 0 b) 0 0 = .ok b := by
  have h0 : toInt32 0 = 0 := by decide
  have hd : root_inode.direct.getD 0 0 = 0 := by decide
  have hs := (slot_at_fresh_table (set_blk fresh 0 0 b) (set_blk_inode_segments _ _ _ _))
  refine ⟨?_, ?_, ?_, ?_⟩
  · rw [h0]
    exact gsio_zero _ (by rw [hs.2.2]; decide)
  · exact read_inode_zero _ 0 _ hs.1
  · rw [hd, h0]
    exact gsbo_zero _
  · have := read_block_nat _ 0 0 b (blk_at_set_blk_same fresh 0 0 b _ blk_at_fresh_zero)
    simpa using this

/-- `strncmp` with the bound `n` looks at the first `n` bytes of the buffer only. -/
theorem strncmp_eq_take (s : List Nat) :
    ∀ (l : List Nat) (n : Nat), strncmp_eq (l.take n) s n = strncmp_eq l s n := by
  induction s with
  | nil =>
    intro l n
    cases n with
    | zero => simp [strncmp_eq]
    | succ n =>
      cases l with
      | nil => simp [strncmp_eq]
      | cons a as => simp [strncmp_eq]
  | cons c cs ih =>
    intro l n
    cases n with
    | zero => simp [strncmp_eq]
    | succ n =>
      cases l with
      | nil => simp [strncmp_eq]
      | cons a as =>
        simp only [List.take_succ_cons, strncmp_eq]
        split
        · exact ih as n
        · rfl

/-- When `strncmp` over `n` bytes reports equality with a string of at least `n` bytes, the
first `n` bytes of the buffer are the first `n` bytes of the string. -/
theorem strncmp_eq_true (s : List Nat) :
    ∀ (l : List Nat) (n : Nat), n ≤ s.length → strncmp_eq l s n = .ok true →
      l.take n = s.take n := by
  induction s with
  | nil =>
    intro l n hn h
    have : n = 0 := by simpa using hn
    subst this
    simp
  | cons c cs ih =>
    intro l n hn h
    cases n with
    | zero => simp
    | succ n =>
      cases l with
      | nil => simp [strncmp_eq] at h
      | cons a as =>
        simp only [strncmp_eq] at h
        split at h
        · rename_i hac
          simp only [List.take_succ_cons, hac]
          congr 1
          exact ih as n (by simpa using hn) h
        · cases h

theorem strncmp_of_take_eq (b b' s : List Nat) (t a n : Nat) (h : b'.take t = b.take t)
    (ha : a + n ≤ t) : strncmp_eq (b'.drop a) s n = strncmp_eq (b.drop a) s n := by
  rw [← strncmp_eq_take s (b'.drop a) n, ← strncmp_eq_take s (b.drop a) n,
    name_of_take_eq b b' t a n h ha]

/-- Where the entry search of `run_extract` and `run_remove` finds its entry. -/
theorem dir_find_exact_inv (b filename : List Nat) :
    ∀ (fuel o i off : Nat), dir_find_exact b filename fuel o = .ok (some (i, off)) →
      o ≤ off ∧ read_slot b off = .ok (.entry i filename.length)
        ∧ strncmp_eq (b.drop (off + 5)) filename filename.length = .ok true := by
  intro fuel
  induction fuel with
  | zero =>
    intro o i off h
    rw [dir_find_exact] at h
    cases h
  | succ fuel ih =>
    intro o i off h
    rw [dir_find_exact] at h
    split at h
    · split at h
      · cases h
      · cases h
      · rename_i i0 l0 hs
        split at h
        · rename_i hl
          split at h
          · cases h
          · rename_i hc
            cases h
            rw [hl] at hs hc
            exact ⟨Nat.le_refl _, hs, hc⟩
          · obtain ⟨h1, h2⟩ := ih _ _ _ h
            exact ⟨by omega, h2⟩
        · obtain ⟨h1, h2⟩ := ih _ _ _ h
          exact ⟨by omega, h2⟩
    · cases h

/-- An entry that the search of `run_extract` and `run_remove` finds is an entry of the
entry list, under the name that was looked for. -/
theorem dir_find_exact_mem (b filename : List Nat) :
    ∀ (fuel o i off : Nat), dir_find_exact b filename fuel o = .ok (some (i, off)) →
      (i, filename) ∈ entry_list b fuel o := by
  intro fuel
  induction fuel with
  | zero =>
    intro o i off h
    rw [dir_find_exact] at h
    cases h
  | succ fuel ih =>
    intro o i off h
    rw [dir_find_exact] at h
    rw [entry_list]
    split at h
    · rename_i ho
      rw [if_pos ho]
      split at h
      · cases h
      · cases h
      · rename_i i0 l0 hs
        rw [hs]
        simp only
        split at h
        · rename_i hl
          split at h
          · cases h
          · rename_i hc
            cases h
            have := strncmp_eq_true filename (b.drop (o + 5)) l0 (by omega) hc
            rw [this, hl, List.take_length]
            exact List.mem_cons_self _ _
          · exact List.mem_cons_of_mem _ (ih _ _ _ h)
        · exact List.mem_cons_of_mem _ (ih _ _ _ h)
    · cases h

/-- An entry that the search of `find_inode_by_path` and `find_or_create_path` finds is an
entry of the entry list whose name is the first `name_len` bytes of the component, with
`name_len` the length of the component modulo 256. -/
theorem dir_find_cast_mem (b dirname : List Nat) :
    ∀ (fuel o i : Nat), dir_find_cast b dirname fuel o = .ok (some i) →
      (i, dirname.take (dirname.length % 256)) ∈ entry_list b fuel o := by
  intro fuel
  induction fuel with
  | zero =>
    intro o i h
    rw [dir_find_cast] at h
    cases h
  | succ fuel ih =>
    intro o i h
    rw [dir_find_cast] at h
    rw [entry_list]
    split at h
    · rename_i ho
      rw [if_pos ho]
      split at h
      · cases h
      · cases h
      · rename_i i0 l0 hs
        rw [hs]
        simp only
        split at h
        · cases h
        · rename_i hc
          split at h
          · rename_i hl
            cases h
            have hle : l0 ≤ dirname.length := by
              rw [← hl]
              exact Nat.mod_le _ _
            have := strncmp_eq_true dirname (b.drop (o + 5)) l0 hle hc
            rw [this, hl]
            exact List.mem_cons_self _ _
          · exact List.mem_cons_of_mem _ (ih _ _ h)
        · exact List.mem_cons_of_mem _ (ih _ _ h)
    · cases h

/-- Cutting the entry list at a found entry: a block `b'` that agrees with `b` below the
offset `off` of the entry found for `filename` and holds a terminator at `off` lists the
entries of `b` before that entry and nothing else, and the search for `filename` in `b'`
finds nothing. -/
theorem dir_find_exact_cut (b b' filename : List Nat) (i off : Nat)
    (htake : b'.take off = b.take off) (hterm : read_slot b' off = .ok .terminator) :
    ∀ (fuel o : Nat), dir_find_exact b filename fuel o = .ok (some (i, off)) →
      (∃ kept rest, entry_list b fuel o = kept ++ (i, filename) :: rest
          ∧ entry_list b' fuel o = kept)
        ∧ dir_find_exact b' filename fuel o = .ok none := by
  intro fuel
  induction fuel with
  | zero =>
    intro o h
    rw [dir_find_exact] at h
    cases h
  | succ fuel ih =>
    intro o h
    have hinv := dir_find_exact_inv b filename (fuel + 1) o i off h
    rw [dir_find_exact] at h
    rw [entry_list, entry_list, dir_find_exact]
    split at h
    · rename_i ho
      simp only [if_pos ho]
      split at h
      · cases h
      · cases h
      · rename_i i0 l0 hs
        have hstep : ∀ (hrec : dir_find_exact b filename fuel (o + (4 + 1 + l0 + 1))
            = .ok (some (i, off))),
            (∃ kept rest,
              (match read_slot b o with
                | .ok (.entry inode_num name_len) =>
                  (inode_num, (b.drop (o + 5)).take name_len)
                    :: entry_list b fuel (o + (4 + 1 + name_len + 1))
                | _ => []) = kept ++ (i, filename) :: rest
              ∧ (match read_slot b' o with
                | .ok (.entry inode_num name_len) =>
                  (inode_num, (b'.drop (o + 5)).take name_len)
                    :: entry_list b' fuel (o + (4 + 1 + name_len + 1))
                | _ => []) = kept)
            ∧ (match read_slot b' o with
                | .error e => .error e
                | .ok .terminator => .ok none
                | .ok (.entry inode_num name_len) =>
                  if name_len = filename.length then
                    match strncmp_eq (b'.drop (o + 5)) filename name_len with
                    | .error e => .error e
                    | .ok true => .ok (some (inode_num, o))
                    | .ok false =>
                      dir_find_exact b' filename fuel (o + (4 + 1 + name_len + 1))
                  else dir_find_exact b' filename fuel (o + (4 + 1 + name_len + 1)))
              = (.ok none : Except Fault (Option (Nat × Nat))) := by
          intro hrec
          have hge := (dir_find_exact_inv b filename fuel _ i off hrec).1
          obtain ⟨⟨kept, rest, e1, e2⟩, e3⟩ := ih _ hrec
          have hs' : read_slot b' o = .ok (.entry i0 l0) := by
            rw [read_slot_of_take_eq b b' off o htake (by omega), hs]
          have hn : (b'.drop (o + 5)).take l0 = (b.drop (o + 5)).take l0 :=
            name_of_take_eq b b' off (o + 5) l0 htake (by omega)
          have hc : strncmp_eq (b'.drop (o + 5)) filename l0
              = strncmp_eq (b.drop (o + 5)) filename l0 :=
            strncmp_of_take_eq b b' filename off (o + 5) l0 htake (by omega)
          rw [hs, hs']
          simp only
          rw [hn, hc, e3]
          refine ⟨⟨(i0, (b.drop (o + 5)).take l0) :: kept, rest, ?_, ?_⟩, ?_⟩
          · rw [e1]
            rfl
          · rw [e2]
          · split at h
            · rename_i hl
              rw [if_pos hl]
              split at h
              · cases h
              · rename_i hc2
                exfalso
                cases h
                omega
              · rename_i hc2
                first
                  | rfl
                  | rw [hc2]
            · rename_i hl
              rw [if_neg hl]
        split at h
        · rename_i hl
          split at h
          · cases h
          · rename_i hc
            cases h
            rw [hs, hterm]
            simp only
            have := strncmp_eq_true filename _ l0 (by omega) hc
            rw [this, hl, List.take_length]
            exact ⟨⟨[], _, rfl, rfl⟩, trivial⟩
          · exact hstep h
        · exact hstep h
    · cases h

/-- What a successful `write_block` did, at integer coordinates. -/
theorem write_block_ok_int (fs fs' : FS) (seg blk : Int) (bytes : List Nat)
    (h : write_block fs seg blk bytes = .ok fs') :
    0 ≤ seg ∧ 0 ≤ blk ∧ ∃ old, blk_at fs seg.toNat blk.toNat = some old
      ∧ fs' = set_blk fs seg.toNat blk.toNat (bytes ++ old.drop bytes.length) := by
  have hneg : ¬ (seg < 0 ∨ blk < 0) := by
    intro hn
    unfold write_block at h
    rw [if_pos hn] at h
    cases h
  have hs : ((seg.toNat : Nat) : Int) = seg := Int.toNat_of_nonneg (by omega)
  have hb : ((blk.toNat : Nat) : Int) = blk := Int.toNat_of_nonneg (by omega)
  rw [← hs, ← hb] at h
  exact ⟨by omega, by omega, write_block_ok_nat fs fs' _ _ bytes h⟩

/-- What a successful `read_block` read, at integer coordinates. -/
theorem read_block_ok_int (fs : FS) (seg blk : Int) (x : List Nat)
    (h : read_block fs seg blk = .ok x) :
    0 ≤ seg ∧ 0 ≤ blk ∧ blk_at fs seg.toNat blk.toNat = some x := by
  have hneg : ¬ (seg < 0 ∨ blk < 0) := by
    intro hn
    unfold read_block at h
    rw [if_pos hn] at h
    cases h
  have hs : ((seg.toNat : Nat) : Int) = seg := Int.toNat_of_nonneg (by omega)
  have hb : ((blk.toNat : Nat) : Int) = blk := Int.toNat_of_nonneg (by omega)
  rw [← hs, ← hb] at h
  exact ⟨by omega, by omega, read_block_ok_nat fs _ _ x h⟩

theorem read_block_of_blk_at (fs : FS) (seg blk : Int) (x : List Nat) (h1 : 0 ≤ seg)
    (h2 : 0 ≤ blk) (h : blk_at fs seg.toNat blk.toNat = some x) :
    read_block fs seg blk = .ok x := by
  have hs : ((seg.toNat : Nat) : Int) = seg := Int.toNat_of_nonneg h1
  have hb : ((blk.toNat : Nat) : Int) = blk := Int.toNat_of_nonneg h2
  have := read_block_nat fs _ _ x h
  rw [hs, hb] at this
  exact this

theorem zeroed_or_kept_refl (fs : FS) : zeroed_or_kept fs fs :=
  fun _ _ _ h => Or.inl h

theorem zeroed_or_kept_trans (fs fs1 fs2 : FS) (h1 : zeroed_or_kept fs fs1)
    (h2 : zeroed_or_kept fs1 fs2) : zeroed_or_kept fs fs2 := by
  intro s b x hx
  rcases h1 s b x hx with h | ⟨y, h⟩
  · exact h2 s b x h
  · rcases h2 s b _ h with h' | ⟨y', h'⟩
    · exact Or.inr ⟨y, h'⟩
    · exact Or.inr ⟨y', h'⟩

theorem zeroed_or_kept_of_data (fs fs1 : FS) (h : fs1.data_segments = fs.data_segments) :
    zeroed_or_kept fs fs1 := by
  intro s b x hx
  left
  unfold blk_at at hx ⊢
  rw [h]
  exact hx

theorem write_zero_block_zeroed (fs fs1 : FS) (seg blk : Int)
    (h : write_block fs seg blk zero_block = .ok fs1) : zeroed_or_kept fs fs1 := by
  obtain ⟨_, _, old, hold, e⟩ := write_block_ok_int fs fs1 seg blk zero_block h
  intro s b x hx
  by_cases hsb : s = seg.toNat ∧ b = blk.toNat
  · obtain ⟨h1, h2⟩ := hsb
    subst h1
    subst h2
    right
    rw [e]
    exact ⟨_, blk_at_set_blk_same fs _ _ _ old hold⟩
  · left
    rw [e, blk_at_set_blk_other fs _ _ _ s b (by omega)]
    exact hx

theorem zero_listed_blocks_kept :
    ∀ (ps : List Nat) (fs fs1 : FS), zero_listed_blocks fs ps = .ok fs1 →
      zeroed_or_kept fs fs1 := by
  intro ps
  induction ps with
  | nil =>
    intro fs fs1 h
    rw [zero_listed_blocks] at h
    cases h
    exact zeroed_or_kept_refl _
  | cons p ps ih =>
    intro fs fs1 h
    rw [zero_listed_blocks] at h
    split at h
    · cases h
      exact zeroed_or_kept_refl _
    · split at h
      · cases h
      · split at h
        · cases h
        · rename_i fs2 hw
          exact zeroed_or_kept_trans _ _ _ (write_zero_block_zeroed _ _ _ _ hw) (ih _ _ h)

theorem zero_direct_blocks_kept :
    ∀ (ps : List Nat) (fs fs1 : FS), zero_direct_blocks fs ps = .ok fs1 →
      zeroed_or_kept fs fs1 := by
  intro ps
  induction ps with
  | nil =>
    intro fs fs1 h
    rw [zero_direct_blocks] at h
    cases h
    exact zeroed_or_kept_refl _
  | cons p ps ih =>
    intro fs fs1 h
    rw [zero_direct_blocks] at h
    split at h
    · split at h
      · cases h
      · split at h
        · cases h
        · rename_i fs2 hw
          exact zeroed_or_kept_trans _ _ _ (write_zero_block_zeroed _ _ _ _ hw) (ih _ _ h)
    · exact ih _ _ h

theorem zero_indirect_kept (fs fs1 : FS) (p : Nat) (h : zero_indirect fs p = .ok fs1) :
    zeroed_or_kept fs fs1 := by
  unfold zero_indirect at h
  split at h
  · cases h
  · split at h
    · cases h
    · rename_i fs2 hz
      split at h
      · cases h
      · exact zeroed_or_kept_trans _ _ _ (zero_listed_blocks_kept _ _ _ hz)
          (write_zero_block_zeroed _ _ _ _ h)

theorem zero_double_rows_kept :
    ∀ (ps : List Nat) (fs fs1 : FS), zero_double_rows fs ps = .ok fs1 →
      zeroed_or_kept fs fs1 := by
  intro ps
  induction ps with
  | nil =>
    intro fs fs1 h
    rw [zero_double_rows] at h
    cases h
    exact zeroed_or_kept_refl _
  | cons p ps ih =>
    intro fs fs1 h
    rw [zero_double_rows] at h
    split at h
    · cases h
      exact zeroed_or_kept_refl _
    · split at h
      · cases h
      · rename_i fs2 hz
        exact zeroed_or_kept_trans _ _ _ (zero_indirect_kept _ _ _ hz) (ih _ _ h)

theorem zero_double_tree_kept (fs fs1 : FS) (p : Nat) (h : zero_double_tree fs p = .ok fs1) :
    zeroed_or_kept fs fs1 := by
  unfold zero_double_tree at h
  split at h
  · cases h
  · split at h
    · cases h
    · rename_i fs2 hz
      split at h
      · cases h
      · exact zeroed_or_kept_trans _ _ _ (zero_double_rows_kept _ _ _ hz)
          (write_zero_block_zeroed _ _ _ _ h)

/-- The block zeroing of `run_remove` leaves every block as it was or zeroed. -/
theorem remove_file_blocks_kept (fs fs1 : FS) (n : Nat)
    (h : remove_file_blocks fs n = .ok fs1) : zeroed_or_kept fs fs1 := by
  unfold remove_file_blocks at h
  split at h
  · cases h
  · split at h
    · cases h
    · rename_i file_inode _
      split at h
      · cases h
      · rename_i fsa ha
        split at h
        · cases h
        · rename_i fsb hb
          split at h
          · cases h
          · rename_i fsc hc
            have h1 := zero_direct_blocks_kept _ _ _ ha
            have h2 : zeroed_or_kept fsa fsb := by
              split at hb
              · exact zero_indirect_kept _ _ _ hb
              · cases hb
                exact zeroed_or_kept_refl _
            have h3 : zeroed_or_kept fsb fsc := by
              split at hc
              · exact zero_double_tree_kept _ _ _ hc
              · cases hc
                exact zeroed_or_kept_refl _
            obtain ⟨_, _, _, _, _, _, hd⟩ := write_inode_ok _ _ _ _ _ h
            exact zeroed_or_kept_trans _ _ _ h1 (zeroed_or_kept_trans _ _ _ h2
              (zeroed_or_kept_trans _ _ _ h3 (zeroed_or_kept_of_data _ _ hd)))

/-- A block that starts with `BLOCK_SIZE` zero bytes lists no entry and resolves no name. -/
theorem entry_list_zeroed (y : List Nat) (fuel : Nat) :
    entry_list (zero_block ++ y) fuel 0 = [] := by
  cases fuel with
  | zero => rfl
  | succ fuel =>
    have hr : read_slot (zero_block ++ y) 0 = .ok .terminator := by
      unfold read_slot
      have hu : read_u32 (zero_block ++ y) 0 = 0 := by
        unfold read_u32 zero_block
        have h : ∀ i, i < 4 → (List.replicate BLOCK_SIZE 0 ++ y).getD i 0 = 0 := by
          intro i hi
          rw [List.getD_eq_getElem?_getD, List.getElem?_append_left
            (by rw [List.length_replicate]; unfold BLOCK_SIZE; omega),
            List.getElem?_replicate, if_pos (by unfold BLOCK_SIZE; omega)]
          rfl
        rw [h 0 (by omega), h (0 + 1) (by omega), h (0 + 2) (by omega), h (0 + 3) (by omega)]
      rw [hu]
      unfold sizeof_uint32 BLOCK_SIZE
      rw [if_neg (by omega), if_pos rfl]
    rw [entry_list, if_pos (by decide), hr]

/-- The steps of a `run_remove` that returns through its normal end. -/
theorem run_remove_steps (fs fs' : FS) (exfs_path : List Nat)
    (h : run_remove fs exfs_path = .ok (.removed, fs')) :
    ∃ (parent_path filename : List Nat) (n pseg poff : Int) (pin : Inode) (bseg boff : Int)
      (dir_block : List Nat) (target off : Nat) (dir_block1 : List Nat) (fs1 : FS),
      split_last_slash (exfs_path.take (MAX_PATH - 1)) = some (parent_path, filename)
        ∧ filename ≠ []
        ∧ find_inode_by_path fs (if parent_path = [] then [47] else parent_path) = .ok n
        ∧ get_segment_and_inode_offset fs n = .ok (pseg, poff)
        ∧ read_inode fs pseg poff = .ok pin
        ∧ get_segment_and_block_offset fs (toInt32 (pin.direct.getD 0 0)) = .ok (bseg, boff)
        ∧ read_block fs bseg boff = .ok dir_block
        ∧ dir_find_exact dir_block filename BLOCK_SIZE 0 = .ok (some (target, off))
        ∧ poke dir_block off (List.replicate sizeof_DirEntry 0) = .ok dir_block1
        ∧ write_block fs bseg boff dir_block1 = .ok fs1
        ∧ remove_file_blocks fs1 target = .ok fs' := by
  unfold run_remove at h
  split at h
  · cases h
  · rename_i parent_path filename hsp
    split at h
    · cases h
    · rename_i hfn
      split at h
      · cases h
      · rename_i n hfind
        split at h
        · cases h
        · split at h
          · cases h
          · rename_i pseg poff hg
            split at h
            · cases h
            · rename_i pin hi
              split at h
              · cases h
              · rename_i bseg boff hb
                split at h
                · cases h
                · rename_i dir_block hr
                  split at h
                  · cases h
                  · cases h
                  · rename_i target off hfound
                    split at h
                    · cases h
                    · split at h
                      · cases h
                      · rename_i dir_block1 hp
                        split at h
                        · cases h
                        · rename_i fs1 hw
                          split at h
                          · cases h
                          · rename_i fs2 hrm
                            cases h
                            exact ⟨parent_path, filename, n, pseg, poff, pin, bseg, boff,
                              dir_block, target, off, dir_block1, fs1, hsp, hfn, hfind, hg, hi,
                              hb, hr, hfound, hp, hw, hrm⟩

/-- Writing a block where a block was read succeeds; the block then reads as the bytes
written followed by what the old block held behind them. -/
theorem write_block_read_back (fs fs1 : FS) (seg blk : Int) (old bytes : List Nat)
    (h : read_block fs seg blk = .ok old) (hw : write_block fs seg blk bytes = .ok fs1) :
    read_block fs1 seg blk = .ok (bytes ++ old.drop bytes.length) := by
  obtain ⟨h1, h2, hold⟩ := read_block_ok_int fs seg blk old h
  obtain ⟨_, _, old', hold', e⟩ := write_block_ok_int fs fs1 seg blk bytes hw
  rw [hold] at hold'
  cases hold'
  apply read_block_of_blk_at fs1 seg blk _ h1 h2
  rw [e]
  exact blk_at_set_blk_same fs _ _ _ old hold

/-- The directory block after `run_remove` cleared `sizeof(DirEntry)` bytes at the offset
`off` of a record: the bytes before `off` are kept and the record at `off` is a
terminator. -/
theorem cleared_record (b b1 T : List Nat) (off i l : Nat)
    (hs : read_slot b off = .ok (.entry i l))
    (hp : poke b off (List.replicate sizeof_DirEntry 0) = .ok b1) :
    (b1 ++ T).take off = b.take off ∧ read_slot (b1 ++ T) off = .ok .terminator := by
  obtain ⟨hi, _, hoff, hiu, _⟩ := read_slot_entry_inv b off i l hs
  have hlen : off < b.length := by
    rcases Nat.lt_or_ge off b.length with h | h
    · exact h
    · exfalso
      apply hi
      rw [hiu]
      unfold read_u32
      have hz : ∀ k, b.getD (off + k) 0 = 0 := by
        intro k
        rw [List.getD_eq_getElem?_getD, List.getElem?_eq_none (by omega)]
        rfl
      have h0 := hz 0
      rw [Nat.add_zero] at h0
      rw [h0, hz 1, hz 2, hz 3]
  have hA : (b.take off).length = off := by
    rw [List.length_take]
    omega
  unfold poke at hp
  split at hp
  · cases hp
  · cases hp
    refine ⟨?_, ?_⟩
    · rw [List.append_assoc, List.append_assoc]
      exact List.take_left' hA
    · have hu : read_u32 (b.take off ++ List.replicate sizeof_DirEntry 0
          ++ b.drop (off + (List.replicate sizeof_DirEntry 0).length) ++ T) off = 0 := by
        have := read_u32_shift (b.take off) (List.replicate sizeof_DirEntry 0
          ++ (b.drop (off + (List.replicate sizeof_DirEntry 0).length) ++ T)) 0
        rw [hA, Nat.add_zero] at this
        rw [List.append_assoc, List.append_assoc, this]
        unfold read_u32
        have hz : ∀ k, k < 4 → (List.replicate sizeof_DirEntry 0
            ++ (b.drop (off + (List.replicate sizeof_DirEntry 0).length) ++ T)).getD k 0
              = 0 := by
          intro k hk
          have hk' : k < (List.replicate sizeof_DirEntry 0).length := by
            rw [List.length_replicate]
            show k < 261
            omega
          rw [List.getD_eq_getElem?_getD, List.getElem?_append_left hk',
            List.getElem?_replicate]
          split <;> rfl
        rw [hz 0 (by omega), hz (0 + 1) (by omega), hz (0 + 2) (by omega),
          hz (0 + 3) (by omega)]
      unfold read_slot
      rw [hu]
      unfold sizeof_uint32
      unfold BLOCK_SIZE at hoff ⊢
      rw [if_neg (by omega), if_pos rfl]

theorem read_slot_zeroed (y : List Nat) : read_slot (zero_block ++ y) 0 = .ok .terminator := by
  unfold read_slot
  have hu : read_u32 (zero_block ++ y) 0 = 0 := by
    unfold read_u32 zero_block
    have h : ∀ i, i < 4 → (List.replicate BLOCK_SIZE 0 ++ y).getD i 0 = 0 := by
      intro i hi
      rw [List.getD_eq_getElem?_getD, List.getElem?_append_left
        (by rw [List.length_replicate]; unfold BLOCK_SIZE; omega),
        List.getElem?_replicate, if_pos (by unfold BLOCK_SIZE; omega)]
      rfl
    rw [h 0 (by omega), h (0 + 1) (by omega), h (0 + 2) (by omega), h (0 + 3) (by omega)]
  rw [hu]
  unfold sizeof_uint32 BLOCK_SIZE
  rw [if_neg (by omega), if_pos rfl]

theorem dir_find_exact_zeroed (y filename : List Nat) :
    dir_find_exact (zero_block ++ y) filename BLOCK_SIZE 0 = .ok none := by
  show dir_find_exact (zero_block ++ y) filename (4095 + 1) 0 = .ok none
  rw [dir_find_exact, if_pos (by decide), read_slot_zeroed]

theorem dir_find_cast_zeroed (y dirname : List Nat) :
    dir_find_cast (zero_block ++ y) dirname BLOCK_SIZE 0 = .ok none := by
  show dir_find_cast (zero_block ++ y) dirname (4095 + 1) 0 = .ok none
  rw [dir_find_cast, if_pos (by decide), read_slot_zeroed]

theorem byte_list_append (a b : List Nat) (ha : byte_list a) (hb : byte_list b) :
    byte_list (a ++ b) := by
  intro c hc
  rcases List.mem_append.mp hc with h | h
  · exact ha c h
  · exact hb c h

theorem byte_list_take (a : List Nat) (n : Nat) (ha : byte_list a) : byte_list (a.take n) :=
  fun c hc => ha c (List.mem_of_mem_take hc)

theorem byte_list_drop (a : List Nat) (n : Nat) (ha : byte_list a) : byte_list (a.drop n) :=
  fun c hc => ha c (List.mem_of_mem_drop hc)

theorem byte_list_replicate_zero (n : Nat) : byte_list (List.replicate n 0) := by
  intro c hc
  rw [(List.mem_replicate.mp hc).2]
  decide

theorem byte_list_zero_block : byte_list zero_block := byte_list_replicate_zero _

theorem byte_list_u32_bytes (n : Nat) : byte_list (u32_bytes n) := by
  intro c hc
  unfold u32_bytes at hc
  simp only [List.mem_cons, List.mem_singleton, List.not_mem_nil, or_false] at hc
  rcases hc with h | h | h | h <;> rw [h] <;> exact Nat.mod_lt _ (by decide)

theorem byte_list_ptrs_bytes (l : List Nat) : byte_list (ptrs_bytes l) := by
  induction l with
  | nil =>
    intro c hc
    rw [ptrs_bytes] at hc
    cases hc
  | cons p ps ih =>
    rw [ptrs_bytes]
    exact byte_list_append _ _ (byte_list_u32_bytes p) ih

theorem byte_list_entry_bytes (n : Nat) (name : List Nat) (h : byte_list name) :
    byte_list (entry_bytes n name) := by
  unfold entry_bytes
  refine byte_list_append _ _ (byte_list_append _ _ (byte_list_u32_bytes n) ?_) ?_
  · intro c hc
    rw [List.mem_singleton] at hc
    rw [hc]
    exact Nat.mod_lt _ (by decide)
  · exact byte_list_take _ _ (byte_list_append _ _ (byte_list_take _ _ h)
      (byte_list_replicate_zero _))

theorem byte_list_poke (block bytes block1 : List Nat) (t : Nat)
    (h : poke block t bytes = .ok block1) (hb : byte_list block) (hx : byte_list bytes) :
    byte_list block1 := by
  unfold poke at h
  split at h
  · cases h
  · cases h
    exact byte_list_append _ _ (byte_list_append _ _ (byte_list_take _ _ hb) hx)
      (byte_list_drop _ _ hb)

theorem BytesInv_blk_at (fs : FS) (s b : Nat) (x : List Nat) (h : BytesInv fs)
    (hx : blk_at fs s b = some x) : byte_list x := by
  unfold blk_at at hx
  cases hs : fs.data_segments[s]? with
  | none => rw [hs] at hx; cases hx
  | some sg =>
    rw [hs] at hx
    exact h sg (List.getElem?_mem hs) x (List.getElem?_mem hx)

theorem BytesInv_congr (fs fs' : FS) (e : fs'.data_segments = fs.data_segments)
    (h : BytesInv fs) : BytesInv fs' := by
  unfold BytesInv
  rw [e]
  exact h

theorem BytesInv_set_blk (fs : FS) (s b : Nat) (x : List Nat) (h : BytesInv fs)
    (hx : byte_list x) : BytesInv (set_blk fs s b x) := by
  intro sg hsg y hy
  unfold set_blk at hsg
  rcases List.mem_or_eq_of_mem_set hsg with hm | rfl
  · exact h sg hm y hy
  · rcases List.mem_or_eq_of_mem_set hy with hm | rfl
    · by_cases hs : s < fs.data_segments.length
      · have : fs.data_segments.getD s [] ∈ fs.data_segments := by
          rw [List.getD_eq_getElem?_getD, List.getElem?_eq_getElem hs]
          exact List.getElem_mem _
        exact h _ this y hm
      · rw [List.getD_eq_getElem?_getD, List.getElem?_eq_none (by omega)] at hm
        cases hm
    · exact hx

theorem BytesInv_append_zero (fs : FS) (h : BytesInv fs) :
    BytesInv { fs with data_segments := fs.data_segments ++ [zero_data_segment] } := by
  intro sg hsg y hy
  rcases List.mem_append.mp hsg with hm | hm
  · exact h sg hm y hy
  · rw [List.mem_singleton] at hm
    subst hm
    unfold zero_data_segment at hy
    rw [(List.mem_replicate.mp hy).2]
    exact byte_list_zero_block

theorem write_block_bytes (fs fs' : FS) (seg blk : Int) (bytes : List Nat)
    (h : write_block fs seg blk bytes = .ok fs') (hi : BytesInv fs) (hb : byte_list bytes) :
    BytesInv fs' := by
  obtain ⟨_, _, old, hold, e⟩ := write_block_ok_int fs fs' seg blk bytes h
  rw [e]
  exact BytesInv_set_blk _ _ _ _ hi
    (byte_list_append _ _ hb (byte_list_drop _ _ (BytesInv_blk_at fs _ _ old hi hold)))

theorem read_block_bytes (fs : FS) (seg blk : Int) (x : List Nat)
    (h : read_block fs seg blk = .ok x) (hi : BytesInv fs) : byte_list x :=
  BytesInv_blk_at fs _ _ x hi (read_block_ok_int fs seg blk x h).2.2

theorem find_free_block_bytes (fs fs' : FS) (g : Nat) (h : find_free_block fs = .ok (g, fs'))
    (hi : BytesInv fs) : BytesInv fs' := by
  obtain ⟨_, hc⟩ := find_free_block_result fs fs' g h
  rcases hc with ⟨_, e, _⟩ | ⟨_, _, e⟩
  · rw [e]
    exact hi
  · rw [e]
    exact BytesInv_append_zero fs hi

theorem find_free_inode_bytes (fs fs' : FS) (n : Nat) (h : find_free_inode fs = .ok (n, fs'))
    (hi : BytesInv fs) : BytesInv fs' :=
  BytesInv_congr fs fs' (find_free_inode_ok fs fs' n h).1 hi

theorem write_inode_bytes (fs fs' : FS) (seg off : Int) (ino : Inode)
    (h : write_inode fs seg off ino = .ok fs') (hi : BytesInv fs) : BytesInv fs' := by
  obtain ⟨_, _, _, _, _, _, e⟩ := write_inode_ok fs fs' seg off ino h
  exact BytesInv_congr fs fs' e hi

theorem update_directory_entry_bytes (fs fs' : FS) (p n : Nat) (name : List Nat)
    (h : update_directory_entry fs p n name = .ok fs') (hi : BytesInv fs)
    (hn : byte_list name) : BytesInv fs' := by
  unfold update_directory_entry at h
  split at h
  · cases h
  · split at h
    · cases h
    · split at h
      · cases h
      · split at h
        · cases h
        · rename_i block hr
          split at h
          · cases h
          · split at h
            · cases h
            · rename_i block1 hp
              exact write_block_bytes _ _ _ _ _ h hi
                (byte_list_poke _ _ _ _ hp (read_block_bytes _ _ _ _ hr hi)
                  (byte_list_entry_bytes _ _ hn))

theorem insert_entry_bytes (block dirname : List Nat) (m : Nat) (hb : byte_list block)
    (hn : byte_list dirname) :
    ∀ (fuel o : Nat) (block1 : List Nat), insert_entry block m dirname fuel o = .ok block1 →
      byte_list block1 := by
  intro fuel
  induction fuel with
  | zero =>
    intro o block1 h
    rw [insert_entry] at h
    cases h
    exact hb
  | succ fuel ih =>
    intro o block1 h
    rw [insert_entry] at h
    split at h
    · split at h
      · cases h
      · exact byte_list_poke _ _ _ _ h hb (byte_list_entry_bytes _ _ hn)
      · exact ih _ _ h
    · cases h
      exact hb

theorem create_path_loop_bytes (tokens : List (List Nat)) :
    ∀ (fs fs' : FS) (cur parent : Nat), create_path_loop fs cur tokens = .ok (parent, fs') →
      (∀ t ∈ tokens, byte_list t) → BytesInv fs → BytesInv fs' := by
  induction tokens with
  | nil =>
    intro fs fs' cur parent h _ hi
    rw [create_path_loop] at h
    cases h
    exact hi
  | cons dirname rest ih =>
    intro fs fs' cur parent h ht hi
    have hrest : ∀ t ∈ rest, byte_list t := fun t m => ht t (List.mem_cons_of_mem _ m)
    rw [create_path_loop] at h
    split at h
    · cases h
    · split at h
      · cases h
      · split at h
        · cases h
        · split at h
          · cases h
          · rename_i block hr
            split at h
            · cases h
            · exact ih _ _ _ _ h hrest hi
            · split at h
              · cases h
              · rename_i new_inode fs1 h1
                have b1 := find_free_inode_bytes _ _ _ h1 hi
                split at h
                · cases h
                · rename_i new_block fs2 h2
                  have b2 := find_free_block_bytes _ _ _ h2 b1
                  split at h
                  · cases h
                  · rename_i fs3 h3
                    have b3 := write_inode_bytes _ _ _ _ _ h3 b2
                    split at h
                    · cases h
                    · rename_i block1 hins
                      split at h
                      · cases h
                      · rename_i fs4 h4
                        have hb1 := insert_entry_bytes block dirname new_inode
                          (read_block_bytes _ _ _ _ hr hi) (ht dirname (List.mem_cons_self _ _))
                          _ _ _ hins
                        exact ih _ _ _ _ h hrest (write_block_bytes _ _ _ _ _ h4 b3 hb1)

theorem add_loop_bytes (chunks : List (List Nat)) :
    ∀ (st st' : AddState) (flag : Bool), add_loop st chunks = .ok (st', flag) →
      (∀ c ∈ chunks, byte_list c) → BytesInv st.fs → BytesInv st'.fs := by
  induction chunks with
  | nil =>
    intro st st' flag h _ hi
    rw [add_loop] at h
    cases h
    exact hi
  | cons buffer rest ih =>
    intro st st' flag h hc hi
    have hrest : ∀ c ∈ rest, byte_list c := fun c m => hc c (List.mem_cons_of_mem _ m)
    rw [add_loop] at h
    split at h
    · cases h
    · rename_i block fs1 h1
      have b1 := find_free_block_bytes _ _ _ h1 hi
      split at h
      · cases h
      · split at h
        · cases h
        · rename_i fs2 h2
          have b2 := write_block_bytes _ _ _ _ _ h2 b1 (hc buffer (List.mem_cons_self _ _))
          simp only at h
          split at h
          · exact ih _ _ _ h hrest b2
          · split at h
            · exact ih _ _ _ h hrest b2
            · split at h
              · split at h
                · cases h
                · rename_i inner fs3 h3
                  refine ih _ _ _ h hrest ?_
                  split at h3
                  · cases h3
                    exact b2
                  · exact find_free_block_bytes _ _ _ h3 b2
              · cases h
                exact b2

theorem write_single_indirect_bytes (st : AddState) (file1 : Inode) (fsa : FS)
    (h : write_single_indirect st = .ok (file1, fsa)) (hi : BytesInv st.fs) :
    BytesInv fsa := by
  unfold write_single_indirect at h
  split at h
  · split at h
    · cases h
    · rename_i single fs1 h1
      split at h
      · cases h
      · split at h
        · cases h
        · rename_i fs2 h2
          cases h
          exact write_block_bytes _ _ _ _ _ h2 (find_free_block_bytes _ _ _ h1 hi)
            (byte_list_ptrs_bytes _)
  · cases h
    exact hi

theorem write_inner_blocks_bytes (ps : List Nat) :
    ∀ (fs fs' : FS) (rows : List (List Nat)), write_inner_blocks fs ps rows = .ok fs' →
      BytesInv fs → BytesInv fs' := by
  induction ps with
  | nil =>
    intro fs fs' rows h hi
    rw [write_inner_blocks] at h
    cases h
    exact hi
  | cons p ps ih =>
    intro fs fs' rows h hi
    rw [write_inner_blocks] at h
    split at h
    · cases h
      exact hi
    · split at h
      · cases h
      · split at h
        · cases h
        · rename_i fs1 h1
          exact ih _ _ _ h (write_block_bytes _ _ _ _ _ h1 hi (byte_list_ptrs_bytes _))

theorem write_double_indirect_bytes (st : AddState) (file1 file2 : Inode) (fsa fsb : FS)
    (h : write_double_indirect st file1 fsa = .ok (file2, fsb)) (hi : BytesInv fsa) :
    BytesInv fsb := by
  unfold write_double_indirect at h
  split at h
  · split at h
    · cases h
    · rename_i outer fs1 h1
      split at h
      · cases h
      · split at h
        · cases h
        · rename_i fs2 h2
          split at h
          · cases h
          · rename_i fs3 h3
            cases h
            exact write_block_bytes _ _ _ _ _ h3
              (write_inner_blocks_bytes _ _ _ _ h2 (find_free_block_bytes _ _ _ h1 hi))
              (byte_list_ptrs_bytes _)
  · cases h
    exact hi

theorem write_file_inode_bytes (fs fs' : FS) (file : Inode) (parent : Nat) (name : List Nat)
    (h : write_file_inode fs file parent name = .ok fs') (hi : BytesInv fs)
    (hn : byte_list name) : BytesInv fs' := by
  unfold write_file_inode at h
  split at h
  · cases h
  · rename_i n fsc h1
    split at h
    · cases h
    · split at h
      · cases h
      · rename_i fsd h3
        exact update_directory_entry_bytes _ _ _ _ _ h
          (write_inode_bytes _ _ _ _ _ h3 (find_free_inode_bytes _ _ _ h1 hi)) hn

theorem byte_list_file_chunks (host : List Nat) (hh : byte_list host) :
    ∀ (fuel : Nat) (rest : List Nat), byte_list rest →
      ∀ c ∈ file_chunks fuel rest, byte_list c := by
  intro fuel
  induction fuel with
  | zero =>
    intro rest _ c hc
    rw [file_chunks] at hc
    cases hc
  | succ fuel ih =>
    intro rest hr c hc
    cases rest with
    | nil =>
      simp only [file_chunks] at hc
      cases hc
    | cons b bs =>
      simp only [file_chunks, List.mem_cons] at hc
      rcases hc with e | hm
      · rw [e]
        exact byte_list_take _ _ hr
      · exact ih _ (byte_list_drop _ _ hr) c hm

theorem byte_list_strtok_tokens :
    ∀ (fuel : Nat) (s : List Nat), byte_list s → ∀ t ∈ strtok_tokens fuel s, byte_list t := by
  intro fuel
  induction fuel with
  | zero =>
    intro s _ t ht
    rw [strtok_tokens] at ht
    cases ht
  | succ fuel ih =>
    intro s hs t ht
    rw [strtok_tokens] at ht
    have hd : byte_list (s.dropWhile (fun c => c == 47)) :=
      fun c hc => hs c ((List.dropWhile_sublist _).subset hc)
    split at ht
    · cases ht
    · rename_i c cs hcs
      rw [hcs] at hd
      simp only [List.mem_cons] at ht
      rcases ht with e | hm
      · rw [e]
        exact fun x hx => hd x ((List.takeWhile_sublist _).subset hx)
      · exact ih _ (fun x hx => hd x ((List.dropWhile_sublist _).subset hx)) t hm

theorem byte_list_path_tokens (p : List Nat) (hp : byte_list p) :
    ∀ t ∈ path_tokens p, byte_list t := by
  intro t ht
  unfold path_tokens at ht
  exact byte_list_strtok_tokens _ _ (byte_list_take _ _ hp) t (List.mem_of_mem_take ht)

theorem byte_list_split_last_slash (p a b : List Nat) (hp : byte_list p)
    (h : split_last_slash p = some (a, b)) : byte_list b := by
  unfold split_last_slash at h
  split at h
  · cases h
  · cases h
    intro c hc
    rw [List.mem_reverse] at hc
    exact hp c (List.mem_reverse.mp ((List.takeWhile_sublist _).subset hc))

theorem run_add_bytes (fs fs' : FS) (exfs_path : List Nat) (host : Option (List Nat))
    (st : AddStatus) (h : run_add fs exfs_path host = .ok (st, fs'))
    (hp : byte_list exfs_path) (hh : ∀ bytes, host = some bytes → byte_list bytes)
    (hi : BytesInv fs) : BytesInv fs' := by
  unfold run_add at h
  split at h
  · cases h
    exact hi
  · rename_i pp filename hsp
    have hfn := byte_list_split_last_slash _ _ _ hp hsp
    split at h
    · cases h
      exact hi
    · split at h
      · cases h
      · rename_i parent fs1 h1
        have b1 := create_path_loop_bytes _ _ _ _ _ h1
          (fun t ht => byte_list_path_tokens _ hp t (List.mem_of_mem_dropLast ht)) hi
        split at h
        · cases h
          exact b1
        · split at h
          · cases h
            exact b1
          · rename_i bytes
            have hc : ∀ c ∈ file_chunks bytes.length bytes, byte_list c :=
              byte_list_file_chunks bytes (hh bytes rfl) _ _ (hh bytes rfl)
            split at h
            · cases h
            · rename_i st1 h2
              cases h
              exact add_loop_bytes _ _ _ _ h2 hc b1
            · rename_i st1 h2
              have b2 := add_loop_bytes _ _ _ _ h2 hc b1
              split at h
              · cases h
              · rename_i fs2 h3
                cases h
                unfold add_finish at h3
                split at h3
                · cases h3
                · rename_i file1 fsa h4
                  split at h3
                  · cases h3
                  · rename_i file2 fsb h5
                    exact write_file_inode_bytes _ _ _ _ _ h3
                      (write_double_indirect_bytes _ _ _ _ _ h5
                        (write_single_indirect_bytes _ _ _ h4 b2)) hfn

theorem zero_listed_blocks_bytes :
    ∀ (ps : List Nat) (fs fs1 : FS), zero_listed_blocks fs ps = .ok fs1 →
      BytesInv fs → BytesInv fs1 := by
  intro ps
  induction ps with
  | nil =>
    intro fs fs1 h hi
    rw [zero_listed_blocks] at h
    cases h
    exact hi
  | cons p ps ih =>
    intro fs fs1 h hi
    rw [zero_listed_blocks] at h
    split at h
    · cases h
      exact hi
    · split at h
      · cases h
      · split at h
        · cases h
        · rename_i fs2 hw
          exact ih _ _ h (write_block_bytes _ _ _ _ _ hw hi byte_list_zero_block)

theorem zero_direct_blocks_bytes :
    ∀ (ps : List Nat) (fs fs1 : FS), zero_direct_blocks fs ps = .ok fs1 →
      BytesInv fs → BytesInv fs1 := by
  intro ps
  induction ps with
  | nil =>
    intro fs fs1 h hi
    rw [zero_direct_blocks] at h
    cases h
    exact hi
  | cons p ps ih =>
    intro fs fs1 h hi
    rw [zero_direct_blocks] at h
    split at h
    · split at h
      · cases h
      · split at h
        · cases h
        · rename_i fs2 hw
          exact ih _ _ h (write_block_bytes _ _ _ _ _ hw hi byte_list_zero_block)
    · exact ih _ _ h hi

theorem zero_indirect_bytes (fs fs1 : FS) (p : Nat) (h : zero_indirect fs p = .ok fs1)
    (hi : BytesInv fs) : BytesInv fs1 := by
  unfold zero_indirect at h
  split at h
  · cases h
  · split at h
    · cases h
    · rename_i fs2 hz
      split at h
      · cases h
      · exact write_block_bytes _ _ _ _ _ h (zero_listed_blocks_bytes _ _ _ hz hi)
          byte_list_zero_block

theorem zero_double_rows_bytes :
    ∀ (ps : List Nat) (fs fs1 : FS), zero_double_rows fs ps = .ok fs1 →
      BytesInv fs → BytesInv fs1 := by
  intro ps
  induction ps with
  | nil =>
    intro fs fs1 h hi
    rw [zero_double_rows] at h
    cases h
    exact hi
  | cons p ps ih =>
    intro fs fs1 h hi
    rw [zero_double_rows] at h
    split at h
    · cases h
      exact hi
    · split at h
      · cases h
      · rename_i fs2 hz
        exact ih _ _ h (zero_indirect_bytes _ _ _ hz hi)

theorem zero_double_tree_bytes (fs fs1 : FS) (p : Nat) (h : zero_double_tree fs p = .ok fs1)
    (hi : BytesInv fs) : BytesInv fs1 := by
  unfold zero_double_tree at h
  split at h
  · cases h
  · split at h
    · cases h
    · rename_i fs2 hz
      split at h
      · cases h
      · exact write_block_bytes _ _ _ _ _ h (zero_double_rows_bytes _ _ _ hz hi)
          byte_list_zero_block

theorem remove_file_blocks_bytes (fs fs1 : FS) (n : Nat)
    (h : remove_file_blocks fs n = .ok fs1) (hi : BytesInv fs) : BytesInv fs1 := by
  unfold remove_file_blocks at h
  split at h
  · cases h
  · split at h
    · cases h
    · split at h
      · cases h
      · rename_i fsa ha
        split at h
        · cases h
        · rename_i fsb hb
          split at h
          · cases h
          · rename_i fsc hc
            have h1 := zero_direct_blocks_bytes _ _ _ ha hi
            have h2 : BytesInv fsb := by
              split at hb
              · exact zero_indirect_bytes _ _ _ hb h1
              · cases hb
                exact h1
            have h3 : BytesInv fsc := by
              split at hc
              · exact zero_double_tree_bytes _ _ _ hc h2
              · cases hc
                exact h2
            exact write_inode_bytes _ _ _ _ _ h h3

theorem run_remove_bytes (fs fs' : FS) (exfs_path : List Nat) (st : RemoveStatus)
    (h : run_remove fs exfs_path = .ok (st, fs')) (hi : BytesInv fs) : BytesInv fs' := by
  by_cases hst : st = .removed
  · subst hst
    obtain ⟨_, _, _, _, _, _, bseg, boff, dir_block, target, off, dir_block1, fs1, _, _, _, _,
      _, _, hr, _, hp, hw, hrm⟩ := run_remove_steps fs fs' exfs_path h
    exact remove_file_blocks_bytes _ _ _ hrm
      (write_block_bytes _ _ _ _ _ hw hi
        (byte_list_poke _ _ _ _ hp (read_block_bytes _ _ _ _ hr hi)
          (byte_list_replicate_zero _)))
  · rw [run_remove_other fs fs' exfs_path st h hst]
    exact hi

theorem BytesInv_fresh : BytesInv fresh := by
  rw [fresh_eq]
  intro sg hsg x hx
  simp only [List.mem_singleton] at hsg
  subst hsg
  unfold zero_data_segment at hx
  rw [(List.mem_replicate.mp hx).2]
  exact byte_list_zero_block

theorem init_filesystem_bytes (fs : FS) (hi : BytesInv fs) : BytesInv (init_filesystem fs) := by
  have hd : (init_filesystem fs).data_segments
      = if fs.data_segments = [] then [(zero_data_segment).set 0 zero_block]
        else fs.data_segments := by
    unfold init_filesystem
    simp only
    split <;> split <;> rfl
  unfold BytesInv
  rw [hd]
  split
  · intro sg hsg x hx
    simp only [List.mem_singleton] at hsg
    subst hsg
    rcases List.mem_or_eq_of_mem_set hx with hm | rfl
    · unfold zero_data_segment at hm
      rw [(List.mem_replicate.mp hm).2]
      exact byte_list_zero_block
    · exact byte_list_zero_block
  · exact hi

theorem read_u32_lt (block : List Nat) (o : Nat) (hb : byte_list block) :
    read_u32 block o < 4294967296 := by
  have h : ∀ k, block.getD k 0 < 256 := by
    intro k
    rw [List.getD_eq_getElem?_getD]
    cases hk : block[k]? with
    | none => simp
    | some v => exact hb v (List.getElem?_mem hk)
  unfold read_u32
  have h0 := h o
  have h1 := h (o + 1)
  have h2 := h (o + 2)
  have h3 := h (o + 3)
  omega

/-- A write to an inode slot other than slot 0 of segment 0 keeps the root record. -/
theorem write_inode_root (fs fs' : FS) (seg off : Int) (ino r : Inode)
    (h : write_inode fs seg off ino = .ok fs') (hr : slot_at fs 0 0 = some r)
    (hne : seg ≠ 0 ∨ off ≠ 0) : slot_at fs' 0 0 = some r := by
  obtain ⟨sg, hsg, _, hs0, ho0, e, _⟩ := write_inode_ok fs fs' seg off ino h
  rw [slot_at_table_set_other fs fs' seg.toNat off.toNat 0 0 sg ino hsg e (by omega)]
  exact hr

/-- With a root record of a type other than 0, `find_free_inode` never returns 0 and keeps
the root record. -/
theorem find_free_inode_root (fs fs' : FS) (n : Nat) (r : Inode)
    (h : find_free_inode fs = .ok (n, fs')) (ht : TableInv fs.inode_segments)
    (hr : slot_at fs 0 0 = some r) (hty : r.type ≠ 0) :
    n ≠ 0 ∧ slot_at fs' 0 0 = some r := by
  have hlen : 0 < fs.inode_segments.length := by
    rcases Nat.eq_zero_or_pos fs.inode_segments.length with h0 | h0
    · exfalso
      unfold slot_at at hr
      rw [List.getElem?_eq_none (by omega)] at hr
      cases hr
    · exact h0
  obtain ⟨_, ⟨e, hscan⟩ | ⟨_, e, en⟩⟩ := find_free_inode_ok fs fs' n h
  · rw [e]
    refine ⟨?_, hr⟩
    intro hn
    obtain ⟨sp1, _⟩ := scan_inode_segments_spec fs.inode_segments 0 (fun sg hsg => (ht sg hsg).1)
    obtain ⟨t, j, sg, ino, hm, hj, hts, hjs, hino, _⟩ := sp1 n hscan
    have ht0 : t = 0 := by
      unfold INODES_PER_SEGMENT at hm hj
      omega
    have hj0 : j = 0 := by
      unfold INODES_PER_SEGMENT at hm hj
      omega
    subst ht0
    subst hj0
    unfold slot_at at hr
    rw [hts] at hr
    simp only at hr
    rw [hjs] at hr
    cases hr
    exact hty hino
  · refine ⟨?_, ?_⟩
    · rw [en]
      unfold INODES_PER_SEGMENT
      omega
    · rw [slot_at_append_segment fs fs' zero_inode_segment 0 0 e hlen]
      exact hr

theorem create_path_loop_root (tokens : List (List Nat)) :
    ∀ (fs fs' : FS) (cur parent : Nat), create_path_loop fs cur tokens = .ok (parent, fs') →
      TableInv fs.inode_segments → slot_at fs 0 0 = some root_inode →
      slot_at fs' 0 0 = some root_inode := by
  induction tokens with
  | nil =>
    intro fs fs' cur parent h _ hr
    rw [create_path_loop] at h
    cases h
    exact hr
  | cons dirname rest ih =>
    intro fs fs' cur parent h ht hr
    rw [create_path_loop] at h
    split at h
    · cases h
    · split at h
      · cases h
      · split at h
        · cases h
        · split at h
          · cases h
          · split at h
            · cases h
            · exact ih _ _ _ _ h ht hr
            · split at h
              · cases h
              · rename_i new_inode fs1 h1
                have t1 := find_free_inode_TableInv _ _ _ h1 ht
                obtain ⟨hn0, r1⟩ := find_free_inode_root _ _ _ _ h1 ht hr (by decide)
                split at h
                · cases h
                · rename_i new_block fs2 h2
                  have e2 := find_free_block_inode_segments _ _ _ h2
                  split at h
                  · cases h
                  · rename_i fs3 h3
                    have t3 := write_inode_TableInv _ _ _ _ _ h3 (by rw [e2]; exact t1)
                      (inode_ok_of_type _ (Or.inr rfl))
                    have r3 := write_inode_root _ _ _ _ _ root_inode h3
                      (by rw [slot_at_congr _ _ e2]; exact r1)
                      (by unfold INODES_PER_SEGMENT; omega)
                    split at h
                    · cases h
                    · split at h
                      · cases h
                      · rename_i fs4 h4
                        have e4 := write_block_inode_segments _ _ _ _ _ h4
                        exact ih _ _ _ _ h (by rw [e4]; exact t3)
                          (by rw [slot_at_congr _ _ e4]; exact r3)

theorem write_file_inode_root (fs fs' : FS) (file : Inode) (parent : Nat) (name : List Nat)
    (h : write_file_inode fs file parent name = .ok fs') (ht : TableInv fs.inode_segments)
    (hr : slot_at fs 0 0 = some root_inode) : slot_at fs' 0 0 = some root_inode := by
  unfold write_file_inode at h
  split at h
  · cases h
  · rename_i n fsc h1
    obtain ⟨hn0, r1⟩ := find_free_inode_root _ _ _ _ h1 ht hr (by decide)
    split at h
    · cases h
    · rename_i seg off hg
      obtain ⟨es, eo, _⟩ := gsio_ok_nat _ _ _ _ hg
      split at h
      · cases h
      · rename_i fsd h3
        rw [slot_at_congr _ _ (update_directory_entry_inode_segments _ _ _ _ _ h)]
        exact write_inode_root _ _ _ _ _ root_inode h3 r1 (by omega)

theorem run_add_root (fs fs' : FS) (exfs_path : List Nat) (host : Option (List Nat))
    (st : AddStatus) (h : run_add fs exfs_path host = .ok (st, fs'))
    (ht : TableInv fs.inode_segments) (hr : slot_at fs 0 0 = some root_inode) :
    slot_at fs' 0 0 = some root_inode := by
  unfold run_add at h
  split at h
  · cases h
    exact hr
  · split at h
    · cases h
      exact hr
    · split at h
      · cases h
      · rename_i parent fs1 h1
        have t1 := create_path_loop_TableInv _ _ _ _ _ h1 ht
        have r1 := create_path_loop_root _ _ _ _ _ h1 ht hr
        split at h
        · cases h
          exact r1
        · split at h
          · cases h
            exact r1
          · split at h
            · cases h
            · rename_i st1 h2
              obtain ⟨e2, _⟩ := add_loop_inode_segments _ _ _ _ h2
              cases h
              rw [slot_at_congr _ _ e2]
              exact r1
            · rename_i st1 h2
              obtain ⟨e2, ty2⟩ := add_loop_inode_segments _ _ _ _ h2
              split at h
              · cases h
              · rename_i fs2 h3
                cases h
                unfold add_finish at h3
                split at h3
                · cases h3
                · rename_i file1 fsa h4
                  obtain ⟨e4, ty4⟩ := write_single_indirect_inode_segments _ _ _ h4
                  split at h3
                  · cases h3
                  · rename_i file2 fsb h5
                    obtain ⟨e5, ty5⟩ := write_double_indirect_inode_segments _ _ _ _ _ h5
                    refine write_file_inode_root _ _ _ _ _ h3 ?_ ?_
                    · rw [e5, e4, e2]
                      exact t1
                    · rw [slot_at_congr _ _ (e5.trans (e4.trans e2))]
                      exact r1

/-- The address of an inode number that is not 0 as a 32-bit value is not slot 0 of
segment 0. -/
theorem gsio_ne_root (fs : FS) (v seg off : Int) (hv : v ≠ 0)
    (h : get_segment_and_inode_offset fs v = .ok (seg, off)) : seg ≠ 0 ∨ off ≠ 0 := by
  unfold get_segment_and_inode_offset at h
  simp only at h
  split at h
  · cases h
  · cases h
    by_contra hc
    have h1 : Int.tdiv v (INODES_PER_SEGMENT : Nat) = 0 := by
      by_contra h1
      exact hc (Or.inl h1)
    have h2 : Int.tmod v (INODES_PER_SEGMENT : Nat) = 0 := by
      by_contra h2
      exact hc (Or.inr h2)
    have := Int.tmod_add_tdiv v (INODES_PER_SEGMENT : Nat)
    rw [h1, h2] at this
    apply hv
    rw [← this]
    simp

theorem toInt32_ne_zero (n : Nat) (h0 : n ≠ 0) (h : n < 4294967296) : toInt32 n ≠ 0 := by
  unfold toInt32
  rw [Nat.mod_eq_of_lt h]
  split <;> omega

theorem remove_file_blocks_root (fs fs' : FS) (n : Nat) (r : Inode)
    (h : remove_file_blocks fs n = .ok fs') (h0 : n ≠ 0) (hn : n < 4294967296)
    (hr : slot_at fs 0 0 = some r) : slot_at fs' 0 0 = some r := by
  obtain ⟨seg, off, sg, hg, hs0, ho0, hsg, _, e⟩ := remove_file_blocks_table fs fs' n h
  have hne := gsio_ne_root fs _ seg off (toInt32_ne_zero n h0 hn) hg
  rw [slot_at_table_set_other fs fs' seg.toNat off.toNat 0 0 sg zero_inode hsg e (by omega)]
  exact hr

/-- The inode that `run_remove` clears is not inode 0, when the blocks hold bytes. -/
theorem run_remove_target (fs fs' : FS) (exfs_path : List Nat)
    (h : run_remove fs exfs_path = .ok (.removed, fs')) (hi : BytesInv fs) :
    ∃ (fs1 : FS) (target : Nat), fs1.inode_segments = fs.inode_segments
      ∧ remove_file_blocks fs1 target = .ok fs' ∧ target ≠ 0 ∧ target < 4294967296
      ∧ ∀ seg off, get_segment_and_inode_offset fs1 (toInt32 target) = .ok (seg, off) →
          seg ≠ 0 ∨ off ≠ 0 := by
  obtain ⟨_, filename, _, _, _, _, bseg, boff, dir_block, target, off, dir_block1, fs1, _, _,
    _, _, _, _, hr, hfound, _, hw, hrm⟩ := run_remove_steps fs fs' exfs_path h
  obtain ⟨_, hslot, _⟩ := dir_find_exact_inv dir_block filename BLOCK_SIZE 0 target off hfound
  obtain ⟨ht0, _, _, hte, _⟩ := read_slot_entry_inv dir_block off target _ hslot
  have hlt : target < 4294967296 := by
    rw [hte]
    exact read_u32_lt dir_block off (read_block_bytes _ _ _ _ hr hi)
  exact ⟨fs1, target, write_block_inode_segments _ _ _ _ _ hw, hrm, ht0, hlt,
    fun seg off hg => gsio_ne_root fs1 _ seg off (toInt32_ne_zero target ht0 hlt) hg⟩

theorem run_remove_root (fs fs' : FS) (exfs_path : List Nat) (st : RemoveStatus) (r : Inode)
    (h : run_remove fs exfs_path = .ok (st, fs')) (hi : BytesInv fs)
    (hr : slot_at fs 0 0 = some r) : slot_at fs' 0 0 = some r := by
  by_cases hst : st = .removed
  · subst hst
    obtain ⟨fs1, target, e1, hrm, ht0, hlt, _⟩ := run_remove_target fs fs' exfs_path h hi
    exact remove_file_blocks_root _ _ _ r hrm ht0 hlt (by rw [slot_at_congr _ _ e1]; exact hr)
  · rw [run_remove_other fs fs' exfs_path st h hst]
    exact hr

theorem init_filesystem_root (fs : FS) (hr : slot_at fs 0 0 = some root_inode) :
    slot_at (init_filesystem fs) 0 0 = some root_inode := by
  have hne : fs.inode_segments ≠ [] := by
    intro e
    unfold slot_at at hr
    rw [e] at hr
    cases hr
  have hroot : (fs.inode_segments.headD []).getD 0 zero_inode = root_inode := by
    unfold slot_at at hr
    cases hs : fs.inode_segments with
    | nil => exact absurd hs hne
    | cons sg rest =>
      rw [hs] at hr
      simp only [List.getElem?_cons_zero] at hr
      simp only [List.headD_cons]
      rw [List.getD_eq_getElem?_getD, hr]
      rfl
  have e : (init_filesystem fs).inode_segments = fs.inode_segments := by
    unfold init_filesystem
    simp only [if_neg hne]
    rw [hroot]
    rw [if_neg (by decide)]
  rw [slot_at_congr _ _ e]
  exact hr

/-- The invariants of the archive states reached with byte-valued arguments. -/
theorem ByteReachable_inv (fs : FS) (h : ByteReachable fs) :
    TableInv fs.inode_segments ∧ BytesInv fs ∧ slot_at fs 0 0 = some root_inode := by
  induction h with
  | init => exact ⟨TableInv_fresh, BytesInv_fresh, (slot_at_fresh_table fresh rfl).1⟩
  | reinit fs _ ih =>
    exact ⟨init_filesystem_TableInv fs ih.1, init_filesystem_bytes fs ih.2.1,
      init_filesystem_root fs ih.2.2⟩
  | add fs fs1 p host st _ hp hh hrun ih =>
    exact ⟨run_add_TableInv _ _ _ _ _ hrun ih.1, run_add_bytes _ _ _ _ _ hrun hp hh ih.2.1,
      run_add_root _ _ _ _ _ hrun ih.1 ih.2.2⟩
  | remove fs fs1 p st _ hp hrun ih =>
    exact ⟨run_remove_TableInv _ _ _ _ hrun ih.1, run_remove_bytes _ _ _ _ hrun ih.2.1,
      run_remove_root _ _ _ _ _ hrun ih.2.1 ih.2.2⟩

/-- The entry loop of `print_directory_recursive` only adds to the `visited` set when the
recursive call only adds to it. -/
theorem list_entries_mono
    (descend : Nat → Nat → List Nat → Except Fault (List Nat × List Nat))
    (hd : ∀ i d w w' out, descend i d w = .ok (w', out) → ∀ x ∈ w, x ∈ w')
    (block : List Nat) (depth : Nat) :
    ∀ (fuel o : Nat) (w w' out : List Nat),
      list_entries descend block depth fuel o w = .ok (w', out) → ∀ x ∈ w, x ∈ w' := by
  intro fuel
  induction fuel with
  | zero =>
    intro o w w' out h x hx
    rw [list_entries] at h
    cases h
    exact hx
  | succ fuel ih =>
    intro o w w' out h x hx
    rw [list_entries] at h
    split at h
    · split at h
      · cases h
      · cases h
        exact hx
      · split at h
        · cases h
        · split at h
          · cases h
          · rename_i v1 out1 h1
            split at h
            · cases h
            · rename_i v2 out2 h2
              cases h
              exact ih _ _ _ _ h2 x (hd _ _ _ _ _ h1 x hx)
    · cases h
      exact hx

/-- The recursion only adds to the `visited` set. -/
theorem print_directory_recursive_mono (fs : FS) :
    ∀ (fuel n d : Nat) (v v' out : List Nat),
      print_directory_recursive fs fuel n d v = .ok (v', out) → ∀ x ∈ v, x ∈ v' := by
  intro fuel
  induction fuel with
  | zero =>
    intro n d v v' out h x hx
    rw [print_directory_recursive] at h
    cases h
    exact hx
  | succ fuel ih =>
    intro n d v v' out h x hx
    rw [print_directory_recursive] at h
    split at h
    · cases h
      exact hx
    · split at h
      · cases h
      · split at h
        · cases h
        · split at h
          · cases h
            exact List.mem_cons_of_mem _ hx
          · split at h
            · cases h
            · split at h
              · cases h
              · exact list_entries_mono _ (ih) _ _ _ _ _ _ _ h x (List.mem_cons_of_mem _ hx)

/-- Two recursive calls that agree on every `visited` set above `S` give the same entry
loop from such a set on. -/
theorem list_entries_congr
    (descend1 descend2 : Nat → Nat → List Nat → Except Fault (List Nat × List Nat))
    (S : List Nat)
    (hagree : ∀ i d w, (∀ x ∈ S, x ∈ w) → descend1 i d w = descend2 i d w)
    (hd : ∀ i d w w' out, descend2 i d w = .ok (w', out) → ∀ x ∈ w, x ∈ w')
    (block : List Nat) (depth : Nat) :
    ∀ (fuel o : Nat) (w : List Nat), (∀ x ∈ S, x ∈ w) →
      list_entries descend1 block depth fuel o w
        = list_entries descend2 block depth fuel o w := by
  intro fuel
  induction fuel with
  | zero =>
    intro o w _
    rw [list_entries, list_entries]
  | succ fuel ih =>
    intro o w hw
    rw [list_entries, list_entries]
    split
    · cases read_slot block o with
      | error e => rfl
      | ok sl =>
        cases sl with
        | terminator => rfl
        | entry i l =>
          simp only
          cases c_string_at block (o + 5) with
          | error e => rfl
          | ok name =>
            simp only
            rw [hagree i (depth + 1) w hw]
            cases h2 : descend2 i (depth + 1) w with
            | error e => rfl
            | ok r =>
              obtain ⟨v1, out1⟩ := r
              simp only
              rw [ih _ v1 (fun x hx => hd _ _ _ _ _ h2 x (hw x hx))]
    · rfl

/-- Adding an unvisited inode number below the bound makes the set of unvisited numbers
smaller, and a larger `visited` set leaves no more numbers unvisited. -/
theorem unvisited_lt (N n : Nat) (v w : List Nat) (hn : n < N) (hv : n ∉ v)
    (hw : ∀ x ∈ n :: v, x ∈ w) :
    (Finset.range N \ w.toFinset).card < (Finset.range N \ v.toFinset).card := by
  apply Finset.card_lt_card
  rw [Finset.ssubset_iff_of_subset]
  · refine ⟨n, ?_, ?_⟩
    · rw [Finset.mem_sdiff, Finset.mem_range, List.mem_toFinset]
      exact ⟨hn, hv⟩
    · rw [Finset.mem_sdiff, List.mem_toFinset]
      intro h
      exact h.2 (hw n (List.mem_cons_self _ _))
  · intro x hx
    rw [Finset.mem_sdiff, List.mem_toFinset] at hx ⊢
    exact ⟨hx.1, fun h => hx.2 (hw x (List.mem_cons_of_mem _ h))⟩

/-- The recursion of `print_directory_recursive` nests no deeper than there are unvisited
inode numbers: with more fuel than that, more fuel gives the same result. -/
theorem print_directory_recursive_fuel (fs : FS) :
    ∀ (fuel n d : Nat) (v : List Nat),
      (Finset.range (MAX_SEGMENTS * INODES_PER_SEGMENT) \ v.toFinset).card < fuel →
      ∀ k, print_directory_recursive fs (fuel + k) n d v
        = print_directory_recursive fs fuel n d v := by
  intro fuel
  induction fuel with
  | zero =>
    intro n d v h
    exact absurd h (Nat.not_lt_zero _)
  | succ fuel ih =>
    intro n d v h k
    rw [Nat.add_right_comm, print_directory_recursive, print_directory_recursive]
    split
    · rfl
    · rename_i hguard
      have hn : n < MAX_SEGMENTS * INODES_PER_SEGMENT := by
        by_contra hc
        exact hguard (Or.inl (Nat.le_of_not_lt hc))
      have hv : n ∉ v := fun hc => hguard (Or.inr hc)
      cases get_segment_and_inode_offset fs (toInt32 n) with
      | error e => rfl
      | ok so =>
        obtain ⟨seg, off⟩ := so
        simp only
        cases read_inode fs seg off with
        | error e => rfl
        | ok inode =>
          simp only
          split
          · rfl
          · cases get_segment_and_block_offset fs (toInt32 (inode.direct.getD 0 0)) with
            | error e => rfl
            | ok sb =>
              obtain ⟨bseg, boff⟩ := sb
              simp only
              cases read_block fs bseg boff with
              | error e => rfl
              | ok block =>
                simp only
                apply list_entries_congr _ _ (n :: v)
                · intro i d' w hw
                  apply ih
                  have := unvisited_lt _ n v w hn hv hw
                  omega
                · exact print_directory_recursive_mono fs fuel
                · exact fun x hx => hx

theorem Ext_refl (fs : FS) : Ext fs fs :=
  ⟨fun _ _ _ h _ => h, Nat.le_refl _, Nat.le_refl _,
    fun _ _ blk h => ⟨blk, h, Or.inl rfl, fun _ _ hf => hf⟩⟩

theorem Ext_trans (fs fs1 fs2 : FS) (h1 : Ext fs fs1) (h2 : Ext fs1 fs2) : Ext fs fs2 := by
  obtain ⟨a1, b1, c1, d1⟩ := h1
  obtain ⟨a2, b2, c2, d2⟩ := h2
  refine ⟨fun s o ino h ht => a2 s o ino (a1 s o ino h ht) ht, by omega, by omega, ?_⟩
  intro s b blk hb
  obtain ⟨blk1, hb1, hz1, hf1⟩ := d1 s b blk hb
  obtain ⟨blk2, hb2, hz2, hf2⟩ := d2 s b blk1 hb1
  refine ⟨blk2, hb2, ?_, fun name i hf => hf2 name i (hf1 name i hf)⟩
  rcases hz2 with e | e
  · rw [e]
    exact hz1
  · exact Or.inr e

/-- The inode address check passes in an archive with at least as many inode segments. -/
theorem gsio_mono (fs fs1 : FS) (v seg off : Int)
    (h : get_segment_and_inode_offset fs v = .ok (seg, off))
    (hn : num_inode_segments fs ≤ num_inode_segments fs1) :
    get_segment_and_inode_offset fs1 v = .ok (seg, off) := by
  unfold get_segment_and_inode_offset at h ⊢
  simp only at h ⊢
  split at h
  · cases h
  · rename_i hlt
    cases h
    rw [if_neg]
    intro hc
    apply hlt
    have : (num_inode_segments fs : Int) ≤ (num_inode_segments fs1 : Int) := by
      exact_mod_cast hn
    omega

/-- The block address check passes in an archive with at least as many data segments. -/
theorem gsbo_mono (fs fs1 : FS) (v seg off : Int)
    (h : get_segment_and_block_offset fs v = .ok (seg, off))
    (hn : num_data_segments fs ≤ num_data_segments fs1) :
    get_segment_and_block_offset fs1 v = .ok (seg, off) := by
  unfold get_segment_and_block_offset at h ⊢
  split at h
  · rename_i h0
    cases h
    rw [if_pos h0]
  · rename_i h0
    rw [if_neg h0]
    simp only at h ⊢
    split at h
    · cases h
    · rename_i hlt
      split at h
      · cases h
      · rename_i hneg
        cases h
        rw [if_neg, if_neg hneg]
        intro hc
        apply hlt
        have : (num_data_segments fs : Int) ≤ (num_data_segments fs1 : Int) := by
          exact_mod_cast hn
        omega

/-- What a successful `read_inode` read, at integer coordinates. -/
theorem read_inode_ok_int (fs : FS) (seg off : Int) (ino : Inode)
    (h : read_inode fs seg off = .ok ino) :
    0 ≤ seg ∧ 0 ≤ off ∧ slot_at fs seg.toNat off.toNat = some ino := by
  unfold read_inode at h
  split at h
  · cases h
  · rename_i hneg
    refine ⟨by omega, by omega, ?_⟩
    split at h
    · cases h
    · rename_i sg hsg
      split at h
      · cases h
      · rename_i x hx
        cases h
        unfold slot_at
        rw [hsg]
        exact hx

theorem read_inode_of_slot_at (fs : FS) (seg off : Int) (ino : Inode) (h1 : 0 ≤ seg)
    (h2 : 0 ≤ off) (h : slot_at fs seg.toNat off.toNat = some ino) :
    read_inode fs seg off = .ok ino := by
  have hs : ((seg.toNat : Nat) : Int) = seg := Int.toNat_of_nonneg h1
  have hb : ((off.toNat : Nat) : Int) = off := Int.toNat_of_nonneg h2
  have := read_inode_nat fs _ _ ino h
  rw [hs, hb] at this
  exact this

/-- One step of `find_inode_by_path` in an extension of the archive in which the step
was taken. -/
theorem find_inode_loop_step (fs fs1 : FS) (cur next : Nat) (c : List Nat)
    (rest : List (List Nat)) (seg off bseg boff : Int) (ino : Inode) (block : List Nat)
    (v : Int) (hext : Ext fs fs1)
    (hg : get_segment_and_inode_offset fs (toInt32 cur) = .ok (seg, off))
    (hi : read_inode fs seg off = .ok ino) (hty : ino.type = TYPE_DIR)
    (hb : get_segment_and_block_offset fs (toInt32 (ino.direct.getD 0 0)) = .ok (bseg, boff))
    (hr : read_block fs bseg boff = .ok block)
    (hf : dir_find_cast block c BLOCK_SIZE 0 = .ok (some next))
    (hrest : find_inode_loop fs1 next rest = .ok v) :
    find_inode_loop fs1 cur (c :: rest) = .ok v := by
  obtain ⟨e1, e2, e3, e4⟩ := hext
  obtain ⟨hs0, ho0, hslot⟩ := read_inode_ok_int fs seg off ino hi
  obtain ⟨hb0, hb1, hblk⟩ := read_block_ok_int fs bseg boff block hr
  obtain ⟨blk1, hblk1, _, hfind⟩ := e4 _ _ _ hblk
  rw [find_inode_loop, gsio_mono fs fs1 _ _ _ hg e2]
  simp only
  rw [read_inode_of_slot_at fs1 seg off ino hs0 ho0
    (e1 _ _ _ hslot (by rw [hty]; decide))]
  simp only
  rw [if_neg (by rw [hty]; decide), gsbo_mono fs fs1 _ _ _ hb e3]
  simp only
  rw [read_block_of_blk_at fs1 bseg boff blk1 hb0 hb1 hblk1]
  simp only
  rw [hfind c next hf]
  exact hrest

/-- Lookups in a block and in a block that agrees with it below the end `t` of its entry
list: a name that was found is found again, and a name that was not found is found in the
record at `t` when that record carries it. -/
theorem dir_find_cast_insert (b b' name : List Nat) (t i l : Nat)
    (htake : b'.take t = b.take t) (ht : t < BLOCK_SIZE) :
    ∀ (fuel o : Nat), BLOCK_SIZE < o + 7 * fuel → dir_end_offset b fuel o = .ok t →
      (∀ j, dir_find_cast b name fuel o = .ok (some j) →
          dir_find_cast b' name fuel o = .ok (some j))
        ∧ (dir_find_cast b name fuel o = .ok none → read_slot b' t = .ok (.entry i l) →
            strncmp_eq (b'.drop (t + 5)) name l = .ok true → name.length % 256 = l →
            dir_find_cast b' name fuel o = .ok (some i)) := by
  intro fuel
  induction fuel with
  | zero =>
    intro o hinv h
    rw [dir_end_offset] at h
    cases h
    omega
  | succ fuel ih =>
    intro o hinv h
    rw [dir_end_offset] at h
    rw [dir_find_cast, dir_find_cast]
    by_cases ho : o < BLOCK_SIZE
    · rw [if_pos ho] at h
      simp only [if_pos ho]
      cases hs : read_slot b o with
      | error e => rw [hs] at h; cases h
      | ok sl =>
        rw [hs] at h
        cases sl with
        | terminator =>
          simp only at h
          cases h
          refine ⟨?_, ?_⟩
          · intro j hj
            cases hj
          · intro _ hslot hcmp hlen
            rw [hslot]
            simp only
            rw [hcmp]
            simp only
            rw [if_pos hlen]
        | entry i0 l0 =>
          simp only at h
          have hge := dir_end_offset_ge b fuel _ t h
          obtain ⟨_, hl, _, _, _⟩ := read_slot_entry_inv b o i0 l0 hs
          obtain ⟨ih1, ih2⟩ := ih (o + (4 + 1 + l0 + 1)) (by omega) h
          rw [read_slot_of_take_eq b b' t o htake (by omega), hs]
          simp only
          rw [strncmp_of_take_eq b b' name t (o + 5) l0 htake (by omega)]
          cases strncmp_eq (b.drop (o + 5)) name l0 with
          | error e =>
            refine ⟨?_, ?_⟩
            · intro j hj
              cases hj
            · intro hn
              cases hn
          | ok r =>
            cases r with
            | true =>
              simp only
              by_cases hlen : name.length % 256 = l0
              · simp only [if_pos hlen]
                refine ⟨fun j hj => hj, ?_⟩
                intro hn
                cases hn
              · simp only [if_neg hlen]
                exact ⟨ih1, ih2⟩
            | false =>
              simp only
              exact ⟨ih1, ih2⟩
    · rw [if_neg ho] at h
      cases h
      omega

/-- The block that the insertion loop of `find_or_create_path` produces when the entry
list ends at `t` and the record fits. -/
theorem insert_entry_result (block c block1 : List Nat) (i t : Nat)
    (hlen : block.length = BLOCK_SIZE) (hi0 : i ≠ 0) (hi32 : i < 4294967296)
    (hc1 : 1 ≤ c.length) (hc2 : c.length ≤ 255)
    (hend : dir_end_offset block BLOCK_SIZE 0 = .ok t) (hfit : t + 5 + c.length + 1 ≤ 4096)
    (hins : insert_entry block i c BLOCK_SIZE 0 = .ok block1) :
    block1.length = BLOCK_SIZE ∧ all_zero block1 = false
      ∧ (∀ name j, dir_find_cast block name BLOCK_SIZE 0 = .ok (some j) →
          dir_find_cast block1 name BLOCK_SIZE 0 = .ok (some j))
      ∧ (dir_find_cast block c BLOCK_SIZE 0 = .ok none →
          dir_find_cast block1 c BLOCK_SIZE 0 = .ok (some i)) := by
  have hB : BLOCK_SIZE = 4096 := rfl
  have ht : t < BLOCK_SIZE := by rw [hB]; omega
  have hinv : BLOCK_SIZE < 0 + 7 * BLOCK_SIZE := by decide
  rw [insert_entry_eq block i c BLOCK_SIZE 0 t hinv hend, if_pos ht] at hins
  unfold poke at hins
  split at hins
  · cases hins
  · cases hins
    have hA : (block.take t).length = t := by
      rw [List.length_take, hlen, hB]
      omega
    have hebl : (entry_bytes i c).length = 5 + c.length + 1 := by
      rw [entry_bytes_length, Nat.mod_eq_of_lt (by omega)]
      omega
    have htake : (block.take t ++ entry_bytes i c
        ++ block.drop (t + (entry_bytes i c).length)).take t = block.take t := by
      rw [List.append_assoc]
      exact List.take_left' hA
    have hslot := read_slot_appended (block.take t)
      (block.drop (t + (entry_bytes i c).length)) c i hi0 hi32 hc1 hc2
      (by rw [hA, hB]; omega)
    rw [hA] at hslot
    have hname := name_appended (block.take t)
      (block.drop (t + (entry_bytes i c).length)) c i hc2
    rw [hA] at hname
    have hcmp : strncmp_eq ((block.take t ++ entry_bytes i c
        ++ block.drop (t + (entry_bytes i c).length)).drop (t + 5)) c c.length = .ok true := by
      rw [← strncmp_eq_take, hname]
      have := strncmp_eq_prefix c []
      rw [List.append_nil] at this
      exact this
    refine ⟨?_, ?_, ?_, ?_⟩
    · rw [List.length_append, List.length_append, hA, hebl, List.length_drop, hlen, hB]
      omega
    · rw [all_zero_false_iff]
      refine ⟨c.length % 256, ?_, ?_⟩
      · apply List.mem_append_left
        apply List.mem_append_right
        unfold entry_bytes
        apply List.mem_append_left
        apply List.mem_append_right
        exact List.mem_singleton.mpr rfl
      · rw [Nat.mod_eq_of_lt (by omega)]
        omega
    · intro name j hj
      exact (dir_find_cast_insert block _ name t i c.length htake ht BLOCK_SIZE 0 hinv hend).1
        j hj
    · intro hn
      exact (dir_find_cast_insert block _ c t i c.length htake ht BLOCK_SIZE 0 hinv hend).2
        hn hslot hcmp (Nat.mod_eq_of_lt (by omega))

theorem all_zero_eq_zero_block (x : List Nat) (hl : x.length = BLOCK_SIZE)
    (hz : all_zero x = true) : x = zero_block := by
  unfold zero_block
  rw [← hl]
  exact List.eq_replicate_of_mem ((all_zero_iff x).mp hz)

theorem blen_blk_at (fs : FS) (s b : Nat) (x : List Nat)
    (h : ∀ sg ∈ fs.data_segments, ∀ y ∈ sg, y.length = BLOCK_SIZE)
    (hx : blk_at fs s b = some x) : x.length = BLOCK_SIZE := by
  unfold blk_at at hx
  cases hs : fs.data_segments[s]? with
  | none => rw [hs] at hx; cases hx
  | some sg =>
    rw [hs] at hx
    exact h sg (List.getElem?_mem hs) x (List.getElem?_mem hx)

theorem blen_set_blk (fs : FS) (s b : Nat) (x : List Nat)
    (h : ∀ sg ∈ fs.data_segments, ∀ y ∈ sg, y.length = BLOCK_SIZE)
    (hx : x.length = BLOCK_SIZE) :
    ∀ sg ∈ (set_blk fs s b x).data_segments, ∀ y ∈ sg, y.length = BLOCK_SIZE := by
  intro sg hsg y hy
  unfold set_blk at hsg
  rcases List.mem_or_eq_of_mem_set hsg with hm | rfl
  · exact h sg hm y hy
  · rcases List.mem_or_eq_of_mem_set hy with hm | rfl
    · by_cases hs : s < fs.data_segments.length
      · have : fs.data_segments.getD s [] ∈ fs.data_segments := by
          rw [List.getD_eq_getElem?_getD, List.getElem?_eq_getElem hs]
          exact List.getElem_mem _
        exact h _ this y hm
      · rw [List.getD_eq_getElem?_getD, List.getElem?_eq_none (by omega)] at hm
        cases hm
    · exact hx

/-- What `find_free_inode` hands out on a regular archive, whenever it returns. -/
theorem find_free_inode_facts (fs fs1 : FS) (i : Nat) (hr : Regular fs)
    (h : find_free_inode fs = .ok (i, fs1)) :
    Regular fs1 ∧ i ≠ 0 ∧ i / 256 < num_inode_segments fs1
      ∧ num_inode_segments fs ≤ num_inode_segments fs1
      ∧ fs1.data_segments = fs.data_segments
      ∧ (∃ r0, slot_at fs1 (i / 256) (i % 256) = some r0 ∧ r0.type = 0)
      ∧ (∀ s o ino, slot_at fs s o = some ino → slot_at fs1 s o = some ino)
      ∧ (∀ s o ino, slot_at fs1 s o = some ino → slot_at fs s o = some ino ∨ ino = zero_inode)
      ∧ (∀ g, referenced fs1 g → referenced fs g ∨ g = 0)
      ∧ (∀ g, referenced fs g → referenced fs1 g) := by
  obtain ⟨r, hroot, hrty⟩ := hr.root
  have hlen : 0 < fs.inode_segments.length := by
    rcases Nat.eq_zero_or_pos fs.inode_segments.length with h0 | h0
    · exfalso
      unfold slot_at at hroot
      rw [List.getElem?_eq_none (by omega)] at hroot
      cases hroot
    · exact h0
  obtain ⟨ed, ⟨e, hscan⟩ | ⟨hnone, e, en⟩⟩ := find_free_inode_ok fs fs1 i h
  · subst e
    obtain ⟨sp1, _⟩ := scan_inode_segments_spec fs1.inode_segments 0 hr.iseg
    obtain ⟨t, j, sg, ino, hm, hj, hts, hjs, hino, _⟩ := sp1 i hscan
    have h1 : i / 256 = t := by
      unfold INODES_PER_SEGMENT at hm hj
      omega
    have h2 : i % 256 = j := by
      unfold INODES_PER_SEGMENT at hm hj
      omega
    have hslot : slot_at fs1 (i / 256) (i % 256) = some ino := by
      unfold slot_at
      rw [h1, h2, hts]
      exact hjs
    refine ⟨hr, ?_, ?_, Nat.le_refl _, rfl, ⟨ino, hslot, hino⟩, fun _ _ _ hx => hx,
      fun _ _ _ hx => Or.inl hx, fun _ hg => Or.inl hg, fun _ hg => hg⟩
    · intro hi0
      subst hi0
      rw [hroot] at hslot
      cases hslot
      exact hrty hino
    · rw [h1]
      unfold num_inode_segments
      rcases Nat.lt_or_ge t fs1.inode_segments.length with hlt | hge
      · exact hlt
      · rw [List.getElem?_eq_none hge] at hts
        cases hts
  · have hroom : num_inode_segments fs < MAX_SEGMENTS := by
      by_contra hc
      rw [find_free_inode_of_full fs hnone (Nat.le_of_not_lt hc)] at h
      cases h
    have hn1 : num_inode_segments fs1 = num_inode_segments fs + 1 := by
      unfold num_inode_segments
      rw [e, List.length_append, List.length_singleton]
    have hkeep : ∀ s o ino, slot_at fs s o = some ino → slot_at fs1 s o = some ino := by
      intro s o ino hx
      have hs : s < fs.inode_segments.length := by
        rcases Nat.lt_or_ge s fs.inode_segments.length with hlt | hge
        · exact hlt
        · unfold slot_at at hx
          rw [List.getElem?_eq_none hge] at hx
          cases hx
      rw [slot_at_append_segment fs fs1 zero_inode_segment s o e hs]
      exact hx
    have hnew : ∀ s o ino, slot_at fs1 s o = some ino →
        slot_at fs s o = some ino ∨ ino = zero_inode := by
      intro s o ino hx
      rcases Nat.lt_or_ge s fs.inode_segments.length with hlt | hge
      · left
        rw [slot_at_append_segment fs fs1 zero_inode_segment s o e hlt] at hx
        exact hx
      · right
        unfold slot_at at hx
        rw [e, List.getElem?_append_right hge] at hx
        cases hk : ([zero_inode_segment] : List (List Inode))[s - fs.inode_segments.length]? with
        | none => rw [hk] at hx; cases hx
        | some sg =>
          rw [hk] at hx
          have hsg := List.mem_singleton.mp (List.getElem?_mem hk)
          subst hsg
          exact (List.mem_replicate.mp (List.getElem?_mem hx)).2
    have href : ∀ g, referenced fs1 g → referenced fs g ∨ g = 0 := by
      intro g hg
      obtain ⟨sg, hsg, ino, hino, hmem⟩ := hg
      rw [e] at hsg
      rcases List.mem_append.mp hsg with hm | hm
      · exact Or.inl ⟨sg, hm, ino, hino, hmem⟩
      · right
        rw [List.mem_singleton] at hm
        subst hm
        have hz := (List.mem_replicate.mp hino).2
        subst hz
        exact (List.mem_replicate.mp (List.mem_of_mem_take hmem)).2
    have hd : num_data_segments fs1 = num_data_segments fs := by
      unfold num_data_segments
      rw [ed]
    have hrefm : ∀ g, referenced fs g → referenced fs1 g := by
      intro g hg
      obtain ⟨sg, hsg, ino, hino, hmem⟩ := hg
      exact ⟨sg, by rw [e]; exact List.mem_append_left _ hsg, ino, hino, hmem⟩
    refine ⟨⟨⟨?_, ?_, ?_⟩, ?_, ?_, ?_, ?_, ?_⟩, ?_, ?_, ?_, ed, ?_, hkeep, hnew, href, hrefm⟩
    · rw [ed]
      exact hr.shaped.dseg
    · rw [hd]
      exact hr.shaped.nds
    · intro g hg
      rw [hd]
      rcases href g hg with h1 | h1
      · exact hr.shaped.ptrs g h1
      · have := hr.nds_pos
        omega
    · rw [hd]
      exact hr.nds_pos
    · intro sg hsg
      rw [e] at hsg
      rcases List.mem_append.mp hsg with hm | hm
      · exact hr.iseg sg hm
      · rw [List.mem_singleton] at hm
        subst hm
        unfold zero_inode_segment
        rw [List.length_replicate]
    · rw [hn1]
      omega
    · exact ⟨r, hkeep 0 0 r hroot, hrty⟩
    · rw [ed]
      exact hr.blen
    · rw [en]
      unfold INODES_PER_SEGMENT
      omega
    · rw [en, hn1]
      unfold INODES_PER_SEGMENT num_inode_segments
      have : fs.inode_segments.length * 256 / 256 = fs.inode_segments.length := by omega
      omega
    · rw [hn1]
      omega
    · refine ⟨zero_inode, ?_, rfl⟩
      rw [en]
      unfold INODES_PER_SEGMENT slot_at
      have h1 : fs.inode_segments.length * 256 / 256 = fs.inode_segments.length := by omega
      have h2 : fs.inode_segments.length * 256 % 256 = 0 := by omega
      rw [h1, h2, e, List.getElem?_append_right (Nat.le_refl _), Nat.sub_self]
      simp only [List.getElem?_cons_zero]
      unfold zero_inode_segment INODES_PER_SEGMENT
      rw [List.getElem?_replicate, if_pos (by decide)]

/-- What `find_free_block` hands out on a regular archive, whenever it returns. -/
theorem find_free_block_facts (fs fs1 : FS) (g : Nat) (hr : Regular fs)
    (h : find_free_block fs = .ok (g, fs1)) :
    Regular fs1 ∧ fs1.inode_segments = fs.inode_segments
      ∧ num_data_segments fs ≤ num_data_segments fs1
      ∧ (∀ s b x, blk_at fs s b = some x → blk_at fs1 s b = some x)
      ∧ 1 ≤ g % 256 ∧ g / 256 < num_data_segments fs1 ∧ ¬ referenced fs1 g
      ∧ blk_at fs1 (g / 256) (g % 256) = some zero_block
      ∧ (blk_at fs (g / 256) (g % 256) = some zero_block
          ∨ num_data_segments fs ≤ g / 256)
      ∧ (∀ s b x, blk_at fs1 s b = some x →
          blk_at fs s b = some x ∨ num_data_segments fs ≤ s) := by
  obtain ⟨e1, hs1, n1, keep, hg1, hg2, hnr⟩ := find_free_block_inv fs fs1 g hr.shaped h
  obtain ⟨_, hcase⟩ := find_free_block_result fs fs1 g h
  have hblen : ∀ sg ∈ fs1.data_segments, ∀ x ∈ sg, x.length = BLOCK_SIZE := by
    rcases hcase with ⟨_, e, _⟩ | ⟨_, _, e⟩
    · rw [e]
      exact hr.blen
    · rw [e]
      intro sg hsg x hx
      rcases List.mem_append.mp hsg with hm | hm
      · exact hr.blen sg hm x hx
      · rw [List.mem_singleton] at hm
        subst hm
        unfold zero_data_segment at hx
        rw [(List.mem_replicate.mp hx).2]
        unfold zero_block
        rw [List.length_replicate]
  have hreg : Regular fs1 := by
    refine ⟨hs1, by have := hr.nds_pos; omega, ?_, ?_, ?_, hblen⟩
    · rw [e1]
      exact hr.iseg
    · unfold num_inode_segments
      rw [e1]
      exact hr.nis
    · obtain ⟨r, h1, h2⟩ := hr.root
      exact ⟨r, by rw [slot_at_congr fs fs1 e1]; exact h1, h2⟩
  have hzero : blk_at fs1 (g / 256) (g % 256) = some zero_block
      ∧ (blk_at fs (g / 256) (g % 256) = some zero_block
          ∨ num_data_segments fs ≤ g / 256) := by
    rcases hcase with ⟨_, e, hb, hf⟩ | ⟨eg, _, e⟩
    · obtain ⟨i1, _⟩ := block_is_free_inv fs (g / 256) (g % 256) hb (by omega) true hf
      obtain ⟨_, blk, hblk, hz⟩ := i1 rfl
      have hz' := all_zero_eq_zero_block blk (blen_blk_at fs _ _ blk hr.blen hblk) hz
      subst hz'
      rw [e]
      exact ⟨hblk, Or.inl hblk⟩
    · have h1 : g / 256 = num_data_segments fs := by omega
      have h2 : g % 256 = 1 := by omega
      refine ⟨?_, Or.inr (by omega)⟩
      rw [h1, h2, e]
      unfold blk_at num_data_segments
      simp only
      rw [List.getElem?_append_right (Nat.le_refl _), Nat.sub_self]
      simp only [List.getElem?_cons_zero]
      exact zero_data_segment_get 1 (by omega)
  have hold : ∀ s b x, blk_at fs1 s b = some x →
      blk_at fs s b = some x ∨ num_data_segments fs ≤ s := by
    intro s b x hx
    rcases Nat.lt_or_ge s (num_data_segments fs) with hlt | hge
    · left
      rcases hcase with ⟨_, e, _⟩ | ⟨_, _, e⟩
      · rw [e] at hx
        exact hx
      · rw [e] at hx
        unfold blk_at at hx
        simp only at hx
        rw [List.getElem?_append_left hlt] at hx
        exact hx
    · exact Or.inr hge
  exact ⟨hreg, e1, n1, keep, hg1, hg2, hnr, hzero.1, hzero.2, hold⟩

theorem new_dir_direct_mem (g x : Nat) (h : x ∈ (new_dir g).direct.take DIRECT_BLOCKS) :
    x = g ∨ x = 0 := by
  have h1 := List.mem_of_mem_take h
  unfold new_dir zero_inode at h1
  simp only at h1
  rcases List.mem_or_eq_of_mem_set h1 with hm | rfl
  · exact Or.inr (List.mem_replicate.mp hm).2
  · exact Or.inl rfl

theorem new_dir_direct_head (g : Nat) : g ∈ (new_dir g).direct.take DIRECT_BLOCKS :=
  List.mem_cons_self g _

theorem Regular_set_slot (fs : FS) (hr : Regular fs) (s o : Nat) (ino old : Inode)
    (hold : slot_at fs s o = some old)
    (hp : ∀ g ∈ ino.direct.take DIRECT_BLOCKS, g < 256 * num_data_segments fs)
    (hroot : s ≠ 0 ∨ o ≠ 0) : Regular (set_slot fs s o ino) := by
  have hs : s < fs.inode_segments.length := by
    rcases Nat.lt_or_ge s fs.inode_segments.length with hlt | hge
    · exact hlt
    · unfold slot_at at hold
      rw [List.getElem?_eq_none hge] at hold
      cases hold
  refine ⟨Shaped_set_slot fs hr.shaped s o ino hp, hr.nds_pos, ?_, ?_, ?_, hr.blen⟩
  · intro sg hsg
    unfold set_slot at hsg
    rcases List.mem_or_eq_of_mem_set hsg with hm | rfl
    · exact hr.iseg sg hm
    · rw [List.length_set]
      apply hr.iseg
      rw [List.getD_eq_getElem?_getD, List.getElem?_eq_getElem hs]
      exact List.getElem_mem _
  · rw [num_inode_segments_set_slot]
    exact hr.nis
  · obtain ⟨r, h1, h2⟩ := hr.root
    exact ⟨r, by rw [slot_at_set_slot_other fs s o ino 0 0 (hroot.imp Ne.symm Ne.symm)]; exact h1,
      h2⟩

theorem Regular_set_blk (fs : FS) (hr : Regular fs) (s b : Nat) (x : List Nat)
    (hx : x.length = BLOCK_SIZE) : Regular (set_blk fs s b x) := by
  refine ⟨Shaped_set_blk fs hr.shaped s b x, ?_, hr.iseg, hr.nis, hr.root,
    blen_set_blk fs s b x hr.blen hx⟩
  rw [num_data_segments_set_blk]
  exact hr.nds_pos

theorem dir_find_cast_zero_block (c : List Nat) :
    dir_find_cast zero_block c BLOCK_SIZE 0 = .ok none := by
  have h := read_slot_zeroed []
  rw [List.append_nil] at h
  show dir_find_cast zero_block c (4095 + 1) 0 = .ok none
  rw [dir_find_cast, if_pos (by decide), h]

/-- The block a directory inode of a regular archive names in `direct[0]`. -/
theorem dir_block_number (fs : FS) (hr : Regular fs) (s o : Nat) (ino : Inode)
    (bseg boff : Int) (hslot : slot_at fs s o = some ino)
    (hb : get_segment_and_block_offset fs (toInt32 (ino.direct.getD 0 0)) = .ok (bseg, boff)) :
    ∃ d, bseg.toNat = d / 256 ∧ boff.toNat = d % 256 ∧ (d = 0 ∨ referenced fs d) := by
  cases hd : ino.direct with
  | nil =>
    rw [hd] at hb
    have e : toInt32 (([] : List Nat).getD 0 0) = 0 := by decide
    rw [e] at hb
    unfold get_segment_and_block_offset at hb
    rw [if_pos rfl] at hb
    cases hb
    exact ⟨0, rfl, rfl, Or.inl rfl⟩
  | cons d ds =>
    have hmem : d ∈ ino.direct.take DIRECT_BLOCKS := by
      rw [hd]
      exact List.mem_cons_self _ _
    have href := referenced_of_slot fs s o ino d hslot hmem
    have hlt := hr.shaped.ptrs d href
    have hn : num_data_segments fs ≤ 1024 := hr.shaped.nds
    rw [hd] at hb
    have e : (d :: ds).getD 0 0 = d := rfl
    rw [e, toInt32_of_lt d (by omega), gsbo_nat fs d hlt] at hb
    cases hb
    exact ⟨d, Int.toNat_ofNat _, Int.toNat_ofNat _, Or.inr href⟩

/-- One pass of the loop of `find_or_create_path` that creates the directory `c`:
the archive stays regular, extends the one before, resolves `c` in the directory `cur`
to the new inode `i`, and `i` is an empty directory in a block that held only zeros and
that no other inode record lists. -/
theorem create_step (fs fs1 fs2 fs3 fs4 : FS) (cur i g t : Nat) (c : List Nat)
    (seg off bseg boff : Int) (ino : Inode) (block block1 : List Nat)
    (hr : Regular fs)
    (hg : get_segment_and_inode_offset fs (toInt32 cur) = .ok (seg, off))
    (hi : read_inode fs seg off = .ok ino) (hty : ino.type = TYPE_DIR)
    (hb : get_segment_and_block_offset fs (toInt32 (ino.direct.getD 0 0)) = .ok (bseg, boff))
    (hrd : read_block fs bseg boff = .ok block)
    (hnone : dir_find_cast block c BLOCK_SIZE 0 = .ok none)
    (hend : dir_end_offset block BLOCK_SIZE 0 = .ok t) (hfit : t + 5 + c.length + 1 ≤ 4096)
    (hc1 : 1 ≤ c.length) (hc2 : c.length ≤ 255)
    (hfi : find_free_inode fs = .ok (i, fs1)) (hfb : find_free_block fs1 = .ok (g, fs2))
    (hwi : write_inode fs2 ((i / 256 : Nat) : Int) ((i % 256 : Nat) : Int) (new_dir g)
      = .ok fs3)
    (hins : insert_entry block i c BLOCK_SIZE 0 = .ok block1)
    (hwb : write_block fs3 bseg boff block1 = .ok fs4) :
    Regular fs4 ∧ Ext fs fs4
      ∧ (get_segment_and_inode_offset fs4 (toInt32 cur) = .ok (seg, off)
          ∧ read_inode fs4 seg off = .ok ino
          ∧ get_segment_and_block_offset fs4 (toInt32 (ino.direct.getD 0 0))
              = .ok (bseg, boff)
          ∧ read_block fs4 bseg boff = .ok block1
          ∧ dir_find_cast block1 c BLOCK_SIZE 0 = .ok (some i))
      ∧ (∀ rest : List (List Nat), (∀ x ∈ rest, x.length ≤ 255) → path_dirs fs4 i rest)
      ∧ slot_at fs4 (i / 256) (i % 256) = some (new_dir g)
      ∧ (∀ s o r, slot_at fs4 s o = some r → (s ≠ i / 256 ∨ o ≠ i % 256) →
          (slot_at fs s o = some r ∨ r = zero_inode) ∧ g ∉ r.direct.take DIRECT_BLOCKS)
      ∧ 1 ≤ g % 256
      ∧ (blk_at fs (g / 256) (g % 256) = some zero_block ∨ num_data_segments fs ≤ g / 256)
      ∧ (∀ s o r, slot_at fs s o = some r → g ∉ r.direct.take DIRECT_BLOCKS)
      ∧ (∀ s b, blk_at fs4 s b = some zero_block →
          blk_at fs s b = some zero_block ∨ num_data_segments fs ≤ s) := by
  obtain ⟨hr1, hi0, hilt, hn01, hd01, ⟨r0, hr0, hr0ty⟩, hkeep1, hnew1, _, hrefm1⟩ :=
    find_free_inode_facts fs fs1 i hr hfi
  obtain ⟨hr2, hi12, hn12, hkeep2, hg1, hglt, hnref, hgz2, hgz1, hold2⟩ :=
    find_free_block_facts fs1 fs2 g hr1 hfb
  have hnd01 : num_data_segments fs1 = num_data_segments fs := by
    unfold num_data_segments
    rw [hd01]
  have hni12 : num_inode_segments fs2 = num_inode_segments fs1 := by
    unfold num_inode_segments
    rw [hi12]
  have hr0' : slot_at fs2 (i / 256) (i % 256) = some r0 := by
    rw [slot_at_congr fs1 fs2 hi12]
    exact hr0
  have e3 : fs3 = set_slot fs2 (i / 256) (i % 256) (new_dir g) := by
    have hw := write_inode_nat fs2 (i / 256) (i % 256) r0 (new_dir g) hr0'
    rw [hw] at hwi
    exact (Except.ok.inj hwi).symm
  subst e3
  obtain ⟨hs0, ho0, hslot⟩ := read_inode_ok_int fs seg off ino hi
  obtain ⟨hb0, hb1, hblk⟩ := read_block_ok_int fs bseg boff block hrd
  have hblen : block.length = BLOCK_SIZE := blen_blk_at fs _ _ block hr.blen hblk
  have hnis1 : num_inode_segments fs1 ≤ 1024 := hr1.nis
  have hnds2 : num_data_segments fs2 ≤ 1024 := hr2.shaped.nds
  have hnds2p := hr2.nds_pos
  have hi31 : i < 2147483648 := by omega
  have hg31 : g < 2147483648 := by omega
  obtain ⟨hb1len, hb1nz, hb1keep, hb1new⟩ :=
    insert_entry_result block c block1 i t hblen hi0 (by omega) hc1 hc2 hend hfit hins
  have hblk2 : blk_at fs2 bseg.toNat boff.toNat = some block :=
    hkeep2 _ _ _ (by rw [blk_at_congr fs fs1 hd01]; exact hblk)
  have hblk3 : blk_at (set_slot fs2 (i / 256) (i % 256) (new_dir g)) bseg.toNat boff.toNat
      = some block := hblk2
  obtain ⟨_, _, old, hold, e4⟩ := write_block_ok_int _ fs4 bseg boff block1 hwb
  have hob : some block = some old := hblk3.symm.trans hold
  cases hob
  have e4' : fs4 = set_blk (set_slot fs2 (i / 256) (i % 256) (new_dir g))
      bseg.toNat boff.toNat block1 := by
    rw [e4, List.drop_of_length_le (by rw [hb1len, hblen]), List.append_nil]
  clear e4 hwb hold
  subst e4'
  obtain ⟨d, hd1, hd2, hd3⟩ := dir_block_number fs hr _ _ ino bseg boff hslot hb
  have hdg : d ≠ g := by
    rcases hd3 with h0 | hrf
    · omega
    · intro e
      subst e
      exact hnref ((referenced_congr fs1 fs2 hi12 d).mpr (hrefm1 d hrf))
  have hne : g / 256 ≠ bseg.toNat ∨ g % 256 ≠ boff.toNat := by omega
  have hR3 : Regular (set_slot fs2 (i / 256) (i % 256) (new_dir g)) :=
    Regular_set_slot fs2 hr2 _ _ (new_dir g) r0 hr0'
      (fun x hx => by rcases new_dir_direct_mem g x hx with h | h <;> omega) (by omega)
  have hR4 := Regular_set_blk _ hR3 bseg.toNat boff.toNat block1 hb1len
  have hS1 : slot_at (set_blk (set_slot fs2 (i / 256) (i % 256) (new_dir g))
      bseg.toNat boff.toNat block1) (i / 256) (i % 256) = some (new_dir g) :=
    slot_at_set_slot_same fs2 (i / 256) (i % 256) (new_dir g) r0 hr0'
  have hnis4 : num_inode_segments (set_blk (set_slot fs2 (i / 256) (i % 256) (new_dir g))
      bseg.toNat boff.toNat block1) = num_inode_segments fs1 := by
    rw [← hni12]
    exact num_inode_segments_set_slot fs2 _ _ _
  have hnds4 : num_data_segments (set_blk (set_slot fs2 (i / 256) (i % 256) (new_dir g))
      bseg.toNat boff.toNat block1) = num_data_segments fs2 :=
    num_data_segments_set_blk _ _ _ _
  have hblk4 : blk_at (set_blk (set_slot fs2 (i / 256) (i % 256) (new_dir g))
      bseg.toNat boff.toNat block1) bseg.toNat boff.toNat = some block1 :=
    blk_at_set_blk_same _ _ _ block1 block hblk3
  have hE : Ext fs (set_blk (set_slot fs2 (i / 256) (i % 256) (new_dir g))
      bseg.toNat boff.toNat block1) := by
    refine ⟨?_, by omega, by omega, ?_⟩
    · intro s o r hx hty'
      have h1 := hkeep1 s o r hx
      have hne' : s ≠ i / 256 ∨ o ≠ i % 256 := by
        by_contra hcon
        have hso : s = i / 256 ∧ o = i % 256 := by omega
        obtain ⟨rfl, rfl⟩ := hso
        rw [hr0] at h1
        cases h1
        exact hty' hr0ty
      show slot_at (set_slot fs2 (i / 256) (i % 256) (new_dir g)) s o = some r
      rw [slot_at_set_slot_other fs2 _ _ _ s o hne', slot_at_congr fs1 fs2 hi12]
      exact h1
    · intro s b blk hx
      by_cases hsb : s = bseg.toNat ∧ b = boff.toNat
      · obtain ⟨rfl, rfl⟩ := hsb
        rw [hblk] at hx
        cases hx
        exact ⟨block1, hblk4, Or.inr hb1nz, hb1keep⟩
      · refine ⟨blk, ?_, Or.inl rfl, fun _ _ h => h⟩
        rw [blk_at_set_blk_other _ _ _ _ s b (by omega)]
        exact hkeep2 _ _ _ (by rw [blk_at_congr fs fs1 hd01]; exact hx)
  have hgs : get_segment_and_inode_offset (set_blk (set_slot fs2 (i / 256) (i % 256)
      (new_dir g)) bseg.toNat boff.toNat block1) (toInt32 i)
      = .ok (((i / 256 : Nat) : Int), ((i % 256 : Nat) : Int)) := by
    rw [toInt32_of_lt i hi31]
    exact gsio_nat _ i (by omega)
  have hri : read_inode (set_blk (set_slot fs2 (i / 256) (i % 256) (new_dir g))
      bseg.toNat boff.toNat block1) ((i / 256 : Nat) : Int) ((i % 256 : Nat) : Int)
      = .ok (new_dir g) :=
    read_inode_of_slot_at _ _ _ _ (by omega) (by omega)
      (by rw [Int.toNat_ofNat, Int.toNat_ofNat]; exact hS1)
  have hgb : get_segment_and_block_offset (set_blk (set_slot fs2 (i / 256) (i % 256)
      (new_dir g)) bseg.toNat boff.toNat block1) (toInt32 ((new_dir g).direct.getD 0 0))
      = .ok (((g / 256 : Nat) : Int), ((g % 256 : Nat) : Int)) := by
    show get_segment_and_block_offset _ (toInt32 g) = _
    rw [toInt32_of_lt g hg31]
    exact gsbo_nat _ g (by omega)
  have hrb : read_block (set_blk (set_slot fs2 (i / 256) (i % 256) (new_dir g))
      bseg.toNat boff.toNat block1) ((g / 256 : Nat) : Int) ((g % 256 : Nat) : Int)
      = .ok zero_block := by
    apply read_block_of_blk_at _ _ _ _ (by omega) (by omega)
    rw [Int.toNat_ofNat, Int.toNat_ofNat, blk_at_set_blk_other _ _ _ _ _ _ hne]
    exact hgz2
  refine ⟨hR4, hE, ⟨gsio_mono fs _ _ _ _ hg (by omega), ?_, gsbo_mono fs _ _ _ _ hb (by omega),
    read_block_of_blk_at _ _ _ _ hb0 hb1 hblk4, hb1new hnone⟩, ?_, hS1, ?_, hg1, ?_, ?_, ?_⟩
  · exact read_inode_of_slot_at _ seg off ino hs0 ho0
      (hE.1 _ _ _ hslot (by rw [hty]; decide))
  · intro rest hrest
    cases rest with
    | nil =>
      rw [path_dirs]
      exact ⟨hi31, _, _, _, hgs, hri, rfl⟩
    | cons c2 r2 =>
      rw [path_dirs]
      have h2 := hrest c2 (List.mem_cons_self _ _)
      exact ⟨_, _, _, _, _, _, hgs, hri, rfl, hgb, hrb,
        Or.inr ⟨dir_find_cast_zero_block c2, 0, dir_end_offset_zero_block, by omega⟩⟩
  · intro s o r hx hso
    have hx2 : slot_at fs2 s o = some r := by
      rw [← slot_at_set_slot_other fs2 (i / 256) (i % 256) (new_dir g) s o hso]
      exact hx
    have hx1 : slot_at fs1 s o = some r := by
      rw [← slot_at_congr fs1 fs2 hi12]
      exact hx2
    exact ⟨hnew1 s o r hx1, fun hm => hnref (referenced_of_slot fs2 s o r g hx2 hm)⟩
  · rcases hgz1 with h | h
    · left
      rw [← blk_at_congr fs fs1 hd01]
      exact h
    · right
      omega
  · intro s o r hx hm
    have hx2 : slot_at fs2 s o = some r := by
      rw [slot_at_congr fs1 fs2 hi12]
      exact hkeep1 s o r hx
    exact hnref (referenced_of_slot fs2 s o r g hx2 hm)
  · intro s b hx
    by_cases hsb : s = bseg.toNat ∧ b = boff.toNat
    · obtain ⟨rfl, rfl⟩ := hsb
      rw [hblk4] at hx
      cases hx
      rw [all_zero_zero_block] at hb1nz
      cases hb1nz
    · rw [blk_at_set_blk_other _ _ _ _ s b (by omega)] at hx
      rcases hold2 s b zero_block hx with h | h
      · left
        rw [← blk_at_congr fs fs1 hd01]
        exact h
      · right
        omega

/-- Composition of the record of created directories over one creating pass. -/
theorem created_dirs_step (fs fs4 fs' : FS) (i g : Nat) (hE : Ext fs fs4)
    (S1 : slot_at fs4 (i / 256) (i % 256) = some (new_dir g))
    (S2 : ∀ s o r, slot_at fs4 s o = some r → (s ≠ i / 256 ∨ o ≠ i % 256) →
      (slot_at fs s o = some r ∨ r = zero_inode) ∧ g ∉ r.direct.take DIRECT_BLOCKS)
    (G1 : 1 ≤ g % 256)
    (G2 : blk_at fs (g / 256) (g % 256) = some zero_block ∨ num_data_segments fs ≤ g / 256)
    (G3 : ∀ s o r, slot_at fs s o = some r → g ∉ r.direct.take DIRECT_BLOCKS)
    (S4 : ∀ s b, blk_at fs4 s b = some zero_block →
      blk_at fs s b = some zero_block ∨ num_data_segments fs ≤ s)
    (hC : created_dirs fs4 fs') : created_dirs fs fs' := by
  intro s o ino hx
  rcases hC s o ino hx with h4 | hz | ⟨g', e, a1, a2, a3, a4⟩
  · by_cases hso : s = i / 256 ∧ o = i % 256
    · obtain ⟨rfl, rfl⟩ := hso
      rw [S1] at h4
      cases h4
      refine Or.inr (Or.inr ⟨g, rfl, G1, G2, fun s1 o1 r h1 _ => G3 s1 o1 r h1, ?_⟩)
      intro s1 o1 r h1 hm
      rcases hC s1 o1 r h1 with k4 | kz | ⟨g'', e', _, _, b3, _⟩
      · by_contra hcon
        exact (S2 s1 o1 r k4 (by omega)).2 hm
      · subst kz
        have := (List.mem_replicate.mp (List.mem_of_mem_take hm)).2
        omega
      · subst e'
        rcases new_dir_direct_mem g'' g hm with h | h
        · subst h
          exact absurd (new_dir_direct_head g) (b3 _ _ _ S1 (show (2 : Nat) ≠ 0 by decide))
        · omega
    · rcases (S2 s o ino h4 (by omega)).1 with h | h
      · exact Or.inl h
      · exact Or.inr (Or.inl h)
  · exact Or.inr (Or.inl hz)
  · refine Or.inr (Or.inr ⟨g', e, a1, ?_, ?_, a4⟩)
    · rcases a2 with h | h
      · exact S4 _ _ h
      · exact Or.inr (Nat.le_trans hE.2.2.1 h)
    · intro s1 o1 r h1 hty hm
      exact a3 s1 o1 r (hE.1 s1 o1 r h1 hty) hty hm

/-- The loop of `find_or_create_path` on a regular archive whose directories along the
tokens are as `path_dirs` asks: whenever it returns `n`, the archive left is regular and
extends the one before, `find_inode_loop` over the same tokens returns `n`, inode `n` is a
directory, and the inode table changed only by the records of created directories. -/
theorem create_path_loop_spec : ∀ (toks : List (List Nat)) (fs : FS) (cur n : Nat) (fs' : FS),
    Regular fs → path_dirs fs cur toks → (∀ c ∈ toks, 1 ≤ c.length ∧ c.length ≤ 255) →
    create_path_loop fs cur toks = .ok (n, fs') →
    Regular fs' ∧ Ext fs fs' ∧ find_inode_loop fs' cur toks = .ok (n : Int)
      ∧ path_dirs fs' n [] ∧ created_dirs fs fs' := by
  intro toks
  induction toks with
  | nil =>
    intro fs cur n fs' hr hp _ h
    rw [create_path_loop] at h
    cases h
    have hp' := hp
    rw [path_dirs] at hp'
    refine ⟨hr, Ext_refl fs, ?_, hp, fun s o ino hx => Or.inl hx⟩
    rw [find_inode_loop, toInt32_of_lt _ hp'.1]
  | cons c rest ih =>
    intro fs cur n fs' hr hp hlen h
    rw [path_dirs] at hp
    obtain ⟨seg, off, ino, bseg, boff, block, hg, hi, hty, hb, hrd, hcase⟩ := hp
    rw [create_path_loop, hg] at h
    simp only at h
    rw [hi] at h
    simp only at h
    rw [hb] at h
    simp only at h
    rw [hrd] at h
    simp only at h
    rcases hcase with ⟨next, hf, hnext⟩ | ⟨hnone, t, hend, hfit⟩
    · rw [hf] at h
      simp only at h
      obtain ⟨r1, e1, f1, p1, c1⟩ := ih fs next n fs' hr hnext
        (fun x hx => hlen x (List.mem_cons_of_mem _ hx)) h
      exact ⟨r1, e1, find_inode_loop_step fs fs' cur next c rest seg off bseg boff ino block _
        e1 hg hi hty hb hrd hf f1, p1, c1⟩
    · rw [hnone] at h
      simp only at h
      split at h
      · cases h
      · rename_i i fs1 hfi
        split at h
        · cases h
        · rename_i g fs2 hfb
          split at h
          · cases h
          · rename_i fs3 hwi
            split at h
            · cases h
            · rename_i block1 hins
              split at h
              · cases h
              · rename_i fs4 hwb
                obtain ⟨hc1, hc2⟩ := hlen c (List.mem_cons_self _ _)
                obtain ⟨R4, E4, ⟨g4, i4, b4, rb4, f4⟩, pd4, S1, S2, G1, G2, G3, S4⟩ :=
                  create_step fs fs1 fs2 fs3 fs4 cur i g t c seg off bseg boff ino block block1
                    hr hg hi hty hb hrd hnone hend hfit hc1 hc2 hfi hfb hwi hins hwb
                obtain ⟨r1, e1, f1, p1, c1⟩ := ih fs4 i n fs' R4
                  (pd4 rest (fun x hx => (hlen x (List.mem_cons_of_mem _ hx)).2))
                  (fun x hx => hlen x (List.mem_cons_of_mem _ hx)) h
                exact ⟨r1, Ext_trans fs fs4 fs' E4 e1,
                  find_inode_loop_step fs4 fs' cur i c rest seg off bseg boff ino block1 _
                    e1 g4 i4 hty b4 rb4 f4 f1, p1,
                  created_dirs_step fs fs4 fs' i g E4 S1 S2 G1 G2 G3 S4 c1⟩

theorem Regular_fresh : Regular fresh := by
  have hs := slot_at_fresh_table fresh rfl
  refine ⟨Shaped_fresh, ?_, ?_, ?_, ⟨root_inode, hs.1, by decide⟩, ?_⟩
  · rw [fresh_eq]
    exact Nat.one_pos
  · intro sg hsg
    rw [fresh_eq] at hsg
    rw [List.mem_singleton.mp hsg, List.length_set]
    unfold zero_inode_segment
    rw [List.length_replicate]
  · rw [hs.2.2]
    decide
  · intro sg hsg x hx
    rw [fresh_eq] at hsg
    rw [List.mem_singleton.mp hsg] at hx
    unfold zero_data_segment at hx
    rw [(List.mem_replicate.mp hx).2]
    unfold zero_block
    rw [List.length_replicate]

/-- On a fresh archive the root directory is empty: any first component of at most 255
bytes has no entry and there is room for one. -/
theorem path_dirs_fresh (c : List Nat) (rest : List (List Nat)) (hc : c.length ≤ 255) :
    path_dirs fresh 0 (c :: rest) := by
  have h := root_block_steps zero_block
  rw [set_blk_self fresh 0 0 zero_block blk_at_fresh_zero] at h
  rw [path_dirs]
  exact ⟨0, 0, root_inode, 0, 0, zero_block, h.1, h.2.1, rfl, h.2.2.1, h.2.2.2,
    Or.inr ⟨dir_find_cast_zero_block c, 0, dir_end_offset_zero_block, by omega⟩⟩

theorem join_path_append (a b : List (List Nat)) :
    join_path (a ++ b) = join_path a ++ join_path b := by
  unfold join_path
  rw [List.map_append, List.flatten_append]

/-! ## Walks over a block that starts with given records -/

theorem records_cons (e : Nat × List Nat) (es : List (Nat × List Nat)) :
    records (e :: es) = entry_bytes e.1 e.2 ++ records es := by
  unfold records
  rw [List.map_cons, List.flatten_cons]

theorem records_append (es1 es2 : List (Nat × List Nat)) :
    records (es1 ++ es2) = records es1 ++ records es2 := by
  unfold records
  rw [List.map_append, List.flatten_append]

theorem records_replicate (k m : Nat) (name : List Nat) :
    records (List.replicate k (m, name)) = (List.replicate k (entry_bytes m name)).flatten := by
  unfold records
  rw [List.map_replicate]

theorem records_length_replicate (k m : Nat) (name : List Nat) (h : name.length ≤ 255) :
    (records (List.replicate k (m, name))).length = k * (6 + name.length) := by
  induction k with
  | zero => simp [records]
  | succ k ih =>
    rw [List.replicate_succ, records_cons]
    simp only
    rw [List.length_append, ih, entry_bytes_length, Nat.mod_eq_of_lt (by omega), Nat.succ_mul]
    omega

/-- A record header that does not fit into the block is read past the block end. -/
theorem read_slot_near_end (b : List Nat) (o : Nat) (h : BLOCK_SIZE < o + 4) :
    read_slot b o = .error .undefined_behaviour := by
  unfold read_slot
  rw [if_pos h]

/-- The decomposition of a block around its first listed record. -/
theorem block_at_record (B A rest : List Nat) (e : Nat × List Nat)
    (es : List (Nat × List Nat)) (hB : B = A ++ records (e :: es) ++ rest)
    (h1 : e.1 ≠ 0) (h2 : e.1 < 4294967296) (h3 : 1 ≤ e.2.length) (h4 : e.2.length ≤ 255)
    (hfit : A.length + (records (e :: es)).length ≤ BLOCK_SIZE) :
    B = (A ++ entry_bytes e.1 e.2) ++ records es ++ rest
      ∧ (A ++ entry_bytes e.1 e.2).length = A.length + (4 + 1 + e.2.length + 1)
      ∧ A.length < BLOCK_SIZE
      ∧ read_slot B A.length = .ok (.entry e.1 e.2.length)
      ∧ ((B.drop (A.length + 5)).take e.2.length) = e.2
      ∧ (A ++ entry_bytes e.1 e.2).length + (records es).length ≤ BLOCK_SIZE
      ∧ A.length + (records (e :: es)).length
          = (A ++ entry_bytes e.1 e.2).length + (records es).length := by
  have hE : (entry_bytes e.1 e.2).length = 4 + 1 + e.2.length + 1 := by
    rw [entry_bytes_length, Nat.mod_eq_of_lt (by omega)]
    omega
  have hB1 : B = A ++ entry_bytes e.1 e.2 ++ (records es ++ rest) := by
    rw [hB, records_cons]
    simp only [List.append_assoc]
  have hB2 : B = (A ++ entry_bytes e.1 e.2) ++ records es ++ rest := by
    rw [hB1]
    simp only [List.append_assoc]
  rw [records_cons, List.length_append, hE] at hfit
  refine ⟨hB2, by rw [List.length_append, hE], by omega, ?_, ?_, ?_, ?_⟩
  · rw [hB1]
    exact read_slot_appended A _ e.2 e.1 h1 h2 h3 h4 (by omega)
  · rw [hB1]
    exact name_appended A _ e.2 e.1 h4
  · rw [List.length_append, hE]
    omega
  · rw [records_cons, List.length_append, List.length_append, hE]
    omega

/-- The walk for the end of the entry list passes the listed records. -/
theorem dir_end_offset_skip (B : List Nat) :
    ∀ (es : List (Nat × List Nat)) (A rest : List Nat) (fuel : Nat),
      B = A ++ records es ++ rest →
      (∀ e ∈ es, e.1 ≠ 0 ∧ e.1 < 4294967296 ∧ 1 ≤ e.2.length ∧ e.2.length ≤ 255) →
      A.length + (records es).length ≤ BLOCK_SIZE →
      dir_end_offset B (fuel + es.length) A.length
        = dir_end_offset B fuel (A.length + (records es).length) := by
  intro es
  induction es with
  | nil =>
    intro A rest fuel _ _ _
    simp [records]
  | cons e es ih =>
    intro A rest fuel hB hok hfit
    obtain ⟨h1, h2, h3, h4⟩ := hok e (List.mem_cons_self _ _)
    obtain ⟨hB2, hlen, hlt, hslot, _, hfit2, hsum⟩ :=
      block_at_record B A rest e es hB h1 h2 h3 h4 hfit
    rw [List.length_cons, ← Nat.add_assoc, dir_end_offset, if_pos hlt, hslot]
    simp only
    rw [← hlen, hsum]
    exact ih (A ++ entry_bytes e.1 e.2) rest fuel hB2
      (fun x hx => hok x (List.mem_cons_of_mem _ hx)) hfit2

/-- The entry list of a block that starts with the records of `es` starts with `es`. -/
theorem entry_list_skip (B : List Nat) :
    ∀ (es : List (Nat × List Nat)) (A rest : List Nat) (fuel : Nat),
      B = A ++ records es ++ rest →
      (∀ e ∈ es, e.1 ≠ 0 ∧ e.1 < 4294967296 ∧ 1 ≤ e.2.length ∧ e.2.length ≤ 255) →
      A.length + (records es).length ≤ BLOCK_SIZE →
      entry_list B (fuel + es.length) A.length
        = es ++ entry_list B fuel (A.length + (records es).length) := by
  intro es
  induction es with
  | nil =>
    intro A rest fuel _ _ _
    simp [records]
  | cons e es ih =>
    intro A rest fuel hB hok hfit
    obtain ⟨h1, h2, h3, h4⟩ := hok e (List.mem_cons_self _ _)
    obtain ⟨hB2, hlen, hlt, hslot, hname, hfit2, hsum⟩ :=
      block_at_record B A rest e es hB h1 h2 h3 h4 hfit
    rw [List.length_cons, ← Nat.add_assoc, entry_list, if_pos hlt, hslot]
    simp only
    rw [hname, ← hlen, hsum, ih (A ++ entry_bytes e.1 e.2) rest fuel hB2
      (fun x hx => hok x (List.mem_cons_of_mem _ hx)) hfit2]
    rfl

/-- A name whose first byte differs from the first byte of the entry name does not pass
the `strncmp` test. -/
theorem strncmp_first_differs (buf name c : List Nat) (a c0 : Nat) (as cs : List Nat)
    (hn : name = a :: as) (hc : c = c0 :: cs) (hne : a ≠ c0)
    (hbuf : buf.take name.length = name) :
    strncmp_eq buf c name.length = .ok false := by
  rw [← strncmp_eq_take c buf name.length, hbuf]
  subst hn
  subst hc
  rw [List.length_cons, strncmp_eq, if_neg hne]

/-- The lookup of `find_inode_by_path` passes listed records whose names start with another
byte than the name looked for. -/
theorem dir_find_cast_skip (B c : List Nat) (c0 : Nat) (cs : List Nat) (hc : c = c0 :: cs) :
    ∀ (es : List (Nat × List Nat)) (A rest : List Nat) (fuel : Nat),
      B = A ++ records es ++ rest →
      (∀ e ∈ es, e.1 ≠ 0 ∧ e.1 < 4294967296 ∧ 1 ≤ e.2.length ∧ e.2.length ≤ 255
        ∧ ∃ a as, e.2 = a :: as ∧ a ≠ c0) →
      A.length + (records es).length ≤ BLOCK_SIZE →
      dir_find_cast B c (fuel + es.length) A.length
        = dir_find_cast B c fuel (A.length + (records es).length) := by
  intro es
  induction es with
  | nil =>
    intro A rest fuel _ _ _
    simp [records]
  | cons e es ih =>
    intro A rest fuel hB hok hfit
    obtain ⟨h1, h2, h3, h4, a, as, hn, hne⟩ := hok e (List.mem_cons_self _ _)
    obtain ⟨hB2, hlen, hlt, hslot, hname, hfit2, hsum⟩ :=
      block_at_record B A rest e es hB h1 h2 h3 h4 hfit
    rw [List.length_cons, ← Nat.add_assoc, dir_find_cast, if_pos hlt, hslot]
    simp only
    rw [strncmp_first_differs _ e.2 c a c0 as cs hn hc hne hname]
    simp only
    rw [← hlen, hsum]
    exact ih (A ++ entry_bytes e.1 e.2) rest fuel hB2
      (fun x hx => hok x (List.mem_cons_of_mem _ hx)) hfit2

/-- The lookup of `run_extract` and `run_remove` passes listed records whose names start
with another byte than the name looked for. -/
theorem dir_find_exact_skip (B c : List Nat) (c0 : Nat) (cs : List Nat) (hc : c = c0 :: cs) :
    ∀ (es : List (Nat × List Nat)) (A rest : List Nat) (fuel : Nat),
      B = A ++ records es ++ rest →
      (∀ e ∈ es, e.1 ≠ 0 ∧ e.1 < 4294967296 ∧ 1 ≤ e.2.length ∧ e.2.length ≤ 255
        ∧ ∃ a as, e.2 = a :: as ∧ a ≠ c0) →
      A.length + (records es).length ≤ BLOCK_SIZE →
      dir_find_exact B c (fuel + es.length) A.length
        = dir_find_exact B c fuel (A.length + (records es).length) := by
  intro es
  induction es with
  | nil =>
    intro A rest fuel _ _ _
    simp [records]
  | cons e es ih =>
    intro A rest fuel hB hok hfit
    obtain ⟨h1, h2, h3, h4, a, as, hn, hne⟩ := hok e (List.mem_cons_self _ _)
    obtain ⟨hB2, hlen, hlt, hslot, hname, hfit2, hsum⟩ :=
      block_at_record B A rest e es hB h1 h2 h3 h4 hfit
    have hrec := ih (A ++ entry_bytes e.1 e.2) rest fuel hB2
      (fun x hx => hok x (List.mem_cons_of_mem _ hx)) hfit2
    rw [List.length_cons, ← Nat.add_assoc, dir_find_exact, if_pos hlt, hslot]
    simp only
    rw [← hlen, hsum]
    split
    · rw [strncmp_first_differs _ e.2 c a c0 as cs hn hc hne hname]
      exact hrec
    · exact hrec

/-! ## Commands on a fresh archive with a given root block -/

theorem slot_at_fresh_two (fs : FS) (h : fs.inode_segments = fresh.inode_segments) :
    slot_at fs 0 2 = some zero_inode := by
  unfold slot_at
  rw [h]
  decide!

theorem c_string_at_fault (b : List Nat) (o : Nat) (e : Fault)
    (h : c_string_at b o = .error e) : e = .undefined_behaviour := by
  unfold c_string_at at h
  split at h
  · cases h
    rfl
  · cases h

/-- Walks that stand at offset 4094 read the `inode_num` field past the block end. -/
theorem walks_at_4094 (b : List Nat) (fuel : Nat) :
    read_slot b 4094 = .error .undefined_behaviour
      ∧ dir_end_offset b (fuel + 1) 4094 = .error .undefined_behaviour
      ∧ entry_list b fuel 4094 = []
      ∧ (∀ c, dir_find_cast b c (fuel + 1) 4094 = .error .undefined_behaviour)
      ∧ (∀ c, dir_find_exact b c (fuel + 1) 4094 = .error .undefined_behaviour)
      ∧ ∀ descend depth visited,
          list_entries descend b depth (fuel + 1) 4094 visited = .error .undefined_behaviour := by
  have hs := read_slot_near_end b 4094 (by decide)
  have hlt : 4094 < BLOCK_SIZE := by decide
  refine ⟨hs, ?_, ?_, ?_, ?_, ?_⟩
  · rw [dir_end_offset, if_pos hlt, hs]
  · cases fuel with
    | zero => rfl
    | succ fuel => rw [entry_list, if_pos hlt, hs]
  · intro c
    rw [dir_find_cast, if_pos hlt, hs]
  · intro c
    rw [dir_find_exact, if_pos hlt, hs]
  · intro descend depth visited
    rw [list_entries, if_pos hlt, hs]

/-- The listing loop passes listed records whose inodes the recursive call accepts, and
ends with the fault of the walk behind them. -/
theorem list_entries_skip_fault
    (descend : Nat → Nat → List Nat → Except Fault (List Nat × List Nat))
    (B : List Nat) (depth : Nat) :
    ∀ (es : List (Nat × List Nat)) (A rest : List Nat) (fuel : Nat),
      B = A ++ records es ++ rest →
      (∀ e ∈ es, e.1 ≠ 0 ∧ e.1 < 4294967296 ∧ 1 ≤ e.2.length ∧ e.2.length ≤ 255) →
      A.length + (records es).length ≤ BLOCK_SIZE →
      (∀ e ∈ es, ∀ d v, ∃ r, descend e.1 d v = .ok r) →
      (∀ v, list_entries descend B depth fuel (A.length + (records es).length) v
        = .error .undefined_behaviour) →
      ∀ v, list_entries descend B depth (fuel + es.length) A.length v
        = .error .undefined_behaviour := by
  intro es
  induction es with
  | nil =>
    intro A rest fuel _ _ _ _ hend v
    have := hend v
    simpa [records] using this
  | cons e es ih =>
    intro A rest fuel hB hok hfit hdesc hend v
    obtain ⟨h1, h2, h3, h4⟩ := hok e (List.mem_cons_self _ _)
    obtain ⟨hB2, hlen, hlt, hslot, _, hfit2, hsum⟩ :=
      block_at_record B A rest e es hB h1 h2 h3 h4 hfit
    rw [hsum] at hend
    have hrec := ih (A ++ entry_bytes e.1 e.2) rest fuel hB2
      (fun x hx => hok x (List.mem_cons_of_mem _ hx)) hfit2
      (fun x hx => hdesc x (List.mem_cons_of_mem _ hx)) hend
    rw [hlen] at hrec
    rw [List.length_cons, ← Nat.add_assoc, list_entries, if_pos hlt, hslot]
    simp only
    cases hc : c_string_at B (A.length + 5) with
    | error x =>
      simp only
      rw [c_string_at_fault _ _ _ hc]
    | ok name =>
      simp only
      obtain ⟨r, hr⟩ := hdesc e (List.mem_cons_self _ _) (depth + 1) v
      rw [hr]
      simp only
      rw [hrec r.1]

/-- On a fresh archive with another root block, the listing does not descend into the
inodes 1 and 2, which are blank. -/
theorem descend_blank (b : List Nat) (fuel n : Nat) (hn : n = 1 ∨ n = 2) (d : Nat)
    (v : List Nat) :
    ∃ r, print_directory_recursive (set_blk fresh 0 0 b) (fuel + 1) n d v = .ok r := by
  have hs := slot_at_fresh_table (set_blk fresh 0 0 b) (set_blk_inode_segments _ _ _ _)
  have hs2 := slot_at_fresh_two (set_blk fresh 0 0 b) (set_blk_inode_segments _ _ _ _)
  have hslot : slot_at (set_blk fresh 0 0 b) 0 n = some zero_inode := by
    rcases hn with h | h
    · rw [h]; exact hs.2.1
    · rw [h]; exact hs2
  have hg : get_segment_and_inode_offset (set_blk fresh 0 0 b) (toInt32 n) = .ok (0, (n : Int)) := by
    rw [toInt32_of_lt n (by omega)]
    have := gsio_nat (set_blk fresh 0 0 b) n (by rw [hs.2.2]; omega)
    rw [this]
    rcases hn with h | h <;> subst h <;> rfl
  have hi : read_inode (set_blk fresh 0 0 b) 0 (n : Int) = .ok zero_inode :=
    read_inode_zero _ n _ hslot
  rw [print_directory_recursive]
  split
  · exact ⟨_, rfl⟩
  · rw [hg]
    simp only
    rw [hi]
    simp only
    rw [if_pos (by decide)]
    exact ⟨_, rfl⟩

/-- A fault of the root-block lookup is the result of `find_inode_by_path`. -/
theorem find_inode_by_path_root_fault (b name : List Nat) (e : Fault) (hne : name ≠ [])
    (h47 : 47 ∉ name) (hlen : name.length ≤ 1022)
    (hf : dir_find_cast b name BLOCK_SIZE 0 = .error e) :
    find_inode_by_path (set_blk fresh 0 0 b) (47 :: name) = .error e := by
  obtain ⟨hg, hi, hb, hr⟩ := root_block_steps b
  unfold find_inode_by_path
  rw [path_tokens_single name hne h47, List.take_of_length_le hlen, find_inode_loop, hg]
  simp only
  rw [hi]
  simp only
  rw [if_neg (by decide), hb]
  simp only
  rw [hr]
  simp only
  rw [hf]

/-- A fault of the root-block lookup is the result of `run_extract`. -/
theorem run_extract_root_fault (b name : List Nat) (e : Fault) (hne : name ≠ [])
    (h47 : 47 ∉ name) (hlen : name.length ≤ 1022)
    (hf : dir_find_exact b name BLOCK_SIZE 0 = .error e) :
    run_extract (set_blk fresh 0 0 b) (47 :: name) = .error e := by
  obtain ⟨hg, hi, hb, hr⟩ := root_block_steps b
  have h0 : toInt32 0 = 0 := by decide
  rw [h0] at hg
  unfold run_extract
  rw [extract_path_tail_root name hne h47 hlen]
  simp only
  rw [find_inode_by_path_slash]
  simp only
  rw [if_neg (by decide), hg]
  simp only
  rw [hi]
  simp only
  rw [hb]
  simp only
  rw [hr]
  simp only
  rw [hf]

/-- A fault of the listing loop over the root block is the result of `run_list`. -/
theorem run_list_root_fault (b : List Nat) (e : Fault)
    (hf : list_entries
        (print_directory_recursive (set_blk fresh 0 0 b) (MAX_SEGMENTS * INODES_PER_SEGMENT))
        b 0 BLOCK_SIZE 0 [0] = .error e) :
    run_list (set_blk fresh 0 0 b) = .error e := by
  obtain ⟨hg, hi, hb, hr⟩ := root_block_steps b
  unfold run_list
  rw [print_directory_recursive, if_neg (by decide), hg]
  simp only
  rw [hi]
  simp only
  rw [if_neg (by decide), hb]
  simp only
  rw [hr]
  simp only
  rw [hf]

/-! ## The block of fifteen long records -/

theorem zero_block_drop (n : Nat) : zero_block.drop n = List.replicate (4096 - n) 0 := by
  unfold zero_block
  rw [List.drop_replicate]

/-- The block `names_block (records es)` starts with the fifteen long records and the
records of `es`; zero bytes follow. -/
theorem names_block_records (es : List (Nat × List Nat)) :
    names_block (records es)
      = [] ++ records (List.replicate 15 (1, List.replicate 255 97) ++ es)
          ++ List.replicate (181 - (records es).length) 0
      ∧ (records (List.replicate 15 (1, List.replicate 255 97) ++ es)).length
          = 3915 + (records es).length := by
  have hl : (records (List.replicate 15 (1, List.replicate 255 97))).length = 3915 := by
    rw [records_length_replicate 15 1 _ (by rw [List.length_replicate]),
      List.length_replicate]
  constructor
  · unfold names_block padded
    rw [← records_replicate, ← records_append, zero_block_drop, List.nil_append,
      records_append, List.length_append, hl]
    congr 2
    omega
  · rw [records_append, List.length_append, hl]

/-- The records of `names_block` and one more record are well-formed, and their names
start with the byte 97 or 98. -/
theorem names_block_entries (m : Nat) (hm1 : m ≠ 0) (hm2 : m < 4294967296) (k : Nat)
    (hk : k ≤ 254) :
    ∀ e ∈ List.replicate 15 (1, List.replicate 255 97) ++ [(m, List.replicate (k + 1) 98)],
      e.1 ≠ 0 ∧ e.1 < 4294967296 ∧ 1 ≤ e.2.length ∧ e.2.length ≤ 255
        ∧ ∃ a as, e.2 = a :: as ∧ a ≠ 110 := by
  intro e he
  rcases List.mem_append.1 he with h | h
  · rw [List.eq_of_mem_replicate h]
    refine ⟨by decide, by decide, ?_, ?_, 97, List.replicate 254 97, ?_, by decide⟩
    · show 1 ≤ (List.replicate 255 97).length
      rw [List.length_replicate]
      decide
    · show (List.replicate 255 97).length ≤ 255
      rw [List.length_replicate]
    · exact List.replicate_succ 97 254
  · rw [List.mem_singleton.1 h]
    refine ⟨hm1, hm2, ?_, ?_, 98, List.replicate k 98, ?_, by decide⟩
    · show 1 ≤ (List.replicate (k + 1) 98).length
      rw [List.length_replicate]
      omega
    · show (List.replicate (k + 1) 98).length ≤ 255
      rw [List.length_replicate]
      omega
    · exact List.replicate_succ 98 k

theorem names_block_end : dir_end_offset (names_block []) BLOCK_SIZE 0 = .ok 3915 := by
  obtain ⟨hB, hl⟩ := names_block_records []
  have hr : records [] = [] := rfl
  rw [hr] at hB hl
  rw [List.append_nil] at hB hl
  have hl0 : ([] : List Nat).length = 0 := rfl
  rw [hl0, Nat.add_zero] at hl
  rw [hl0, Nat.sub_zero] at hB
  have hskip := dir_end_offset_skip (names_block [])
    (List.replicate 15 (1, List.replicate 255 97)) [] (List.replicate 181 0) 4081 hB
    (fun e he => by
      rw [List.eq_of_mem_replicate he]
      refine ⟨by decide, by decide, ?_, ?_⟩
      · show 1 ≤ (List.replicate 255 97).length
        rw [List.length_replicate]
        decide
      · show (List.replicate 255 97).length ≤ 255
        rw [List.length_replicate])
    (by rw [hl, hl0]; decide)
  rw [List.length_replicate, hl, hl0, Nat.zero_add] at hskip
  have hz := dir_end_offset_zero_tail
    (records (List.replicate 15 (1, List.replicate 255 97))) 181 4081
    (Or.inl (by rw [hl]; decide))
  rw [List.nil_append] at hB
  rw [← hB, hl] at hz
  exact hskip.trans hz

/-- In the block of sixteen records that end at offset 4094, every walk for a name that
starts with `n` reaches offset 4094. -/
theorem full_block_walks :
    (names_block (entry_bytes 2 (List.replicate 173 98))).length = 4096
      ∧ (names_block (entry_bytes 2 (List.replicate 173 98))).drop 4094 = [0, 0]
      ∧ (∀ fuel, dir_end_offset (names_block (entry_bytes 2 (List.replicate 173 98)))
            (fuel + 16) 0
          = dir_end_offset (names_block (entry_bytes 2 (List.replicate 173 98))) fuel 4094)
      ∧ (∀ fuel, entry_list (names_block (entry_bytes 2 (List.replicate 173 98)))
            (fuel + 16) 0
          = (List.replicate 15 (1, List.replicate 255 97) ++ [(2, List.replicate 173 98)])
              ++ entry_list (names_block (entry_bytes 2 (List.replicate 173 98))) fuel 4094)
      ∧ (∀ fuel cs, dir_find_cast (names_block (entry_bytes 2 (List.replicate 173 98)))
            (110 :: cs) (fuel + 16) 0
          = dir_find_cast (names_block (entry_bytes 2 (List.replicate 173 98)))
              (110 :: cs) fuel 4094)
      ∧ (∀ fuel cs, dir_find_exact (names_block (entry_bytes 2 (List.replicate 173 98)))
            (110 :: cs) (fuel + 16) 0
          = dir_find_exact (names_block (entry_bytes 2 (List.replicate 173 98)))
              (110 :: cs) fuel 4094)
      ∧ (∀ fuel dfuel v, list_entries
            (print_directory_recursive
              (set_blk fresh 0 0 (names_block (entry_bytes 2 (List.replicate 173 98))))
              (dfuel + 1))
            (names_block (entry_bytes 2 (List.replicate 173 98))) 0 (fuel + 1 + 16) 0 v
          = .error .undefined_behaviour) := by
  have he : entry_bytes 2 (List.replicate 173 98) = records [(2, List.replicate 173 98)] := by
    rw [records_cons]
    exact (List.append_nil _).symm
  have hel : (records [(2, List.replicate 173 98)]).length = 179 := by
    rw [← he, entry_bytes_length, List.length_replicate]
  obtain ⟨hB, hl⟩ := names_block_records [(2, List.replicate 173 98)]
  rw [hel] at hB hl
  rw [← he] at hB
  have hok := names_block_entries 2 (by decide) (by decide) 172 (by decide)
  have hok4 : ∀ e ∈ List.replicate 15 (1, List.replicate 255 97) ++ [(2, List.replicate 173 98)],
      e.1 ≠ 0 ∧ e.1 < 4294967296 ∧ 1 ≤ e.2.length ∧ e.2.length ≤ 255 :=
    fun e h => ⟨(hok e h).1, (hok e h).2.1, (hok e h).2.2.1, (hok e h).2.2.2.1⟩
  have hl0 : ([] : List Nat).length = 0 := rfl
  have hn : (List.replicate 15 (1, List.replicate 255 97) ++ [(2, List.replicate 173 98)]).length
      = 16 := by
    rw [List.length_append, List.length_replicate]
    rfl
  have hfit : ([] : List Nat).length
      + (records (List.replicate 15 (1, List.replicate 255 97)
          ++ [(2, List.replicate 173 98)])).length ≤ BLOCK_SIZE := by
    rw [hl, hl0]
    decide
  refine ⟨?_, ?_, ?_, ?_, ?_, ?_, ?_⟩
  · rw [hB, List.length_append, List.length_append, hl, hl0, List.length_replicate]
  · rw [hB, List.nil_append, List.drop_left' hl]
    rfl
  · intro fuel
    have h := dir_end_offset_skip _ _ [] _ fuel hB hok4 hfit
    rw [hn, hl, hl0] at h
    exact h
  · intro fuel
    have h := entry_list_skip _ _ [] _ fuel hB hok4 hfit
    rw [hn, hl, hl0] at h
    exact h
  · intro fuel cs
    have h := dir_find_cast_skip _ (110 :: cs) 110 cs rfl _ [] _ fuel hB hok hfit
    rw [hn, hl, hl0] at h
    exact h
  · intro fuel cs
    have h := dir_find_exact_skip _ (110 :: cs) 110 cs rfl _ [] _ fuel hB hok hfit
    rw [hn, hl, hl0] at h
    exact h
  · intro fuel dfuel v
    have h := list_entries_skip_fault
      (print_directory_recursive
        (set_blk fresh 0 0 (names_block (entry_bytes 2 (List.replicate 173 98)))) (dfuel + 1))
      _ 0 _ [] _ (fuel + 1) hB hok4 hfit
      (fun e he d w => by
        refine descend_blank _ dfuel e.1 ?_ d w
        rcases List.mem_append.1 he with h | h
        · rw [List.eq_of_mem_replicate h]
          exact Or.inl rfl
        · rw [List.mem_singleton.1 h]
          exact Or.inr rfl)
      (fun w => by
        rw [hl, hl0]
        exact (walks_at_4094 _ fuel).2.2.2.2.2 _ _ _) v
    rw [hn, hl0] at h
    exact h
/-! ## The claims about `run_add`, `run_extract`, `run_remove`, `run_list` and the records -/

/-- C1: for the 4097-byte host file `zero_chunk_file` added as `/f` to a fresh archive,
both chunks are written to block 1, and `run_extract` outputs the byte 1, 4095 zero bytes
and the byte 1, which is not the host file. -/
theorem extract_after_add_zero_chunk :
    then_extract (then_add (.ok fresh) (str "/f") zero_chunk_file) (str "/f")
        = .ok ([1] ++ List.replicate 4095 0 ++ [1])
      ∧ [1] ++ List.replicate 4095 0 ++ [1] ≠ zero_chunk_file := by
  decide!

/-- C2: on a fresh archive, `run_add` of the 49153-byte host file whose byte at offset `k`
is `k mod 256` stores an inode with `indirect_single = 13`, which is not 0, but the block 13
that received the last chunk (the single byte 0) is handed out again as the single-indirect
block, so `run_extract` of that path writes 13 as its last byte and the output differs from
the host file. -/
theorem mod256_file_add_extract :
    run_add fresh (str "/big") (some mod256_file)
        = .ok (.added, single_add_fs (0, 12) (str "big") mod256_file)
      ∧ slot_at (single_add_fs (0, 12) (str "big") mod256_file) 0 1
          = some { size := 49153, type := TYPE_FILE, direct := List.range' 1 12,
                   indirect_single := 13, indirect_double := 0 }
      ∧ run_extract (single_add_fs (0, 12) (str "big") mod256_file) (str "/big")
          = .ok (mod256_file.take 49152 ++ [13])
      ∧ mod256_file = mod256_file.take 49152 ++ [0] := by
  have hpath : str "/big" = 47 :: str "big" := by decide
  have hne : str "big" ≠ [] := by decide
  have h47 : 47 ∉ str "big" := by decide
  have hlen := mod256_file_length
  have hz : padded ((mod256_file.drop (4096 * 12)).take 4096) = zero_block := by
    rw [show 4096 * 12 = 49152 from rfl, mod256_file_last]
    exact padded_single_zero
  have hinv := fresh_loop_inv_zero_last mod256_file (by rw [hlen]; omega) (by rw [hlen]; omega)
    mod256_file_nonzero hz
  have hadd := run_add_root_single (0, 12) (str "big") mod256_file hne h47
    (by rw [hlen]; omega) (by rw [hlen]; omega) mod256_file_nonzero hinv (by decide)
  obtain ⟨hroot, hslot, hn, hblk, _, _, _⟩ :=
    single_add_fs_facts (0, 12) (str "big") mod256_file hinv
  have hcl : (file_chunks mod256_file.length mod256_file).length = 13 := by
    rw [file_chunks_length, hlen]
  have hptrs := seq_loop_ptrs (file_chunks mod256_file.length mod256_file) (add_init fresh) (0, 0)
  rw [hcl] at hptrs
  have hptrs' : ((fresh_loop mod256_file).new_file.direct, (fresh_loop mod256_file).indirect_single)
      = (List.range' 1 12, 13 :: List.replicate 1023 0) := by
    unfold fresh_loop
    rw [hptrs]
    exact seq_ptrs_13
  simp only [Prod.mk.injEq] at hptrs'
  obtain ⟨hdir, hind⟩ := hptrs'
  obtain ⟨hty, _, hdbl, _, _⟩ :=
    seq_loop_other_fields (file_chunks mod256_file.length mod256_file) (add_init fresh) (0, 0)
  have hsz : (fresh_loop mod256_file).new_file.size = 49153 := by
    unfold fresh_loop
    rw [seq_loop_size _ _ _ (by decide), file_chunks_sum, hlen]
    rfl
  have hty' : (fresh_loop mod256_file).new_file.type = TYPE_FILE := by
    unfold fresh_loop
    rw [hty]
    rfl
  have hdbl' : (fresh_loop mod256_file).new_file.indirect_double = 0 := by
    unfold fresh_loop
    rw [hdbl]
    rfl
  have hcb : cur_block (cur_next (0, 12)) = 13 := by decide
  have hino := inode_with_single (fresh_loop mod256_file).new_file 49153 TYPE_FILE
    (List.range' 1 12) (cur_block (cur_next (0, 12))) 13 0 hsz hty' hdir hcb hdbl'
  have hslot' := hslot.trans (congrArg some hino)
  have hx := extract_file_zero_last (str "big") mod256_file (by rw [hlen]; omega)
    (by rw [hlen]; omega) mod256_file_nonzero hinv hind
    { size := 49153, type := TYPE_FILE, direct := List.range' 1 12,
      indirect_single := 13, indirect_double := 0 }
    hlen.symm rfl rfl
  rw [hlen, show 49153 - 49152 = 1 from rfl, ptrs_bytes_take_one 13 _ (by omega)] at hx
  refine ⟨by rw [hpath]; exact hadd, hslot', ?_, ?_⟩
  · rw [hpath, run_extract_root_file _ (str "big") _ hne h47 (by decide) hroot hslot' hn hblk rfl]
    exact hx
  · have h := (List.take_append_drop 49152 mod256_file).symm
    rw [mod256_file_last] at h
    exact h

/-- C3: a second `run_add` to the existing path `/x` is not refused: it returns through
the normal end, leaves a different archive, stores the second file in inode 2 and lists
the name twice. -/
theorem add_existing_path_mutates :
    then_add_status scenario_one_file (str "/x") (str "yo") = some .added
      ∧ then_add scenario_one_file (str "/x") (str "yo") ≠ scenario_one_file
      ∧ then_list (then_add scenario_one_file (str "/x") (str "yo")) = .ok (str "|- x\n|- x\n") := by
  decide!

/-- C4: after adding `/a`, `/b`, `/c`, removing `/b` and adding `/d`, `run_list` prints
the two lines `|- a` and `|- d`; `c` is neither listed nor resolvable. -/
theorem list_after_remove_middle :
    then_list scenario_remove_middle = .ok (str "|- a\n|- d\n")
      ∧ then_find scenario_remove_middle (str "/c") = .ok (-1) := by
  decide!

/-- C5: the packed size of `Inode` as declared in `exfs2.h` is 4100 bytes, four more than
`BLOCK_SIZE`: the padding is computed for `DIRECT_BLOCKS + 2` 32-bit members, the record
has `DIRECT_BLOCKS + 3` of them. -/
theorem sizeof_Inode_is_4100 :
    sizeof_Inode = 4100 ∧ sizeof_Inode = BLOCK_SIZE + 4 ∧ sizeof_Inode ≠ BLOCK_SIZE := by
  decide

/-- C6: the record of slot 255 occupies the bytes `[1045500, 1049600)`; a write of it
makes a segment file of `SEGMENT_SIZE` bytes 1024 bytes longer, while the slots below 255
lie inside the segment. -/
theorem inode_slot_255_exceeds_segment :
    inode_slot_range 255 = (1045500, 1049600)
      ∧ SEGMENT_SIZE < (inode_slot_range 255).2
      ∧ file_size_after_write SEGMENT_SIZE (inode_slot_range 255) = SEGMENT_SIZE + 1024
      ∧ ∀ i, i < 255 → (inode_slot_range i).2 ≤ SEGMENT_SIZE := by
  refine ⟨by decide, by decide, by decide, ?_⟩
  intro i hi
  have h : sizeof_Inode = 4100 := by decide
  show (i + 1) * sizeof_Inode ≤ 1048576
  rw [h]
  omega

/-- C7: with `/x` a regular file, `run_add` of `/x/g` is not refused: the data block of
`/x` is used as a directory block and overwritten, so `/x` no longer extracts as `hi\n`. -/
theorem add_below_regular_file :
    then_add_status scenario_one_file (str "/x/g") (str "D") = some .added
      ∧ then_add scenario_one_file (str "/x/g") (str "D") ≠ scenario_one_file
      ∧ then_extract scenario_one_file (str "/x") = .ok (str "hi\n")
      ∧ then_extract (then_add scenario_one_file (str "/x/g") (str "D")) (str "/x") = .ok [2, 0, 0] := by
  decide!

/-- C9 (amended): of a path only the first 63 components are used.  `find_inode_by_path`
walks the first 63 components (all of them when there are at most 63), and
`find_or_create_path` walks or creates all but the last of these; a path with 64 or more
components is not rejected but resolved exactly like the path made of its first 63
components. -/
theorem path_keeps_first_63_components (fs : FS) (cs : List (List Nat))
    (hcs : ∀ c ∈ cs, c ≠ [] ∧ 47 ∉ c) (hlen : (join_path cs).length ≤ 1023) :
    find_inode_by_path fs (join_path cs) = find_inode_loop fs 0 (cs.take 63)
      ∧ find_or_create_path fs (join_path cs) = create_path_loop fs 0 (cs.take 63).dropLast
      ∧ find_inode_by_path fs (join_path cs) = find_inode_by_path fs (join_path (cs.take 63))
      ∧ find_or_create_path fs (join_path cs)
          = find_or_create_path fs (join_path (cs.take 63)) := by
  have hn : cs.length < MAX_PATH := by
    have := join_path_length_ge cs
    simp only [MAX_PATH]; omega
  have h1 : path_tokens (join_path cs) = cs.take 63 := path_tokens_join cs hcs hlen hn
  have h2 : path_tokens (join_path (cs.take 63)) = cs.take 63 := by
    have := path_tokens_join (cs.take 63) (fun c hc => hcs c (List.mem_of_mem_take hc))
      (by have := join_path_take_length cs 63; simp only [MAX_PATH]; omega)
      (by simp only [List.length_take, MAX_PATH]; omega)
    rw [this]
    simp
  unfold find_inode_by_path find_or_create_path
  rw [h1, h2]
  exact ⟨rfl, rfl, rfl, rfl⟩

/-- C9, at the path of 64 components `a` on a fresh archive. -/
theorem path_keeps_first_63_components_witness :
    ((∀ c ∈ List.replicate 64 [97], c ≠ [] ∧ 47 ∉ c)
        ∧ (join_path (List.replicate 64 [97])).length ≤ 1023)
      ∧ find_inode_by_path fresh (join_path (List.replicate 64 [97]))
          = find_inode_by_path fresh (join_path ((List.replicate 64 [97]).take 63)) :=
  have h := path_keeps_first_63_components fresh (List.replicate 64 [97]) (by decide!)
    (by decide!)
  ⟨⟨by decide!, by decide!⟩, h.2.2.1⟩

/-- C9, counterexample: in the archive `nested_dirs_fs`, which holds the 62 nested
directories `/a`, `/a/a`, ... (the innermost is inode 62), `run_add` of a path of 64
components `a` is not rejected: it returns through the normal end and changes the archive,
and `find_inode_by_path` of that path then returns inode 63 instead of "not found".  Before
the `run_add` the path was not found, and the path of the 62 directories led to inode 62. -/
theorem path_of_64_components_accepted :
    then_add_status (.ok nested_dirs_fs) (join_path (List.replicate 64 [97])) [120]
        = some .added
      ∧ then_add (.ok nested_dirs_fs) (join_path (List.replicate 64 [97])) [120]
          ≠ .ok nested_dirs_fs
      ∧ then_find (then_add (.ok nested_dirs_fs) (join_path (List.replicate 64 [97])) [120])
          (join_path (List.replicate 64 [97])) = .ok 63
      ∧ then_find (.ok nested_dirs_fs) (join_path (List.replicate 64 [97])) = .ok (-1)
      ∧ then_find (.ok nested_dirs_fs) (join_path (List.replicate 62 [97])) = .ok 62 := by
  decide!

/-- C10: after `run_add` of a host file of `(12 + 1024) * 4096 + 1` bytes whose chunks all
hold a non-zero byte, on a fresh archive, the inode of the file has `indirect_double = 1043`,
entry 0 of the outer block 1043 is the inner block 1042, and entry 0 of block 1042 is block
1041, which holds the last chunk.  But `indirect_single` is 1042 as well: the inner block was
picked during the loop without being written, `find_free_block` handed it out again for the
single-indirect array, and the row of the tree then replaced that array.  So the block at
`indirect_single` lists block 1041 only, although block 1040 (logical position 1035) stands
in the staged single-indirect array, and single-indirect and inner block are one block. -/
theorem add_double_indirect_shares_inner_block (name host : List Nat) (hne : name ≠ [])
    (h47 : 47 ∉ name) (hlen : host.length = (12 + 1024) * 4096 + 1)
    (hnz : ∀ j, 4096 * j < host.length →
      all_zero (padded ((host.drop (4096 * j)).take 4096)) = false) :
    run_add fresh (47 :: name) (some host) = .ok (.added, double_add_fs name host)
      ∧ ∃ ino, slot_at (double_add_fs name host) 0 1 = some ino
          ∧ ino.indirect_double = 1043 ∧ ino.indirect_single = 1042
          ∧ extract_block_list (double_add_fs name host) ino.indirect_double
              = .ok (1042 :: List.replicate 1023 0)
          ∧ extract_block_list (double_add_fs name host) ino.indirect_single
              = .ok (1041 :: List.replicate 1023 0)
          ∧ blk_at (double_add_fs name host) (1041 / 256) (1041 % 256)
              = some (padded ((host.drop (4096 * 1036)).take 4096))
          ∧ 1040 ∈ (double_loop host).indirect_single := by
  have hlo : 1036 * 4096 < host.length := by omega
  have hhi : host.length ≤ 1037 * 4096 := by omega
  obtain ⟨hslot, hnd, h19, h18, h17, _⟩ := double_add_fs_facts name host hlo hhi hnz
  obtain ⟨_, _, _, hx, _⟩ := double_loop_facts host hlo hhi hnz
  have hl : ∀ p : Nat, (p :: List.replicate 1023 0).length = 1024 := by
    intro p
    rw [List.length_cons, List.length_replicate]
  have hq : ∀ p : Nat, p < 4294967296 → ∀ q ∈ p :: List.replicate 1023 0, q < 4294967296 := by
    intro p hp q hq
    rcases List.mem_cons.mp hq with h | h
    · omega
    · rw [(List.mem_replicate.mp h).2]
      omega
  have e19 := extract_block_list_ptrs (double_add_fs name host) 1043
    (1042 :: List.replicate 1023 0) (by rw [hnd]; decide) (by decide) h19 (hl 1042)
    (hq 1042 (by decide))
  have e18 := extract_block_list_ptrs (double_add_fs name host) 1042
    (1041 :: List.replicate 1023 0) (by rw [hnd]; decide) (by decide) h18 (hl 1041)
    (hq 1041 (by decide))
  exact ⟨run_add_root_double name host hne h47 hlo hhi hnz,
    _, hslot, rfl, rfl, e19, e18, h17, hx⟩

/-- C10, at the name `f` and the host file of 4243457 bytes 1. -/
theorem add_double_indirect_shares_inner_block_witness :
    ([102] ≠ [] ∧ 47 ∉ [102]
        ∧ (List.replicate 4243457 1).length = (12 + 1024) * 4096 + 1
        ∧ ∀ j, 4096 * j < (List.replicate 4243457 1).length →
            all_zero (padded (((List.replicate 4243457 1).drop (4096 * j)).take 4096)) = false)
      ∧ run_add fresh (47 :: [102]) (some (List.replicate 4243457 1))
          = .ok (.added, double_add_fs [102] (List.replicate 4243457 1))
      ∧ extract_block_list (double_add_fs [102] (List.replicate 4243457 1)) 1042
          = .ok (1041 :: List.replicate 1023 0) :=
  have h := add_double_indirect_shares_inner_block [102] (List.replicate 4243457 1)
    (by decide) (by decide) (by rw [List.length_replicate])
    (replicate_one_chunk_nonzero 4243457)
  ⟨⟨by decide, by decide, by rw [List.length_replicate], replicate_one_chunk_nonzero 4243457⟩,
    h.1, by
      obtain ⟨ino, hs, _, h2, _, h4, _⟩ := h.2
      rw [h2] at h4
      exact h4⟩

/-- C11: a host file of `n` bytes, `1 ≤ n ≤ 4096`, added under a root-level name of at most
255 bytes to a fresh archive: `run_add` returns through its normal end, the name resolves
to inode 1, the record of inode 1 has type `TYPE_FILE`, size `n`, `direct[0] = 1`,
`direct[1..11]` zero and both indirect pointers zero, and `run_extract` writes exactly the
host bytes. -/
theorem add_one_block_file (name host : List Nat) (hne : name ≠ []) (h47 : 47 ∉ name)
    (hname : name.length ≤ 255) (h1 : 1 ≤ host.length) (h2 : host.length ≤ 4096) :
    run_add fresh (47 :: name) (some host) = .ok (.added, small_add_fs name host)
      ∧ find_inode_by_path (small_add_fs name host) (47 :: name) = .ok 1
      ∧ inode_at (small_add_fs name host) 1
          = some { size := host.length, type := TYPE_FILE, direct := 1 :: List.replicate 11 0,
                   indirect_single := 0, indirect_double := 0 }
      ∧ run_extract (small_add_fs name host) (47 :: name) = .ok host := by
  have hnz : ∀ j, 4096 * (j + 1) < host.length →
      all_zero (padded ((host.drop (4096 * j)).take 4096)) = false := by
    intro j hj
    omega
  obtain ⟨_, hslot, _⟩ := small_add_fs_facts name host
  obtain ⟨ft, fsz, fis, fid, fdir⟩ := fresh_loop_fields host (by omega)
  have hc : (host.length + 4095) / 4096 = 1 := by omega
  rw [hc] at fdir
  have hino := inode_of_fields _ _ _ _ _ _ fsz ft fdir fis fid
  refine ⟨run_add_root_direct name host hne h47 (by omega) hnz,
    find_inode_by_path_small name host hne h47 hname, ?_,
    run_extract_small name host hne h47 hname (by omega) hnz⟩
  rw [inode_at_eq_slot_at]
  exact hslot.trans (congrArg some hino)

/-- C11, at the name `hello.txt` and the three bytes `hi\n`. -/
theorem add_one_block_file_witness :
    (str "hello.txt" ≠ [] ∧ 47 ∉ str "hello.txt" ∧ (str "hello.txt").length ≤ 255
        ∧ 1 ≤ (str "hi\n").length ∧ (str "hi\n").length ≤ 4096)
      ∧ inode_at (small_add_fs (str "hello.txt") (str "hi\n")) 1
          = some { size := 3, type := TYPE_FILE, direct := 1 :: List.replicate 11 0,
                   indirect_single := 0, indirect_double := 0 }
      ∧ run_extract (small_add_fs (str "hello.txt") (str "hi\n")) (47 :: str "hello.txt")
          = .ok (str "hi\n") :=
  have h := add_one_block_file (str "hello.txt") (str "hi\n") (by decide) (by decide)
    (by decide) (by decide) (by decide)
  ⟨⟨by decide, by decide, by decide, by decide, by decide⟩, h.2.2.1, h.2.2.2⟩

/-- C12: on a fresh archive, `run_add` of `/a/b/c.bin` with the 7-byte host file `payload`
returns through its normal end; afterwards `/a` resolves to inode 1 and `/a/b` to inode 2,
both of type `TYPE_DIR`, and `run_list` prints exactly the three lines `|- a`, `  |- b`,
`    |- c.bin`, each nesting level indented by two more spaces. -/
theorem list_after_nested_add :
    then_add_status (.ok fresh) (str "/a/b/c.bin") (str "payload") = some .added
      ∧ then_find (then_add (.ok fresh) (str "/a/b/c.bin") (str "payload")) (str "/a") = .ok 1
      ∧ then_find (then_add (.ok fresh) (str "/a/b/c.bin") (str "payload")) (str "/a/b") = .ok 2
      ∧ (then_inode (then_add (.ok fresh) (str "/a/b/c.bin") (str "payload")) 1).map Inode.type
          = some TYPE_DIR
      ∧ (then_inode (then_add (.ok fresh) (str "/a/b/c.bin") (str "payload")) 2).map Inode.type
          = some TYPE_DIR
      ∧ then_list (then_add (.ok fresh) (str "/a/b/c.bin") (str "payload"))
          = .ok (str "|- a\n  |- b\n    |- c.bin\n")
      ∧ str "|- a\n  |- b\n    |- c.bin\n"
          = list_line 0 (str "a") ++ list_line 1 (str "b") ++ list_line 2 (str "c.bin") := by
  decide!

/-- C13: when `run_remove` returns through its normal end it has run `remove_file_blocks`
on the inode number `n` of the directory entry it found.  Afterwards slot `n` holds the
all-zero record (type 0).  On an inode table of segments of `INODES_PER_SEGMENT` records
`find_free_inode` then returns a slot number `m ≤ n` without changing the archive, and
`m = n` when every slot below `n` is occupied; a following `run_add` that creates no
directory stores the inode of its file in slot `m`. -/
theorem remove_frees_inode_slot (fs fs' : FS) (exfs_path : List Nat)
    (hreg : ∀ sg ∈ fs.inode_segments, sg.length = INODES_PER_SEGMENT)
    (h : run_remove fs exfs_path = .ok (.removed, fs')) :
    ∃ (fs1 : FS) (n : Nat), fs1.inode_segments = fs.inode_segments
      ∧ remove_file_blocks fs1 n = .ok fs'
      ∧ (n < 4294967296 →
          inode_at fs' n = some zero_inode
          ∧ ∃ m, find_free_inode fs' = .ok (m, fs') ∧ m ≤ n
              ∧ ((∀ k, k < n → ∀ ino, inode_at fs' k = some ino → ino.type ≠ 0) → m = n)
              ∧ ∀ (p host : List Nat) (parent : Nat) (fs2 fs3 : FS),
                  find_or_create_path fs' p = .ok (parent, fs2) →
                  fs2.inode_segments = fs'.inode_segments →
                  run_add fs' p (some host) = .ok (.added, fs3) →
                  ∃ ino, inode_at fs3 m = some ino ∧ ino.type = TYPE_FILE) := by
  obtain ⟨fs1, n, e1, hr⟩ := run_remove_removed _ _ _ h
  refine ⟨fs1, n, e1, hr, ?_⟩
  intro hn
  obtain ⟨hslot, hreg'⟩ := remove_file_blocks_slot fs1 fs' n hn hr
  have hreg2 := hreg' (by rw [e1]; exact hreg)
  obtain ⟨m, hscan, hfree, hle, _, heq⟩ := find_free_inode_le fs' n zero_inode hreg2 hslot rfl
  refine ⟨hslot, m, hfree, hle, heq, ?_⟩
  intro p host parent fs2 fs3 hp hsame hadd
  exact run_add_uses_free_slot fs' fs2 fs3 p host parent m hp hsame hscan hadd

/-- C13, at the archive that holds the one-byte files `/a` and `/b`, for `-r /a`. -/
theorem remove_frees_inode_slot_witness :
    ((∀ sg ∈ (result_fs (then_add (then_add (.ok fresh) (str "/a") [1]) (str "/b") [2])).inode_segments,
          sg.length = INODES_PER_SEGMENT)
        ∧ run_remove (result_fs (then_add (then_add (.ok fresh) (str "/a") [1]) (str "/b") [2]))
            (str "/a")
          = .ok (.removed, result_fs (then_remove
              (then_add (then_add (.ok fresh) (str "/a") [1]) (str "/b") [2]) (str "/a"))))
      ∧ ∃ (fs1 : FS) (n : Nat),
          fs1.inode_segments
            = (result_fs (then_add (then_add (.ok fresh) (str "/a") [1]) (str "/b") [2])).inode_segments
          ∧ remove_file_blocks fs1 n
            = .ok (result_fs (then_remove
                (then_add (then_add (.ok fresh) (str "/a") [1]) (str "/b") [2]) (str "/a"))) :=
  have h := remove_frees_inode_slot
    (result_fs (then_add (then_add (.ok fresh) (str "/a") [1]) (str "/b") [2]))
    (result_fs (then_remove (then_add (then_add (.ok fresh) (str "/a") [1]) (str "/b") [2])
      (str "/a")))
    (str "/a") (by decide!) two_files_remove_first
  ⟨⟨by decide!, two_files_remove_first⟩, by
    obtain ⟨fs1, n, h1, h2, _⟩ := h
    exact ⟨fs1, n, h1, h2⟩⟩

/-- C14: the host file `zeros_then_ones_file` (1037 chunks of zeros, then 4097 bytes 1)
is added as `/f` to a fresh archive and removed again, both commands returning through
their normal end.  Before the removal the inode of `/f` has `indirect_single = 3` and
`indirect_double = 4`, the outer block 4 lists the inner block 1, and block 1 lists the
leaves 1, 1 and 2, so block 2 (which holds the last chunk) is a leaf of the
double-indirect tree.  After the removal the inode record is all zero and the blocks 1, 3
and 4 hold only zeros, but block 2 still holds the byte 1: block 1 is also `direct[0]` and
an entry of the single-indirect block, so it was zeroed before `run_remove` read it as a
row of the tree, and the row read as empty. -/
theorem remove_keeps_leaf_of_zeroed_row :
    run_add fresh (str "/f") (some zeros_then_ones_file) = .ok (.added, shared_rows_fs)
      ∧ find_inode_by_path shared_rows_fs (str "/f") = .ok 1
      ∧ inode_at shared_rows_fs 1
          = some { size := 4251649, type := TYPE_FILE, direct := List.replicate 12 1,
                   indirect_single := 3, indirect_double := 4 }
      ∧ extract_block_list shared_rows_fs 3 = .ok (List.replicate 1024 1)
      ∧ extract_block_list shared_rows_fs 4 = .ok (1 :: List.replicate 1023 0)
      ∧ extract_block_list shared_rows_fs 1 = .ok (1 :: 1 :: 2 :: List.replicate 1021 0)
      ∧ block_at shared_rows_fs 2 = some (padded [1])
      ∧ run_remove shared_rows_fs (str "/f") = .ok (.removed, shared_rows_removed)
      ∧ inode_at shared_rows_removed 1 = some zero_inode
      ∧ block_at shared_rows_removed 1 = some zero_block
      ∧ block_at shared_rows_removed 3 = some zero_block
      ∧ block_at shared_rows_removed 4 = some zero_block
      ∧ block_at shared_rows_removed 2 = some (padded [1])
      ∧ all_zero (padded [1]) = false := by
  have h3 : blk_at shared_rows_fs (3 / 256) (3 % 256)
      = some (ptrs_bytes (List.replicate 1024 1)) := by decide!
  have h4 : blk_at shared_rows_fs (4 / 256) (4 % 256)
      = some (ptrs_bytes (1 :: List.replicate 1023 0)) := by decide!
  have h1 : blk_at shared_rows_fs (1 / 256) (1 % 256)
      = some (ptrs_bytes (1 :: 1 :: 2 :: List.replicate 1021 0)) := by decide!
  have hq : ∀ (l : List Nat), (∀ q ∈ l, q ≤ 2) → ∀ q ∈ l, q < 4294967296 := by
    intro l hl q hq
    have := hl q hq
    omega
  refine ⟨run_add_zeros_then_ones, by decide!, by decide!, ?_, ?_, ?_, by decide!,
    run_remove_shared_rows, by decide!, by decide!, by decide!, by decide!, by decide!,
    by decide⟩
  · apply extract_block_list_ptrs _ 3 _ (by decide) (by decide) h3
      (by rw [List.length_replicate])
    apply hq
    intro q h
    rw [List.eq_of_mem_replicate h]
    decide
  · apply extract_block_list_ptrs _ 4 _ (by decide) (by decide) h4
      (by rw [List.length_cons, List.length_replicate])
    apply hq
    intro q h
    rcases List.mem_cons.mp h with h | h
    · rw [h]; decide
    · rw [List.eq_of_mem_replicate h]; decide
  · apply extract_block_list_ptrs _ 1 _ (by decide) (by decide) h1
      (by rw [List.length_cons, List.length_cons, List.length_cons, List.length_replicate])
    apply hq
    intro q h
    rcases List.mem_cons.mp h with h | h
    · rw [h]; decide
    · rcases List.mem_cons.mp h with h | h
      · rw [h]; decide
      · rcases List.mem_cons.mp h with h | h
        · rw [h]
        · rw [List.eq_of_mem_replicate h]; decide

/-- C15: a host file `f1` of at most twelve chunks whose chunks, the last one apart, hold a
non-zero byte is added as `/name` to a fresh archive; `run_extract` of `/name` then writes
exactly `f1`.  After a second `run_add` to the same path with any host file `f2`, however
that `run_add` returns, `run_extract` of `/name` still writes exactly the bytes of `f1`. -/
theorem second_add_keeps_first_file (name f1 f2 : List Nat) (st : AddStatus) (fs2 : FS)
    (hne : name ≠ []) (h47 : 47 ∉ name) (hname : name.length ≤ 255)
    (hlen : f1.length ≤ 12 * 4096)
    (hnz : ∀ j, 4096 * (j + 1) < f1.length →
      all_zero (padded ((f1.drop (4096 * j)).take 4096)) = false)
    (h2 : run_add (small_add_fs name f1) (47 :: name) (some f2) = .ok (st, fs2)) :
    run_add fresh (47 :: name) (some f1) = .ok (.added, small_add_fs name f1)
      ∧ run_extract (small_add_fs name f1) (47 :: name) = .ok f1
      ∧ run_extract fs2 (47 :: name) = .ok f1 := by
  refine ⟨run_add_root_direct name f1 hne h47 hlen hnz,
    run_extract_small name f1 hne h47 hname hlen hnz, ?_⟩
  apply run_extract_stored_small fs2 name f1 hne h47 hname
  exact stored_small_run_add (small_add_fs name f1) fs2 name name f1 f2 st hne hname hne h47
    (Shaped_small_add_fs name f1 hlen hnz) (small_add_fs_regular name f1)
    (stored_small_small_add_fs name f1 hlen hnz) h2

/-- C15, at the name `x`, `f1` holding `hi\n` and `f2` holding `yo`: the second `run_add`
returns through its normal end, and `run_extract` of `/x` still writes `hi\n`. -/
theorem second_add_keeps_first_file_witness :
    then_add_status (.ok (small_add_fs [120] (str "hi\n"))) (47 :: [120]) (str "yo")
        = some .added
      ∧ run_add fresh (47 :: [120]) (some (str "hi\n"))
          = .ok (.added, small_add_fs [120] (str "hi\n"))
      ∧ run_extract
          (result_fs (then_add (.ok (small_add_fs [120] (str "hi\n"))) (47 :: [120]) (str "yo")))
          (47 :: [120]) = .ok (str "hi\n") :=
  have hs : then_add_status (.ok (small_add_fs [120] (str "hi\n"))) (47 :: [120]) (str "yo")
      = some .added := by decide!
  have h := second_add_keeps_first_file [120] (str "hi\n") (str "yo") .added _
    (by decide) (by decide) (by decide) (by decide)
    (fun j hj => absurd hj (by
      have : (str "hi\n").length = 3 := by decide
      omega))
    (run_add_of_status _ _ _ _ hs)
  ⟨hs, h.1, h.2.2⟩

/-- C16: after `-a` of two one-byte files under root-level names of 200 bytes and `-r` of
the first one, all three commands having returned through their normal end, the root
directory block (block 0, `direct[0]` of inode 0) lists no entry: the scan for the end of
the entry list stops at offset 0, and the first 261 bytes are zero.  But the bytes from
offset 261 on are not zero: they hold the last 150 name bytes of the second entry, which
`memset(dir_block + found_offset, 0, sizeof(DirEntry))` cut in the middle. -/
theorem dir_block_tail_after_remove :
    then_add_status (.ok fresh) (long_name 97) [1] = some .added
      ∧ then_add_status (then_add (.ok fresh) (long_name 97) [1]) (long_name 98) [2] = some .added
      ∧ then_remove_status scenario_long_names (long_name 97) = some .removed
      ∧ (then_inode (then_remove scenario_long_names (long_name 97)) 0).map
          (fun ino => (ino.type, ino.direct.getD 0 0)) = some (TYPE_DIR, 0)
      ∧ (then_block (then_remove scenario_long_names (long_name 97)) 0).map
          (fun b => dir_end_offset b BLOCK_SIZE 0) = some (.ok 0)
      ∧ (then_block (then_remove scenario_long_names (long_name 97)) 0).map
          (fun b => (b.take 261, (b.drop 261).take 151))
          = some (List.replicate 261 0, List.replicate 150 98 ++ [0]) := by
  decide!

/-- C17: in every archive state reachable from a fresh archive by `init_filesystem`,
`run_add` and `run_remove`, every record of every inode segment has type 0, `TYPE_FILE`
(1) or `TYPE_DIR` (2), and a record of type 0 is the all-zero record. -/
theorem reachable_inode_types (fs : FS) (h : Reachable fs) :
    ∀ n ino, inode_at fs n = some ino →
      (ino.type = 0 ∨ ino.type = 1 ∨ ino.type = 2) ∧ (ino.type = 0 → ino = zero_inode) := by
  intro n ino hn
  have ht := Reachable_TableInv fs h
  unfold inode_at at hn
  split at hn
  · cases hn
  · rename_i sg hsg
    exact (ht sg (List.getElem?_mem hsg)).2 ino (List.getElem?_mem hn)

/-- C17, at the archive left by `-a /x -f f1` with an empty host file `f1`. -/
theorem reachable_inode_types_witness :
    Reachable (set_blk (set_slot fresh 0 1
        { size := 0, type := TYPE_FILE, direct := List.replicate 12 0,
          indirect_single := 0, indirect_double := 0 }) 0 0 (padded (entry_bytes 1 (str "x"))))
      ∧ ∀ n ino, inode_at (set_blk (set_slot fresh 0 1
        { size := 0, type := TYPE_FILE, direct := List.replicate 12 0,
          indirect_single := 0, indirect_double := 0 }) 0 0 (padded (entry_bytes 1 (str "x")))) n
          = some ino →
        (ino.type = 0 ∨ ino.type = 1 ∨ ino.type = 2) ∧ (ino.type = 0 → ino = zero_inode) :=
  have hr : Reachable (set_blk (set_slot fresh 0 1
        { size := 0, type := TYPE_FILE, direct := List.replicate 12 0,
          indirect_single := 0, indirect_double := 0 }) 0 0 (padded (entry_bytes 1 (str "x")))) :=
    Reachable.add fresh _ (47 :: str "x") (some []) .added Reachable.init
      empty_file_add
  ⟨hr, reachable_inode_types _ hr⟩

/-- C18: for a host file of `n = (12 + 1024) * 4096 + 1` bytes whose chunks all hold a
non-zero byte, added under a root-level name to a fresh archive, the stored inode has
`size = n`, but the archive records only 14 data-block pointers for it instead of
`ceil(n / 4096) = 1037`: the twelve direct entries, the one entry of the block at
`indirect_single` (the single-indirect array was overwritten by row 0 of the
double-indirect tree) and the one leaf of the tree.  The capacity of the recorded blocks,
`14 * 4096`, is below `n`. -/
theorem recorded_blocks_double_indirect (name host : List Nat) (hne : name ≠ [])
    (h47 : 47 ∉ name) (hlen : host.length = (12 + 1024) * 4096 + 1)
    (hnz : ∀ j, 4096 * j < host.length →
      all_zero (padded ((host.drop (4096 * j)).take 4096)) = false) :
    run_add fresh (47 :: name) (some host) = .ok (.added, double_add_fs name host)
      ∧ ∃ ino, inode_at (double_add_fs name host) 1 = some ino
          ∧ ino.size = host.length
          ∧ recorded_blocks (double_add_fs name host) ino
              = .ok (List.range' 1 12 ++ [1041] ++ [1041])
          ∧ (List.range' 1 12 ++ [1041] ++ [1041]).length = 14
          ∧ (host.length + 4095) / 4096 = 1037
          ∧ 14 * 4096 < host.length := by
  have hlo : 1036 * 4096 < host.length := by omega
  have hhi : host.length ≤ 1037 * 4096 := by omega
  obtain ⟨hslot, _⟩ := double_add_fs_facts name host hlo hhi hnz
  obtain ⟨e19, e18⟩ := double_add_fs_lists name host hlo hhi hnz
  obtain ⟨hsz, _, hdir⟩ := double_loop_fields host hlo hhi
  have hs : inode_at (double_add_fs name host) 1
      = some { size := (double_loop host).new_file.size,
               type := (double_loop host).new_file.type,
               direct := (double_loop host).new_file.direct, indirect_single := 1042,
               indirect_double := 1043 } := by
    rw [inode_at_eq_slot_at]
    exact hslot
  refine ⟨run_add_root_double name host hne h47 hlo hhi hnz, _, hs, hsz, ?_, rfl,
    by omega, by omega⟩
  · unfold recorded_blocks
    simp only [hdir]
    rw [if_pos (by decide), if_pos (by decide), e18, e19]
    simp only [listed_single 1042 (by decide), listed_single 1041 (by decide)]
    rw [recorded_leaves, e18]
    simp only [recorded_leaves, listed_single 1041 (by decide)]
    rfl

/-- C18, at the name `f` and the host file of 4243457 bytes 1. -/
theorem recorded_blocks_double_indirect_witness :
    ([102] ≠ [] ∧ 47 ∉ [102]
        ∧ (List.replicate 4243457 1).length = (12 + 1024) * 4096 + 1
        ∧ ∀ j, 4096 * j < (List.replicate 4243457 1).length →
            all_zero (padded (((List.replicate 4243457 1).drop (4096 * j)).take 4096)) = false)
      ∧ ∃ ino, inode_at (double_add_fs [102] (List.replicate 4243457 1)) 1 = some ino
          ∧ recorded_blocks (double_add_fs [102] (List.replicate 4243457 1)) ino
              = .ok (List.range' 1 12 ++ [1041] ++ [1041]) :=
  have h := recorded_blocks_double_indirect [102] (List.replicate 4243457 1)
    (by decide) (by decide) (by rw [List.length_replicate])
    (replicate_one_chunk_nonzero 4243457)
  ⟨⟨by decide, by decide, by rw [List.length_replicate], replicate_one_chunk_nonzero 4243457⟩,
    by
      obtain ⟨ino, h1, _, h3, _⟩ := h.2
      exact ⟨ino, h1, h3⟩⟩

/-- C19: for a file stored by `run_add` (any archive, any path, any content), the inode
written for it has `indirect_single ≠ 0` exactly when the file needs more than 12 data
blocks, `direct[i] ≠ 0` exactly for the blocks `i < 12` the file needs, and
`indirect_double ≠ 0` exactly when it needs more than `12 + 1024` blocks; the inode stands
in the slot that `find_free_inode` returned.  A file of exactly `12 * 4096` bytes has its
twelve direct pointers set and `indirect_single = 0`; a file of `12 * 4096 + 1` bytes has
`indirect_single ≠ 0`. -/
theorem single_indirect_iff_more_than_12_blocks (fs fs' : FS) (exfs_path host : List Nat)
    (h : run_add fs exfs_path (some host) = .ok (.added, fs')) :
    ∃ (parent : Nat) (fs1 fsb fsc : FS) (m : Nat) (ino : Inode),
      find_or_create_path fs exfs_path = .ok (parent, fs1)
        ∧ fsb.inode_segments = fs1.inode_segments
        ∧ find_free_inode fsb = .ok (m, fsc)
        ∧ inode_at fs' m = some ino
        ∧ ino.type = TYPE_FILE ∧ ino.size = host.length % 4294967296
        ∧ (ino.indirect_single ≠ 0 ↔ DIRECT_BLOCKS < (host.length + 4095) / 4096)
        ∧ (∀ i, i < DIRECT_BLOCKS →
            (ino.direct.getD i 0 ≠ 0 ↔ i < (host.length + 4095) / 4096))
        ∧ (ino.indirect_double ≠ 0
            ↔ DIRECT_BLOCKS + PTRS_PER_BLOCK < (host.length + 4095) / 4096)
        ∧ (host.length = 12 * 4096 →
            ino.indirect_single = 0 ∧ ino.indirect_double = 0
              ∧ ∀ i, i < DIRECT_BLOCKS → ino.direct.getD i 0 ≠ 0)
        ∧ (host.length = 12 * 4096 + 1 → ino.indirect_single ≠ 0) := by
  unfold run_add at h
  split at h
  · cases h
  · split at h
    · cases h
    · split at h
      · cases h
      · rename_i parent fs1 hp
        split at h
        · cases h
        · simp only at h
          split at h
          · cases h
          · cases h
          · rename_i st1 h2
            obtain ⟨e2, ty2⟩ := add_loop_inode_segments _ _ _ _ h2
            obtain ⟨tb, is2, id2, sz2, dl2, dir2⟩ := add_loop_counts _ _ _ h2 rfl
              (by show 0 < 4294967296; decide)
            rw [file_chunks_length] at tb dir2
            rw [file_chunks_sum] at sz2
            split at h
            · cases h
            · rename_i fs3 h3
              cases h
              unfold add_finish at h3
              split at h3
              · cases h3
              · rename_i file1 fsa h4
                obtain ⟨e4, _⟩ := write_single_indirect_inode_segments _ _ _ h4
                obtain ⟨sz4, ty4, dir4, id4, is4a, is4b⟩ := write_single_indirect_fields _ _ _ h4
                split at h3
                · cases h3
                · rename_i file2 fsb h5
                  obtain ⟨e5, _⟩ := write_double_indirect_inode_segments _ _ _ _ _ h5
                  obtain ⟨sz5, ty5, dir5, is5, id5a, id5b⟩ :=
                    write_double_indirect_fields _ _ _ _ _ h5
                  obtain ⟨m, fsc, hf, hslot⟩ := write_file_inode_stores _ _ _ _ _ h3
                  have htb : st1.total_blocks = (host.length + 4095) / 4096 := by
                    rw [tb]
                    exact Nat.zero_add _
                  have hsingle : file2.indirect_single ≠ 0
                      ↔ DIRECT_BLOCKS < (host.length + 4095) / 4096 := by
                    rw [is5, ← htb]
                    constructor
                    · intro hne
                      by_contra hc
                      exact hne ((is4b hc).trans is2)
                    · exact is4a
                  have hdouble : file2.indirect_double ≠ 0
                      ↔ DIRECT_BLOCKS + PTRS_PER_BLOCK < (host.length + 4095) / 4096 := by
                    rw [← htb]
                    constructor
                    · intro hne
                      by_contra hc
                      exact hne ((id5b hc).trans (id4.trans id2))
                    · exact id5a
                  have hdirect : ∀ i, i < DIRECT_BLOCKS →
                      (file2.direct.getD i 0 ≠ 0 ↔ i < (host.length + 4095) / 4096) := by
                    intro i hi
                    obtain ⟨f1, f2⟩ := dir2 i hi
                    rw [dir5, dir4]
                    constructor
                    · intro hne
                      by_contra hc
                      apply hne
                      rw [f1 (Or.inr (by
                        show 0 + (host.length + 4095) / 4096 ≤ i
                        omega))]
                      show (List.replicate 12 0).getD i 0 = 0
                      rw [List.getD_eq_getElem?_getD, List.getElem?_replicate]
                      split <;> rfl
                    · intro hlt
                      exact f2 (Nat.zero_le _) (by
                        show i < 0 + (host.length + 4095) / 4096
                        omega)
                  refine ⟨parent, fs1, fsb, fsc, m, file2, hp, by rw [e5, e4, e2]; rfl, hf,
                    hslot, by rw [ty5, ty4, ty2]; rfl, ?_, hsingle, hdirect, hdouble, ?_, ?_⟩
                  · rw [sz5, sz4, sz2]
                    show (0 + host.length) % 4294967296 = host.length % 4294967296
                    rw [Nat.zero_add]
                  · intro hl
                    have hb : (host.length + 4095) / 4096 = 12 := by omega
                    refine ⟨?_, ?_, ?_⟩
                    · by_contra hc
                      have := hsingle.mp hc
                      rw [hb] at this
                      exact absurd this (by decide)
                    · by_contra hc
                      have := hdouble.mp hc
                      rw [hb] at this
                      exact absurd this (by decide)
                    · intro i hi
                      exact (hdirect i hi).mpr (by rw [hb]; exact hi)
                  · intro hl
                    have hb : (host.length + 4095) / 4096 = 13 := by omega
                    exact hsingle.mpr (by rw [hb]; decide)

/-- C19, at the name `f` and the host file of `12 * 4096` bytes 1 in a fresh archive:
`run_add` stores the file, and its inode has `indirect_single = 0`. -/
theorem single_indirect_iff_more_than_12_blocks_witness :
    run_add fresh (47 :: [102]) (some (List.replicate 49152 1))
        = .ok (.added, small_add_fs [102] (List.replicate 49152 1))
      ∧ ∃ m ino, inode_at (small_add_fs [102] (List.replicate 49152 1)) m = some ino
          ∧ ino.size = 49152 ∧ ino.indirect_single = 0 ∧ ino.indirect_double = 0
          ∧ ∀ i, i < DIRECT_BLOCKS → ino.direct.getD i 0 ≠ 0 :=
  have hadd : run_add fresh (47 :: [102]) (some (List.replicate 49152 1))
      = .ok (.added, small_add_fs [102] (List.replicate 49152 1)) :=
    run_add_root_direct [102] (List.replicate 49152 1) (by decide) (by decide)
      (by rw [List.length_replicate])
      (fun j hj => replicate_one_chunk_nonzero 49152 j (by
        rw [List.length_replicate] at hj ⊢
        omega))
  have h := single_indirect_iff_more_than_12_blocks fresh _ (47 :: [102])
    (List.replicate 49152 1) hadd
  ⟨hadd, by
    obtain ⟨_, _, _, _, m, ino, _, _, _, hslot, _, hsz, _, _, _, h12, _⟩ := h
    rw [List.length_replicate] at hsz h12
    obtain ⟨a, b, c⟩ := h12 rfl
    exact ⟨m, ino, hslot, hsz, a, b, c⟩⟩

/-- C20: on a fresh archive, `run_add` of an empty host file under a root-level name stores
inode 1 with type `TYPE_FILE`, size 0 and all direct and indirect pointers 0; the archive it
leaves is the fresh one with that record in slot 1 and the new entry in the root directory
block, so no data block is allocated; for a name of at most 255 bytes `run_extract` of that
path writes no bytes. -/
theorem add_empty_file (name : List Nat) (hne : name ≠ []) (h47 : 47 ∉ name) :
    run_add fresh (47 :: name) (some [])
        = .ok (.added,
            set_blk
              (set_slot fresh 0 1
                { size := 0, type := TYPE_FILE, direct := List.replicate 12 0,
                  indirect_single := 0, indirect_double := 0 })
              0 0 (padded (entry_bytes 1 name)))
      ∧ (name.length ≤ 255 →
          run_extract
              (set_blk
                (set_slot fresh 0 1
                  { size := 0, type := TYPE_FILE, direct := List.replicate 12 0,
                    indirect_single := 0, indirect_double := 0 })
                0 0 (padded (entry_bytes 1 name)))
              (47 :: name) = .ok []) := by
  have hnz : ∀ j, 4096 * (j + 1) < ([] : List Nat).length →
      all_zero (padded ((([] : List Nat).drop (4096 * j)).take 4096)) = false := by
    intro j hj
    simp at hj
  have hadd := run_add_root_direct name [] hne h47 (by simp) hnz
  have hfs : small_add_fs name []
      = set_blk
          (set_slot fresh 0 1
            { size := 0, type := TYPE_FILE, direct := List.replicate 12 0,
              indirect_single := 0, indirect_double := 0 })
          0 0 (padded (entry_bytes 1 name)) := rfl
  rw [hfs] at hadd
  refine ⟨hadd, ?_⟩
  intro hname
  have hx := run_extract_small name [] hne h47 hname (by simp) hnz
  rw [hfs] at hx
  exact hx

/-- C20, at the name `empty`. -/
theorem add_empty_file_witness :
    (str "empty" ≠ [] ∧ 47 ∉ str "empty")
      ∧ run_add fresh (47 :: str "empty") (some [])
        = .ok (.added,
            set_blk
              (set_slot fresh 0 1
                { size := 0, type := TYPE_FILE, direct := List.replicate 12 0,
                  indirect_single := 0, indirect_double := 0 })
              0 0 (padded (entry_bytes 1 (str "empty")))) :=
  ⟨⟨by decide, by decide⟩, (add_empty_file (str "empty") (by decide) (by decide)).1⟩

/-- C21: `run_remove` leaves the archive as it is when the path has no non-empty final
component (no `'/'`, or nothing after the last `'/'`), when `find_inode_by_path` does not
find the parent directory, and when the directory block of the parent has no entry for
the final component; in each case it returns with the archive it was given.  More
generally, whenever `run_remove` returns otherwise than through its normal end, the
archive is unchanged. -/
theorem run_remove_missing_unchanged (fs : FS) (exfs_path : List Nat) :
    (split_last_slash (exfs_path.take (MAX_PATH - 1)) = none →
        run_remove fs exfs_path = .ok (.invalid_path, fs))
      ∧ (∀ parent_path, split_last_slash (exfs_path.take (MAX_PATH - 1)) = some (parent_path, []) →
          run_remove fs exfs_path = .ok (.invalid_path, fs))
      ∧ (∀ parent_path filename n,
          split_last_slash (exfs_path.take (MAX_PATH - 1)) = some (parent_path, filename) →
          filename ≠ [] →
          find_inode_by_path fs (if parent_path = [] then [47] else parent_path) = .ok n →
          n < 0 →
          run_remove fs exfs_path = .ok (.parent_not_found, fs))
      ∧ (∀ parent_path filename n ps po parent bs bo dir_block,
          split_last_slash (exfs_path.take (MAX_PATH - 1)) = some (parent_path, filename) →
          filename ≠ [] →
          find_inode_by_path fs (if parent_path = [] then [47] else parent_path) = .ok n →
          ¬ n < 0 →
          get_segment_and_inode_offset fs n = .ok (ps, po) →
          read_inode fs ps po = .ok parent →
          get_segment_and_block_offset fs (toInt32 (parent.direct.getD 0 0)) = .ok (bs, bo) →
          read_block fs bs bo = .ok dir_block →
          dir_find_exact dir_block filename BLOCK_SIZE 0 = .ok none →
          run_remove fs exfs_path = .ok (.not_found, fs))
      ∧ (∀ st fs', run_remove fs exfs_path = .ok (st, fs') → st ≠ .removed → fs' = fs) := by
  refine ⟨?_, ?_, ?_, ?_, ?_⟩
  · intro h
    unfold run_remove
    rw [h]
  · intro pp h
    unfold run_remove
    rw [h]
    simp only [if_true]
  · intro pp fn n h1 h2 h3 h4
    unfold run_remove
    rw [h1]
    simp only [if_neg h2, h3, if_pos h4]
  · intro pp fn n ps po parent bs bo db h1 h2 h3 h4 h5 h6 h7 h8 h9
    unfold run_remove
    rw [h1]
    simp only [if_neg h2, h3, if_neg h4, h5, h6, h7, h8, h9]
  · intro st fs' h hst
    exact run_remove_other fs fs' exfs_path st h hst

/-- C21, on the archive that holds the one-byte file `/x`: `-r x` and `-r /x/` have no
final component, `-r /d/x` has no parent directory, `-r /nope` names no entry of the
root; the archive is unchanged each time. -/
theorem run_remove_missing_unchanged_witness :
    run_remove (small_add_fs [120] [1]) (str "x") = .ok (.invalid_path, small_add_fs [120] [1])
      ∧ run_remove (small_add_fs [120] [1]) (str "/x/")
          = .ok (.invalid_path, small_add_fs [120] [1])
      ∧ run_remove (small_add_fs [120] [1]) (str "/d/x")
          = .ok (.parent_not_found, small_add_fs [120] [1])
      ∧ run_remove (small_add_fs [120] [1]) (str "/nope")
          = .ok (.not_found, small_add_fs [120] [1]) :=
  have h := run_remove_missing_unchanged (small_add_fs [120] [1])
  ⟨(h (str "x")).1 (by decide),
    (h (str "/x/")).2.1 (str "/x") (by decide),
    (h (str "/d/x")).2.2.1 (str "/d") (str "x") (-1) (by decide) (by decide) (by decide!)
      (by decide),
    (h (str "/nope")).2.2.2.1 [] (str "nope") 0 0 0 root_inode 0 0
      (padded (entry_bytes 1 [120])) (by decide) (by decide) (by decide!) (by decide)
      (by decide!) (by decide!) (by decide!) (by decide!) (by decide!)⟩

/-- C22: `run_extract` writes no byte to standard output when the path has no non-empty
final component, when `find_inode_by_path` does not find the parent directory, when the
directory block of the parent has no entry for the final component (or the entry holds the
"not found" value `UINT32_MAX`), and when the inode of the entry is not of type
`TYPE_FILE`, a directory for instance.  `run_extract` only reads the segment files: its
result is the bytes written, the archive is not among its results. -/
theorem run_extract_missing_writes_nothing (fs : FS) (exfs_path : List Nat) :
    (extract_path_tail exfs_path = none → run_extract fs exfs_path = .ok [])
      ∧ (∀ parent_path filename n,
          extract_path_tail exfs_path = some (parent_path, filename) →
          find_inode_by_path fs parent_path = .ok n → n < 0 →
          run_extract fs exfs_path = .ok [])
      ∧ (∀ parent_path filename n ps po parent bs bo block,
          extract_path_tail exfs_path = some (parent_path, filename) →
          find_inode_by_path fs parent_path = .ok n → ¬ n < 0 →
          get_segment_and_inode_offset fs n = .ok (ps, po) →
          read_inode fs ps po = .ok parent →
          get_segment_and_block_offset fs (toInt32 (parent.direct.getD 0 0)) = .ok (bs, bo) →
          read_block fs bs bo = .ok block →
          (dir_find_exact block filename BLOCK_SIZE 0 = .ok none
            ∨ ∃ off, dir_find_exact block filename BLOCK_SIZE 0 = .ok (some (UINT32_MAX, off))) →
          run_extract fs exfs_path = .ok [])
      ∧ (∀ parent_path filename n ps po parent bs bo block m off s o file_inode,
          extract_path_tail exfs_path = some (parent_path, filename) →
          find_inode_by_path fs parent_path = .ok n → ¬ n < 0 →
          get_segment_and_inode_offset fs n = .ok (ps, po) →
          read_inode fs ps po = .ok parent →
          get_segment_and_block_offset fs (toInt32 (parent.direct.getD 0 0)) = .ok (bs, bo) →
          read_block fs bs bo = .ok block →
          dir_find_exact block filename BLOCK_SIZE 0 = .ok (some (m, off)) →
          get_segment_and_inode_offset fs (toInt32 m) = .ok (s, o) →
          read_inode fs s o = .ok file_inode →
          file_inode.type ≠ TYPE_FILE →
          run_extract fs exfs_path = .ok []) := by
  refine ⟨?_, ?_, ?_, ?_⟩
  · intro h
    unfold run_extract
    rw [h]
  · intro pp fn n h1 h2 h3
    unfold run_extract
    rw [h1]
    simp only [h2, if_pos h3]
  · intro pp fn n ps po parent bs bo block h1 h2 h3 h4 h5 h6 h7 h8
    unfold run_extract
    rw [h1]
    rcases h8 with h8 | ⟨off, h8⟩
    · simp only [h2, if_neg h3, h4, h5, h6, h7, h8]
    · simp only [h2, if_neg h3, h4, h5, h6, h7, h8, if_true]
  · intro pp fn n ps po parent bs bo block m off s o file_inode h1 h2 h3 h4 h5 h6 h7 h8 h9 h10
      h11
    unfold run_extract
    rw [h1]
    simp only [h2, if_neg h3, h4, h5, h6, h7, h8, h9, h10, if_pos h11]
    split <;> rfl

/-- C22, on the archive left by `-a /a/f` of a one-byte host file on a fresh archive:
`-e /d/x` finds no parent directory, `-e /nope` no entry, `-e /a` a directory; nothing is
written each time. -/
theorem run_extract_missing_writes_nothing_witness :
    then_add_status (.ok fresh) (str "/a/f") [1] = some .added
      ∧ run_extract (result_fs (then_add (.ok fresh) (str "/a/f") [1])) (str "/d/x") = .ok []
      ∧ run_extract (result_fs (then_add (.ok fresh) (str "/a/f") [1])) (str "/nope") = .ok []
      ∧ run_extract (result_fs (then_add (.ok fresh) (str "/a/f") [1])) (str "/a") = .ok [] :=
  have h := run_extract_missing_writes_nothing (result_fs (then_add (.ok fresh) (str "/a/f") [1]))
  ⟨by decide!,
    (h (str "/d/x")).2.1 (str "/d") (str "x") (-1) (by decide) (by decide!) (by decide),
    (h (str "/nope")).2.2.1 [47] (str "nope") 0 0 0 root_inode 0 0
      (padded (entry_bytes 1 [97])) (by decide) (by decide!) (by decide) (by decide!)
      (by decide!) (by decide!) nested_file_root_block (Or.inl (by decide!)),
    (h (str "/a")).2.2.2 [47] (str "a") 0 0 0 root_inode 0 0
      (padded (entry_bytes 1 [97])) 1 0 0 1
      { size := 0, type := TYPE_DIR, direct := 1 :: List.replicate 11 0,
        indirect_single := 0, indirect_double := 0 }
      (by decide) (by decide!) (by decide) (by decide!) (by decide!) (by decide!)
      nested_file_root_block (by decide!) (by decide!) (by decide!) (by decide)⟩

/-- C23: `run_add` with an `exfs_path` that contains no `'/'`, or whose last byte is `'/'`
(empty final component), returns through "Invalid path" with the archive it was given:
nothing is created or allocated, whatever the host file is. -/
theorem run_add_invalid_path_unchanged (fs : FS) (exfs_path : List Nat)
    (host : Option (List Nat)) :
    (47 ∉ exfs_path → run_add fs exfs_path host = .ok (.invalid_path, fs))
      ∧ (∀ p, exfs_path = p ++ [47] → run_add fs exfs_path host = .ok (.invalid_path, fs)) := by
  constructor
  · intro h
    unfold run_add
    rw [split_last_slash_no_slash exfs_path h]
  · intro p hp
    subst hp
    unfold run_add
    rw [split_last_slash_trailing p]
    simp only [List.length_nil, if_true]

/-- C23, at the paths `file.txt` and `/a/` with a one-byte host file on a fresh archive. -/
theorem run_add_invalid_path_unchanged_witness :
    (47 ∉ str "file.txt" ∧ str "/a/" = str "/a" ++ [47])
      ∧ run_add fresh (str "file.txt") (some [1]) = .ok (.invalid_path, fresh)
      ∧ run_add fresh (str "/a/") (some [1]) = .ok (.invalid_path, fresh) :=
  ⟨⟨by decide, by decide⟩,
    (run_add_invalid_path_unchanged fresh (str "file.txt") (some [1])).1 (by decide),
    (run_add_invalid_path_unchanged fresh (str "/a/") (some [1])).2 (str "/a") (by decide)⟩

/-- C24: `init_filesystem` on an empty working directory yields exactly one inode segment
and one data segment; inode 0 has type `TYPE_DIR`, size 0 and every pointer 0
(`direct[0] = 0` among them), every other inode record and every block, block 0 of data
segment 0 among them, is zero.  On an archive whose root inode (slot 0 of inode segment 0)
has type `TYPE_DIR`, `init_filesystem` leaves the inode segments as they are, and the whole
archive when a data segment exists; when no data segment exists, the zero-filled data
segment 0 is created and nothing else happens.  In particular a second `init_filesystem`
changes nothing of what the first one left. -/
theorem init_filesystem_fresh_and_again :
    fresh = ⟨[zero_inode_segment.set 0 root_inode], [zero_data_segment]⟩
      ∧ num_inode_segments fresh = 1 ∧ num_data_segments fresh = 1
      ∧ inode_at fresh 0
          = some { size := 0, type := TYPE_DIR, direct := List.replicate 12 0,
                   indirect_single := 0, indirect_double := 0 }
      ∧ block_at fresh 0 = some zero_block ∧ all_zero zero_block = true
      ∧ (∀ (fs : FS) (sg : List Inode) (rest : List (List Inode)) (root : Inode),
          fs.inode_segments = sg :: rest → sg[0]? = some root → root.type = TYPE_DIR →
          (init_filesystem fs).inode_segments = fs.inode_segments
            ∧ (fs.data_segments ≠ [] → init_filesystem fs = fs)
            ∧ (fs.data_segments = [] →
                (init_filesystem fs).data_segments = [zero_data_segment]))
      ∧ ∀ fs : FS, init_filesystem (init_filesystem fs) = init_filesystem fs := by
  have hfix : ∀ (fs : FS) (sg : List Inode) (rest : List (List Inode)),
      fs.inode_segments = sg :: rest →
      (sg = [] ∨ ∃ root, sg[0]? = some root ∧ root.type = TYPE_DIR) →
      fs.data_segments ≠ [] → init_filesystem fs = fs := by
    intro fs sg rest h1 h2 h3
    obtain ⟨iseg, dseg⟩ := fs
    simp only at h1 h3
    subst h1
    unfold init_filesystem
    simp only [if_neg h3, List.headD_cons]
    have hne : ¬ (sg :: rest = ([] : List (List Inode))) := by simp
    simp only [if_neg hne, List.headD_cons]
    rcases h2 with h2 | ⟨root, h2, h4⟩
    · subst h2
      rw [if_pos (by decide)]
      rfl
    · have hr : sg.getD 0 zero_inode = root := by
        rw [List.getD_eq_getElem?_getD, h2]
        rfl
      rw [hr, if_neg (by rw [h4]; simp)]
  refine ⟨fresh_eq, by decide!, by decide!, by decide!, by decide!, all_zero_zero_block, ?_, ?_⟩
  · intro fs sg rest root h1 h2 h3
    refine ⟨?_, fun h4 => hfix fs sg rest h1 (Or.inr ⟨root, h2, h3⟩) h4, ?_⟩
    · obtain ⟨iseg, dseg⟩ := fs
      simp only at h1
      subst h1
      unfold init_filesystem
      have hne : ¬ (sg :: rest = ([] : List (List Inode))) := by simp
      simp only [if_neg hne, List.headD_cons]
      have hr : sg.getD 0 zero_inode = root := by
        rw [List.getD_eq_getElem?_getD, h2]
        rfl
      rw [hr, if_neg (by rw [h3]; simp)]
    · intro h4
      obtain ⟨iseg, dseg⟩ := fs
      simp only at h1 h4
      subst h1
      subst h4
      unfold init_filesystem
      have hne : ¬ (sg :: rest = ([] : List (List Inode))) := by simp
      simp only [if_neg hne, List.headD_cons, if_true]
      have hr : sg.getD 0 zero_inode = root := by
        rw [List.getD_eq_getElem?_getD, h2]
        rfl
      have hz : zero_data_segment.set 0 zero_block = zero_data_segment := by decide!
      rw [hr, if_neg (by rw [h3]; simp), hz]
  · intro fs
    have key : ∃ sg rest, (init_filesystem fs).inode_segments = sg :: rest
        ∧ (sg = [] ∨ ∃ root, sg[0]? = some root ∧ root.type = TYPE_DIR)
        ∧ (init_filesystem fs).data_segments ≠ [] := by
      obtain ⟨iseg, dseg⟩ := fs
      have hd : (if dseg = [] then [(zero_data_segment).set 0 zero_block] else dseg) ≠ [] := by
        split
        · simp
        · assumption
      unfold init_filesystem
      simp only
      cases iseg with
      | nil =>
        simp only [if_true, List.headD_cons]
        have ht : (zero_inode_segment.getD 0 zero_inode).type ≠ TYPE_DIR := by decide!
        rw [if_pos ht]
        refine ⟨zero_inode_segment.set 0 root_inode, [], rfl, Or.inr ⟨root_inode, ?_, rfl⟩, hd⟩
        decide!
      | cons sg rest =>
        have hne : ¬ (sg :: rest = ([] : List (List Inode))) := by simp
        simp only [if_neg hne, List.headD_cons]
        by_cases ht : (sg.getD 0 zero_inode).type ≠ TYPE_DIR
        · rw [if_pos ht]
          refine ⟨sg.set 0 root_inode, rest, rfl, ?_, hd⟩
          cases sg with
          | nil => exact Or.inl rfl
          | cons a t => exact Or.inr ⟨root_inode, List.getElem?_cons_zero .., rfl⟩
        · rw [if_neg ht]
          refine ⟨sg, rest, rfl, ?_, hd⟩
          cases sg with
          | nil => exact Or.inl rfl
          | cons a t =>
            refine Or.inr ⟨a, List.getElem?_cons_zero .., ?_⟩
            have : ¬ a.type ≠ TYPE_DIR := ht
            exact not_not.mp this
    obtain ⟨sg, rest, h1, h2, h3⟩ := key
    exact hfix _ sg rest h1 h2 h3

/-- C24, at the archive `init_filesystem` leaves in an empty working directory. -/
theorem init_filesystem_fresh_and_again_witness :
    (fresh.inode_segments = zero_inode_segment.set 0 root_inode :: []
        ∧ (zero_inode_segment.set 0 root_inode)[0]? = some root_inode
        ∧ root_inode.type = TYPE_DIR ∧ fresh.data_segments ≠ [])
      ∧ init_filesystem fresh = fresh :=
  ⟨⟨by decide!, by decide!, by decide, by decide!⟩,
    (init_filesystem_fresh_and_again.2.2.2.2.2.2.1 fresh (zero_inode_segment.set 0 root_inode) []
      root_inode (by decide!) (by decide!) (by decide)).2.1 (by decide!)⟩

/-- C25: when `find_free_block` returns a block `g` of an already existing data segment,
then `g % 256 ≥ 1` (so `g ≠ 0`), block `g` holds only zero bytes, no persisted inode has
`g` among its `direct[]` entries (as the 32-bit value the loop tests, and, `g` being
below `2^31`, as a number), and the archive is as it was before the call. -/
theorem find_free_block_in_existing_segment (fs fs1 : FS) (g : Nat)
    (h : find_free_block fs = .ok (g, fs1)) (hg : g / 256 < num_data_segments fs) :
    fs1 = fs ∧ 1 ≤ g % 256 ∧ g ≠ 0
      ∧ (∃ blk, block_at fs g = some blk ∧ all_zero blk = true ∧ ∀ x ∈ blk, x = 0)
      ∧ ¬ direct_listed fs g
      ∧ (g < 2147483648 → ¬ referenced fs g) := by
  obtain ⟨_, hcase⟩ := find_free_block_result fs fs1 g h
  rcases hcase with ⟨_, e, hb, hf⟩ | ⟨e, _, _⟩
  · have hdm : g / 256 * 256 + g % 256 = g := by omega
    obtain ⟨i1, _⟩ := block_is_free_inv fs (g / 256) (g % 256) hb (by omega) true hf
    obtain ⟨hnl, blk, hblk, hz⟩ := i1 rfl
    rw [hdm] at hnl
    refine ⟨e, hb, by omega, ⟨blk, hblk, hz, (all_zero_iff blk).mp hz⟩, hnl, ?_⟩
    intro h31 href
    exact hnl (direct_listed_of_referenced fs g h31 href)
  · exfalso
    rw [e] at hg
    omega

/-- C25, at the archive that holds the one-byte file `/x` in block 1: `find_free_block`
returns block 2. -/
theorem find_free_block_in_existing_segment_witness :
    (find_free_block (small_add_fs [120] [1]) = .ok (2, small_add_fs [120] [1])
        ∧ 2 / 256 < num_data_segments (small_add_fs [120] [1]))
      ∧ (∃ blk, block_at (small_add_fs [120] [1]) 2 = some blk ∧ all_zero blk = true
          ∧ ∀ x ∈ blk, x = 0)
      ∧ ¬ referenced (small_add_fs [120] [1]) 2 :=
  have hf := find_free_block_after_one_file
  have hn : 2 / 256 < num_data_segments (small_add_fs [120] [1]) := by decide!
  have h := find_free_block_in_existing_segment _ _ 2 hf hn
  ⟨⟨hf, hn⟩, h.2.2.2.1, h.2.2.2.2.2 (by decide)⟩

/-- C26: `find_free_block` returns the lowest-numbered qualifying block.  If it returns
`g`, every block `g' < g` with `g' % 256 ≥ 1` either has its number among the `direct[]`
entries of a persisted inode (as the 32-bit value the loop tests; as a number when the
entries are 32-bit values) or holds a non-zero byte.  A call on the same archive state
returns the same block and the same archive, and when `g` lies in an existing data segment
a second call after the first one returns `g` again. -/
theorem find_free_block_lowest (fs fs1 : FS) (g : Nat)
    (h : find_free_block fs = .ok (g, fs1)) :
    (∀ g', g' < g → 1 ≤ g' % 256 →
        (direct_listed fs g'
          ∧ ((∀ sg ∈ fs.inode_segments, ∀ ino ∈ sg, ∀ d ∈ ino.direct, d < 4294967296) →
              referenced fs g'))
        ∨ ∃ blk, block_at fs g' = some blk ∧ all_zero blk = false ∧ ∃ x ∈ blk, x ≠ 0)
      ∧ (∀ g2 fs2, find_free_block fs = .ok (g2, fs2) → g2 = g ∧ fs2 = fs1)
      ∧ (g / 256 < num_data_segments fs → find_free_block fs1 = .ok (g, fs1)) := by
  obtain ⟨hlow, hcase⟩ := find_free_block_result fs fs1 g h
  refine ⟨?_, ?_, ?_⟩
  · intro g' h1 h2
    have hdm : g' / 256 * 256 + g' % 256 = g' := by omega
    obtain ⟨_, i2⟩ := block_is_free_inv fs (g' / 256) (g' % 256) h2 (by omega) false
      (hlow g' h1 h2)
    rcases i2 rfl with hl | ⟨blk, hblk, hz⟩
    · rw [hdm] at hl
      exact Or.inl ⟨hl, fun hu => referenced_of_direct_listed fs g' hu hl⟩
    · exact Or.inr ⟨blk, hblk, hz, (all_zero_false_iff blk).mp hz⟩
  · intro g2 fs2 h2
    rw [h] at h2
    cases h2
    exact ⟨rfl, rfl⟩
  · intro hg
    rcases hcase with ⟨_, e, _, _⟩ | ⟨e, _, _⟩
    · rw [e]
      rw [e] at h
      exact h
    · exfalso
      rw [e] at hg
      omega

/-- C26, at the archive that holds the one-byte file `/x` in block 1: `find_free_block`
returns block 2, and block 1, the only lower block, is listed by the inode of `/x` and
holds a non-zero byte. -/
theorem find_free_block_lowest_witness :
    find_free_block (small_add_fs [120] [1]) = .ok (2, small_add_fs [120] [1])
      ∧ ((direct_listed (small_add_fs [120] [1]) 1
            ∧ ((∀ sg ∈ (small_add_fs [120] [1]).inode_segments, ∀ ino ∈ sg, ∀ d ∈ ino.direct,
                d < 4294967296) → referenced (small_add_fs [120] [1]) 1))
          ∨ ∃ blk, block_at (small_add_fs [120] [1]) 1 = some blk ∧ all_zero blk = false
            ∧ ∃ x ∈ blk, x ≠ 0) :=
  have hf := find_free_block_after_one_file
  ⟨hf, (find_free_block_lowest _ _ 2 hf).1 1 (by decide) (by decide)⟩

/-- C27 (counterexample): on a table of `MAX_SEGMENTS` inode segments in which no slot has
type 0, `find_free_inode` creates no segment and returns no slot: `create_new_inode_segment`
ends the process with `exit(1)`. -/
theorem find_free_inode_full_table_exits :
    (∀ sg ∈ (full_inode_table MAX_SEGMENTS).inode_segments, sg.length = INODES_PER_SEGMENT)
      ∧ num_inode_segments (full_inode_table MAX_SEGMENTS) = 1024
      ∧ (∀ n ino, inode_at (full_inode_table MAX_SEGMENTS) n = some ino → ino.type ≠ 0)
      ∧ scan_inode_segments (full_inode_table MAX_SEGMENTS).inode_segments 0 = none
      ∧ find_free_inode (full_inode_table MAX_SEGMENTS) = .error .exit_failure := by
  have hfull : ∀ n ino, inode_at (full_inode_table MAX_SEGMENTS) n = some ino → ino.type ≠ 0 := by
    intro n ino h e
    rw [inode_at_full_inode_table _ _ _ h] at e
    cases e
  have hscan := scan_inode_segments_none _ (full_inode_table_regular MAX_SEGMENTS) hfull
  have hnum : num_inode_segments (full_inode_table MAX_SEGMENTS) = 1024 := by
    unfold num_inode_segments full_inode_table
    rw [List.length_replicate]
  refine ⟨full_inode_table_regular _, hnum, hfull, hscan, ?_⟩
  apply find_free_inode_of_full _ hscan
  rw [hnum]

/-- C27 (amended): on an inode table of full-size segments, when some slot has type 0,
`find_free_inode` returns a slot of type 0 that is not above any other such slot and leaves
the archive as it was; when no slot has type 0 and fewer than `MAX_SEGMENTS` inode segments
exist, it appends exactly one zero-filled inode segment and returns that segment's slot 0,
which is 256 times the previous segment count and holds the all-zero record, every earlier
slot and the data segments being untouched; with `MAX_SEGMENTS` segments and no free slot it
exits with failure. -/
theorem find_free_inode_lowest_or_new_segment (fs : FS)
    (hreg : ∀ sg ∈ fs.inode_segments, sg.length = INODES_PER_SEGMENT) :
    (∀ n ino, inode_at fs n = some ino → ino.type = 0 →
        ∃ m, find_free_inode fs = .ok (m, fs) ∧ m ≤ n
          ∧ (∃ ino', inode_at fs m = some ino' ∧ ino'.type = 0)
          ∧ ∀ k, k < m → ∀ ino', inode_at fs k = some ino' → ino'.type ≠ 0)
      ∧ ((∀ n ino, inode_at fs n = some ino → ino.type ≠ 0) →
          num_inode_segments fs < MAX_SEGMENTS →
          ∃ fs', find_free_inode fs = .ok (256 * num_inode_segments fs, fs')
            ∧ fs'.inode_segments = fs.inode_segments ++ [zero_inode_segment]
            ∧ num_inode_segments fs' = num_inode_segments fs + 1
            ∧ fs'.data_segments = fs.data_segments
            ∧ inode_at fs' (256 * num_inode_segments fs) = some zero_inode
            ∧ ∀ n, n < 256 * num_inode_segments fs → inode_at fs' n = inode_at fs n)
      ∧ ((∀ n ino, inode_at fs n = some ino → ino.type ≠ 0) →
          MAX_SEGMENTS ≤ num_inode_segments fs →
          find_free_inode fs = .error .exit_failure) := by
  refine ⟨?_, ?_, ?_⟩
  · intro n ino hslot hty
    obtain ⟨m, _, hm, hle, hfree, _⟩ := find_free_inode_le fs n ino hreg hslot hty
    refine ⟨m, hm, hle, hfree, ?_⟩
    intro k hk ino' hk' e
    obtain ⟨m', _, hm', hle', _, _⟩ := find_free_inode_le fs k ino' hreg hk' e
    rw [hm] at hm'
    cases hm'
    omega
  · intro hfull hroom
    have hscan := scan_inode_segments_none fs hreg hfull
    refine ⟨_, find_free_inode_of_no_scan fs hscan hroom, rfl, ?_, rfl, ?_, ?_⟩
    · unfold num_inode_segments
      simp
    · unfold inode_at INODES_PER_SEGMENT num_inode_segments
      have h1 : 256 * fs.inode_segments.length / 256 = fs.inode_segments.length := by omega
      have h2 : 256 * fs.inode_segments.length % 256 = 0 := by omega
      rw [h1, h2]
      simp only
      rw [List.getElem?_append_right (Nat.le_refl _), Nat.sub_self]
      simp only [List.getElem?_cons_zero]
      unfold zero_inode_segment INODES_PER_SEGMENT
      rw [List.getElem?_replicate, if_pos (by decide)]
    · intro n hn
      unfold inode_at INODES_PER_SEGMENT
      unfold num_inode_segments at hn
      have h1 : n / 256 < fs.inode_segments.length := by omega
      simp only
      rw [List.getElem?_append_left h1]
  · intro hfull hmax
    exact find_free_inode_of_full fs (scan_inode_segments_none fs hreg hfull) hmax

/-- C27 (witness): in the fresh archive slot 1 is returned and nothing changes; a table of
one full segment grows by one zero segment and slot 256 is returned. -/
theorem find_free_inode_lowest_or_new_segment_witness :
    (∀ sg ∈ fresh.inode_segments, sg.length = INODES_PER_SEGMENT)
      ∧ find_free_inode fresh = .ok (1, fresh)
      ∧ (∀ sg ∈ (full_inode_table 1).inode_segments, sg.length = INODES_PER_SEGMENT)
      ∧ ∃ fs', find_free_inode (full_inode_table 1) = .ok (256, fs')
          ∧ fs'.inode_segments = (full_inode_table 1).inode_segments ++ [zero_inode_segment]
          ∧ inode_at fs' 256 = some zero_inode := by
  have hr : ∀ sg ∈ fresh.inode_segments, sg.length = INODES_PER_SEGMENT := by
    intro sg hsg
    have e : sg = zero_inode_segment.set 0 root_inode := by
      have : fresh.inode_segments = [zero_inode_segment.set 0 root_inode] := rfl
      rw [this] at hsg
      exact List.mem_singleton.mp hsg
    rw [e, List.length_set]
    unfold zero_inode_segment
    rw [List.length_replicate]
  refine ⟨hr, ?_, full_inode_table_regular 1, ?_⟩
  · obtain ⟨m, hm, hle, ⟨ino', hi, hty⟩, _⟩ :=
      (find_free_inode_lowest_or_new_segment fresh hr).1 1 zero_inode (by decide!) rfl
    have hm1 : m = 1 := by
      rcases Nat.le_one_iff_eq_zero_or_eq_one.mp hle with h0 | h1
      · exfalso
        rw [h0] at hi
        have h00 : inode_at fresh 0 = some root_inode := by decide!
        rw [h00] at hi
        cases hi
        revert hty
        decide
      · exact h1
    rw [hm1] at hm
    exact hm
  · have hfull : ∀ n ino, inode_at (full_inode_table 1) n = some ino → ino.type ≠ 0 := by
      intro n ino h e
      rw [inode_at_full_inode_table _ _ _ h] at e
      cases e
    obtain ⟨fs', hf, hseg, _, _, hz, _⟩ :=
      (find_free_inode_lowest_or_new_segment (full_inode_table 1)
        (full_inode_table_regular 1)).2.1 hfull (by decide!)
    exact ⟨fs', hf, hseg, hz⟩

/-- C28: for every global block number `g` below `256 * num_data_segments`,
`get_segment_and_block_offset` yields `(g / 256, g % 256)`, so that
`seg * 256 + off = g`, `0 ≤ off < 256` and `seg < num_data_segments`;
`get_segment_and_inode_offset` yields the same decomposition for every inode number below
`256 * num_inode_segments`.  With at most `MAX_SEGMENTS` segments such a number is below
`2^31`, so the conversion of the `uint32_t` value to the `int` argument keeps it. -/
theorem address_decomposition (fs : FS) :
    (∀ g : Nat, g < 256 * num_data_segments fs →
        get_segment_and_block_offset fs (g : Int)
            = .ok (((g / 256 : Nat) : Int), ((g % 256 : Nat) : Int))
          ∧ g / 256 * 256 + g % 256 = g ∧ g % 256 < 256 ∧ g / 256 < num_data_segments fs
          ∧ (num_data_segments fs ≤ MAX_SEGMENTS → toInt32 g = (g : Int)))
      ∧ (∀ n : Nat, n < 256 * num_inode_segments fs →
        get_segment_and_inode_offset fs (n : Int)
            = .ok (((n / 256 : Nat) : Int), ((n % 256 : Nat) : Int))
          ∧ n / 256 * 256 + n % 256 = n ∧ n % 256 < 256 ∧ n / 256 < num_inode_segments fs
          ∧ (num_inode_segments fs ≤ MAX_SEGMENTS → toInt32 n = (n : Int))) := by
  constructor
  · intro g hg
    refine ⟨gsbo_nat fs g hg, by omega, by omega, by omega, ?_⟩
    intro hn
    have hn' : num_data_segments fs ≤ 1024 := hn
    exact toInt32_of_lt g (by omega)
  · intro n hn
    refine ⟨gsio_nat fs n hn, by omega, by omega, by omega, ?_⟩
    intro hm
    have hm' : num_inode_segments fs ≤ 1024 := hm
    exact toInt32_of_lt n (by omega)

/-- C28, at block 1037 and inode 300 of an archive of two inode segments and five data
segments. -/
theorem address_decomposition_witness :
    (1037 < 256 * num_data_segments
          ⟨List.replicate 2 zero_inode_segment, List.replicate 5 zero_data_segment⟩
        ∧ 300 < 256 * num_inode_segments
          ⟨List.replicate 2 zero_inode_segment, List.replicate 5 zero_data_segment⟩)
      ∧ get_segment_and_block_offset
          ⟨List.replicate 2 zero_inode_segment, List.replicate 5 zero_data_segment⟩ 1037
          = .ok (4, 13)
      ∧ get_segment_and_inode_offset
          ⟨List.replicate 2 zero_inode_segment, List.replicate 5 zero_data_segment⟩ 300
          = .ok (1, 44) :=
  have h := address_decomposition
    ⟨List.replicate 2 zero_inode_segment, List.replicate 5 zero_data_segment⟩
  ⟨⟨by decide, by decide⟩, (h.1 1037 (by decide)).1, (h.2 300 (by decide)).1⟩

/-- C29: the address functions test `segment_idx >= count` only.  The 32-bit value
`0x80000000`, which is `-2147483648` as `int`, passes `get_segment_and_inode_offset` with
the segment index `-8388608`; `0xFFFFFFFE`, which is `-2`, passes both functions with
segment 0 and the offset `-2`; and `get_segment_and_block_offset` of `0x80000000` reads
`data_segments[-8388608]` instead of stopping the process.  Such a value reaches the
functions from the archive: after `-a /x` of a host file whose bytes are a directory entry
for the name `g` with `inode_num = 0x80000000`, `-e /x/g` takes the data block of `/x` as
a directory block, finds the entry, gets `(-8388608, 0)` for it and reads
`inode_segments[-8388608]`. -/
theorem address_check_passes_negative :
    get_segment_and_inode_offset fresh (toInt32 2147483648) = .ok (-8388608, 0)
      ∧ get_segment_and_inode_offset fresh (toInt32 4294967294) = .ok (0, -2)
      ∧ get_segment_and_block_offset fresh (toInt32 4294967294) = .ok (0, -2)
      ∧ get_segment_and_block_offset fresh (toInt32 2147483648) = .error .undefined_behaviour
      ∧ then_add_status (.ok fresh) (str "/x") [0, 0, 0, 128, 1, 103, 0] = some .added
      ∧ then_extract (then_add (.ok fresh) (str "/x") [0, 0, 0, 128, 1, 103, 0]) (str "/x/g")
          = .error .undefined_behaviour := by
  decide!

/-- C30: let the directory block of `parent` be a 4096-byte block whose walk ends at offset
`t` and that holds only zero bytes from `t` on.  For every inode number `m ≠ 0` and every
name of length 1..255 with `t + 5 + len + 1 ≤ 4096`, `update_directory_entry` succeeds and
stores a block whose entry list is the former entry list followed by `(m, name)`; the bytes
before `t` are unchanged, the record at `t` is `inode_num`, `name_len`, the name and a NUL,
and every byte behind the record is still zero.  When a record header still fits behind the
new record, or the block is full, the walk over the new block ends right behind it. -/
theorem update_directory_entry_appends (fs : FS) (parent m t : Nat) (name block : List Nat)
    (seg off bseg boff : Int) (pin : Inode)
    (hg : get_segment_and_inode_offset fs (toInt32 parent) = .ok (seg, off))
    (hi : read_inode fs seg off = .ok pin)
    (hb : get_segment_and_block_offset fs (toInt32 (pin.direct.getD 0 0)) = .ok (bseg, boff))
    (hr : read_block fs bseg boff = .ok block)
    (hlen : block.length = BLOCK_SIZE)
    (hend : dir_end_offset block BLOCK_SIZE 0 = .ok t)
    (hzero : block.drop t = List.replicate (BLOCK_SIZE - t) 0)
    (hm : m ≠ 0) (hm32 : m < 4294967296)
    (hn1 : 1 ≤ name.length) (hn2 : name.length ≤ 255)
    (hfit : t + 5 + name.length + 1 ≤ 4096) :
    ∃ fs' block', update_directory_entry fs parent m name = .ok fs'
      ∧ read_block fs' bseg boff = .ok block'
      ∧ fs'.inode_segments = fs.inode_segments
      ∧ block'.length = BLOCK_SIZE
      ∧ entry_list block' BLOCK_SIZE 0 = entry_list block BLOCK_SIZE 0 ++ [(m, name)]
      ∧ block'.take t = block.take t
      ∧ (block'.drop t).take (5 + name.length + 1) = entry_bytes m name
      ∧ (block'.drop t).take (5 + name.length + 1)
          = u32_bytes m ++ [name.length] ++ (name ++ [0])
      ∧ block'.drop (t + 5 + name.length + 1)
          = List.replicate (BLOCK_SIZE - (t + 5 + name.length + 1)) 0
      ∧ (t + 5 + name.length + 1 + 4 ≤ 4096 ∨ t + 5 + name.length + 1 = 4096 →
          dir_end_offset block' BLOCK_SIZE 0 = .ok (t + 5 + name.length + 1)) := by
  have hB : BLOCK_SIZE = 4096 := rfl
  have hA : (block.take t).length = t := by
    rw [List.length_take, hlen, hB]
    omega
  have hebl : (entry_bytes m name).length = 5 + name.length + 1 := by
    rw [entry_bytes_length, Nat.mod_eq_of_lt (by omega)]
    omega
  have hPl : (block.take t ++ entry_bytes m name).length = t + 5 + name.length + 1 := by
    rw [List.length_append, hA, hebl]
    omega
  have hdrop : block.drop (t + (entry_bytes m name).length)
      = List.replicate (BLOCK_SIZE - (t + 5 + name.length + 1)) 0 := by
    have e : block.drop (t + (entry_bytes m name).length)
        = (block.drop t).drop (entry_bytes m name).length := by
      rw [List.drop_drop]
    rw [e, hzero, List.drop_replicate, hebl]
    congr 1
    omega
  have hpoke : poke block t (entry_bytes m name)
      = .ok (block.take t ++ entry_bytes m name
          ++ List.replicate (BLOCK_SIZE - (t + 5 + name.length + 1)) 0) := by
    unfold poke
    rw [if_neg (by rw [hebl, hB]; omega), hdrop]
  have hlen' : (block.take t ++ entry_bytes m name
      ++ List.replicate (BLOCK_SIZE - (t + 5 + name.length + 1)) 0).length = BLOCK_SIZE := by
    rw [List.length_append, hPl, List.length_replicate, hB]
    omega
  have htake : (block.take t ++ entry_bytes m name
      ++ List.replicate (BLOCK_SIZE - (t + 5 + name.length + 1)) 0).take t = block.take t := by
    rw [List.append_assoc]
    exact List.take_left' hA
  have hslot := read_slot_appended (block.take t)
    (List.replicate (BLOCK_SIZE - (t + 5 + name.length + 1)) 0) name m hm hm32 hn1 hn2
    (by rw [hA, hB]; omega)
  rw [hA] at hslot
  have hname := name_appended (block.take t)
    (List.replicate (BLOCK_SIZE - (t + 5 + name.length + 1)) 0) name m hn2
  rw [hA] at hname
  have hoff : t + (4 + 1 + name.length + 1) = t + 5 + name.length + 1 := by omega
  have hafter : ∀ fuel, entry_list (block.take t ++ entry_bytes m name
      ++ List.replicate (BLOCK_SIZE - (t + 5 + name.length + 1)) 0) fuel
      (t + (4 + 1 + name.length + 1)) = [] := by
    intro fuel
    have := entry_list_zero_tail (block.take t ++ entry_bytes m name)
      (BLOCK_SIZE - (t + 5 + name.length + 1)) fuel
    rw [hPl] at this
    rw [hoff]
    exact this
  have hinv : BLOCK_SIZE < 0 + 7 * BLOCK_SIZE := by decide
  have hlist := entry_list_append block _ t m name.length htake (by rw [hB]; omega) hslot hafter
    BLOCK_SIZE 0 hinv hend
  rw [hname] at hlist
  obtain ⟨fs', hw, hrd, hin⟩ := write_block_after_read fs bseg boff block _ hr
    (hlen'.trans hlen.symm)
  have hrec : ((block.take t ++ entry_bytes m name
      ++ List.replicate (BLOCK_SIZE - (t + 5 + name.length + 1)) 0).drop t).take
        (5 + name.length + 1) = entry_bytes m name := by
    rw [List.append_assoc, List.drop_left' hA]
    exact List.take_left' hebl
  refine ⟨fs', _, ?_, hrd, hin, hlen', hlist, htake, hrec, ?_, ?_, ?_⟩
  · unfold update_directory_entry
    rw [hg]
    simp only
    rw [hi]
    simp only
    rw [hb]
    simp only
    rw [hr]
    simp only
    rw [hend]
    simp only
    rw [hpoke]
    exact hw
  · rw [hrec, entry_bytes_short m name hn2]
  · exact List.drop_left' hPl
  · intro hroom
    have hafter2 : ∀ fuel, dir_end_offset (block.take t ++ entry_bytes m name
        ++ List.replicate (BLOCK_SIZE - (t + 5 + name.length + 1)) 0) fuel
        (t + (4 + 1 + name.length + 1)) = .ok (t + (4 + 1 + name.length + 1)) := by
      intro fuel
      have := dir_end_offset_zero_tail (block.take t ++ entry_bytes m name)
        (BLOCK_SIZE - (t + 5 + name.length + 1)) fuel (by rw [hPl, hB]; omega)
      rw [hPl] at this
      rw [hoff]
      exact this
    have := dir_end_offset_append block _ t m name.length htake (by rw [hB]; omega) hslot
      hafter2 BLOCK_SIZE 0 hinv hend
    rw [hoff] at this
    exact this

/-- C30 (witness): in the archive that holds the one-byte file `/x`, the root block lists
`(1, "x")` and ends at offset 7; appending `(2, "y")` gives a block that lists `(1, "x")`,
`(2, "y")`. -/
theorem update_directory_entry_appends_witness :
    entry_list (entry_bytes 1 [120] ++ List.replicate 4089 0) BLOCK_SIZE 0 = [(1, [120])]
      ∧ ∃ fs' block', update_directory_entry (small_add_fs [120] [1]) 0 2 [121] = .ok fs'
          ∧ read_block fs' 0 0 = .ok block'
          ∧ entry_list block' BLOCK_SIZE 0 = [(1, [120]), (2, [121])]
          ∧ block'.take 7 = [1, 0, 0, 0, 1, 120, 0]
          ∧ (block'.drop 7).take 7 = [2, 0, 0, 0, 1, 121, 0]
          ∧ block'.drop 14 = List.replicate 4082 0 := by
  have hl : entry_list (entry_bytes 1 [120] ++ List.replicate 4089 0) BLOCK_SIZE 0
      = [(1, [120])] := by decide!
  refine ⟨hl, ?_⟩
  obtain ⟨fs', block', h1, h2, _, _, h5, h6, h7, _, h9, _⟩ :=
    update_directory_entry_appends (small_add_fs [120] [1]) 0 2 7 [121]
      (entry_bytes 1 [120] ++ List.replicate 4089 0) 0 0 0 0
      ⟨0, TYPE_DIR, List.replicate DIRECT_BLOCKS 0, 0, 0⟩
      (by decide!) (by decide!) (by decide!) (by decide!) (by decide!) (by decide!) (by decide!)
      (by decide) (by decide) (by decide) (by decide) (by decide)
  rw [hl] at h5
  refine ⟨fs', block', h1, h2, h5, ?_, h7, h9⟩
  rw [h6]
  decide!

/-- C31: when the walk over the directory block of `parent` ends at offset `t` and the new
record would end beyond the block, `t + 5 + name_len + 1 > 4096`, `update_directory_entry`
makes no test: its `memcpy` calls write the record from `block + t` on and run past the end
of the 4096-byte buffer.  The insertion loop of `find_or_create_path` does the same when
`t` lies inside the block, and writes nothing (and reports nothing) when the walk ends at
or behind the block end. -/
theorem append_past_block_end (fs : FS) (parent m t : Nat) (name block : List Nat)
    (seg off bseg boff : Int) (pin : Inode)
    (hg : get_segment_and_inode_offset fs (toInt32 parent) = .ok (seg, off))
    (hi : read_inode fs seg off = .ok pin)
    (hb : get_segment_and_block_offset fs (toInt32 (pin.direct.getD 0 0)) = .ok (bseg, boff))
    (hr : read_block fs bseg boff = .ok block)
    (hend : dir_end_offset block BLOCK_SIZE 0 = .ok t)
    (hover : 4096 < t + 5 + name.length % 256 + 1) :
    update_directory_entry fs parent m name = .error .undefined_behaviour
      ∧ (t < 4096 → insert_entry block m name BLOCK_SIZE 0 = .error .undefined_behaviour)
      ∧ (4096 ≤ t → insert_entry block m name BLOCK_SIZE 0 = .ok block) := by
  have hB : BLOCK_SIZE = 4096 := rfl
  have hpoke : poke block t (entry_bytes m name) = .error .undefined_behaviour := by
    unfold poke
    rw [if_pos (by rw [entry_bytes_length, hB]; omega)]
  have hins := insert_entry_eq block m name BLOCK_SIZE 0 t (by decide) hend
  refine ⟨?_, ?_, ?_⟩
  · unfold update_directory_entry
    rw [hg]
    simp only
    rw [hi]
    simp only
    rw [hb]
    simp only
    rw [hr]
    simp only
    rw [hend]
    simp only
    rw [hpoke]
  · intro ht
    rw [hins, if_pos (by rw [hB]; exact ht), hpoke]
  · intro ht
    rw [hins, if_neg (by rw [hB]; omega)]

/-- C31 (witness): with fifteen entries of 261 bytes in the root directory block the walk
ends at offset 3915; appending a sixteenth entry with a name of 255 bytes would end at
offset 4176, and both `update_directory_entry` and the insertion loop of
`find_or_create_path` write outside the block buffer. -/
theorem append_past_block_end_witness :
    dir_end_offset (names_block []) BLOCK_SIZE 0 = .ok 3915
      ∧ update_directory_entry (set_blk fresh 0 0 (names_block [])) 0 16
          (List.replicate 255 98) = .error .undefined_behaviour
      ∧ insert_entry (names_block []) 16 (List.replicate 255 98) BLOCK_SIZE 0
          = .error .undefined_behaviour := by
  obtain ⟨hg, hi, hb, hr⟩ := root_block_steps (names_block [])
  have h := append_past_block_end (set_blk fresh 0 0 (names_block [])) 0 16 3915
    (List.replicate 255 98) (names_block []) 0 0 0 0 root_inode hg hi hb hr names_block_end
    (by rw [List.length_replicate]; decide)
  exact ⟨names_block_end, h.1, h.2.1 (by decide)⟩

/-- C32: when `run_remove` removes an entry, it found the entry `(target, filename)` at an
offset `off` of the parent's directory block, whose entry list is `kept ++ (target,
filename) :: rest`.  The block it writes back (`cut`) agrees with the old block below
`off`, has a terminator at `off` and lists exactly `kept`; the name removed is not found
in it any more.  The block zeroing that follows leaves the directory block as written, or
wholly zeroed when a pointer of the removed inode leads to it; so the directory block of
the final archive lists `kept` or nothing, no entry of `rest` is listed, the removed name
does not resolve, and every name that resolves in it names an entry of `kept`. -/
theorem run_remove_truncates_entry_list (fs fs' : FS) (exfs_path : List Nat)
    (h : run_remove fs exfs_path = .ok (.removed, fs')) :
    ∃ (parent_path filename : List Nat) (n pseg poff : Int) (pin : Inode) (bseg boff : Int)
      (dir_block : List Nat) (target off : Nat) (kept rest : List (Nat × List Nat))
      (fs1 : FS) (cut final : List Nat),
      split_last_slash (exfs_path.take (MAX_PATH - 1)) = some (parent_path, filename)
        ∧ find_inode_by_path fs (if parent_path = [] then [47] else parent_path) = .ok n
        ∧ get_segment_and_inode_offset fs n = .ok (pseg, poff)
        ∧ read_inode fs pseg poff = .ok pin
        ∧ get_segment_and_block_offset fs (toInt32 (pin.direct.getD 0 0)) = .ok (bseg, boff)
        ∧ read_block fs bseg boff = .ok dir_block
        ∧ dir_find_exact dir_block filename BLOCK_SIZE 0 = .ok (some (target, off))
        ∧ entry_list dir_block BLOCK_SIZE 0 = kept ++ (target, filename) :: rest
        ∧ read_block fs1 bseg boff = .ok cut
        ∧ remove_file_blocks fs1 target = .ok fs'
        ∧ cut.take off = dir_block.take off
        ∧ read_slot cut off = .ok .terminator
        ∧ entry_list cut BLOCK_SIZE 0 = kept
        ∧ dir_find_exact cut filename BLOCK_SIZE 0 = .ok none
        ∧ read_block fs' bseg boff = .ok final
        ∧ (final = cut ∨ ∃ y, final = zero_block ++ y)
        ∧ (entry_list final BLOCK_SIZE 0 = kept ∨ entry_list final BLOCK_SIZE 0 = [])
        ∧ dir_find_exact final filename BLOCK_SIZE 0 = .ok none
        ∧ (∀ name i p, dir_find_exact final name BLOCK_SIZE 0 = .ok (some (i, p)) →
            (i, name) ∈ kept)
        ∧ (∀ name i, dir_find_cast final name BLOCK_SIZE 0 = .ok (some i) →
            (i, name.take (name.length % 256)) ∈ kept) := by
  obtain ⟨parent_path, filename, n, pseg, poff, pin, bseg, boff, dir_block, target, off,
    dir_block1, fs1, hsp, _, hfind, hg, hi, hb, hr, hfound, hp, hw, hrm⟩ :=
    run_remove_steps fs fs' exfs_path h
  obtain ⟨_, hslot, _⟩ := dir_find_exact_inv dir_block filename BLOCK_SIZE 0 target off hfound
  have hcut := write_block_read_back fs fs1 bseg boff dir_block dir_block1 hr hw
  obtain ⟨htake, hterm⟩ := cleared_record dir_block dir_block1
    (dir_block.drop dir_block1.length) off target filename.length hslot hp
  obtain ⟨⟨kept, rest, e1, e2⟩, e3⟩ := dir_find_exact_cut dir_block _ filename target off
    htake hterm BLOCK_SIZE 0 hfound
  obtain ⟨hs1, hs2, hblk⟩ := read_block_ok_int fs1 bseg boff _ hcut
  have hfinal : ∃ final, read_block fs' bseg boff = .ok final
      ∧ (final = dir_block1 ++ dir_block.drop dir_block1.length
          ∨ ∃ y, final = zero_block ++ y) := by
    rcases remove_file_blocks_kept fs1 fs' target hrm _ _ _ hblk with hk | ⟨y, hk⟩
    · exact ⟨_, read_block_of_blk_at fs' bseg boff _ hs1 hs2 hk, Or.inl rfl⟩
    · exact ⟨_, read_block_of_blk_at fs' bseg boff _ hs1 hs2 hk, Or.inr ⟨y, rfl⟩⟩
  obtain ⟨final, hf1, hf2⟩ := hfinal
  have hlist : entry_list final BLOCK_SIZE 0 = kept ∨ entry_list final BLOCK_SIZE 0 = [] := by
    rcases hf2 with e | ⟨y, e⟩
    · left
      rw [e]
      exact e2
    · right
      rw [e]
      exact entry_list_zeroed y _
  have hnone : dir_find_exact final filename BLOCK_SIZE 0 = .ok none := by
    rcases hf2 with e | ⟨y, e⟩
    · rw [e]
      exact e3
    · rw [e]
      exact dir_find_exact_zeroed y filename
  refine ⟨parent_path, filename, n, pseg, poff, pin, bseg, boff, dir_block, target, off,
    kept, rest, fs1, _, final, hsp, hfind, hg, hi, hb, hr, hfound, e1, hcut, hrm, htake,
    hterm, e2, e3, hf1, hf2, hlist, hnone, ?_, ?_⟩
  · intro name i p hfi
    have hm := dir_find_exact_mem final name BLOCK_SIZE 0 i p hfi
    rcases hlist with e | e
    · rw [e] at hm
      exact hm
    · rw [e] at hm
      cases hm
  · intro name i hfi
    have hm := dir_find_cast_mem final name BLOCK_SIZE 0 i hfi
    rcases hlist with e | e
    · rw [e] at hm
      exact hm
    · rw [e] at hm
      cases hm

/-- C32 (witness): in the archive that holds `/a`, `/b` and `/c`, `-r /b` leaves a root
directory block that lists the entry `a` only; `b` and `c` are not found in it. -/
theorem run_remove_truncates_entry_list_witness :
    run_remove three_files_fs (str "/b") = .ok (.removed, three_files_removed)
      ∧ ∃ (bseg boff : Int) (final : List Nat) (kept : List (Nat × List Nat)),
          read_block three_files_removed bseg boff = .ok final
            ∧ (entry_list final BLOCK_SIZE 0 = kept ∨ entry_list final BLOCK_SIZE 0 = [])
            ∧ dir_find_exact final (str "b") BLOCK_SIZE 0 = .ok none := by
  obtain ⟨parent_path, filename, n, pseg, poff, pin, bseg, boff, dir_block, target, off,
    kept, rest, fs1, cut, final, hsp, _, _, _, _, _, _, _, _, _, _, _, _, _, hf1, _, hlist,
    hnone, _, _⟩ :=
    run_remove_truncates_entry_list three_files_fs _ (str "/b") three_files_remove
  have hpath : split_last_slash ((str "/b").take (MAX_PATH - 1)) = some ([], str "b") := by
    decide
  rw [hpath] at hsp
  cases hsp
  exact ⟨three_files_remove, bseg, boff, final, kept, hf1, hlist, hnone⟩

/-- C33: the entry test of `find_inode_by_path` and `find_or_create_path` compares
`(uint8_t)strlen(dirname)` with `name_len`, so a component of 257 bytes that starts with
`a` matches the entry `a` (257 mod 256 = 1): in the archive that holds `/a/x`, the path
made of that component resolves to the directory `/a` (inode 1), and `run_add` of a file
`y` below that component stores it as `/a/y` (inode 3) without creating a directory.  The
entry test of `run_extract` and `run_remove`, which compares `name_len` with
`strlen(filename)`, does not match the same name. -/
theorem component_of_257_bytes_matches_entry :
    dir_find_cast (padded (entry_bytes 1 (str "a"))) (97 :: List.replicate 256 98) BLOCK_SIZE 0
        = .ok (some 1)
      ∧ dir_find_exact (padded (entry_bytes 1 (str "a"))) (97 :: List.replicate 256 98)
          BLOCK_SIZE 0 = .ok none
      ∧ then_find (then_add (.ok fresh) (str "/a/x") [1]) (str "/a") = .ok 1
      ∧ then_find (then_add (.ok fresh) (str "/a/x") [1]) (47 :: 97 :: List.replicate 256 98)
          = .ok 1
      ∧ then_add_status (then_add (.ok fresh) (str "/a/x") [1])
          ((47 :: 97 :: List.replicate 256 98) ++ str "/y") [2] = some .added
      ∧ then_find (then_add (then_add (.ok fresh) (str "/a/x") [1])
          ((47 :: 97 :: List.replicate 256 98) ++ str "/y") [2]) (str "/a/y") = .ok 3 := by
  decide!

/-- C34 (counterexample): the path `/A/B/C/D/E/x` whose five directory names have 255
bytes each meets every condition of the claim on a fresh archive (six components of 1 to
255 bytes, the root is a directory and its block is empty), but has 1282 bytes.
`find_or_create_path` works on the first 1023 bytes of it: it creates `A`, `B`, `C` and
returns inode 3.  `find_inode_by_path` of the parent path `/A/B/C/D/E` works on the first
1023 bytes too, looks up the 254-byte rest of `D` in `C` and returns -1. -/
theorem long_path_parent_not_found :
    (∀ c ∈ long_dirs ++ [[120]], 47 ∉ c ∧ 1 ≤ c.length ∧ c.length ≤ 255)
      ∧ (long_dirs ++ [[120]]).length ≤ 63
      ∧ Regular fresh ∧ path_dirs fresh 0 long_dirs
      ∧ (join_path (long_dirs ++ [[120]])).length = 1282
      ∧ created_parent (find_or_create_path fresh (join_path (long_dirs ++ [[120]]))) = some 3
      ∧ then_find (created_fs (find_or_create_path fresh (join_path (long_dirs ++ [[120]]))))
          (join_path long_dirs) = .ok (-1) := by
  refine ⟨?_, ?_, Regular_fresh, path_dirs_fresh _ _ ?_, ?_⟩
  · decide!
  · decide
  · rw [List.length_replicate]
  · decide!

/-- C34 (amended): let `p = /d1/.../dk/leaf` have at most 63 components of 1 to 255 bytes
without `/` and at most 1023 bytes in all, on a regular archive in which the directories
along `d1 .. dk` are as `path_dirs` asks (every component that exists is a directory, and
where one is missing the directory block has room for its entry).  Whenever
`find_or_create_path(p)` returns `n`: `find_inode_by_path(/d1/.../dk)` returns `n` on the
archive left, inode `n` has type `TYPE_DIR`, and every inode record that the call changed
into a non-blank record is the record of a new directory: type `TYPE_DIR`, size 0, and
`direct[0] = g` where `g` is not a block 0, held only zero bytes before the call or lies
in a data segment the call created, was listed by no inode in use before the call and is
listed by no other inode record after it. -/
theorem find_or_create_path_resolves (fs fs' : FS) (dirs : List (List Nat)) (leaf : List Nat)
    (n : Nat)
    (hcs : ∀ c ∈ dirs ++ [leaf], 47 ∉ c ∧ 1 ≤ c.length ∧ c.length ≤ 255)
    (hdepth : (dirs ++ [leaf]).length ≤ 63)
    (hlen : (join_path (dirs ++ [leaf])).length ≤ 1023)
    (hr : Regular fs) (hp : path_dirs fs 0 dirs)
    (h : find_or_create_path fs (join_path (dirs ++ [leaf])) = .ok (n, fs')) :
    find_inode_by_path fs' (join_path dirs) = .ok (n : Int)
      ∧ (∃ ino, inode_at fs' n = some ino ∧ ino.type = TYPE_DIR)
      ∧ ∀ s o ino, slot_at fs' s o = some ino → slot_at fs s o ≠ some ino →
          ino ≠ zero_inode →
          ino.type = TYPE_DIR ∧ ino.size = 0
            ∧ ∃ g, ino = new_dir g ∧ ino.direct.getD 0 0 = g ∧ 1 ≤ g % 256
              ∧ (blk_at fs (g / 256) (g % 256) = some zero_block
                  ∨ num_data_segments fs ≤ g / 256)
              ∧ (∀ s1 o1 r, slot_at fs s1 o1 = some r → r.type ≠ 0 →
                  g ∉ r.direct.take DIRECT_BLOCKS)
              ∧ ∀ s1 o1 r, slot_at fs' s1 o1 = some r → g ∈ r.direct.take DIRECT_BLOCKS →
                  s1 = s ∧ o1 = o := by
  have hne : ∀ c ∈ dirs ++ [leaf], c ≠ [] ∧ 47 ∉ c := by
    intro c hc
    obtain ⟨h1, h2, _⟩ := hcs c hc
    refine ⟨?_, h1⟩
    intro e
    subst e
    simp at h2
  have hne' : ∀ c ∈ dirs, c ≠ [] ∧ 47 ∉ c := fun c hc => hne c (List.mem_append_left _ hc)
  have hl2 : (join_path dirs).length ≤ 1023 := by
    rw [join_path_append, List.length_append] at hlen
    omega
  have hd2 : dirs.length ≤ 62 := by
    rw [List.length_append, List.length_singleton] at hdepth
    omega
  have ht1 : path_tokens (join_path (dirs ++ [leaf])) = dirs ++ [leaf] := by
    rw [path_tokens_join _ hne hlen (by unfold MAX_PATH; omega)]
    exact List.take_of_length_le hdepth
  have ht2 : path_tokens (join_path dirs) = dirs := by
    rw [path_tokens_join _ hne' hl2 (by unfold MAX_PATH; omega)]
    exact List.take_of_length_le (by show dirs.length ≤ 63; omega)
  unfold find_or_create_path at h
  rw [ht1, List.dropLast_concat] at h
  obtain ⟨_, _, f1, p1, c1⟩ := create_path_loop_spec dirs fs 0 n fs' hr hp
    (fun c hc => (hcs c (List.mem_append_left _ hc)).2) h
  refine ⟨?_, ?_, ?_⟩
  · unfold find_inode_by_path
    rw [ht2]
    exact f1
  · rw [path_dirs] at p1
    obtain ⟨hn, seg, off, ino, hg, hi, hty⟩ := p1
    rw [toInt32_of_lt n hn] at hg
    obtain ⟨e1, e2, _⟩ := gsio_ok_nat fs' n seg off hg
    subst e1
    subst e2
    obtain ⟨_, _, hslot⟩ := read_inode_ok_int fs' _ _ ino hi
    rw [Int.toNat_ofNat, Int.toNat_ofNat] at hslot
    exact ⟨ino, hslot, hty⟩
  · intro s o ino hx hch hnz
    rcases c1 s o ino hx with h1 | h1 | ⟨g, e, a1, a2, a3, a4⟩
    · exact absurd h1 hch
    · exact absurd h1 hnz
    · subst e
      exact ⟨rfl, rfl, g, rfl, rfl, a1, a2, a3, a4⟩

/-- Witness for C34: the path `/a/b/x` on a fresh archive; the call creates `/a` and
`/a/b` and returns inode 2. -/
theorem find_or_create_path_resolves_witness :
    find_or_create_path fresh (join_path ([[97], [98]] ++ [[120]])) = .ok (2, two_dirs_fs)
      ∧ find_inode_by_path two_dirs_fs (join_path [[97], [98]]) = .ok ((2 : Nat) : Int)
      ∧ (∃ ino, inode_at two_dirs_fs 2 = some ino ∧ ino.type = TYPE_DIR)
      ∧ ∀ s o ino, slot_at two_dirs_fs s o = some ino → slot_at fresh s o ≠ some ino →
          ino ≠ zero_inode →
          ino.type = TYPE_DIR ∧ ino.size = 0
            ∧ ∃ g, ino = new_dir g ∧ ino.direct.getD 0 0 = g ∧ 1 ≤ g % 256
              ∧ (blk_at fresh (g / 256) (g % 256) = some zero_block
                  ∨ num_data_segments fresh ≤ g / 256)
              ∧ (∀ s1 o1 r, slot_at fresh s1 o1 = some r → r.type ≠ 0 →
                  g ∉ r.direct.take DIRECT_BLOCKS)
              ∧ ∀ s1 o1 r, slot_at two_dirs_fs s1 o1 = some r →
                  g ∈ r.direct.take DIRECT_BLOCKS → s1 = s ∧ o1 = o :=
  ⟨two_dirs_create,
    find_or_create_path_resolves fresh two_dirs_fs [[97], [98]] [120] 2 (by decide) (by decide)
      (by decide) Regular_fresh (path_dirs_fresh _ _ (by decide)) two_dirs_create⟩

/-- C35: `run_list` terminates on every archive state.  The recursion of
`print_directory_recursive` is cut by the `visited` flags alone: with the nesting bound
`MAX_SEGMENTS * INODES_PER_SEGMENT + 1` of `run_list`, a larger bound gives the same result
on every archive, and so does a larger bound for the entry loop over a block.  A call for
an inode number whose flag is set returns at once without output, every call only adds to
the `visited` set, and a call for a number below the bound leaves its flag set, so no
number is descended into twice.  On the archive `cyclic_fs`, whose directory `d` lists
itself, `run_list` prints `d` twice and stops. -/
theorem run_list_terminates :
    (∀ (fs : FS) (k : Nat),
        print_directory_recursive fs (MAX_SEGMENTS * INODES_PER_SEGMENT + 1 + k) 0 0 []
          = print_directory_recursive fs (MAX_SEGMENTS * INODES_PER_SEGMENT + 1) 0 0 [])
      ∧ (∀ (descend : Nat → Nat → List Nat → Except Fault (List Nat × List Nat))
          (block : List Nat) (depth k : Nat) (visited : List Nat),
          list_entries descend block depth (BLOCK_SIZE + k) 0 visited
            = list_entries descend block depth BLOCK_SIZE 0 visited)
      ∧ (∀ (fs : FS) (fuel n d : Nat) (v : List Nat), n ∈ v →
          print_directory_recursive fs fuel n d v = .ok (v, []))
      ∧ (∀ (fs : FS) (fuel n d : Nat) (v v' out : List Nat),
          print_directory_recursive fs (fuel + 1) n d v = .ok (v', out) →
          (∀ x ∈ v, x ∈ v') ∧ (n < MAX_SEGMENTS * INODES_PER_SEGMENT → n ∈ v'))
      ∧ run_list cyclic_fs = .ok (str "|- d\n  |- d\n") := by
  refine ⟨?_, ?_, ?_, ?_, ?_⟩
  · intro fs k
    apply print_directory_recursive_fuel
    simp
  · intro descend block depth k visited
    exact list_entries_fuel descend block depth BLOCK_SIZE 0 k visited (by decide)
  · intro fs fuel n d v hn
    cases fuel with
    | zero => rfl
    | succ fuel =>
      rw [print_directory_recursive, if_pos (Or.inr hn)]
  · intro fs fuel n d v v' out h
    refine ⟨print_directory_recursive_mono fs _ _ _ _ _ _ h, ?_⟩
    intro hn
    by_cases hv : n ∈ v
    · exact print_directory_recursive_mono fs _ _ _ _ _ _ h n hv
    · rw [print_directory_recursive,
        if_neg (by
          intro hc
          rcases hc with hc | hc
          · exact absurd hn (Nat.not_lt.mpr hc)
          · exact hv hc)] at h
      split at h
      · cases h
      · split at h
        · cases h
        · split at h
          · cases h
            exact List.mem_cons_self _ _
          · split at h
            · cases h
            · split at h
              · cases h
              · exact list_entries_mono _ (print_directory_recursive_mono fs fuel) _ _ _ _ _ _ _
                  h n (List.mem_cons_self _ _)
  · decide!

/-- C36: the entry walk visits at most 585 records, but it reads outside the block.  The
loop test is `offset < BLOCK_SIZE` only, and the 4-byte `inode_num` is read at every such
offset.  In a directory block of fifteen entries of 261 bytes and one entry of 179 bytes
the records end at offset 4094; the walk of the append then reads `inode_num` from the
bytes 4094..4097, two of which lie behind the block, and so do the lookups of
`find_inode_by_path`, `run_extract` and `run_remove` for a name that is not in the block,
and `run_list`. -/
theorem walk_reads_past_block_end :
    (∀ (block : List Nat) (fuel : Nat), (entry_list block fuel 0).length ≤ 585)
      ∧ (∀ (block : List Nat) (k : Nat),
          dir_end_offset block (BLOCK_SIZE + k) 0 = dir_end_offset block BLOCK_SIZE 0)
      ∧ (names_block (entry_bytes 2 (List.replicate 173 98))).length = 4096
      ∧ (entry_list (names_block (entry_bytes 2 (List.replicate 173 98))) BLOCK_SIZE 0).length
          = 16
      ∧ (names_block (entry_bytes 2 (List.replicate 173 98))).drop 4094 = [0, 0]
      ∧ read_slot (names_block (entry_bytes 2 (List.replicate 173 98))) 4094
          = .error .undefined_behaviour
      ∧ dir_end_offset (names_block (entry_bytes 2 (List.replicate 173 98))) BLOCK_SIZE 0
          = .error .undefined_behaviour
      ∧ dir_find_cast (names_block (entry_bytes 2 (List.replicate 173 98))) (str "nope")
          BLOCK_SIZE 0 = .error .undefined_behaviour
      ∧ dir_find_exact (names_block (entry_bytes 2 (List.replicate 173 98))) (str "nope")
          BLOCK_SIZE 0 = .error .undefined_behaviour
      ∧ find_inode_by_path
          (set_blk fresh 0 0 (names_block (entry_bytes 2 (List.replicate 173 98))))
          (str "/nope") = .error .undefined_behaviour
      ∧ run_extract (set_blk fresh 0 0 (names_block (entry_bytes 2 (List.replicate 173 98))))
          (str "/nope") = .error .undefined_behaviour
      ∧ run_list (set_blk fresh 0 0 (names_block (entry_bytes 2 (List.replicate 173 98))))
          = .error .undefined_behaviour := by
  have h1 : ∀ (block : List Nat) (fuel : Nat), (entry_list block fuel 0).length ≤ 585 := by
    intro block fuel
    by_cases h : entry_list block fuel 0 = []
    · rw [h]
      exact Nat.zero_le _
    · have := entry_list_length block fuel 0 h
      omega
  have h2 : ∀ (block : List Nat) (k : Nat),
      dir_end_offset block (BLOCK_SIZE + k) 0 = dir_end_offset block BLOCK_SIZE 0 :=
    fun block k => dir_end_offset_fuel block BLOCK_SIZE 0 k (by decide)
  obtain ⟨hlen, hdrop, hend, hlist, hcast, hexact, hls⟩ := full_block_walks
  obtain ⟨w1, w2, w3, w4, w5, _⟩ :=
    walks_at_4094 (names_block (entry_bytes 2 (List.replicate 173 98))) 4079
  have hc : dir_find_cast (names_block (entry_bytes 2 (List.replicate 173 98))) (str "nope")
      BLOCK_SIZE 0 = .error .undefined_behaviour :=
    (hcast 4080 [111, 112, 101]).trans (w4 _)
  have he : dir_find_exact (names_block (entry_bytes 2 (List.replicate 173 98))) (str "nope")
      BLOCK_SIZE 0 = .error .undefined_behaviour :=
    (hexact 4080 [111, 112, 101]).trans (w5 _)
  have h65 : 262143 + 1 = MAX_SEGMENTS * INODES_PER_SEGMENT := by decide
  have hl := hls 4079 262143 [0]
  rw [h65] at hl
  refine ⟨h1, h2, hlen, ?_, hdrop, w1, (hend 4080).trans w2, hc, he,
    find_inode_by_path_root_fault _ (str "nope") _ (by decide) (by decide) (by decide) hc,
    run_extract_root_fault _ (str "nope") _ (by decide) (by decide) (by decide) he,
    run_list_root_fault _ _ hl⟩
  have h := hlist 4080
  rw [(walks_at_4094 _ 4080).2.2.1, List.append_nil] at h
  have h16 : (entry_list (names_block (entry_bytes 2 (List.replicate 173 98))) (4080 + 16)
      0).length = 16 := by
    rw [h, List.length_append, List.length_replicate]
    rfl
  exact h16

/-- C37: `run_add` of the 4097-byte host file `zero_chunk_file` (a chunk of 4096 zero bytes
and a chunk with the byte 1) as `/f` on a fresh archive obtains block 1 from
`find_free_block` for the first chunk and block 1 again for the second chunk: the inode
records `direct[0] = direct[1] = 1`, and block 1 holds the second chunk only. -/
theorem add_records_block_twice :
    then_add_status (.ok fresh) (str "/f") zero_chunk_file = some .added
      ∧ then_inode (then_add (.ok fresh) (str "/f") zero_chunk_file) 1
          = some { size := 4097, type := TYPE_FILE, direct := 1 :: 1 :: List.replicate 10 0,
                   indirect_single := 0, indirect_double := 0 }
      ∧ then_block (then_add (.ok fresh) (str "/f") zero_chunk_file) 1
          = some (1 :: List.replicate 4095 0)
      ∧ then_block (then_add (.ok fresh) (str "/f") zero_chunk_file) 2 = some zero_block := by
  decide!

/-- C38: in the archive that holds the file `/x` with the bytes `hi\n` in block 1,
`run_add` of the new path `/x/g` returns through its normal end, leaves the inode of `/x`
as it was, but writes the directory entry `g` over the first bytes of block 1, the data
block of `/x`: `run_extract` of `/x` wrote `hi\n` before and writes the bytes 2, 0, 0
afterwards. -/
theorem add_overwrites_block_of_other_file :
    then_inode scenario_one_file 1
        = some { size := 3, type := TYPE_FILE, direct := 1 :: List.replicate 11 0,
                 indirect_single := 0, indirect_double := 0 }
      ∧ then_block scenario_one_file 1 = some (padded (str "hi\n"))
      ∧ then_extract scenario_one_file (str "/x") = .ok (str "hi\n")
      ∧ then_add_status scenario_one_file (str "/x/g") (str "D") = some .added
      ∧ then_inode (then_add scenario_one_file (str "/x/g") (str "D")) 1
          = then_inode scenario_one_file 1
      ∧ then_block (then_add scenario_one_file (str "/x/g") (str "D")) 1
          = some (padded (entry_bytes 2 (str "g")))
      ∧ then_extract (then_add scenario_one_file (str "/x/g") (str "D")) (str "/x")
          = .ok [2, 0, 0] :=
  ⟨one_file_before.1, one_file_before.2.1, one_file_before.2.2.1, one_file_before.2.2.2,
    one_file_after.1, one_file_after.2.1, one_file_after.2.2⟩

/-- C39: in every archive state reached from an empty working directory by `run_add` and
`run_remove` invocations (with `init_filesystem` before each), paths and host files being
byte sequences, inode 0 holds the root record: type `TYPE_DIR`, `direct[0] = 0`.  In such a
state `find_free_inode` never returns 0, the inode that `run_remove` clears is never inode
0 (its number is not 0 and its address is not slot 0 of segment 0), and the state after a
`run_add` or `run_remove` holds the root record again. -/
theorem root_inode_kept (fs : FS) (h : ByteReachable fs) :
    inode_at fs 0 = some root_inode
      ∧ root_inode.type = TYPE_DIR ∧ root_inode.direct.getD 0 0 = 0
      ∧ (∀ n fs', find_free_inode fs = .ok (n, fs') →
          n ≠ 0 ∧ inode_at fs' 0 = some root_inode)
      ∧ (∀ exfs_path fs', run_remove fs exfs_path = .ok (.removed, fs') →
          ∃ fs1 target, remove_file_blocks fs1 target = .ok fs' ∧ target ≠ 0
            ∧ (∀ seg off, get_segment_and_inode_offset fs1 (toInt32 target) = .ok (seg, off) →
                seg ≠ 0 ∨ off ≠ 0))
      ∧ (∀ exfs_path st fs', run_remove fs exfs_path = .ok (st, fs') →
          inode_at fs' 0 = some root_inode)
      ∧ (∀ exfs_path host st fs', run_add fs exfs_path host = .ok (st, fs') →
          inode_at fs' 0 = some root_inode) := by
  obtain ⟨ht, hb, hr⟩ := ByteReachable_inv fs h
  refine ⟨hr, rfl, by decide, ?_, ?_, ?_, ?_⟩
  · intro n fs' hf
    exact find_free_inode_root fs fs' n root_inode hf ht hr (by decide)
  · intro exfs_path fs' hrun
    obtain ⟨fs1, target, _, hrm, ht0, _, hne⟩ := run_remove_target fs fs' exfs_path hrun hb
    exact ⟨fs1, target, hrm, ht0, hne⟩
  · intro exfs_path st fs' hrun
    exact run_remove_root fs fs' exfs_path st root_inode hrun hb hr
  · intro exfs_path host st fs' hrun
    exact run_add_root fs fs' exfs_path host st hrun ht hr

/-- C39 (witness): the archive that holds the one-byte file `/x` is reached from the fresh
archive by one `run_add`; its inode 0 is the root record. -/
theorem root_inode_kept_witness :
    ByteReachable (small_add_fs [120] [1])
      ∧ inode_at (small_add_fs [120] [1]) 0
          = some { size := 0, type := TYPE_DIR, direct := List.replicate 12 0,
                   indirect_single := 0, indirect_double := 0 } := by
  have hrun : run_add fresh (47 :: [120]) (some [1]) = .ok (.added, small_add_fs [120] [1]) :=
    run_add_root_direct [120] [1] (by decide) (by decide) (by decide)
      (fun j hj => absurd hj (by simp))
  have hreach : ByteReachable (small_add_fs [120] [1]) :=
    ByteReachable.add fresh _ _ _ _ ByteReachable.init (by unfold byte_list; decide)
      (by
        intro bytes hb
        cases hb
        unfold byte_list
        decide) hrun
  exact ⟨hreach, (root_inode_kept _ hreach).1⟩

/-- C40: for the path `/aaa...a/x` whose intermediate component has 256 bytes, the first
`find_or_create_path` on a fresh archive creates the directory as inode 1 with block 1 and
writes an entry with `name_len = (uint8_t)256 = 0`, which the entry walk takes for the
terminator.  The second call does not find the entry: it returns inode 2, not inode 1,
allocates inode 2 and block 2 and overwrites the entry. -/
theorem find_or_create_path_twice_differs :
    created_parent (find_or_create_path fresh path_component_256) = some 1
      ∧ created_parent (then_find_or_create (find_or_create_path fresh path_component_256)
          path_component_256) = some 2
      ∧ created_fs (then_find_or_create (find_or_create_path fresh path_component_256)
          path_component_256) ≠ created_fs (find_or_create_path fresh path_component_256)
      ∧ then_inode (created_fs (find_or_create_path fresh path_component_256)) 2
          = some zero_inode
      ∧ then_inode (created_fs (then_find_or_create
          (find_or_create_path fresh path_component_256) path_component_256)) 2
          = some { size := 0, type := TYPE_DIR, direct := 2 :: List.replicate 11 0,
                   indirect_single := 0, indirect_double := 0 }
      ∧ then_block (created_fs (find_or_create_path fresh path_component_256)) 0
          = some (padded ([1, 0, 0, 0, 0, 97]))
      ∧ then_block (created_fs (then_find_or_create
          (find_or_create_path fresh path_component_256) path_component_256)) 0
          = some (padded ([2, 0, 0, 0, 0, 97])) :=
  ⟨long_component_first_call.1, long_component_second_call.1, long_component_second_call.2.1,
    long_component_first_call.2.1, long_component_second_call.2.2.1,
    long_component_first_call.2.2, long_component_second_call.2.2.2⟩
end Exfs2
